import Mathlib

/-!
# Directory tree synchronisation of `view_dir_tree.c`

A shallow embedding of the tree synchronisation engine of `src/view_dir_tree.c`
(path decomposition, node lookup, directory sync, path materialisation and
`vdtree_set_path`), followed by theorems about it.

Modelling conventions.

* A C string is the list of its characters (`CStr`); the end of the list plays
  the role of the terminating NUL.
* Pointers are object identities: natural numbers handed out by a counter
  (`G.next_ptr`).  `FileData.ptr` is the address of a `FileData`, `NodeData.ptr`
  the address of a `NodeData`.
* The `GtkTreeStore` is a forest of rows.  Every row carries its `NodeData`
  (the code stores the pointer right after appending the row) and the view's
  expansion flag of that row.  A `GtkTreeIter` is the list of child indices
  leading to a row.
* The file system, the clock and the option flags are providers collected in
  `Env`; the calls made to the file-system providers are recorded in `G.trace`.
* `time_t` and `gint` values are integers; no operation of the engine can
  overflow on them within the claims studied here.
-/

namespace VDTree

/-- A C string: its characters, without the terminating NUL. -/
abbrev CStr := List Char

/-! ## Path decomposition -/

/-- The `while (*strp != '\0')` loop of `parts_list`.  `seg` is the text between
`strb` and `strp` (so `l = seg.length`), `list` the list built by prepending. -/
def parts_list_loop : CStr → CStr → List CStr → List CStr
  | [], seg, list => if seg.length > 0 then seg :: list else list
  | c :: strp, seg, list =>
    if c = '/' then
      parts_list_loop strp [] (if seg.length > 0 then seg :: list else list)
    else
      parts_list_loop strp (seg ++ [c]) list

/-- The function `parts_list`: the segments of an absolute path, the root first.
`NULL` (the empty `GList`) is the empty list. -/
def parts_list (path : CStr) : List CStr :=
  match path with
  | '/' :: strp => ['/'] :: (parts_list_loop strp [] []).reverse
  | _ => []

/-- The reference decomposition, written from the specification: nothing for a
string that does not begin with the separator, otherwise the root segment
followed by the non-empty maximal separator-free pieces of the rest. -/
def parts_list_spec (path : CStr) : List CStr :=
  match path with
  | [] => []
  | c :: rest =>
    if c = '/' then ['/'] :: (rest.splitOn '/').filter (fun s => decide (s ≠ []))
    else []

/-! ## Data model -/

/-- A `FileData`: the directory entry.  `ptr` is its address. -/
structure FileData where
  ptr : Nat
  path : CStr
  name : CStr
  size : Int
  date : Int
deriving DecidableEq, Repr

/-- A `NodeData`: the payload of a row.  `ptr` is its address. -/
structure NodeData where
  ptr : Nat
  fd : FileData
  expanded : Bool
  last_update : Int
deriving DecidableEq, Repr

/-- A row of the tree store with the rows below it; `view_expanded` is the state
the tree view keeps for the row (`gtk_tree_view_row_expanded`). -/
inductive Row where
  | mk (nd : NodeData) (view_expanded : Bool) (kids : List Row)
deriving Repr

mutual
/-- Deciding whether two rows are the same tree. -/
def Row.dec_eq : (a b : Row) → Decidable (a = b)
  | Row.mk nd ve kids, Row.mk nd1 ve1 kids1 =>
    if h1 : nd = nd1 then
      if h2 : ve = ve1 then
        match Row.dec_eq_list kids kids1 with
        | isTrue h3 => isTrue (by rw [h1, h2, h3])
        | isFalse h3 => isFalse (fun h => h3 (by injection h))
      else isFalse (fun h => h2 (by injection h))
    else isFalse (fun h => h1 (by injection h))
/-- Deciding whether two lists of rows are the same forest. -/
def Row.dec_eq_list : (a b : List Row) → Decidable (a = b)
  | [], [] => isTrue rfl
  | [], _ :: _ => isFalse (fun h => by cases h)
  | _ :: _, [] => isFalse (fun h => by cases h)
  | a :: as, b :: bs =>
    match Row.dec_eq a b with
    | isTrue h1 =>
      match Row.dec_eq_list as bs with
      | isTrue h2 => isTrue (by rw [h1, h2])
      | isFalse h2 => isFalse (fun h => h2 (by injection h))
    | isFalse h1 => isFalse (fun h => h1 (by injection h))
end

instance : DecidableEq Row := Row.dec_eq

namespace Row

/-- The payload of a row (`DIR_COLUMN_POINTER`). -/
def nd : Row → NodeData
  | mk nd _ _ => nd

/-- Whether the view shows the row expanded. -/
def view_expanded : Row → Bool
  | mk _ ve _ => ve

/-- The rows directly below a row. -/
def kids : Row → List Row
  | mk _ _ kids => kids

end Row

/-- What the listing provider knows of a directory entry. -/
structure DirEntry where
  path : CStr
  name : CStr
  size : Int
  date : Int
deriving DecidableEq, Repr

/-- A call to a file-system provider. -/
inductive IOEvent where
  | filelist_read (path : CStr)
  | isdir (path : CStr)
  | filetime (path : CStr)
  | stat_utf8 (path : CStr)
deriving DecidableEq, Repr

/-- The collaborators of the engine: the clock (`clock n` is what the `n`-th call
of `time(NULL)` returns), the listing and stat providers, the two option flags
read by the engine, and the position at which the sorted store places a new row
among its siblings (`CASE_SORT` and the store's sort are not part of the
sources; the position depends on the sibling names and the new name). -/
structure Env where
  clock : Nat → Int
  filelist_read : CStr → List DirEntry
  isdir : CStr → Bool
  filetime : CStr → Int
  stat_utf8 : CStr → Option (Int × Int)
  show_hidden_files : Bool
  tree_descend_subdirs : Bool
  sort_pos : List CStr → CStr → Nat

/-- The part of the `ViewDir` that a sync can write, with the allocation counter,
the number of clock reads and the record of provider calls. `cursor` records the
calls of `set_cursor` (`true` for the watch cursor, `false` for the reset). -/
structure G where
  click_fd : Option Nat
  drop_fd : Option Nat
  busy_ref : Int
  cursor : List Bool
  next_ptr : Nat
  ticks : Nat
  trace : List IOEvent
deriving DecidableEq, Repr

/-- The function `filename_from_path`: the text after the last `/`. -/
def filename_from_path : CStr → CStr
  | [] => []
  | c :: cs =>
    if '/' ∈ cs then filename_from_path cs
    else if c = '/' then cs
    else c :: cs

/-- Modelled from the spec: `file_data_new_simple` of `filedata.c`, which is not
part of the sources.  The entry of a path: its short name is the last path
component, the root being its own name; size and date come from the stat
provider and are zero when the path cannot be stat-ed. -/
def file_data_new_simple (env : Env) (g : G) (path : CStr) : FileData × G :=
  let name := if path = ['/'] then path else filename_from_path path
  let st := (env.stat_utf8 path).getD (0, 0)
  ({ ptr := g.next_ptr, path := path, name := name, size := st.1, date := st.2 },
   { g with next_ptr := g.next_ptr + 1 })

/-- Giving addresses `p, p+1, ...` to the entries of a listing. -/
def stamp_entries : Nat → List DirEntry → List FileData
  | _, [] => []
  | p, e :: es =>
    { ptr := p, path := e.path, name := e.name, size := e.size, date := e.date } ::
      stamp_entries (p + 1) es

/-- The call `filelist_read(path, NULL, &list)`: the directories listed by the
provider, as freshly allocated entries. -/
def filelist_read (env : Env) (g : G) (path : CStr) : List FileData × G :=
  let es := env.filelist_read path
  (stamp_entries g.next_ptr es,
   { g with next_ptr := g.next_ptr + es.length,
            trace := g.trace ++ [IOEvent.filelist_read path] })

/-- The call `time(NULL)`. -/
def time (env : Env) (g : G) : Int × G :=
  (env.clock g.ticks, { g with ticks := g.ticks + 1 })

/-- The function `vdtree_busy_push`. -/
def vdtree_busy_push (g : G) : G :=
  let g1 := if g.busy_ref = 0 then { g with cursor := g.cursor ++ [true] } else g
  { g1 with busy_ref := g1.busy_ref + 1 }

/-- The function `vdtree_busy_pop`. -/
def vdtree_busy_pop (g : G) : G :=
  let g1 := if g.busy_ref = 1 then { g with cursor := g.cursor ++ [false] } else g
  if g1.busy_ref > 0 then { g1 with busy_ref := g1.busy_ref - 1 } else g1

/-! ## Node lookup -/

mutual
/-- The recursive call `vdtree_find_row(vd, fd, &found, iter)`: the search among
the rows below a row. -/
def find_row_below (fd : Nat) : Row → Option (List Nat)
  | Row.mk _ _ kids => find_row_from fd 0 kids
/-- The loop of `vdtree_find_row` over the rows `rows`, the first of which has
index `i` among its siblings: depth-first, a row before the rows below it.  The
result is the iterator of the first row whose entry is `fd`. -/
def find_row_from (fd : Nat) : Nat → List Row → Option (List Nat)
  | _, [] => none
  | i, r :: rest =>
    if r.nd.fd.ptr = fd then some [i]
    else
      match find_row_below fd r with
      | some found => some (i :: found)
      | none => find_row_from fd (i + 1) rest
end

/-- The call `vdtree_find_row(vd, fd, &iter, NULL)`; a `NULL` entry is never
found. -/
def vdtree_find_row (store : List Row) (fd : Option Nat) : Option (List Nat) :=
  match fd with
  | none => none
  | some p => find_row_from p 0 store

/-- The row an iterator points to. -/
def row_at : List Row → List Nat → Option Row
  | _, [] => none
  | rows, [i] => rows[i]?
  | rows, i :: j :: rest =>
    match rows[i]? with
    | some r => row_at r.kids (j :: rest)
    | none => none

/-- Index of the first row satisfying `p`. -/
def first_index (p : Row → Bool) : List Row → Option Nat
  | [] => none
  | r :: rs => if p r then some 0 else (first_index p rs).map (· + 1)

/-- The function `vdtree_find_iter_by_name` on the rows below the parent: the
index of the first row whose entry has the name. -/
def vdtree_find_iter_by_name (kids : List Row) (name : CStr) : Option Nat :=
  first_index (fun r => decide (r.nd.fd.name = name)) kids

/-- The function `vdtree_find_iter_by_data` on the rows below the parent: the
returned `gint` (`-1` when there is no row at all, `TRUE`, `FALSE`) and the
iterator when a row was found. -/
def vdtree_find_iter_by_data (kids : List Row) (nd : Nat) : Int × Option Nat :=
  match kids with
  | [] => (-1, none)
  | _ :: _ =>
    match first_index (fun r => decide (r.nd.ptr = nd)) kids with
    | some i => (1, some i)
    | none => (0, none)

/-- The call `g_list_remove(old, cnd)`: drops the first occurrence. -/
def g_list_remove : List NodeData → Nat → List NodeData
  | [], _ => []
  | x :: xs, p => if x.ptr = p then xs else x :: g_list_remove xs p

/-- Placing a row at position `p` among its siblings. -/
def insert_at (p : Nat) (r : Row) (rows : List Row) : List Row :=
  rows.take p ++ r :: rows.drop p

/-! ## Directory sync -/

/-- Running a sync `pop` on the row at index `i` of `rows`: the row is replaced by
its synced version, or leaves the store when the sync removed it.  The boolean is
the value the sync returned. `none` when `pop` has no result. -/
def sync_at (pop : G → Row → Option (G × Option Row)) (g : G) (rows : List Row) (i : Nat) :
    Option (G × List Row × Bool) :=
  match rows[i]? with
  | none => some (g, rows, false)
  | some r =>
    match pop g r with
    | none => none
    | some (g1, some r1) => some (g1, rows.set i r1, true)
    | some (g1, none) => some (g1, rows.eraseIdx i, false)

/-- The function `vdtree_add_by_data` for a non-null entry `fd`, adding below a
parent whose rows are `rows`.  `parent_ve` is `none` for a `NULL` parent and
otherwise tells whether the view shows the parent expanded; `pop` is the call
`vdtree_populate_path_by_iter(vd, &child, FALSE, vd->path)`. The icon is not
modelled. -/
def vdtree_add_by_data (pop : G → Row → Option (G × Option Row)) (env : Env) (g : G)
    (fd : FileData) (parent_ve : Option Bool) (rows : List Row) : Option (G × List Row) :=
  let (now, g1) := time env g
  let nd : NodeData := { ptr := g1.next_ptr, fd := fd, expanded := false, last_update := now }
  let g2 := { g1 with next_ptr := g1.next_ptr + 1 }
  let (efd, g3) := file_data_new_simple env { g2 with next_ptr := g2.next_ptr + 1 } []
  let end_nd : NodeData := { ptr := g2.next_ptr, fd := efd, expanded := true, last_update := 0 }
  let child := Row.mk nd false [Row.mk end_nd false []]
  let pos := min (env.sort_pos (rows.map (fun r => r.nd.fd.name)) fd.name) rows.length
  let rows1 := insert_at pos child rows
  match parent_ve with
  | none => some (g3, rows1)
  | some ve =>
    if env.tree_descend_subdirs && ve && !nd.expanded then
      match sync_at pop g3 rows1 pos with
      | none => none
      | some (g4, rows2, _) => some (g4, rows2)
    else some (g3, rows1)

/-- The state of the merge loops of a sync. -/
structure MergeState where
  g : G
  kids : List Row
  old : List NodeData

/-- Overwriting the recorded size and date of a row's entry. -/
def Row.set_size_date : Row → Int → Int → Row
  | Row.mk nd ve kids, size, date =>
    Row.mk { nd with fd := { nd.fd with size := size, date := date } } ve kids

/-- One round of the loop over the fresh listing in
`vdtree_populate_path_by_iter`, for the fresh entry `fd`.  `ve` tells whether the
view shows the synced row expanded, `pop_child` is the recursive call on a
matched row and `pop_new` the call made by `vdtree_add_by_data` on a new row. -/
def merge_entry (pop_child pop_new : G → Row → Option (G × Option Row)) (env : Env)
    (ve : Bool) (st : MergeState) (fd : FileData) : Option MergeState :=
  if fd.name = ['.'] ∨ fd.name = ['.', '.'] then some st
  else
    match vdtree_find_iter_by_name st.kids fd.name with
    | some i =>
      match st.kids[i]? with
      | none => some st
      | some c =>
        let old := g_list_remove st.old c.nd.ptr
        if c.nd.expanded && decide (c.nd.fd.date ≠ fd.date) then
          match sync_at pop_child st.g st.kids i with
          | none => none
          | some (g1, kids1, true) =>
            some { g := g1,
                   kids := match kids1[i]? with
                     | some c1 => kids1.set i (c1.set_size_date fd.size fd.date)
                     | none => kids1,
                   old := old }
          | some (g1, kids1, false) => some { g := g1, kids := kids1, old := old }
        else some { st with old := old }
    | none =>
      match vdtree_add_by_data pop_new env st.g fd (some ve) st.kids with
      | none => none
      | some (g1, kids1) => some { st with g := g1, kids := kids1 }

/-- The loop over the fresh listing. -/
def merge_loop (pop_child pop_new : G → Row → Option (G × Option Row)) (env : Env)
    (ve : Bool) : List FileData → MergeState → Option MergeState
  | [], st => some st
  | fd :: work, st =>
    match merge_entry pop_child pop_new env ve st fd with
    | none => none
    | some st1 => merge_loop pop_child pop_new env ve work st1

/-- Clearing the click and hover targets when they are the entry `fd`. -/
def clear_refs (g : G) (fd : Nat) : G :=
  { g with click_fd := if g.click_fd = some fd then none else g.click_fd,
           drop_fd := if g.drop_fd = some fd then none else g.drop_fd }

/-- The loop over the rows left in `old`: each is detached and freed.  An iterator
that `vdtree_find_iter_by_data` did not set is refused by the store. -/
def stale_loop : List NodeData → G → List Row → G × List Row
  | [], g, kids => (g, kids)
  | cnd :: work, g, kids =>
    let g1 := clear_refs g cnd.fd.ptr
    let found := vdtree_find_iter_by_data kids cnd.ptr
    let kids1 :=
      if found.1 ≠ 0 then
        match found.2 with
        | some i => kids.eraseIdx i
        | none => kids
      else kids
    stale_loop work g1 kids1

/-- The hidden entry named by the hint: when hidden files are not shown and
`target_path` continues the path of the synced directory with a component that
starts with a dot, the text of `target_path` up to the end of that component. -/
def hidden_name8 (env : Env) (path : CStr) (target_path : Option CStr) : Option CStr :=
  match target_path with
  | none => none
  | some t =>
    if !env.show_hidden_files && path.isPrefixOf t then
      let n := path.length
      if t[n]? = some '/' ∧ t[n + 1]? = some '.' then
        some (t.take (n + 1 + ((t.drop (n + 1)).takeWhile (fun c => decide (c ≠ '/'))).length))
      else none
    else none

/-- The listing read by a sync: `filelist_read` followed by the insertion of the
hidden entry of the hint when it can be stat-ed. -/
def read_listing (env : Env) (g : G) (path : CStr) (target_path : Option CStr) :
    List FileData × G :=
  let (list, g1) := filelist_read env g path
  match hidden_name8 env path target_path with
  | none => (list, g1)
  | some name8 =>
    let g2 := { g1 with trace := g1.trace ++ [IOEvent.stat_utf8 name8] }
    if (env.stat_utf8 name8).isSome then
      let (fd, g3) := file_data_new_simple env g2 name8
      (fd :: list, g3)
    else (list, g2)

/-- The state in which a sync that takes none of its early exits reads the
listing: the stat calls made on the way are recorded (an expanded row was tested
with `isdir` and, unless forced, with `filetime`) and the busy reference is
taken. `g0` is the state after the clock was read. -/
def before_read (g0 : G) (nd : NodeData) (force : Bool) : G :=
  vdtree_busy_push
    (if nd.expanded then
      { g0 with trace := g0.trace ++ [IOEvent.isdir nd.fd.path] ++
          (if force then [] else [IOEvent.filetime nd.fd.path]) }
    else g0)

/-- The merge of a fresh listing into the rows below the synced row: the snapshot
`old` of the rows, the loop over the listing and the loop over the rows left in
`old`. -/
def merge_rows (pop_child pop_new : G → Row → Option (G × Option Row)) (env : Env) (ve : Bool)
    (list : List FileData) (g : G) (kids : List Row) : Option (G × List Row) :=
  match merge_loop pop_child pop_new env ve list
      { g := g, kids := kids, old := (kids.map Row.nd).reverse } with
  | none => none
  | some st => some (stale_loop st.old st.g st.kids)

/-- The function `vdtree_populate_path_by_iter` on the row the iterator points
to.  The result is the new state with the synced row, or without a row when the
sync removed it from the store; the function returns `TRUE` in the first case and
`FALSE` in the second.  `vd_path` is `vd->path`, the hint passed on by
`vdtree_add_by_data`.  The first argument bounds the depth of the recursion;
`none` is returned when it is exhausted. -/
def populate_row : Nat → Env → Option CStr → G → Row → Bool → Option CStr →
    Option (G × Option Row)
  | 0, _, _, _, _, _, _ => none
  | fuel + 1, env, vd_path, g, Row.mk nd ve kids, force, target_path =>
    let (current_time, g0) := time env g
    if nd.expanded && (!force && decide (current_time - nd.last_update < 10)) then
      some (g0, some (Row.mk nd ve kids))
    else if nd.expanded && !env.isdir nd.fd.path then
      some (clear_refs { g0 with trace := g0.trace ++ [IOEvent.isdir nd.fd.path] } nd.fd.ptr, none)
    else if nd.expanded && (!force && decide (env.filetime nd.fd.path = nd.fd.date)) then
      some ({ g0 with trace := g0.trace ++
                [IOEvent.isdir nd.fd.path, IOEvent.filetime nd.fd.path] },
            some (Row.mk nd ve kids))
    else
      let (list, g3) := read_listing env (before_read g0 nd force) nd.fd.path target_path
      match merge_rows (fun g r => populate_row fuel env vd_path g r false target_path)
              (fun g r => populate_row fuel env vd_path g r false vd_path)
              env ve list g3 kids with
      | none => none
      | some (g4, kids1) =>
        some (vdtree_busy_pop g4,
              some (Row.mk { nd with expanded := true, last_update := current_time } ve kids1))

/-! ## The view and path materialisation -/

/-- The `ViewDir`: the tree store, the state a sync can write, the current path
`vd->path`, whether a selection callback `select_func` is registered, and the
paths it has been invoked with. -/
structure ViewDir where
  store : List Row
  g : G
  path : Option CStr
  select_func : Bool
  selected : List CStr
deriving DecidableEq

/-- A sync of the row at an iterator inside `rows`.  An iterator that points to no
row yields `FALSE` (the `!nd` exit). -/
def sync_iter (pop : G → Row → Option (G × Option Row)) :
    List Nat → G → List Row → Option (G × List Row × Bool)
  | [], g, rows => some (g, rows, false)
  | [i], g, rows => sync_at pop g rows i
  | i :: j :: rest, g, rows =>
    match rows[i]? with
    | none => some (g, rows, false)
    | some (Row.mk nd ve kids) =>
      match sync_iter pop (j :: rest) g kids with
      | none => none
      | some (g1, kids1, b) => some (g1, rows.set i (Row.mk nd ve kids1), b)

/-- The function `vdtree_populate_path_by_iter` on the view. -/
def vdtree_populate_path_by_iter (fuel : Nat) (env : Env) (vd : ViewDir) (iter : List Nat)
    (force : Bool) (target_path : Option CStr) : Option (ViewDir × Bool) :=
  match sync_iter (fun g r => populate_row fuel env vd.path g r force target_path)
      iter vd.g vd.store with
  | none => none
  | some (g1, store1, b) => some ({ vd with g := g1, store := store1 }, b)

/-- Setting the view's expansion flag of the row at an iterator. -/
def set_view_expanded (expand : Bool) : List Nat → List Row → List Row
  | [], rows => rows
  | [i], rows =>
    match rows[i]? with
    | none => rows
    | some (Row.mk nd _ kids) => rows.set i (Row.mk nd expand kids)
  | i :: j :: rest, rows =>
    match rows[i]? with
    | none => rows
    | some (Row.mk nd ve kids) =>
      rows.set i (Row.mk nd ve (set_view_expanded expand (j :: rest) kids))

/-- The function `vdtree_expand_by_iter`; the icon is not modelled. -/
def vdtree_expand_by_iter (vd : ViewDir) (iter : List Nat) (expand : Bool) : ViewDir :=
  { vd with store := set_view_expanded expand iter vd.store }

/-- The function `vdtree_expand_by_data`. -/
def vdtree_expand_by_data (vd : ViewDir) (fd : Option Nat) (expand : Bool) : ViewDir :=
  match vdtree_find_row vd.store fd with
  | some iter => vdtree_expand_by_iter vd iter expand
  | none => vd

/-- A `PathData`: a segment name and the entry of the node it resolved to. Of the
entry only the address, the path and the name are used. -/
structure PathData where
  name : CStr
  node : Option FileData
deriving DecidableEq, Repr

/-- The loop of `parts_list_add_node_points`. `rows` are the rows from the
iterator onwards (no row: the iterator is not valid). -/
def add_node_points_loop : List Row → List CStr → List PathData
  | _, [] => []
  | rows, name :: work =>
    match rows.find? (fun r => decide (r.nd.fd.name = name)) with
    | some r => { name := name, node := some r.nd.fd } :: add_node_points_loop r.kids work
    | none => { name := name, node := none } :: add_node_points_loop [] work

/-- The function `parts_list_add_node_points`. -/
def parts_list_add_node_points (vd : ViewDir) (list : List CStr) : List PathData :=
  add_node_points_loop vd.store list

/-- How the segment loop of `vdtree_populate_path` ends: by one of its two
`return NULL` exits, or by running through all segments, `last` being then the
last `PathData` of the list. -/
inductive Walk where
  | aborted (vd : ViewDir)
  | done (vd : ViewDir) (last : Option PathData)
deriving DecidableEq

/-- The segment loop of `vdtree_populate_path`.  `prev` is the `PathData` of
`work->prev` (none when `work == list`). -/
def populate_path_loop (fuel : Nat) (env : Env) (path : CStr) (expand force : Bool) :
    ViewDir → Option PathData → List PathData → Option Walk
  | vd, prev, [] => some (Walk.done vd prev)
  | vd, prev, pd :: work =>
    match pd.node with
    | none =>
      match prev with
      | none => some (Walk.aborted vd)
      | some parent_pd =>
        match vdtree_find_row vd.store (parent_pd.node.map FileData.ptr) with
        | none => some (Walk.aborted vd)
        | some parent_iter =>
          match vdtree_populate_path_by_iter fuel env vd parent_iter force (some path) with
          | none => none
          | some (vd1, false) => some (Walk.aborted vd1)
          | some (vd1, true) =>
            match row_at vd1.store parent_iter with
            | none => some (Walk.aborted vd1)
            | some parent =>
              match vdtree_find_iter_by_name parent.kids pd.name with
              | none => some (Walk.aborted vd1)
              | some j =>
                match parent.kids[j]? with
                | none => some (Walk.aborted vd1)
                | some c =>
                  let iter := parent_iter ++ [j]
                  let vd2 :=
                    if expand then
                      vdtree_expand_by_iter (vdtree_expand_by_iter vd1 parent_iter true) iter true
                    else vd1
                  match vdtree_populate_path_by_iter fuel env vd2 iter force (some path) with
                  | none => none
                  | some (vd3, _) =>
                    populate_path_loop fuel env path expand force vd3
                      (some { pd with node := some c.nd.fd }) work
    | some fd =>
      match vdtree_find_row vd.store (some fd.ptr) with
      | some iter =>
        let vd1 := if expand then vdtree_expand_by_iter vd iter true else vd
        match vdtree_populate_path_by_iter fuel env vd1 iter force (some path) with
        | none => none
        | some (vd2, _) => populate_path_loop fuel env path expand force vd2 (some pd) work
      | none => populate_path_loop fuel env path expand force vd (some pd) work

/-- Continuing a walk over further segments. -/
def Walk.continue_with (f : ViewDir → Option PathData → Option Walk) : Option Walk → Option Walk
  | none => none
  | some (Walk.aborted vd) => some (Walk.aborted vd)
  | some (Walk.done vd last) => f vd last

/-- The function `vdtree_populate_path`; the result `none` of the pair is `NULL`. -/
def vdtree_populate_path (fuel : Nat) (env : Env) (vd : ViewDir) (path : Option CStr)
    (expand force : Bool) : Option (ViewDir × Option FileData) :=
  match path with
  | none => some (vd, none)
  | some p =>
    let vd1 := { vd with g := vdtree_busy_push vd.g }
    let list := parts_list_add_node_points vd1 (parts_list p)
    match populate_path_loop fuel env p expand force vd1 none list with
    | none => none
    | some (Walk.aborted vd2) => some ({ vd2 with g := vdtree_busy_pop vd2.g }, none)
    | some (Walk.done vd2 last) =>
      some ({ vd2 with g := vdtree_busy_pop vd2.g }, last.bind PathData.node)

/-- The function `vdtree_select_row`; the selection of the view is not modelled. -/
def vdtree_select_row (fuel : Nat) (env : Env) (vd : ViewDir) (fd : Option FileData) :
    Option ViewDir :=
  match vdtree_find_row vd.store (fd.map FileData.ptr) with
  | none => some vd
  | some iter =>
    match vdtree_populate_path_by_iter fuel env vd iter false vd.path with
    | none => none
    | some (vd1, false) => some vd1
    | some (vd1, true) =>
      let vd2 := vdtree_expand_by_iter vd1 iter true
      match fd with
      | some f =>
        if vd2.select_func then some { vd2 with selected := vd2.selected ++ [f.path] }
        else some vd2
      | none => some vd2

/-- The function `vdtree_set_path`. -/
def vdtree_set_path (fuel : Nat) (env : Env) (vd : ViewDir) (path : Option CStr) :
    Option (ViewDir × Bool) :=
  match path with
  | none => some (vd, false)
  | some p =>
    if vd.path = some p then some (vd, true)
    else
      let vd1 := { vd with path := some p }
      match vdtree_populate_path fuel env vd1 vd1.path true false with
      | none => none
      | some (vd2, none) => some (vd2, false)
      | some (vd2, some fd) =>
        match vdtree_find_row vd2.store (some fd.ptr) with
        | some _ =>
          match vdtree_select_row fuel env vd2 (some fd) with
          | none => none
          | some vd3 => some (vd3, true)
        | none => some (vd2, true)

/-- The function `vdtree_refresh`. -/
def vdtree_refresh (fuel : Nat) (env : Env) (vd : ViewDir) : Option ViewDir :=
  (vdtree_populate_path fuel env vd vd.path false true).map Prod.fst

/-- The view as `vdtree_new` leaves it before `vdtree_setup_root`: an empty store,
no busy reference, no current path. -/
def vdtree_empty (select_func : Bool) : ViewDir :=
  { store := [],
    g := { click_fd := none, drop_fd := none, busy_ref := 0, cursor := [], next_ptr := 0,
           ticks := 0, trace := [] },
    path := none, select_func := select_func, selected := [] }

/-- The function `vdtree_setup_root`. -/
def vdtree_setup_root (fuel : Nat) (env : Env) (vd : ViewDir) : Option ViewDir :=
  let (fd, g1) := file_data_new_simple env vd.g ['/']
  match vdtree_add_by_data (fun g r => populate_row fuel env vd.path g r false vd.path)
      env g1 fd none vd.store with
  | none => none
  | some (g2, store1) =>
    let vd1 := vdtree_expand_by_data { vd with g := g2, store := store1 } (some fd.ptr) true
    (vdtree_populate_path fuel env vd1 (some ['/']) false false).map Prod.fst

/-! ## Addresses -/

mutual
/-- The addresses held by a row and the rows below it: of each row the address of
its `NodeData` and of its entry. -/
def addrs_row : Row → List Nat
  | Row.mk nd _ kids => nd.ptr :: nd.fd.ptr :: addrs kids
/-- The addresses held by a list of rows with everything below them. -/
def addrs : List Row → List Nat
  | [] => []
  | r :: rs => addrs_row r ++ addrs rs
end

/-! ## Scenarios -/

/-- The global state of a view that holds `n` addresses and has read the clock
`t` times. -/
def g_at (n t : Nat) : G :=
  { click_fd := none, drop_fd := none, busy_ref := 0, cursor := [], next_ptr := n, ticks := t,
    trace := [] }

/-- A row for the directory `path` named `name`, with the `NodeData` at address
`p` and the entry at address `p + 1`. -/
def dir_row (p : Nat) (path name : String) (expanded : Bool) (last_update date : Int)
    (ve : Bool) (kids : List Row) : Row :=
  Row.mk { ptr := p, fd := { ptr := p + 1, path := path.toList, name := name.toList, size := 0,
                             date := date },
           expanded := expanded, last_update := last_update } ve kids

/-- A file system without any directory, with a clock that starts at 109 and
advances by 6 at each reading. -/
def env_gone : Env :=
  { clock := fun n => 109 + 6 * n, filelist_read := fun _ => [], isdir := fun _ => false,
    filetime := fun _ => 5, stat_utf8 := fun _ => none, show_hidden_files := false,
    tree_descend_subdirs := false, sort_pos := fun sibs _ => sibs.length }

/-- A view with the root and below it the directory `/a`, both synced at time
100. -/
def vd_root_a : ViewDir :=
  { store := [dir_row 0 "/" "/" true 100 5 true [dir_row 2 "/a" "a" true 100 5 false []]],
    g := g_at 4 0, path := none, select_func := true, selected := [] }

/-- The placeholder row that `vdtree_add_by_data` puts below a new row, with the
`NodeData` at address `p` and the entry at address `p + 1`. -/
def empty_row (p : Nat) : Row :=
  Row.mk { ptr := p, fd := { ptr := p + 1, path := [], name := [], size := 0, date := 0 },
           expanded := true, last_update := 0 } false []

/-- A view with the synced root and below it the directory `/a`, which has not
been expanded yet. -/
def vd_root_a_new : ViewDir :=
  { store := [dir_row 0 "/" "/" true 100 5 true
      [dir_row 2 "/a" "a" false 100 5 false [empty_row 4]]],
    g := g_at 6 0, path := none, select_func := true, selected := [] }

/-- A row for the directory `path` named `name`, with the `NodeData` at address
`ndp` and the entry at address `fdp`, entry date 5. -/
def mk_row (ndp fdp : Nat) (path name : String) (expanded : Bool) (last_update : Int)
    (ve : Bool) (kids : List Row) : Row :=
  Row.mk { ptr := ndp, fd := { ptr := fdp, path := path.toList, name := name.toList, size := 0,
                               date := 5 },
           expanded := expanded, last_update := last_update } ve kids

/-- The listing of the directory `parent` with the sub-directories `names`. -/
def listing_of (parent : String) (names : List String) : List DirEntry :=
  names.map fun n =>
    { path := ((if parent = "/" then "/" else parent ++ "/") ++ n).toList, name := n.toList,
      size := 0, date := 5 }

/-- The directories of the disk of `env_hidden`. -/
def hidden_dirs : List CStr :=
  ["/", "/a", "/.hidden", "/.hidden/b", "/a/.hidden", "/a/.hidden/b"].map String.toList

/-- A disk with the directories `/a`, `/.hidden/b` and `/a/.hidden/b`; hidden files
are not shown, so the listings leave out `.hidden`. -/
def env_hidden : Env :=
  { clock := fun n => 100 + n,
    filelist_read := fun p =>
      if p = "/".toList then listing_of "/" ["a"]
      else if p = "/.hidden".toList then listing_of "/.hidden" ["b"]
      else if p = "/a/.hidden".toList then listing_of "/a/.hidden" ["b"]
      else [],
    isdir := fun p => decide (p ∈ hidden_dirs),
    filetime := fun _ => 5,
    stat_utf8 := fun p => if p ∈ hidden_dirs then some (0, 5) else none,
    show_hidden_files := false, tree_descend_subdirs := false,
    sort_pos := fun sibs _ => sibs.length }

/-- The view that `vdtree_setup_root` builds on a disk whose root lists `/a`. -/
def vd_setup_a : ViewDir :=
  { store := [mk_row 1 0 "/" "/" true 101 true [mk_row 5 4 "/a" "a" false 102 false [empty_row 6]]],
    g := { g_at 8 3 with cursor := [true, false], trace := [IOEvent.filelist_read "/".toList] },
    path := none, select_func := true, selected := [] }

/-- A disk with the root and the directory `/a`. -/
def env_root_a : Env :=
  { clock := fun n => 100 + n,
    filelist_read := fun p => if p = "/".toList then listing_of "/" ["a"] else [],
    isdir := fun p => p = "/".toList || p = "/a".toList,
    filetime := fun _ => 5,
    stat_utf8 := fun p => if p = "/".toList || p = "/a".toList then some (0, 5) else none,
    show_hidden_files := false, tree_descend_subdirs := false,
    sort_pos := fun sibs _ => sibs.length }

/-- The disk of `env_root_a` after `/a` has been deleted. -/
def env_root_only : Env :=
  { env_root_a with
    filelist_read := fun _ => [], isdir := fun p => p = "/".toList,
    stat_utf8 := fun p => if p = "/".toList then some (0, 5) else none }

/-- The view in which the walk of `vdtree_populate_path` over `/a/x`, started on
`vd_setup_a`, reaches the segment `x`: the busy reference is taken and `/a` has
been synced. -/
def vd_walk_a : ViewDir :=
  { store := [mk_row 1 0 "/" "/" true 101 true [mk_row 5 4 "/a" "a" true 104 false []]],
    g := { click_fd := none, drop_fd := none, busy_ref := 1, cursor := [true, false, true],
           next_ptr := 8, ticks := 5,
           trace := [IOEvent.filelist_read "/".toList, IOEvent.filelist_read "/a".toList] },
    path := none, select_func := true, selected := [] }

/-- The view at the end of a walk. -/
def Walk.vd : Walk → ViewDir
  | Walk.aborted vd => vd
  | Walk.done vd _ => vd

/-! ## Identity of rows -/

/-- What identifies a row among its siblings and never changes while the row
lives: the addresses of its `NodeData` and of its entry, and the name and path of
the entry. -/
structure Ident where
  nd_ptr : Nat
  fd_ptr : Nat
  name : CStr
  path : CStr
deriving DecidableEq, Repr

/-- The identity of a row. -/
def Row.ident (r : Row) : Ident :=
  { nd_ptr := r.nd.ptr, fd_ptr := r.nd.fd.ptr, name := r.nd.fd.name, path := r.nd.fd.path }

/-- The names that a sync merges: those of the listing without the entries `.`
and `..`. -/
def listed_names (list : List FileData) : List CStr :=
  (list.filter (fun fd => !(decide (fd.name = ['.']) || decide (fd.name = ['.', '.'])))).map
    FileData.name

/-- What the merge needs to know of the sync it calls on a row: addresses are only
handed out, a row that is kept keeps its identity, and a row is only removed when
it is expanded and its path is no directory. -/
structure PopOK (env : Env) (pop : G → Row → Option (G × Option Row)) : Prop where
  mono : ∀ g r g1 res, pop g r = some (g1, res) → g.next_ptr ≤ g1.next_ptr
  keep : ∀ g r g1 r1, pop g r = some (g1, some r1) → r1.ident = r.ident
  gone : ∀ g r g1, pop g r = some (g1, none) →
    r.nd.expanded = true ∧ env.isdir r.nd.fd.path = false

/-- The invariant of the loop over the fresh listing.  `K` are the identities of
the rows at the start of the merge, `n0` the first address that was free then,
`L` the names of the whole listing and `D` the names merged so far. -/
structure MergeInv (env : Env) (K : List Ident) (n0 : Nat) (L D : List CStr)
    (st : MergeState) : Prop where
  orig_or_new : ∀ x ∈ st.kids.map Row.ident,
    x ∈ K ∨ (n0 ≤ x.nd_ptr ∧ x.name ∈ D ∧ ∀ k ∈ K, k.name ≠ x.name)
  orig_kept : ∀ k ∈ K, k ∈ st.kids.map Row.ident
  done_present : ∀ n ∈ D, ∃ x ∈ st.kids.map Row.ident, x.name = n
  old_sound : ∀ o ∈ st.old, ∃ k ∈ K, o.ptr = k.nd_ptr ∧ k.name ∉ D
  old_complete : ∀ k ∈ K, k.name ∉ D → ∃ o ∈ st.old, o.ptr = k.nd_ptr
  old_nodup : (st.old.map NodeData.ptr).Nodup
  ptr_nodup : ((st.kids.map Row.ident).map Ident.nd_ptr).Nodup
  names_nodup : ((st.kids.map Row.ident).map Ident.name).Nodup
  ptr_bound : ∀ x ∈ st.kids.map Row.ident, x.nd_ptr < st.g.next_ptr
  mono : n0 ≤ st.g.next_ptr
  dirs : ∀ x ∈ st.kids.map Row.ident, x.name ∈ L → env.isdir x.path = true

/-- The fresh listing that a sync of a row with payload `nd` reads when it is
started in the state `g`: the entries of the listing provider with the hidden
entry of the hint, if any. -/
def fresh_listing (env : Env) (g : G) (nd : NodeData) (force : Bool)
    (target_path : Option CStr) : List FileData :=
  (read_listing env (before_read { g with ticks := g.ticks + 1 } nd force) nd.fd.path
    target_path).1

/-- A disk whose root lists `b`, which is no directory for the stat provider;
the time is 200. -/
def env_b_file : Env :=
  { clock := fun n => 200 + n,
    filelist_read := fun p => if p = "/".toList then listing_of "/" ["b"] else [],
    isdir := fun p => p = "/".toList,
    filetime := fun _ => 5,
    stat_utf8 := fun p => if p = "/".toList then some (0, 5) else none,
    show_hidden_files := false, tree_descend_subdirs := false,
    sort_pos := fun sibs _ => sibs.length }

/-- A disk whose root has the directories `b`, `c` and `d`; the time is 200. -/
def env_bcd : Env :=
  { clock := fun n => 200 + n,
    filelist_read := fun p => if p = "/".toList then listing_of "/" ["b", "c", "d"] else [],
    isdir := fun p => decide (p ∈ ["/", "/b", "/c", "/d"].map String.toList),
    filetime := fun _ => 5,
    stat_utf8 := fun p => if p = "/".toList then some (0, 5) else none,
    show_hidden_files := false, tree_descend_subdirs := false,
    sort_pos := fun sibs _ => sibs.length }

/-- The payload of a root row synced at time 100. -/
def root_nd : NodeData :=
  { ptr := 0, fd := { ptr := 1, path := "/".toList, name := "/".toList, size := 0, date := 5 },
    expanded := true, last_update := 100 }

/-- The rows `a`, `b` (expanded, with an older recorded date) and `c` (never
expanded). -/
def rows_abc : List Row :=
  [dir_row 2 "/a" "a" true 100 5 false [], dir_row 4 "/b" "b" true 100 1 false [],
   dir_row 6 "/c" "c" false 100 5 false [empty_row 8]]

/-- The root of `rows_abc` after the forced sync against the listing `b`, `c`,
`d`: `b` and `c` are the rows they were, `d` is new, `a` is gone. -/
def root_bcd : Row :=
  Row.mk { root_nd with last_update := 200 } true
    [dir_row 4 "/b" "b" true 201 5 false [], dir_row 6 "/c" "c" false 100 5 false [empty_row 8],
     mk_row 13 12 "/d" "d" false 202 false [empty_row 14]]

/-- The state in which the sync that produces `root_bcd` ends. -/
def g_bcd : G :=
  { g_at 16 3 with
    cursor := [true, false],
    trace := [IOEvent.isdir "/".toList, IOEvent.filelist_read "/".toList,
              IOEvent.isdir "/b".toList, IOEvent.filetime "/b".toList,
              IOEvent.filelist_read "/b".toList] }

/-! ## Invariants of the store -/

mutual
/-- The identities of a row and of all rows below it, the row first. -/
def idents_row : Row → List Ident
  | Row.mk nd _ kids =>
    { nd_ptr := nd.ptr, fd_ptr := nd.fd.ptr, name := nd.fd.name, path := nd.fd.path } ::
      idents kids
/-- The identities of all rows of a forest. -/
def idents : List Row → List Ident
  | [] => []
  | r :: rs => idents_row r ++ idents rs
end

/-- The synthetic placeholder: an entry with empty path and name, marked expanded,
without rows below it. -/
def is_placeholder (r : Row) : Bool :=
  decide (r.nd.fd.path = []) && decide (r.nd.fd.name = []) && r.nd.expanded && r.kids.isEmpty

mutual
/-- The placeholder invariant below and at a row: a row that is not expanded has
exactly one row below it, the placeholder. -/
def placeholder_inv_row : Row → Bool
  | Row.mk nd _ kids =>
    (nd.expanded ||
      (match kids with
       | [e] => is_placeholder e
       | _ => false)) && placeholder_inv kids
/-- The placeholder invariant of a forest. -/
def placeholder_inv : List Row → Bool
  | [] => true
  | r :: rs => placeholder_inv_row r && placeholder_inv rs
end

/-- The row that `vdtree_add_by_data` creates for the entry `fd` when `p` is the
first free address: a row that is not expanded, with a placeholder below it. -/
def is_new_child (p : Nat) (fd : FileData) (r : Row) : Prop :=
  ∃ (t sz dt : Int),
    r = Row.mk { ptr := p, fd := fd, expanded := false, last_update := t } false
      [Row.mk { ptr := p + 1, fd := { ptr := p + 2, path := [], name := [], size := sz, date := dt },
                expanded := true, last_update := 0 } false []]

/-- A row created by `vdtree_add_by_data` for the entry `fd` at addresses not
below `lo`. -/
def is_fresh_child (lo : Nat) (fd : FileData) (r : Row) : Prop :=
  ∃ p, lo ≤ p ∧ is_new_child p fd r

/-- The invariant of the loop over the listing on addresses: `nlo` is the first
address that was free when the sync started, `kids0` are the rows at that time,
`pend` the addresses of the entries of the listing still to be merged.  No address
below `nlo` occurs more often than at the start, an address from `nlo` on occurs
at most once, and every address in use is below the allocation counter. -/
def AddrInv (nlo : Nat) (kids0 : List Row) (st : MergeState) (pend : List Nat) : Prop :=
  ∀ a, (a < nlo → (addrs st.kids).count a + pend.count a ≤ (addrs kids0).count a) ∧
    (nlo ≤ a → (addrs st.kids).count a + pend.count a ≤ 1) ∧
    (0 < (addrs st.kids).count a + pend.count a → a < st.g.next_ptr)

/-- What a sync does to the addresses at and below its row, when they were all
below the allocation counter: an address that was in use occurs no more often
than before, an address that was free occurs at most once, and all are below the
new allocation counter. -/
def PopAddr (pop : G → Row → Option (G × Option Row)) : Prop :=
  ∀ g r g1 r1, pop g r = some (g1, some r1) →
    (∀ a, 0 < (addrs_row r).count a → a < g.next_ptr) →
    ∀ a, (a < g.next_ptr → (addrs_row r1).count a ≤ (addrs_row r).count a) ∧
      (g.next_ptr ≤ a → (addrs_row r1).count a ≤ 1) ∧
      (0 < (addrs_row r1).count a → a < g1.next_ptr)

/-- Replacing the row at an iterator by `res`, or detaching it when `res` is
`none`. -/
def replace_at : List Nat → Option Row → List Row → List Row
  | [], _, rows => rows
  | [i], some r1, rows => rows.set i r1
  | [i], none, rows => rows.eraseIdx i
  | i :: j :: rest, res, rows =>
    match rows[i]? with
    | none => rows
    | some (Row.mk nd ve kids) => rows.set i (Row.mk nd ve (replace_at (j :: rest) res kids))

/-- The addresses at and below the row a sync leaves, if it leaves one. -/
def addrs_opt : Option Row → List Nat
  | none => []
  | some r => addrs_row r

/-- The well-formedness of the view that the syncs keep: the placeholder
invariant, and distinct addresses below the allocation counter. -/
def TreeOK (vd : ViewDir) : Prop :=
  placeholder_inv vd.store = true ∧ (addrs vd.store).Nodup ∧
    ∀ a ∈ addrs vd.store, a < vd.g.next_ptr

mutual
/-- A row without what the view knows of it: no row is shown expanded. -/
def strip_row : Row → Row
  | Row.mk nd _ kids => Row.mk nd false (strip_rows kids)
/-- A forest without what the view knows of it. -/
def strip_rows : List Row → List Row
  | [] => []
  | r :: rs => strip_row r :: strip_rows rs
end

/-- One state of the view follows another: addresses were only handed out, and
every row is a row that was there, with the same identity, or has its entry at an
address that was free. -/
def Stable (vd vd1 : ViewDir) : Prop :=
  vd.g.next_ptr ≤ vd1.g.next_ptr ∧
    ∀ x ∈ idents vd1.store, x ∈ idents vd.store ∨ vd.g.next_ptr ≤ x.fd_ptr

/-- What is known of a resolved segment: the address of its entry has been handed
out, and no row with that entry is a placeholder. -/
def Known (vd : ViewDir) (pd : PathData) : Prop :=
  ∀ f, pd.node = some f →
    f.ptr < vd.g.next_ptr ∧ ∀ x ∈ idents vd.store, x.fd_ptr = f.ptr → x.name ≠ []

/-- Two states of the view that differ only in what the view shows expanded. -/
def SameRows (vd vd1 : ViewDir) : Prop :=
  strip_rows vd1.store = strip_rows vd.store ∧ vd1.g = vd.g

/-- The states of the view that are reached from an empty view by
`vdtree_setup_root`, by `vdtree_add_by_data` for a new entry without parent, by
`vdtree_populate_path_by_iter` on a row that is not a placeholder and by
`vdtree_populate_path`, while the view expands and collapses rows, the current
path changes and the click and hover targets are set.  Each call has its own
file system and clock. -/
inductive Reachable : ViewDir → Prop where
  | setup_root (fuel : Nat) (env : Env) (select_func : Bool) (vd : ViewDir) :
      vdtree_setup_root fuel env (vdtree_empty select_func) = some vd → Reachable vd
  | add_by_data (fuel : Nat) (env : Env) (vd : ViewDir) (path : CStr) (g2 : G)
      (store1 : List Row) : Reachable vd →
      vdtree_add_by_data (fun g r => populate_row fuel env vd.path g r false vd.path) env
        (file_data_new_simple env vd.g path).2 (file_data_new_simple env vd.g path).1 none
        vd.store = some (g2, store1) →
      Reachable { vd with g := g2, store := store1 }
  | populate_path_by_iter (fuel : Nat) (env : Env) (vd : ViewDir) (iter : List Nat)
      (force : Bool) (target_path : Option CStr) (vd1 : ViewDir) (b : Bool) : Reachable vd →
      (∀ r, row_at vd.store iter = some r → is_placeholder r = false) →
      vdtree_populate_path_by_iter fuel env vd iter force target_path = some (vd1, b) →
      Reachable vd1
  | populate_path (fuel : Nat) (env : Env) (vd : ViewDir) (path : Option CStr)
      (expand force : Bool) (vd1 : ViewDir) (res : Option FileData) : Reachable vd →
      vdtree_populate_path fuel env vd path expand force = some (vd1, res) → Reachable vd1
  | expand (vd : ViewDir) (iter : List Nat) (expand : Bool) : Reachable vd →
      Reachable (vdtree_expand_by_iter vd iter expand)
  | set_path (vd : ViewDir) (path : Option CStr) : Reachable vd →
      Reachable { vd with path := path }
  | set_targets (vd : ViewDir) (click_fd drop_fd : Option Nat) : Reachable vd →
      Reachable { vd with g := { vd.g with click_fd := click_fd, drop_fd := drop_fd } }

/-- A depth `E` of the recursion suffices for a sync of the row: the syncs that
the sync of the row can call are those of the expanded rows below it, and those of
new rows when the view shows the row expanded. -/
def Safe : Nat → Row → Prop
  | 0, _ => False
  | E + 1, r =>
    (r.view_expanded = true → 2 ≤ E) ∧ ∀ k ∈ r.kids, k.nd.expanded = true → Safe E k

/-- The disk of `env_root_a` with the directories `x` and `y` in `/a`. -/
def env_a_xy : Env :=
  { env_root_a with
    filelist_read := fun p =>
      if p = "/".toList then listing_of "/" ["a"]
      else if p = "/a".toList then listing_of "/a" ["x", "y"]
      else [],
    isdir := fun p => decide (p ∈ ["/", "/a", "/a/x", "/a/y"].map String.toList) }

/-- The path of the entry `name` of the directory `dir`. -/
def join_path (dir name : CStr) : CStr :=
  if dir = ['/'] then '/' :: name else dir ++ '/' :: name

/-- The path reached from the directory `dir` through the components `segs`. -/
def path_from (dir : CStr) (segs : List CStr) : CStr :=
  segs.foldl join_path dir

/-- The components `s :: segs` written with separators between them. -/
def tail_str : CStr → List CStr → CStr
  | s, [] => s
  | s, s1 :: rest => s ++ '/' :: tail_str s1 rest

/-- The entry that a sync puts in front of the listing of `dir` for the hidden
component of the hint `t`. -/
def hint_entries (env : Env) (dir : CStr) (t : Option CStr) : List DirEntry :=
  match hidden_name8 env dir t with
  | none => []
  | some name8 =>
    if (env.stat_utf8 name8).isSome then
      [{ path := name8, name := if name8 = ['/'] then name8 else filename_from_path name8,
         size := ((env.stat_utf8 name8).getD (0, 0)).1,
         date := ((env.stat_utf8 name8).getD (0, 0)).2 }]
    else []

/-- The entries that a sync of the directory `dir` with the hint `t` merges. -/
def listed_entries (env : Env) (dir : CStr) (t : Option CStr) : List DirEntry :=
  hint_entries env dir t ++ env.filelist_read dir

/-- The listing of `dir` under the hint `t` is consistent: every entry other than
`.` and `..` has a name, its path is that of `dir` joined with the name, and it
is a directory for the stat provider. -/
def DirOK (env : Env) (dir : CStr) (t : Option CStr) : Prop :=
  ∀ e ∈ listed_entries env dir t, ¬ (e.name = ['.'] ∨ e.name = ['.', '.']) →
    e.name ≠ [] ∧ e.path = join_path dir e.name ∧ env.isdir e.path = true

/-- The disk is consistent along the components `segs` below the directory
`dir`, for a materialisation of the path `P` in a view whose current path is
`hint`: every directory on the way is a directory for the stat provider, its
listing is consistent under both hints and lists the next component. -/
def EnvOK (env : Env) (hint : Option CStr) (P : CStr) : CStr → List CStr → Prop
  | dir, [] => env.isdir dir = true
  | dir, s :: rest =>
    env.isdir dir = true ∧ DirOK env dir (some P) ∧ DirOK env dir hint ∧
      (∃ e ∈ listed_entries env dir (some P), e.name = s) ∧ s ≠ ['.'] ∧ s ≠ ['.', '.'] ∧
      EnvOK env hint P (join_path dir s) rest

/-- The row of the directory `dir` is consistent along the components `segs`:
its entry has the path `dir`, the rows below it have distinct names and the paths
of entries of `dir`, and the row of the next component is consistent along the
remaining ones. -/
def ChainOK : List CStr → CStr → Row → Prop
  | [], dir, r => r.nd.fd.path = dir
  | s :: rest, dir, r =>
    r.nd.fd.path = dir ∧ (r.kids.map (fun c => c.nd.fd.name)).Nodup ∧
      (∀ c ∈ r.kids, c.nd.fd.name ≠ [] → c.nd.fd.path = join_path dir c.nd.fd.name) ∧
      ∀ c ∈ r.kids, c.nd.fd.name = s → ChainOK rest (join_path dir s) c

/-- A resolved segment stays resolved, to the same entry. -/
def PDle (a b : PathData) : Prop :=
  a.name = b.name ∧
    ∀ f, a.node = some f → ∃ f1, b.node = some f1 ∧ f1.ptr = f.ptr ∧ f1.path = f.path

/-- The listings under the hint `hint` list the components `segs` below the
directory `dir`, each in the directory of the one before. -/
def EnvU (env : Env) (hint : Option CStr) : CStr → List CStr → Prop
  | _, [] => True
  | dir, s :: rest =>
    (∃ e ∈ listed_entries env dir hint, e.name = s) ∧ EnvU env hint (join_path dir s) rest

/-- The row is up to date along the components `segs`: when it is expanded, the
row of the next component is below it, and that row is up to date along the
remaining components. -/
def UTD : List CStr → Row → Prop
  | [], _ => True
  | s :: rest, r =>
    (r.nd.expanded = true → ∃ c ∈ r.kids, c.nd.fd.name = s) ∧
      ∀ c ∈ r.kids, c.nd.fd.name = s → UTD rest c

/-- What a sync does to a row that is consistent along the components `segs`, on
a disk that is consistent along them: the row is kept with its identity and is
consistent again; under the hint `P` the segments that were resolved below it
stay resolved, and when the listing was read the row of the next component is
there; a row that was up to date along the components is up to date again, when
the listings under the hint of the view list them as well. -/
def ChainSync (env : Env) (vp : Option CStr) (P : CStr) (fuel : Nat) : Prop :=
  ∀ (segs : List CStr) (dir : CStr) (g : G) (r : Row) (force : Bool) (t : Option CStr)
    (g1 : G) (res : Option Row),
    (t = some P ∨ t = vp) → EnvOK env vp P dir segs → ChainOK segs dir r →
    (addrs_row r).Nodup → (∀ a ∈ addrs_row r, a < g.next_ptr) →
    populate_row fuel env vp g r force t = some (g1, res) →
    ∃ r1, res = some r1 ∧ ChainOK segs dir r1 ∧ r1.ident = r.ident ∧
      (t = some P →
        List.Forall₂ PDle (add_node_points_loop r.kids segs)
          (add_node_points_loop r1.kids segs) ∧
        ((r.nd.expanded = false ∨ force = true) → ∀ s rest, segs = s :: rest →
          ∃ c ∈ r1.kids, c.nd.fd.name = s)) ∧
      (EnvU env vp dir segs → UTD segs r → UTD segs r1)

/-- A depth of the recursion that suffices for a sync of every expanded row of
a list of rows. -/
def SafeStore (E : Nat) (rows : List Row) : Prop :=
  ∀ r ∈ rows, r.nd.expanded = true → Safe E r

mutual
/-- The height of a row: one for a row without rows below it. -/
def ht_row : Row → Nat
  | Row.mk _ _ kids => ht_rows kids + 1
/-- The height of a forest. -/
def ht_rows : List Row → Nat
  | [] => 0
  | r :: rs => max (ht_row r) (ht_rows rs)
end

/-- A view with the root, below it the expanded directory `/a` and below that the
directory `/a/x`, whose entry (at address 5) is both the click target and the
hover target. -/
def vd_click_x : ViewDir :=
  { store := [dir_row 0 "/" "/" true 100 5 true
      [dir_row 2 "/a" "a" true 100 5 true [dir_row 4 "/a/x" "x" false 100 5 false [empty_row 6]]]],
    g := { g_at 8 0 with click_fd := some 5, drop_fd := some 5 },
    path := none, select_func := true, selected := [] }

/-- A disk whose root lists the directory `b`, which lists the directory `x`;
every directory has the modification time 5; the time is 200. -/
def env_b_x : Env :=
  { clock := fun n => 200 + n,
    filelist_read := fun p =>
      if p = "/".toList then listing_of "/" ["b"]
      else if p = "/b".toList then listing_of "/b" ["x"]
      else [],
    isdir := fun p => decide (p ∈ ["/", "/b", "/b/x"].map String.toList),
    filetime := fun _ => 5,
    stat_utf8 := fun p => if p ∈ ["/", "/b", "/b/x"].map String.toList then some (0, 5) else none,
    show_hidden_files := false, tree_descend_subdirs := false,
    sort_pos := fun sibs _ => sibs.length }

/-- A view with the root and below it the directory `/b`, which was synced at
time 198, when it was empty and had the modification time 1. -/
def vd_root_b : ViewDir :=
  { store := [dir_row 0 "/" "/" true 100 5 true [dir_row 2 "/b" "b" true 198 1 false []]],
    g := g_at 4 0, path := none, select_func := true, selected := [] }

/-- The view `vd_root_b` after the forced sync of the root on the disk
`env_b_x`. -/
def vd_root_b_synced : ViewDir :=
  { store := [dir_row 0 "/" "/" true 200 5 true [dir_row 2 "/b" "b" true 198 5 false []]],
    g := { g_at 5 2 with cursor := [true, false],
                         trace := [IOEvent.isdir "/".toList, IOEvent.filelist_read "/".toList] },
    path := none, select_func := true, selected := [] }

/-- Two states with the same busy reference count and the same record of cursor
changes. -/
def SameBusy (g g1 : G) : Prop :=
  g1.busy_ref = g.busy_ref ∧ g1.cursor = g.cursor

/-- What a call leaves of the busy indication: the reference count is the one at
entry; the cursor was not touched when a reference was held at entry, and was
otherwise left alone or set and reset once. -/
def BusyOK (g g1 : G) : Prop :=
  g1.busy_ref = g.busy_ref ∧ (0 < g.busy_ref → g1.cursor = g.cursor) ∧
    (g.busy_ref = 0 → g1.cursor = g.cursor ∨ g1.cursor = g.cursor ++ [true, false])

/-- A sync that, called while a busy reference is held, leaves the busy
indication as it is. -/
def PopBusy (pop : G → Row → Option (G × Option Row)) : Prop :=
  ∀ g r g1 res, 0 < g.busy_ref → pop g r = some (g1, res) → SameBusy g g1

/-- A chain of rows from the rows `rows` downwards: the first is one of `rows`,
each further one is a row below the one before. -/
def RowChain : List Row → List Row → Prop
  | _, [] => True
  | rows, r :: rs => r ∈ rows ∧ RowChain r.kids rs

mutual
/-- The rows below a row have distinct names, and so at every level further
down. -/
def names_inv_row : Row → Bool
  | Row.mk _ _ kids => decide ((kids.map (fun r => r.nd.fd.name)).Nodup) && names_inv kids
/-- In each of the rows, the rows below a row have distinct names. -/
def names_inv : List Row → Bool
  | [] => true
  | r :: rs => names_inv_row r && names_inv rs
end

/-- The rows of the store that have the same parent have distinct names: the
rows of the top level, and the rows below each row. -/
def names_ok (rows : List Row) : Bool :=
  decide ((rows.map (fun r => r.nd.fd.name)).Nodup) && names_inv rows

/-- The disk of `env_root_a` with a listing of the root that names the directory
`b` twice. -/
def env_dup : Env :=
  { env_root_a with
    filelist_read := fun p => if p = "/".toList then listing_of "/" ["b", "b"] else [] }

/-- What the loop over the listing keeps for a row `c` below the synced row: `c`
is among the rows, the names of the rows are distinct, and so are the addresses
in `old`. -/
structure KeepInv (c : Row) (st : MergeState) : Prop where
  mem : c ∈ st.kids
  names : (st.kids.map (fun r => r.nd.fd.name)).Nodup
  old_nodup : (st.old.map NodeData.ptr).Nodup

/-- A view with the root of `root_nd` and below it the rows of `rows_abc`. -/
def vd_abc : ViewDir :=
  { store := [Row.mk root_nd true rows_abc], g := g_at 10 0, path := none, select_func := true,
    selected := [] }

/-- The view shows expanded every row on the way to the row at an iterator, that
row included. -/
def path_shown : List Nat → List Row → Bool
  | [], _ => true
  | i :: rest, rows =>
    match rows[i]? with
    | none => false
    | some r => r.view_expanded && path_shown rest r.kids

/-! ## Theorems -/

/-- Prepending the pending segment to the first piece of the split. -/
theorem parts_list_loop_eq (strp : CStr) : ∀ (seg : CStr) (list : List CStr),
    parts_list_loop strp seg list =
      (((strp.splitOn '/').modifyHead (fun s => seg ++ s)).filter
          (fun s => decide (s ≠ []))).reverse ++ list := by
  induction strp with
  | nil =>
    intro seg list
    cases seg <;> simp [parts_list_loop, List.splitOn, List.splitOnP_nil, List.modifyHead]
  | cons c strp ih =>
    intro seg list
    have hne := List.splitOnP_ne_nil (fun x => x == '/') strp
    by_cases hc : c = '/'
    · subst hc
      simp only [parts_list_loop, if_true, ih, List.splitOn, List.splitOnP_cons, beq_self_eq_true]
      cases hsp : List.splitOnP (fun x => x == '/') strp with
      | nil => exact absurd hsp hne
      | cons s ss => cases seg <;> simp [List.modifyHead, List.filter]
    · have hc2 : (c == '/') = false := by simpa using hc
      simp only [parts_list_loop, hc, if_false, ih, List.splitOn, List.splitOnP_cons, hc2]
      cases hsp : List.splitOnP (fun x => x == '/') strp with
      | nil => exact absurd hsp hne
      | cons s ss => simp [List.modifyHead]

/-- Every segment produced by the loop is non-empty and free of separators. -/
theorem parts_list_loop_segments (strp : CStr) : ∀ (seg : CStr) (list : List CStr),
    '/' ∉ seg → (∀ s ∈ list, s ≠ [] ∧ '/' ∉ s) →
    ∀ s ∈ parts_list_loop strp seg list, s ≠ [] ∧ '/' ∉ s := by
  induction strp with
  | nil =>
    intro seg list hseg hlist s hs
    cases seg with
    | nil => exact hlist s (by simpa [parts_list_loop] using hs)
    | cons c cs =>
      simp only [parts_list_loop, List.length_cons, Nat.succ_pos, gt_iff_lt, if_true,
        List.mem_cons] at hs
      rcases hs with rfl | hs
      · exact ⟨List.cons_ne_nil _ _, hseg⟩
      · exact hlist s hs
  | cons c strp ih =>
    intro seg list hseg hlist s hs
    by_cases hc : c = '/'
    · simp only [parts_list_loop, hc, if_true] at hs
      refine ih [] _ (by simp) ?_ s hs
      intro t ht
      cases seg with
      | nil => exact hlist t (by simpa using ht)
      | cons d ds =>
        simp only [List.length_cons, Nat.succ_pos, gt_iff_lt, if_true, List.mem_cons] at ht
        rcases ht with rfl | ht
        · exact ⟨List.cons_ne_nil _ _, hseg⟩
        · exact hlist t ht
    · simp only [parts_list_loop, hc, if_false] at hs
      refine ih (seg ++ [c]) list ?_ hlist s hs
      simp only [List.mem_append, List.mem_singleton, not_or]
      exact ⟨hseg, fun h => hc h.symm⟩

/-- C7: `parts_list` computes the reference decomposition: the empty list when
the string does not begin with `/`, and otherwise `"/"` followed by the non-empty
maximal `/`-free substrings of the rest, in left-to-right order; no element after
the first is empty or contains `/`. -/
theorem parts_list_eq_spec (path : CStr) :
    parts_list path = parts_list_spec path ∧
    (path.head? ≠ some '/' → parts_list path = []) ∧
    (path.head? = some '/' → (parts_list path).head? = some ['/']) ∧
    ∀ s ∈ (parts_list path).tail, s ≠ [] ∧ '/' ∉ s := by
  cases path with
  | nil => exact ⟨rfl, fun _ => rfl, fun h => by simp at h, fun s hs => by simp [parts_list] at hs⟩
  | cons c rest =>
    by_cases hc : c = '/'
    · subst hc
      refine ⟨?_, fun h => by simp at h, fun _ => rfl, ?_⟩
      · simp only [parts_list, parts_list_spec, if_true, parts_list_loop_eq]
        cases hsp : List.splitOn '/' rest with
        | nil => simp [List.modifyHead]
        | cons s ss => simp [List.modifyHead]
      · intro s hs
        simp only [parts_list, List.tail_cons, List.mem_reverse] at hs
        exact parts_list_loop_segments rest [] [] (by simp) (by simp) s hs
    · have hnil : parts_list (c :: rest) = [] := by
        unfold parts_list
        split
        · rename_i strp heq
          injection heq with h1 h2
          exact absurd h1 hc
        · rfl
      refine ⟨?_, fun _ => hnil, fun h => ?_, ?_⟩
      · simp only [parts_list_spec, hc, if_false]
        exact hnil
      · simp only [List.head?_cons, Option.some.injEq] at h
        exact absurd h hc
      · rw [hnil]; intro s hs; simp at hs

/-! ### Syncing the row at an iterator -/

theorem sync_at_unchanged {pop : G → Row → Option (G × Option Row)} {g g1 : G} {rows : List Row}
    {i : Nat} {r : Row} (hr : rows[i]? = some r) (hp : pop g r = some (g1, some r)) :
    sync_at pop g rows i = some (g1, rows, true) := by
  have hi : i < rows.length := (List.getElem?_eq_some_iff.mp hr).1
  have hset : rows.set i r = rows := by
    apply List.ext_getElem? ; intro k
    by_cases hk : i = k
    · subst hk; simp [List.getElem?_set, hi, hr]
    · simp [List.getElem?_set, hk]
  simp [sync_at, hr, hp, hset]

/-- A sync that leaves its row as it is leaves the rows as they are. -/
theorem sync_iter_unchanged {pop : G → Row → Option (G × Option Row)} {g g1 : G} :
    ∀ (iter : List Nat) (rows : List Row) (r : Row), row_at rows iter = some r →
      pop g r = some (g1, some r) → sync_iter pop iter g rows = some (g1, rows, true)
  | [], rows, r, hr, _ => by simp [row_at] at hr
  | [i], rows, r, hr, hp => by
    simp only [row_at] at hr
    simpa [sync_iter] using sync_at_unchanged hr hp
  | i :: j :: rest, rows, r, hr, hp => by
    simp only [row_at] at hr
    cases hi : rows[i]? with
    | none => simp [hi] at hr
    | some ri =>
      obtain ⟨nd, ve, kids⟩ := ri
      simp only [hi, Row.kids] at hr
      have ih := sync_iter_unchanged (j :: rest) kids r hr hp
      have hlt : i < rows.length := (List.getElem?_eq_some_iff.mp hi).1
      have hset : rows.set i (Row.mk nd ve kids) = rows := by
        apply List.ext_getElem? ; intro k
        by_cases hk : i = k
        · subst hk; simp [List.getElem?_set, hlt, hi]
        · simp [List.getElem?_set, hk]
      simp [sync_iter, hi, ih, hset]

/-- A sync that returns `TRUE` was a sync of the row at the iterator, which is
replaced by the synced row. -/
theorem sync_iter_true {pop : G → Row → Option (G × Option Row)} {g g1 : G} :
    ∀ (iter : List Nat) (rows rows1 : List Row),
      sync_iter pop iter g rows = some (g1, rows1, true) →
      ∃ r r1, row_at rows iter = some r ∧ pop g r = some (g1, some r1) ∧
        row_at rows1 iter = some r1
  | [], rows, rows1, h => by simp [sync_iter] at h
  | [i], rows, rows1, h => by
    simp only [sync_iter, sync_at] at h
    cases hi : rows[i]? with
    | none => simp [hi] at h
    | some r =>
      simp only [hi] at h
      cases hp : pop g r with
      | none => simp [hp] at h
      | some res =>
        obtain ⟨g2, o⟩ := res
        cases o with
        | none => simp [hp] at h
        | some r1 =>
          simp only [hp, Option.some.injEq, Prod.mk.injEq, and_true] at h
          obtain ⟨rfl, rfl⟩ := h
          have hlt : i < rows.length := (List.getElem?_eq_some_iff.mp hi).1
          exact ⟨r, r1, by simp [row_at, hi], hp, by simp [row_at, List.getElem?_set, hlt]⟩
  | i :: j :: rest, rows, rows1, h => by
    simp only [sync_iter] at h
    cases hi : rows[i]? with
    | none => simp [hi] at h
    | some ri =>
      obtain ⟨nd, ve, kids⟩ := ri
      simp only [hi] at h
      cases hs : sync_iter pop (j :: rest) g kids with
      | none => simp [hs] at h
      | some res =>
        obtain ⟨g2, kids1, b⟩ := res
        simp only [hs, Option.some.injEq, Prod.mk.injEq] at h
        obtain ⟨rfl, rfl, rfl⟩ := h
        obtain ⟨r, r1, h1, h2, h3⟩ := sync_iter_true (j :: rest) kids kids1 hs
        have hlt : i < rows.length := (List.getElem?_eq_some_iff.mp hi).1
        exact ⟨r, r1, by simp [row_at, hi, Row.kids, h1], h2,
          by simp [row_at, List.getElem?_set, hlt, Row.kids, h3]⟩

/-! ### The exits of a sync -/

/-- The quiescence exit: an expanded row synced without force less than ten time
units after its last update is left alone; only the clock was read. -/
theorem populate_row_skip (fuel : Nat) (env : Env) (vd_path : Option CStr) (g : G)
    (nd : NodeData) (ve : Bool) (kids : List Row) (target_path : Option CStr)
    (hexp : nd.expanded = true) (hwin : env.clock g.ticks - nd.last_update < 10) :
    populate_row (fuel + 1) env vd_path g (Row.mk nd ve kids) false target_path =
      some ({ g with ticks := g.ticks + 1 }, some (Row.mk nd ve kids)) := by
  simp [populate_row, time, hexp, hwin]

/-- The removal exit: an expanded row whose path is not a directory is removed as
soon as the quiescence exit does not apply. -/
theorem populate_row_removed (fuel : Nat) (env : Env) (vd_path : Option CStr) (g : G)
    (nd : NodeData) (ve : Bool) (kids : List Row) (force : Bool) (target_path : Option CStr)
    (hexp : nd.expanded = true)
    (hwin : force = true ∨ ¬ env.clock g.ticks - nd.last_update < 10)
    (hdir : env.isdir nd.fd.path = false) :
    populate_row (fuel + 1) env vd_path g (Row.mk nd ve kids) force target_path =
      some (clear_refs { g with ticks := g.ticks + 1,
                                trace := g.trace ++ [IOEvent.isdir nd.fd.path] } nd.fd.ptr,
            none) := by
  rcases hwin with hf | hw
  · simp [populate_row, time, hexp, hf, hdir]
  · simp [populate_row, time, hexp, hw, hdir]

/-- A sync that keeps its row keeps the addresses and the entry of the row and
the view's flag, and leaves the row expanded. -/
theorem populate_row_some (fuel : Nat) (env : Env) (vd_path : Option CStr) (g g1 : G)
    (nd : NodeData) (ve : Bool) (kids : List Row) (force : Bool) (target_path : Option CStr)
    (r1 : Row)
    (h : populate_row fuel env vd_path g (Row.mk nd ve kids) force target_path =
      some (g1, some r1)) :
    r1.nd.ptr = nd.ptr ∧ r1.nd.fd = nd.fd ∧ r1.nd.expanded = true ∧ r1.view_expanded = ve := by
  cases fuel with
  | zero => simp [populate_row] at h
  | succ fuel =>
    simp only [populate_row] at h
    split at h
    · rename_i hc
      simp only [Option.some.injEq, Prod.mk.injEq] at h
      obtain ⟨-, rfl⟩ := h
      simp only [Bool.and_eq_true] at hc
      exact ⟨rfl, rfl, hc.1, rfl⟩
    · split at h
      · simp at h
      · split at h
        · rename_i hc
          simp only [Option.some.injEq, Prod.mk.injEq] at h
          obtain ⟨-, rfl⟩ := h
          simp only [Bool.and_eq_true] at hc
          exact ⟨rfl, rfl, hc.1, rfl⟩
        · split at h
          · simp at h
          · simp only [Option.some.injEq, Prod.mk.injEq] at h
            obtain ⟨-, rfl⟩ := h
            exact ⟨rfl, rfl, rfl, rfl⟩

/-- A sync that is not answered by one of its two short cuts records the time it
read at its start. -/
theorem populate_row_last_update (fuel : Nat) (env : Env) (vd_path : Option CStr) (g g1 : G)
    (nd : NodeData) (ve : Bool) (kids : List Row) (force : Bool) (target_path : Option CStr)
    (r1 : Row)
    (h : populate_row fuel env vd_path g (Row.mk nd ve kids) force target_path =
      some (g1, some r1))
    (hread : nd.expanded = false ∨ force = true ∨
      (¬ env.clock g.ticks - nd.last_update < 10 ∧ env.filetime nd.fd.path ≠ nd.fd.date)) :
    r1.nd.last_update = env.clock g.ticks := by
  cases fuel with
  | zero => simp [populate_row] at h
  | succ fuel =>
    simp only [populate_row] at h
    split at h
    · rename_i hc
      simp only [Bool.and_eq_true, Bool.not_eq_true', decide_eq_true_eq, time] at hc
      rcases hread with h1 | h1 | h1
      · simp [h1] at hc
      · simp [h1] at hc
      · exact absurd hc.2.2 h1.1
    · split at h
      · simp at h
      · split at h
        · rename_i hc
          simp only [Bool.and_eq_true, Bool.not_eq_true', decide_eq_true_eq] at hc
          rcases hread with h1 | h1 | h1
          · simp [h1] at hc
          · simp [h1] at hc
          · exact absurd hc.2.2 h1.2
        · split at h
          · simp at h
          · simp only [Option.some.injEq, Prod.mk.injEq] at h
            obtain ⟨-, rfl⟩ := h
            rfl

/-! ### Quiescence -/

/-- C3, as stated, fails: the row `/a` was updated at time 100; a first sync
without force at time 109 returns `TRUE` by the quiescence exit; a second one at
time 115, less than ten after the first, asks the stat provider, finds that `/a`
is no directory, removes the row and returns `FALSE`. -/
theorem quiescence_counterexample :
    vdtree_populate_path_by_iter 1 env_gone vd_root_a [0, 0] false none =
        some ({ vd_root_a with g := g_at 4 1 }, true) ∧
      env_gone.clock 1 - env_gone.clock 0 < 10 ∧
      vdtree_populate_path_by_iter 1 env_gone { vd_root_a with g := g_at 4 1 } [0, 0] false none =
        some ({ vd_root_a with
                  store := [dir_row 0 "/" "/" true 100 5 true []],
                  g := { g_at 4 2 with trace := [IOEvent.isdir "/a".toList] } }, false) :=
  ⟨rfl, by decide, rfl⟩

/-- C3, amended: after a sync without force that returned `TRUE` the row is
expanded, and a second sync without force whose time is less than ten after the
row's `last_update` returns `TRUE` and changes nothing but the count of clock
readings: no provider is called and the store, the row and the references are as
they were.  The `last_update` of the row is the time of the first sync whenever
that sync was not answered by one of its short cuts, that is, whenever it read
the listing. -/
theorem quiescence_idempotent (fuel : Nat) (env : Env) (vd vd1 : ViewDir) (iter : List Nat)
    (target_path : Option CStr)
    (h1 : vdtree_populate_path_by_iter fuel env vd iter false target_path = some (vd1, true)) :
    ∃ r r1, row_at vd.store iter = some r ∧ row_at vd1.store iter = some r1 ∧
      r1.nd.expanded = true ∧
      (∀ (fuel2 : Nat) (env2 : Env) (target2 : Option CStr),
        env2.clock vd1.g.ticks - r1.nd.last_update < 10 →
        vdtree_populate_path_by_iter (fuel2 + 1) env2 vd1 iter false target2 =
          some ({ vd1 with g := { vd1.g with ticks := vd1.g.ticks + 1 } }, true)) ∧
      ((r.nd.expanded = false ∨
          (¬ env.clock vd.g.ticks - r.nd.last_update < 10 ∧
            env.filetime r.nd.fd.path ≠ r.nd.fd.date)) →
        r1.nd.last_update = env.clock vd.g.ticks) := by
  unfold vdtree_populate_path_by_iter at h1
  cases hs : sync_iter (fun g r => populate_row fuel env vd.path g r false target_path)
      iter vd.g vd.store with
  | none => simp [hs] at h1
  | some res =>
    obtain ⟨g1, store1, b⟩ := res
    simp only [hs, Option.some.injEq, Prod.mk.injEq] at h1
    obtain ⟨rfl, rfl⟩ := h1
    obtain ⟨r, r1, hr, hp, hr1⟩ := sync_iter_true iter vd.store store1 hs
    obtain ⟨nd, ve, kids⟩ := r
    have hsome := populate_row_some fuel env vd.path vd.g g1 nd ve kids false target_path r1 hp
    refine ⟨Row.mk nd ve kids, r1, hr, hr1, hsome.2.2.1, ?_, ?_⟩
    · intro fuel2 env2 target2 hwin
      obtain ⟨nd1, ve1, kids1⟩ := r1
      have hskip := populate_row_skip fuel2 env2 vd.path g1 nd1 ve1 kids1 target2
        hsome.2.2.1 hwin
      have := @sync_iter_unchanged
        (fun g r => populate_row (fuel2 + 1) env2 vd.path g r false target2) g1 _
        iter store1 (Row.mk nd1 ve1 kids1) hr1 hskip
      simp [vdtree_populate_path_by_iter, this]
    · intro hread
      refine populate_row_last_update fuel env vd.path vd.g g1 nd ve kids false target_path r1 hp ?_
      rcases hread with h | h
      · exact Or.inl h
      · exact Or.inr (Or.inr h)

/-- The amended C3 on the empty root of a fresh store: the first sync reads the
listing, and a second sync nine time units later changes nothing. -/
theorem quiescence_idempotent_witness :
    ∃ vd1, vdtree_populate_path_by_iter 1 { env_gone with clock := fun n => 100 + 9 * n }
        { vd_root_a with store := [dir_row 0 "/" "/" false 0 5 false []] } [0] false none =
          some (vd1, true) ∧
      ∃ r r1, row_at [dir_row 0 "/" "/" false 0 5 false []] [0] = some r ∧
        row_at vd1.store [0] = some r1 ∧ r1.nd.expanded = true ∧
        (∀ (fuel2 : Nat) (env2 : Env) (target2 : Option CStr),
          env2.clock vd1.g.ticks - r1.nd.last_update < 10 →
          vdtree_populate_path_by_iter (fuel2 + 1) env2 vd1 [0] false target2 =
            some ({ vd1 with g := { vd1.g with ticks := vd1.g.ticks + 1 } }, true)) ∧
        ((r.nd.expanded = false ∨
            (¬ (100 : Int) + 9 * (0 : Nat) - r.nd.last_update < 10 ∧
              (5 : Int) ≠ r.nd.fd.date)) →
          r1.nd.last_update = (100 : Int) + 9 * (0 : Nat)) :=
  ⟨_, rfl, quiescence_idempotent 1 { env_gone with clock := fun n => 100 + 9 * n }
    { vd_root_a with store := [dir_row 0 "/" "/" false 0 5 false []] } _ [0] none rfl⟩

/-! ### Detaching a row -/

theorem split_at_index {α : Type} : ∀ {l : List α} {i : Nat} {a : α}, l[i]? = some a →
    ∃ l1 l2, l = l1 ++ a :: l2 ∧ l1.length = i ∧ (∀ b, l.set i b = l1 ++ b :: l2) ∧
      l.eraseIdx i = l1 ++ l2
  | [], i, a, h => by simp at h
  | x :: xs, 0, a, h => by
    simp only [List.getElem?_cons_zero, Option.some.injEq] at h
    subst h
    exact ⟨[], xs, rfl, rfl, fun b => rfl, rfl⟩
  | x :: xs, i + 1, a, h => by
    simp only [List.getElem?_cons_succ] at h
    obtain ⟨l1, l2, h1, h2, h3, h4⟩ := split_at_index h
    refine ⟨x :: l1, l2, by simp [h1], by simp [h2], fun b => ?_, ?_⟩
    · simp only [List.set_cons_succ, h3 b, List.cons_append]
    · simp only [List.eraseIdx_cons_succ, h4, List.cons_append]

theorem addrs_append : ∀ (a b : List Row), addrs (a ++ b) = addrs a ++ addrs b
  | [], b => by simp [addrs]
  | r :: a, b => by simp [addrs, addrs_append a b]

theorem addrs_cons (r : Row) (rs : List Row) : addrs (r :: rs) = addrs_row r ++ addrs rs := by
  simp [addrs]

theorem addrs_row_mk (nd : NodeData) (ve : Bool) (kids : List Row) :
    addrs_row (Row.mk nd ve kids) = nd.ptr :: nd.fd.ptr :: addrs kids := by
  simp [addrs_row]

mutual
/-- An entry that is held by no row below a row is not found below it. -/
theorem find_row_below_none (fd : Nat) : ∀ (r : Row), fd ∉ addrs_row r →
    find_row_below fd r = none
  | Row.mk nd ve kids, h => by
    rw [find_row_below]
    apply find_row_from_none fd 0 kids
    intro hk
    exact h (by simp [addrs_row, hk])
/-- An entry that is held by no row is not found by `vdtree_find_row`. -/
theorem find_row_from_none (fd : Nat) : ∀ (i : Nat) (rows : List Row), fd ∉ addrs rows →
    find_row_from fd i rows = none
  | _, [], _ => by simp [find_row_from]
  | i, r :: rest, h => by
    rw [addrs_cons, List.mem_append, not_or] at h
    have h1 : ¬ r.nd.fd.ptr = fd := by
      intro he
      apply h.1
      obtain ⟨nd, ve, kids⟩ := r
      simp only [Row.nd] at he
      simp [addrs_row, he]
    rw [find_row_from, if_neg h1, find_row_below_none fd r h.1]
    exact find_row_from_none fd (i + 1) rest h.2
end

/-- A sync that removes its row detaches the row with everything below it and
keeps all other rows. -/
theorem sync_iter_removed {pop : G → Row → Option (G × Option Row)} {g g1 : G} :
    ∀ (iter : List Nat) (rows : List Row) (r : Row), row_at rows iter = some r →
      pop g r = some (g1, none) →
      ∃ rows1, sync_iter pop iter g rows = some (g1, rows1, false) ∧
        (addrs rows).Perm (addrs_row r ++ addrs rows1)
  | [], rows, r, hr, _ => by simp [row_at] at hr
  | [i], rows, r, hr, hp => by
    simp only [row_at] at hr
    obtain ⟨l1, l2, h1, -, -, h4⟩ := split_at_index hr
    refine ⟨rows.eraseIdx i, by simp [sync_iter, sync_at, hr, hp], ?_⟩
    rw [h4, h1, addrs_append, addrs_cons, addrs_append, List.perm_iff_count]
    intro n
    simp only [List.count_append]
    omega
  | i :: j :: rest, rows, r, hr, hp => by
    simp only [row_at] at hr
    cases hi : rows[i]? with
    | none => simp [hi] at hr
    | some ri =>
      obtain ⟨nd, ve, kids⟩ := ri
      simp only [hi, Row.kids] at hr
      obtain ⟨kids1, hs, hperm⟩ := sync_iter_removed (j :: rest) kids r hr hp
      obtain ⟨l1, l2, h1, -, h3, -⟩ := split_at_index hi
      refine ⟨rows.set i (Row.mk nd ve kids1), by simp [sync_iter, hi, hs], ?_⟩
      rw [h3, h1, addrs_append, addrs_cons, addrs_append, addrs_cons, addrs_row_mk, addrs_row_mk]
      rw [List.perm_iff_count]
      intro n
      have := List.perm_iff_count.mp hperm n
      simp only [List.count_append, List.count_cons, List.count_nil, List.cons_append] at this ⊢
      omega

/-! ### Deletion under force -/

/-- C5, as stated, fails: `/a` has not been expanded yet and is the click
target; it is no directory any more.  The forced sync does not look at the
directory test: it reads the (empty) listing, returns `TRUE`, and the row stays in
the store, still found by `vdtree_find_row` and still the click target. -/
theorem forced_sync_counterexample :
    env_gone.isdir "/a".toList = false ∧
      vdtree_populate_path_by_iter 1 env_gone
          { vd_root_a_new with g := { g_at 6 0 with click_fd := some 3 } } [0, 0] true none =
        some ({ vd_root_a_new with
                  store := [dir_row 0 "/" "/" true 100 5 true
                    [dir_row 2 "/a" "a" true 109 5 false []]],
                  g := { g_at 6 1 with click_fd := some 3, cursor := [true, false],
                                       trace := [IOEvent.filelist_read "/a".toList] } }, true) ∧
      vdtree_find_row [dir_row 0 "/" "/" true 100 5 true
          [dir_row 2 "/a" "a" true 109 5 false []]] (some 3) = some [0, 0] :=
  ⟨rfl, rfl, rfl⟩

/-- C5, amended: for every expanded row whose path is no directory, in a store
whose objects have distinct addresses, the forced sync returns `FALSE`, detaches
the row with all rows below it and no other row, after which `vdtree_find_row`
does not find its entry and neither the click target nor the hover target is its
entry.  The current path `vd->path` is a string, not a reference to the entry, and
is left as it is. -/
theorem forced_sync_detaches (fuel : Nat) (env : Env) (vd : ViewDir) (iter : List Nat) (r : Row)
    (target_path : Option CStr)
    (hrow : row_at vd.store iter = some r) (hexp : r.nd.expanded = true)
    (hdir : env.isdir r.nd.fd.path = false) (hnd : (addrs vd.store).Nodup) :
    ∃ vd1, vdtree_populate_path_by_iter (fuel + 1) env vd iter true target_path =
        some (vd1, false) ∧
      vdtree_find_row vd1.store (some r.nd.fd.ptr) = none ∧
      vd1.g.click_fd ≠ some r.nd.fd.ptr ∧ vd1.g.drop_fd ≠ some r.nd.fd.ptr ∧
      (addrs vd.store).Perm (addrs_row r ++ addrs vd1.store) ∧ vd1.path = vd.path := by
  obtain ⟨nd, ve, kids⟩ := r
  simp only [Row.nd] at hexp hdir
  have hp := populate_row_removed fuel env vd.path vd.g nd ve kids true target_path hexp
    (Or.inl rfl) hdir
  obtain ⟨store1, hs, hperm⟩ := @sync_iter_removed
    (fun g r => populate_row (fuel + 1) env vd.path g r true target_path) vd.g _
    iter vd.store (Row.mk nd ve kids) hrow hp
  refine ⟨{ vd with
      g := clear_refs { vd.g with ticks := vd.g.ticks + 1,
                                  trace := vd.g.trace ++ [IOEvent.isdir nd.fd.path] } nd.fd.ptr,
      store := store1 },
    by simp only [vdtree_populate_path_by_iter, hs], ?_, ?_, ?_, hperm, rfl⟩
  · simp only [vdtree_find_row, Row.nd]
    apply find_row_from_none
    have hnd2 := hperm.nodup_iff.mp hnd
    rw [addrs_row_mk] at hnd2
    intro hmem
    simp only [List.cons_append, List.nodup_cons, List.mem_append, List.mem_cons] at hnd2
    exact hnd2.2.1 (Or.inr hmem)
  · simp only [clear_refs, Row.nd]
    split <;> simp_all
  · simp only [clear_refs, Row.nd]
    split <;> simp_all

/-- The amended C5 on the expanded row `/a`, the click target, whose directory is
gone. -/
theorem forced_sync_detaches_witness :
    ∃ vd1, vdtree_populate_path_by_iter (0 + 1) env_gone
        { vd_root_a with g := { g_at 4 0 with click_fd := some 3 } } [0, 0] true none =
        some (vd1, false) ∧
      vdtree_find_row vd1.store (some 3) = none ∧
      vd1.g.click_fd ≠ some 3 ∧ vd1.g.drop_fd ≠ some 3 ∧
      (addrs vd_root_a.store).Perm
        (addrs_row (dir_row 2 "/a" "a" true 100 5 false []) ++ addrs vd1.store) ∧
      vd1.path = none :=
  forced_sync_detaches 0 env_gone { vd_root_a with g := { g_at 4 0 with click_fd := some 3 } }
    [0, 0] (dir_row 2 "/a" "a" true 100 5 false []) none rfl rfl rfl (by decide)

/-! ### The hidden entry of the hint -/

/-- C6 at the root: whatever the hint `/.name...`, no hidden entry is taken from it
for the root, because the test looks for a `/` after the path `/` of the root.  On
the disk of `env_hidden`, where `/.hidden/b` and `/a/.hidden/b` exist, the view
built by `vdtree_setup_root` resolves `/a/.hidden/b` but not `/.hidden/b`, even
with every sync forced; after the walk the root has the single child `a`. -/
theorem hidden_hint_fails_at_root :
    (∀ (env : Env) (name : CStr), hidden_name8 env ['/'] (some ('/' :: '.' :: name)) = none) ∧
      vdtree_setup_root 2 env_hidden (vdtree_empty true) = some vd_setup_a ∧
      env_hidden.stat_utf8 "/.hidden".toList = some (0, 5) ∧
      (vdtree_populate_path 2 env_hidden vd_setup_a (some "/.hidden/b".toList) true true).map
          (fun res => (res.2, res.1.store.map (fun r => r.kids.map (fun c => c.nd.fd.name)))) =
        some (none, [["a".toList]]) ∧
      (vdtree_populate_path 2 env_hidden vd_setup_a (some "/a/.hidden/b".toList) true true).map
          (fun res => res.2.map FileData.path) = some (some "/a/.hidden/b".toList) := by
  refine ⟨?_, by decide!, by decide!, by decide!, by decide!⟩
  intro env name
  cases name with
  | nil => simp [hidden_name8]
  | cons c cs => simp [hidden_name8]

/-! ### A pruned segment -/

/-- C8 fails on the code: the view was built when the disk had `/a`, which has
been deleted since.  `vdtree_populate_path("/a", FALSE, TRUE)` resolves both
segments in the store, the forced sync of the root prunes the row of `/a`, the
row is then not found any more and is passed over, and the entry of the pruned
row is returned: a non-null result that `vdtree_find_row` does not find in the
store. -/
theorem pruned_segment_is_returned :
    vdtree_setup_root 2 env_root_a (vdtree_empty true) = some vd_setup_a ∧
      vdtree_populate_path 2 env_root_only vd_setup_a (some "/a".toList) false true =
        some ({ vd_setup_a with
                  store := [mk_row 1 0 "/" "/" true 103 true []],
                  g := { g_at 8 4 with
                    cursor := [true, false, true, false],
                    trace := [IOEvent.filelist_read "/".toList, IOEvent.isdir "/".toList,
                              IOEvent.filelist_read "/".toList] } },
              some { ptr := 4, path := "/a".toList, name := "a".toList, size := 0, date := 5 }) ∧
      vdtree_find_row [mk_row 1 0 "/" "/" true 103 true []] (some 4) = none :=
  ⟨by decide!, by decide!, by decide!⟩

/-! ### The segment walk -/

/-- The walk over a list of segments is the walk over its first part followed,
unless that was aborted, by the walk over the rest. -/
theorem populate_path_loop_append (fuel : Nat) (env : Env) (path : CStr) (expand force : Bool)
    (rest : List PathData) : ∀ (pre : List PathData) (vd : ViewDir) (prev : Option PathData),
    populate_path_loop fuel env path expand force vd prev (pre ++ rest) =
      Walk.continue_with (fun vd1 last => populate_path_loop fuel env path expand force vd1 last rest)
        (populate_path_loop fuel env path expand force vd prev pre)
  | [], vd, prev => by simp [populate_path_loop, Walk.continue_with]
  | pd :: pre, vd, prev => by
    simp only [List.cons_append, populate_path_loop]
    split
    · split
      · rfl
      · split
        · rfl
        · split
          · rfl
          · rfl
          · split
            · rfl
            · split
              · rfl
              · split
                · rfl
                · split
                  · rfl
                  · exact populate_path_loop_append fuel env path expand force rest pre _ _
    · split
      · split
        · rfl
        · exact populate_path_loop_append fuel env path expand force rest pre _ _
      · exact populate_path_loop_append fuel env path expand force rest pre _ _

/-- C9: when the walk of `vdtree_populate_path` reaches a segment `pd` that has no
resolved node (in the state `vdk`, with `prevk` the previous segment), the function
returns `NULL` if `pd` is the root segment (there is no previous segment), if the
node of the previous segment is not found in the store, if the sync of that node
with the given `force` and the target path as hint returns `FALSE`, or if after
that sync no row below it has the name of `pd`.  In each case the state returned
is the state at that point with the busy reference released: no later segment is
processed. -/
theorem materialize_failure (fuel : Nat) (env : Env) (vd vdk : ViewDir) (p : CStr)
    (expand force : Bool) (pre work : List PathData) (pd : PathData) (prevk : Option PathData)
    (hlist : parts_list_add_node_points { vd with g := vdtree_busy_push vd.g } (parts_list p) =
      pre ++ pd :: work)
    (hpd : pd.node = none)
    (hreach : populate_path_loop fuel env p expand force { vd with g := vdtree_busy_push vd.g }
      none pre = some (Walk.done vdk prevk)) :
    (prevk = none →
      vdtree_populate_path fuel env vd (some p) expand force =
        some ({ vdk with g := vdtree_busy_pop vdk.g }, none)) ∧
    (∀ parent_pd, prevk = some parent_pd →
      (vdtree_find_row vdk.store (parent_pd.node.map FileData.ptr) = none →
        vdtree_populate_path fuel env vd (some p) expand force =
          some ({ vdk with g := vdtree_busy_pop vdk.g }, none)) ∧
      (∀ parent_iter vd1,
        vdtree_find_row vdk.store (parent_pd.node.map FileData.ptr) = some parent_iter →
        (vdtree_populate_path_by_iter fuel env vdk parent_iter force (some p) =
            some (vd1, false) →
          vdtree_populate_path fuel env vd (some p) expand force =
            some ({ vd1 with g := vdtree_busy_pop vd1.g }, none)) ∧
        (vdtree_populate_path_by_iter fuel env vdk parent_iter force (some p) =
            some (vd1, true) →
          (∀ parent, row_at vd1.store parent_iter = some parent →
            vdtree_find_iter_by_name parent.kids pd.name = none) →
          vdtree_populate_path fuel env vd (some p) expand force =
            some ({ vd1 with g := vdtree_busy_pop vd1.g }, none)))) := by
  have hwalk : populate_path_loop fuel env p expand force { vd with g := vdtree_busy_push vd.g }
      none (parts_list_add_node_points { vd with g := vdtree_busy_push vd.g } (parts_list p)) =
      populate_path_loop fuel env p expand force vdk prevk (pd :: work) := by
    rw [hlist, populate_path_loop_append, hreach]
    rfl
  refine ⟨?_, ?_⟩
  · intro hprev
    subst hprev
    simp only [vdtree_populate_path, hwalk, populate_path_loop, hpd]
  · intro parent_pd hprev
    subst hprev
    refine ⟨?_, ?_⟩
    · intro hfind
      simp only [vdtree_populate_path, hwalk, populate_path_loop, hpd, hfind]
    · intro parent_iter vd1 hfind
      refine ⟨?_, ?_⟩
      · intro hsync
        simp only [vdtree_populate_path, hwalk, populate_path_loop, hpd, hfind, hsync]
      · intro hsync hname
        simp only [vdtree_populate_path, hwalk, populate_path_loop, hpd, hfind, hsync]
        cases hrow : row_at vd1.store parent_iter with
        | none => rfl
        | some parent => simp only [hname parent hrow]

/-- C9 on the view of `vd_setup_a` and the path `/a/x`: the segment `x` has no
node, the walk reaches it after the root and `/a` in the state `vd_walk_a`, the
sync of `/a` finds no directory `x`, and the result is `NULL`. -/
theorem materialize_failure_witness :
    vdtree_populate_path 2 env_root_a vd_setup_a (some "/a/x".toList) false false =
      some ({ vd_walk_a with g := vdtree_busy_pop { vd_walk_a.g with ticks := 6 } }, none) :=
  ((materialize_failure 2 env_root_a vd_setup_a vd_walk_a "/a/x".toList false false
      [{ name := "/".toList, node := some (FileData.mk 0 "/".toList "/".toList 0 5) },
       { name := "a".toList, node := some (FileData.mk 4 "/a".toList "a".toList 0 5) }]
      [] { name := "x".toList, node := none }
      (some { name := "a".toList, node := some (FileData.mk 4 "/a".toList "a".toList 0 5) })
      (by decide!) rfl (by decide!)).2 _ rfl).2 [0, 0]
    { vd_walk_a with g := { vd_walk_a.g with ticks := 6 } } (by decide!) |>.2 (by decide!)
    (fun parent hparent => by
      have h3 : row_at vd_walk_a.store [0, 0] = some (mk_row 5 4 "/a" "a" true 104 false []) := by
        decide!
      have h4 : parent = mk_row 5 4 "/a" "a" true 104 false [] :=
        (Option.some.inj (hparent.symm.trans h3))
      subst h4
      decide!)

/-! ### What materialisation leaves alone -/

/-- A sync does not write the current path, the callback or the record of its
calls. -/
theorem populate_by_iter_frame {fuel : Nat} {env : Env} {vd vd1 : ViewDir} {iter : List Nat}
    {force b : Bool} {target_path : Option CStr}
    (h : vdtree_populate_path_by_iter fuel env vd iter force target_path = some (vd1, b)) :
    vd1.path = vd.path ∧ vd1.select_func = vd.select_func ∧ vd1.selected = vd.selected := by
  unfold vdtree_populate_path_by_iter at h
  split at h
  · simp at h
  · simp only [Option.some.injEq, Prod.mk.injEq] at h
    obtain ⟨rfl, -⟩ := h
    exact ⟨rfl, rfl, rfl⟩

/-- The segment walk does not write the current path, the callback or the record
of its calls. -/
theorem populate_path_loop_frame (fuel : Nat) (env : Env) (path : CStr) (expand force : Bool) :
    ∀ (work : List PathData) (vd : ViewDir) (prev : Option PathData) (w : Walk),
      populate_path_loop fuel env path expand force vd prev work = some w →
      w.vd.path = vd.path ∧ w.vd.select_func = vd.select_func ∧ w.vd.selected = vd.selected
  | [], vd, prev, w, h => by
    simp only [populate_path_loop, Option.some.injEq] at h
    subst h
    exact ⟨rfl, rfl, rfl⟩
  | pd :: work, vd, prev, w, h => by
    simp only [populate_path_loop] at h
    split at h
    · split at h
      · simp only [Option.some.injEq] at h; subst h; exact ⟨rfl, rfl, rfl⟩
      · split at h
        · simp only [Option.some.injEq] at h; subst h; exact ⟨rfl, rfl, rfl⟩
        · split at h
          · simp at h
          · rename_i hs
            have hf := populate_by_iter_frame hs
            simp only [Option.some.injEq] at h; subst h; exact hf
          · rename_i hs
            have hf := populate_by_iter_frame hs
            split at h
            · simp only [Option.some.injEq] at h; subst h; exact hf
            · split at h
              · simp only [Option.some.injEq] at h; subst h; exact hf
              · split at h
                · simp only [Option.some.injEq] at h; subst h; exact hf
                · split at h
                  · simp at h
                  · rename_i hs2
                    have hf2 := populate_by_iter_frame hs2
                    have ih := populate_path_loop_frame fuel env path expand force work _ _ w h
                    have hx : ∀ (v : ViewDir) (it1 it2 : List Nat),
                        (if expand = true then
                          vdtree_expand_by_iter (vdtree_expand_by_iter v it1 true) it2 true
                        else v).path = v.path ∧
                        (if expand = true then
                          vdtree_expand_by_iter (vdtree_expand_by_iter v it1 true) it2 true
                        else v).select_func = v.select_func ∧
                        (if expand = true then
                          vdtree_expand_by_iter (vdtree_expand_by_iter v it1 true) it2 true
                        else v).selected = v.selected := by
                      intro v it1 it2
                      split <;> exact ⟨rfl, rfl, rfl⟩
                    refine ⟨ih.1.trans ?_, ih.2.1.trans ?_, ih.2.2.trans ?_⟩
                    · rw [hf2.1, (hx _ _ _).1, hf.1]
                    · rw [hf2.2.1, (hx _ _ _).2.1, hf.2.1]
                    · rw [hf2.2.2, (hx _ _ _).2.2, hf.2.2]
    · split at h
      · split at h
        · simp at h
        · rename_i hs
          have hf := populate_by_iter_frame hs
          have ih := populate_path_loop_frame fuel env path expand force work _ _ w h
          have hx : ∀ (v : ViewDir) (it : List Nat),
              (if expand = true then vdtree_expand_by_iter v it true else v).path = v.path ∧
              (if expand = true then vdtree_expand_by_iter v it true else v).select_func =
                v.select_func ∧
              (if expand = true then vdtree_expand_by_iter v it true else v).selected =
                v.selected := by
            intro v it
            split <;> exact ⟨rfl, rfl, rfl⟩
          refine ⟨ih.1.trans ?_, ih.2.1.trans ?_, ih.2.2.trans ?_⟩
          · rw [hf.1, (hx _ _).1]
          · rw [hf.2.1, (hx _ _).2.1]
          · rw [hf.2.2, (hx _ _).2.2]
      · exact populate_path_loop_frame fuel env path expand force work _ _ w h

/-- Materialisation does not write the current path, the callback or the record
of its calls. -/
theorem populate_path_frame {fuel : Nat} {env : Env} {vd vd1 : ViewDir} {path : Option CStr}
    {expand force : Bool} {fd : Option FileData}
    (h : vdtree_populate_path fuel env vd path expand force = some (vd1, fd)) :
    vd1.path = vd.path ∧ vd1.select_func = vd.select_func ∧ vd1.selected = vd.selected := by
  unfold vdtree_populate_path at h
  split at h
  · simp only [Option.some.injEq, Prod.mk.injEq] at h
    obtain ⟨rfl, -⟩ := h
    exact ⟨rfl, rfl, rfl⟩
  · simp only at h
    split at h
    · simp at h
    · rename_i hw
      have := populate_path_loop_frame _ _ _ _ _ _ _ _ _ hw
      simp only [Option.some.injEq, Prod.mk.injEq] at h
      obtain ⟨rfl, -⟩ := h
      exact this
    · rename_i hw
      have := populate_path_loop_frame _ _ _ _ _ _ _ _ _ hw
      simp only [Option.some.injEq, Prod.mk.injEq] at h
      obtain ⟨rfl, -⟩ := h
      exact this

/-- C10: `vdtree_set_path` with the current path returns `TRUE` and changes
nothing; with another path for which materialisation returns `NULL` it returns
`FALSE`, the current path is the new path afterwards, and the selection callback
has not been invoked. -/
theorem set_path_failure (fuel : Nat) (env : Env) (vd : ViewDir) (p : CStr) :
    (vd.path = some p → vdtree_set_path fuel env vd (some p) = some (vd, true)) ∧
    (∀ vd2, vd.path ≠ some p →
      vdtree_populate_path fuel env { vd with path := some p } (some p) true false =
        some (vd2, none) →
      vdtree_set_path fuel env vd (some p) = some (vd2, false) ∧ vd2.path = some p ∧
        vd2.selected = vd.selected) := by
  refine ⟨?_, ?_⟩
  · intro h
    simp [vdtree_set_path, h]
  · intro vd2 hne hpop
    have hf := populate_path_frame hpop
    refine ⟨?_, hf.1, hf.2.2⟩
    simp only [vdtree_set_path, hne, if_false, hpop]

/-- C10 on the view of `vd_setup_a`: the path `/x` names no directory, and `/a`
is the current path. -/
theorem set_path_failure_witness :
    vdtree_set_path 2 env_root_a { vd_setup_a with path := some "/a".toList }
        (some "/a".toList) = some ({ vd_setup_a with path := some "/a".toList }, true) ∧
      vdtree_set_path 2 env_root_a vd_setup_a (some "/x".toList) =
        some ({ vd_setup_a with
                  path := some "/x".toList,
                  g := { vd_setup_a.g with ticks := 5, cursor := [true, false, true, false] } },
              false) :=
  ⟨(set_path_failure 2 env_root_a { vd_setup_a with path := some "/a".toList } "/a".toList).1 rfl,
   ((set_path_failure 2 env_root_a vd_setup_a "/x".toList).2 _ (by decide) (by decide!)).1⟩

/-! ### The read-and-merge branch of a sync -/

/-- A sync that takes none of its early exits (the row is not expanded, or it is a
directory and the sync is forced or due and the directory changed) is the merge of
the listing it reads; the row is marked expanded and updated at the time read at
the start. -/
theorem populate_row_merge_eq (fuel : Nat) (env : Env) (vd_path : Option CStr) (g : G)
    (nd : NodeData) (ve : Bool) (kids : List Row) (force : Bool) (target_path : Option CStr)
    (hread : nd.expanded = false ∨
      (env.isdir nd.fd.path = true ∧
        (force = true ∨
          (¬ env.clock g.ticks - nd.last_update < 10 ∧
            env.filetime nd.fd.path ≠ nd.fd.date)))) :
    populate_row (fuel + 1) env vd_path g (Row.mk nd ve kids) force target_path =
      (merge_rows (fun g r => populate_row fuel env vd_path g r false target_path)
          (fun g r => populate_row fuel env vd_path g r false vd_path) env ve
          (read_listing env (before_read { g with ticks := g.ticks + 1 } nd force) nd.fd.path
            target_path).1
          (read_listing env (before_read { g with ticks := g.ticks + 1 } nd force) nd.fd.path
            target_path).2 kids).map
        (fun res => (vdtree_busy_pop res.1,
          some (Row.mk { nd with expanded := true, last_update := env.clock g.ticks } ve res.2))) := by
  have h1 : (nd.expanded && (!force && decide (env.clock g.ticks - nd.last_update < 10))) = false := by
    rcases hread with h | ⟨-, h | h⟩
    · simp [h]
    · simp [h]
    · simp [h.1]
  have h2 : (nd.expanded && !env.isdir nd.fd.path) = false := by
    rcases hread with h | ⟨h, -⟩
    · simp [h]
    · simp [h]
  have h3 : (nd.expanded && (!force && decide (env.filetime nd.fd.path = nd.fd.date))) = false := by
    rcases hread with h | ⟨-, h | h⟩
    · simp [h]
    · simp [h]
    · simp [h.2]
  simp only [populate_row, time, h1, h2, h3, Bool.false_eq_true, if_false]
  cases merge_rows (fun g r => populate_row fuel env vd_path g r false target_path)
      (fun g r => populate_row fuel env vd_path g r false vd_path) env ve
      (read_listing env (before_read { g with ticks := g.ticks + 1 } nd force) nd.fd.path
        target_path).1
      (read_listing env (before_read { g with ticks := g.ticks + 1 } nd force) nd.fd.path
        target_path).2 kids with
  | none => rfl
  | some res => rfl

/-- The four ways in which a sync ends: the quiescence exit, the removal of the
row, the unchanged-directory exit, and the merge of the listing. -/
theorem populate_row_cases (fuel : Nat) (env : Env) (vd_path : Option CStr) (g g1 : G)
    (nd : NodeData) (ve : Bool) (kids : List Row) (force : Bool) (target_path : Option CStr)
    (res : Option Row)
    (h : populate_row (fuel + 1) env vd_path g (Row.mk nd ve kids) force target_path =
      some (g1, res)) :
    (nd.expanded = true ∧ g1 = { g with ticks := g.ticks + 1 } ∧ res = some (Row.mk nd ve kids)) ∨
    (nd.expanded = true ∧ env.isdir nd.fd.path = false ∧ res = none ∧
      g1 = clear_refs { g with ticks := g.ticks + 1,
                               trace := g.trace ++ [IOEvent.isdir nd.fd.path] } nd.fd.ptr) ∨
    (nd.expanded = true ∧ res = some (Row.mk nd ve kids) ∧
      g1 = { g with ticks := g.ticks + 1,
                    trace := g.trace ++ [IOEvent.isdir nd.fd.path, IOEvent.filetime nd.fd.path] }) ∨
    ((nd.expanded = false ∨
        (env.isdir nd.fd.path = true ∧
          (force = true ∨
            (¬ env.clock g.ticks - nd.last_update < 10 ∧
              env.filetime nd.fd.path ≠ nd.fd.date)))) ∧
      ∃ g4 kids1,
        merge_rows (fun g r => populate_row fuel env vd_path g r false target_path)
          (fun g r => populate_row fuel env vd_path g r false vd_path) env ve
          (read_listing env (before_read { g with ticks := g.ticks + 1 } nd force) nd.fd.path
            target_path).1
          (read_listing env (before_read { g with ticks := g.ticks + 1 } nd force) nd.fd.path
            target_path).2 kids = some (g4, kids1) ∧
        g1 = vdtree_busy_pop g4 ∧
        res = some (Row.mk { nd with expanded := true, last_update := env.clock g.ticks } ve
          kids1)) := by
  by_cases hread : nd.expanded = false ∨
      (env.isdir nd.fd.path = true ∧
        (force = true ∨
          (¬ env.clock g.ticks - nd.last_update < 10 ∧
            env.filetime nd.fd.path ≠ nd.fd.date)))
  · right; right; right
    refine ⟨hread, ?_⟩
    rw [populate_row_merge_eq fuel env vd_path g nd ve kids force target_path hread] at h
    simp only [Option.map_eq_some', Prod.mk.injEq] at h
    obtain ⟨⟨g4, kids1⟩, hm, rfl, rfl⟩ := h
    exact ⟨g4, kids1, hm, rfl, rfl⟩
  · simp only [not_or, not_and, Bool.not_eq_false, Bool.not_eq_true, not_not] at hread
    obtain ⟨hexp, hrest⟩ := hread
    by_cases hwin : force = false ∧ env.clock g.ticks - nd.last_update < 10
    · left
      simp only [populate_row, time, hexp, hwin.1, hwin.2, Bool.not_false, decide_True,
        Bool.and_self, if_true, Option.some.injEq, Prod.mk.injEq] at h
      exact ⟨hexp, h.1.symm, h.2.symm⟩
    · have h1 : (!force && decide (env.clock g.ticks - nd.last_update < 10)) = false := by
        cases force <;> simp_all
      cases hdir : env.isdir nd.fd.path with
      | false =>
        right; left
        simp [populate_row, time, h1, hexp, hdir] at h
        exact ⟨hexp, rfl, h.2.symm, h.1.symm⟩
      | true =>
        right; right; left
        have h3 := hrest hdir
        have hf : force = false := by
          cases force with
          | false => rfl
          | true => simp at h3
        have hwin2 : ¬ env.clock g.ticks - nd.last_update < 10 := fun hw => hwin ⟨hf, hw⟩
        have hft : env.filetime nd.fd.path = nd.fd.date := by
          have := h3.2 hwin2
          simpa using this
        simp [populate_row, time, hexp, hdir, hf, hft, hwin2] at h
        exact ⟨hexp, h.2.symm, h.1.symm⟩

/-! ### Lists of rows -/

theorem first_index_some {p : Row → Bool} : ∀ {l : List Row} {i : Nat},
    first_index p l = some i → ∃ r, l[i]? = some r ∧ p r = true
  | [], i, h => by simp [first_index] at h
  | r :: rs, i, h => by
    simp only [first_index] at h
    split at h
    · rename_i hp
      simp only [Option.some.injEq] at h
      subst h
      exact ⟨r, by simp, hp⟩
    · simp only [Option.map_eq_some'] at h
      obtain ⟨j, hj, rfl⟩ := h
      obtain ⟨r1, h1, h2⟩ := first_index_some hj
      exact ⟨r1, by simpa using h1, h2⟩

theorem first_index_none {p : Row → Bool} : ∀ {l : List Row},
    first_index p l = none → ∀ r ∈ l, p r = false
  | [], _, r, hr => by simp at hr
  | x :: xs, h, r, hr => by
    simp only [first_index] at h
    split at h
    · simp at h
    · rename_i hp
      simp only [Option.map_eq_none'] at h
      rcases List.mem_cons.mp hr with rfl | hr
      · simpa using hp
      · exact first_index_none h r hr

theorem first_index_isSome {p : Row → Bool} : ∀ {l : List Row} {r : Row}, r ∈ l → p r = true →
    ∃ i, first_index p l = some i
  | [], r, hr, _ => by simp at hr
  | x :: xs, r, hr, hp => by
    simp only [first_index]
    split
    · exact ⟨0, rfl⟩
    · rename_i hx
      rcases List.mem_cons.mp hr with rfl | hr
      · exact absurd hp hx
      · obtain ⟨i, hi⟩ := first_index_isSome hr hp
        exact ⟨i + 1, by simp [hi]⟩

/-- With distinct keys, removing the first row that has a key removes all rows
that have it. -/
theorem eraseIdx_first_index {key : Row → Nat} {k : Nat} : ∀ {l : List Row} {i : Nat},
    (l.map key).Nodup → first_index (fun r => decide (key r = k)) l = some i →
    l.eraseIdx i = l.filter (fun r => decide (key r ≠ k))
  | [], i, _, h => by simp [first_index] at h
  | r :: rs, i, hnd, h => by
    simp only [List.map_cons, List.nodup_cons, List.mem_map, not_exists, not_and] at hnd
    simp only [first_index] at h
    split at h
    · rename_i hp
      simp only [Option.some.injEq] at h
      subst h
      simp only [decide_eq_true_eq] at hp
      simp only [List.eraseIdx_cons_zero, List.filter_cons, hp, ne_eq, not_true_eq_false,
        decide_False, Bool.false_eq_true, if_false]
      symm
      rw [List.filter_eq_self]
      intro x hx
      have := hnd.1 x hx
      simp only [ne_eq, decide_eq_true_eq]
      intro hxk
      exact this (hxk.trans hp.symm)
    · rename_i hp
      simp only [Option.map_eq_some'] at h
      obtain ⟨j, hj, rfl⟩ := h
      simp only [decide_eq_true_eq] at hp
      simp only [List.eraseIdx_cons_succ, List.filter_cons, ne_eq, hp, not_false_eq_true,
        decide_True, if_true]
      rw [eraseIdx_first_index hnd.2 hj]

theorem filter_first_index_none {key : Row → Nat} {k : Nat} {l : List Row}
    (h : first_index (fun r => decide (key r = k)) l = none) :
    l.filter (fun r => decide (key r ≠ k)) = l := by
  rw [List.filter_eq_self]
  intro x hx
  have := first_index_none h x hx
  simpa using this

theorem g_list_remove_subset : ∀ {old : List NodeData} {p : Nat} {x : NodeData},
    x ∈ g_list_remove old p → x ∈ old
  | [], p, x, h => by simp [g_list_remove] at h
  | y :: ys, p, x, h => by
    simp only [g_list_remove] at h
    split at h
    · exact List.mem_cons_of_mem _ h
    · rcases List.mem_cons.mp h with rfl | h
      · exact List.mem_cons_self _ _
      · exact List.mem_cons_of_mem _ (g_list_remove_subset h)

theorem g_list_remove_mem : ∀ {old : List NodeData} {p : Nat} {x : NodeData},
    x ∈ old → x.ptr ≠ p → x ∈ g_list_remove old p
  | [], p, x, h, _ => by simp at h
  | y :: ys, p, x, h, hne => by
    simp only [g_list_remove]
    split
    · rename_i hy
      rcases List.mem_cons.mp h with rfl | h
      · exact absurd hy hne
      · exact h
    · rcases List.mem_cons.mp h with rfl | h
      · exact List.mem_cons_self _ _
      · exact List.mem_cons_of_mem _ (g_list_remove_mem h hne)

theorem g_list_remove_sublist : ∀ (old : List NodeData) (p : Nat),
    (g_list_remove old p).Sublist old
  | [], p => by simp [g_list_remove]
  | y :: ys, p => by
    simp only [g_list_remove]
    split
    · exact List.sublist_cons_self _ _
    · exact (g_list_remove_sublist ys p).cons₂ _

theorem g_list_remove_not_mem : ∀ {old : List NodeData} {p : Nat} {x : NodeData},
    (old.map NodeData.ptr).Nodup → x ∈ g_list_remove old p → x.ptr ≠ p
  | [], p, x, _, h => by simp [g_list_remove] at h
  | y :: ys, p, x, hnd, h => by
    simp only [List.map_cons, List.nodup_cons, List.mem_map, not_exists, not_and] at hnd
    simp only [g_list_remove] at h
    split at h
    · rename_i hy
      intro hx
      exact hnd.1 x h (hx.trans hy.symm)
    · rename_i hy
      rcases List.mem_cons.mp h with rfl | h
      · exact hy
      · exact g_list_remove_not_mem hnd.2 h

theorem insert_at_perm (p : Nat) (r : Row) (rows : List Row) :
    (insert_at p r rows).Perm (r :: rows) := by
  unfold insert_at
  have h := List.take_append_drop p rows
  calc (List.take p rows ++ r :: List.drop p rows).Perm (r :: (List.take p rows ++ List.drop p rows)) :=
        List.perm_middle
    _ = r :: rows := by rw [h]

theorem insert_at_getElem (p : Nat) (r : Row) (rows : List Row) (hp : p ≤ rows.length) :
    (insert_at p r rows)[p]? = some r := by
  unfold insert_at
  have hl : (List.take p rows).length = p := by simp [List.length_take, hp]
  rw [List.getElem?_append_right (by omega)]
  simp [hl]

theorem map_set_same {β : Type} (f : Row → β) {l : List Row} {i : Nat} {r r1 : Row}
    (hr : l[i]? = some r) (hf : f r1 = f r) : (l.set i r1).map f = l.map f := by
  obtain ⟨l1, l2, h1, -, h3, -⟩ := split_at_index hr
  rw [h3 r1, h1]
  simp [hf]

/-- With distinct addresses, the loop over the stale rows removes exactly the rows
whose `NodeData` is in `old`. -/
theorem stale_loop_kids : ∀ (old : List NodeData) (g : G) (kids : List Row),
    (kids.map (fun r => r.nd.ptr)).Nodup →
    (stale_loop old g kids).2 =
      kids.filter (fun r => decide (r.nd.ptr ∉ old.map NodeData.ptr))
  | [], g, kids, _ => by simp [stale_loop]
  | cnd :: work, g, kids, hnd => by
    have hstep : (if (vdtree_find_iter_by_data kids cnd.ptr).1 ≠ 0 then
          match (vdtree_find_iter_by_data kids cnd.ptr).2 with
          | some i => kids.eraseIdx i
          | none => kids
        else kids) = kids.filter (fun r => decide (r.nd.ptr ≠ cnd.ptr)) := by
      cases kids with
      | nil => simp [vdtree_find_iter_by_data]
      | cons k ks =>
        simp only [vdtree_find_iter_by_data]
        cases hfi : first_index (fun r => decide (r.nd.ptr = cnd.ptr)) (k :: ks) with
        | none =>
          have := filter_first_index_none hfi
          simp only [ne_eq, decide_not] at this
          simp [this]
        | some i =>
          simp only [ne_eq, one_ne_zero, not_false_eq_true, if_true]
          exact eraseIdx_first_index hnd hfi
    simp only [stale_loop]
    rw [hstep, stale_loop_kids work _ _ ((List.filter_sublist _).map _ |>.nodup hnd)]
    rw [List.filter_filter]
    congr 1
    funext r
    simp only [List.map_cons, List.mem_cons, not_or, ne_eq, Bool.decide_and, decide_not]
    rw [Bool.and_comm]

/-! ### Addresses are only handed out -/

theorem vdtree_busy_push_next_ptr (g : G) : (vdtree_busy_push g).next_ptr = g.next_ptr := by
  unfold vdtree_busy_push
  simp only
  split <;> rfl

theorem vdtree_busy_pop_next_ptr (g : G) : (vdtree_busy_pop g).next_ptr = g.next_ptr := by
  unfold vdtree_busy_pop
  simp only
  split <;> split <;> rfl

theorem before_read_next_ptr (g : G) (nd : NodeData) (force : Bool) :
    (before_read g nd force).next_ptr = g.next_ptr := by
  unfold before_read
  rw [vdtree_busy_push_next_ptr]
  split <;> rfl

theorem read_listing_next_ptr (env : Env) (g : G) (path : CStr) (target_path : Option CStr) :
    g.next_ptr ≤ (read_listing env g path target_path).2.next_ptr := by
  unfold read_listing filelist_read
  simp only
  split
  · simp
  · split
    · simp only [file_data_new_simple]
      omega
    · simp

theorem stale_loop_next_ptr : ∀ (old : List NodeData) (g : G) (kids : List Row),
    (stale_loop old g kids).1.next_ptr = g.next_ptr
  | [], g, kids => rfl
  | cnd :: work, g, kids => by
    simp only [stale_loop]
    rw [stale_loop_next_ptr work]
    rfl

theorem sync_at_mono {pop : G → Row → Option (G × Option Row)}
    (hpop : ∀ g r g1 res, pop g r = some (g1, res) → g.next_ptr ≤ g1.next_ptr)
    {g g1 : G} {rows rows1 : List Row} {i : Nat} {b : Bool}
    (h : sync_at pop g rows i = some (g1, rows1, b)) : g.next_ptr ≤ g1.next_ptr := by
  unfold sync_at at h
  split at h
  · simp only [Option.some.injEq, Prod.mk.injEq] at h
    rw [← h.1]
  · split at h
    · simp at h
    · rename_i hp
      simp only [Option.some.injEq, Prod.mk.injEq] at h
      rw [← h.1]
      exact hpop _ _ _ _ hp
    · rename_i hp
      simp only [Option.some.injEq, Prod.mk.injEq] at h
      rw [← h.1]
      exact hpop _ _ _ _ hp

theorem vdtree_add_by_data_mono {pop : G → Row → Option (G × Option Row)}
    (hpop : ∀ g r g1 res, pop g r = some (g1, res) → g.next_ptr ≤ g1.next_ptr)
    {env : Env} {g g1 : G} {fd : FileData} {parent_ve : Option Bool} {rows rows1 : List Row}
    (h : vdtree_add_by_data pop env g fd parent_ve rows = some (g1, rows1)) :
    g.next_ptr + 3 ≤ g1.next_ptr := by
  unfold vdtree_add_by_data at h
  simp only [time, file_data_new_simple] at h
  split at h
  · simp only [Option.some.injEq, Prod.mk.injEq] at h
    rw [← h.1]
  · split at h
    · split at h
      · simp at h
      · rename_i hs
        simp only [Option.some.injEq, Prod.mk.injEq] at h
        rw [← h.1]
        have := sync_at_mono hpop hs
        simp only at this
        omega
    · simp only [Option.some.injEq, Prod.mk.injEq] at h
      rw [← h.1]

theorem merge_entry_mono {pop_child pop_new : G → Row → Option (G × Option Row)}
    (hc : ∀ g r g1 res, pop_child g r = some (g1, res) → g.next_ptr ≤ g1.next_ptr)
    (hn : ∀ g r g1 res, pop_new g r = some (g1, res) → g.next_ptr ≤ g1.next_ptr)
    {env : Env} {ve : Bool} {st st1 : MergeState} {fd : FileData}
    (h : merge_entry pop_child pop_new env ve st fd = some st1) :
    st.g.next_ptr ≤ st1.g.next_ptr := by
  unfold merge_entry at h
  split at h
  · simp only [Option.some.injEq] at h
    rw [← h]
  · split at h
    · split at h
      · simp only [Option.some.injEq] at h
        rw [← h]
      · simp only at h
        split at h
        · split at h
          · simp at h
          · rename_i hs
            simp only [Option.some.injEq] at h
            rw [← h]
            exact sync_at_mono hc hs
          · rename_i hs
            simp only [Option.some.injEq] at h
            rw [← h]
            exact sync_at_mono hc hs
        · simp only [Option.some.injEq] at h
          rw [← h]
    · split at h
      · simp at h
      · rename_i ha
        simp only [Option.some.injEq] at h
        rw [← h]
        have := vdtree_add_by_data_mono hn ha
        simp only
        omega

theorem merge_loop_mono {pop_child pop_new : G → Row → Option (G × Option Row)}
    (hc : ∀ g r g1 res, pop_child g r = some (g1, res) → g.next_ptr ≤ g1.next_ptr)
    (hn : ∀ g r g1 res, pop_new g r = some (g1, res) → g.next_ptr ≤ g1.next_ptr)
    {env : Env} {ve : Bool} : ∀ (list : List FileData) (st st1 : MergeState),
    merge_loop pop_child pop_new env ve list st = some st1 → st.g.next_ptr ≤ st1.g.next_ptr
  | [], st, st1, h => by
    simp only [merge_loop, Option.some.injEq] at h
    rw [h]
  | fd :: work, st, st1, h => by
    simp only [merge_loop] at h
    split at h
    · simp at h
    · rename_i st2 he
      exact (merge_entry_mono hc hn he).trans (merge_loop_mono hc hn work st2 st1 h)

theorem merge_rows_mono {pop_child pop_new : G → Row → Option (G × Option Row)}
    (hc : ∀ g r g1 res, pop_child g r = some (g1, res) → g.next_ptr ≤ g1.next_ptr)
    (hn : ∀ g r g1 res, pop_new g r = some (g1, res) → g.next_ptr ≤ g1.next_ptr)
    {env : Env} {ve : Bool} {list : List FileData} {g g4 : G} {kids kids1 : List Row}
    (h : merge_rows pop_child pop_new env ve list g kids = some (g4, kids1)) :
    g.next_ptr ≤ g4.next_ptr := by
  unfold merge_rows at h
  split at h
  · simp at h
  · rename_i st hl
    simp only [Option.some.injEq] at h
    have h1 := merge_loop_mono hc hn _ _ _ hl
    have h2 := stale_loop_next_ptr st.old st.g st.kids
    rw [h] at h2
    simp only at h1 h2
    omega

/-- A sync never takes an address back. -/
theorem populate_row_mono (env : Env) (vd_path : Option CStr) : ∀ (fuel : Nat) (g : G) (r : Row)
    (force : Bool) (target_path : Option CStr) (g1 : G) (res : Option Row),
    populate_row fuel env vd_path g r force target_path = some (g1, res) →
    g.next_ptr ≤ g1.next_ptr
  | 0, g, r, force, target_path, g1, res, h => by
    obtain ⟨nd, ve, kids⟩ := r
    simp [populate_row] at h
  | fuel + 1, g, r, force, target_path, g1, res, h => by
    obtain ⟨nd, ve, kids⟩ := r
    rcases populate_row_cases fuel env vd_path g g1 nd ve kids force target_path res h with
      ⟨-, rfl, -⟩ | ⟨-, -, -, rfl⟩ | ⟨-, -, rfl⟩ | ⟨-, g4, kids1, hm, rfl, -⟩
    · exact Nat.le_refl _
    · exact Nat.le_refl _
    · exact Nat.le_refl _
    · have h1 := merge_rows_mono
        (fun g r g1 res hh => populate_row_mono env vd_path fuel g r false target_path g1 res hh)
        (fun g r g1 res hh => populate_row_mono env vd_path fuel g r false vd_path g1 res hh) hm
      have h2 := read_listing_next_ptr env
        (before_read { g with ticks := g.ticks + 1 } nd force) nd.fd.path target_path
      rw [before_read_next_ptr] at h2
      rw [vdtree_busy_pop_next_ptr]
      simp only at h2
      omega

/-- The sync satisfies what the merge needs of it. -/
theorem populate_row_popok (env : Env) (vd_path : Option CStr) (fuel : Nat) (force : Bool)
    (target_path : Option CStr) :
    PopOK env (fun g r => populate_row fuel env vd_path g r force target_path) where
  mono := fun g r g1 res h => populate_row_mono env vd_path fuel g r force target_path g1 res h
  keep := fun g r g1 r1 h => by
    obtain ⟨nd, ve, kids⟩ := r
    have := populate_row_some fuel env vd_path g g1 nd ve kids force target_path r1 h
    obtain ⟨nd1, ve1, kids1⟩ := r1
    simp only [Row.nd] at this
    simp only [Row.ident, Row.nd, this.1, this.2.1]
  gone := fun g r g1 h => by
    obtain ⟨nd, ve, kids⟩ := r
    cases fuel with
    | zero => simp [populate_row] at h
    | succ fuel =>
      rcases populate_row_cases fuel env vd_path g g1 nd ve kids force target_path none h with
        ⟨-, -, h3⟩ | ⟨h1, h2, -, -⟩ | ⟨-, h3, -⟩ | ⟨-, g4, kids1, -, -, h3⟩
      · simp at h3
      · exact ⟨h1, h2⟩
      · simp at h3
      · simp at h3

/-! ### The merge keeps what is listed and drops the rest -/

theorem sync_at_cases {pop : G → Row → Option (G × Option Row)} {g g1 : G}
    {rows rows1 : List Row} {i : Nat} {b : Bool} {r : Row}
    (h : sync_at pop g rows i = some (g1, rows1, b)) (hr : rows[i]? = some r) :
    (∃ r1, pop g r = some (g1, some r1) ∧ rows1 = rows.set i r1 ∧ b = true) ∨
    (pop g r = some (g1, none) ∧ rows1 = rows.eraseIdx i ∧ b = false) := by
  simp only [sync_at, hr] at h
  cases hp : pop g r with
  | none => simp [hp] at h
  | some res =>
    obtain ⟨g2, o⟩ := res
    cases o with
    | none =>
      simp only [hp, Option.some.injEq, Prod.mk.injEq] at h
      obtain ⟨rfl, rfl, rfl⟩ := h
      exact Or.inr ⟨rfl, rfl, rfl⟩
    | some r1 =>
      simp only [hp, Option.some.injEq, Prod.mk.injEq] at h
      obtain ⟨rfl, rfl, rfl⟩ := h
      exact Or.inl ⟨r1, rfl, rfl, rfl⟩

/-- The invariant only looks at the identities of the rows, at `old` and at the
allocation counter. -/
theorem MergeInv.of_same {env : Env} {K : List Ident} {n0 : Nat} {L D : List CStr}
    {st st1 : MergeState} (h : MergeInv env K n0 L D st)
    (hk : st1.kids.map Row.ident = st.kids.map Row.ident) (ho : st1.old = st.old)
    (hg : st.g.next_ptr ≤ st1.g.next_ptr) : MergeInv env K n0 L D st1 where
  orig_or_new := by rw [hk]; exact h.orig_or_new
  orig_kept := by rw [hk]; exact h.orig_kept
  done_present := by rw [hk]; exact h.done_present
  old_sound := by rw [ho]; exact h.old_sound
  old_complete := by rw [ho]; exact h.old_complete
  old_nodup := by rw [ho]; exact h.old_nodup
  ptr_nodup := by rw [hk]; exact h.ptr_nodup
  names_nodup := by rw [hk]; exact h.names_nodup
  ptr_bound := by rw [hk]; exact fun x hx => Nat.lt_of_lt_of_le (h.ptr_bound x hx) hg
  mono := Nat.le_trans h.mono hg
  dirs := by rw [hk]; exact h.dirs

theorem set_size_date_ident (r : Row) (size date : Int) :
    (r.set_size_date size date).ident = r.ident := by
  obtain ⟨nd, ve, kids⟩ := r
  rfl

/-- A new row is placed among the rows; its `NodeData` takes the first free
address. -/
theorem vdtree_add_by_data_ident {pop : G → Row → Option (G × Option Row)} {env : Env}
    (hpop : PopOK env pop) {g g1 : G} {fd : FileData} {ve : Bool} {rows rows1 : List Row}
    (h : vdtree_add_by_data pop env g fd (some ve) rows = some (g1, rows1)) :
    (rows1.map Row.ident).Perm
      ({ nd_ptr := g.next_ptr, fd_ptr := fd.ptr, name := fd.name, path := fd.path } ::
        rows.map Row.ident) := by
  unfold vdtree_add_by_data at h
  simp only [time, file_data_new_simple] at h
  split at h
  · rename_i hc
    split at h
    · simp at h
    · rename_i g4 rows2 b hs
      simp only [Option.some.injEq, Prod.mk.injEq] at h
      obtain ⟨-, rfl⟩ := h
      have hpos : min (env.sort_pos (rows.map (fun r => r.nd.fd.name)) fd.name) rows.length
          ≤ rows.length := Nat.min_le_right _ _
      have hget := insert_at_getElem _
        (Row.mk { ptr := g.next_ptr, fd := fd, expanded := false,
                  last_update := env.clock g.ticks } false
          [Row.mk { ptr := g.next_ptr + 1,
                    fd := { ptr := g.next_ptr + 1 + 1, path := [],
                            name := if ([] : CStr) = ['/'] then [] else filename_from_path [],
                            size := ((env.stat_utf8 []).getD (0, 0)).1,
                            date := ((env.stat_utf8 []).getD (0, 0)).2 },
                    expanded := true, last_update := 0 } false []]) rows hpos
      rcases sync_at_cases hs hget with ⟨r1, hp, rfl, -⟩ | ⟨hp, -, -⟩
      · have hid := hpop.keep _ _ _ _ hp
        rw [map_set_same Row.ident hget hid]
        exact (insert_at_perm _ _ _).map Row.ident
      · have := (hpop.gone _ _ _ hp).1
        simp [Row.nd] at this
  · simp only [Option.some.injEq, Prod.mk.injEq] at h
    obtain ⟨-, rfl⟩ := h
    exact (insert_at_perm _ _ _).map Row.ident

theorem listed_names_cons (fd : FileData) (work : List FileData) :
    listed_names (fd :: work) = listed_names [fd] ++ listed_names work := by
  simp only [listed_names, List.filter_cons, List.filter_nil]
  split <;> simp

theorem listed_names_pseudo {fd : FileData} (h : fd.name = ['.'] ∨ fd.name = ['.', '.']) :
    listed_names [fd] = [] := by
  rcases h with h | h <;> simp [listed_names, List.filter_cons, h]

theorem listed_names_real {fd : FileData} (h : ¬ (fd.name = ['.'] ∨ fd.name = ['.', '.'])) :
    listed_names [fd] = [fd.name] := by
  simp only [not_or] at h
  simp [listed_names, List.filter_cons, h.1, h.2]

theorem ident_of_nodup_name {K : List Ident} (hKn : (K.map Ident.name).Nodup) {a b : Ident}
    (ha : a ∈ K) (hb : b ∈ K) (h : a.name = b.name) : a = b :=
  List.inj_on_of_nodup_map hKn ha hb h

theorem ident_of_nodup_ptr {K : List Ident} (hKp : (K.map Ident.nd_ptr).Nodup) {a b : Ident}
    (ha : a ∈ K) (hb : b ∈ K) (h : a.nd_ptr = b.nd_ptr) : a = b :=
  List.inj_on_of_nodup_map hKp ha hb h

/-- Matching a fresh entry with the row `c` that has its name takes `c` out of
`old`. -/
theorem MergeInv.matched {env : Env} {K : List Ident} {n0 : Nat} {L D : List CStr}
    {st : MergeState} (hKn : (K.map Ident.name).Nodup) (hKp : (K.map Ident.nd_ptr).Nodup)
    (hKb : ∀ k ∈ K, k.nd_ptr < n0) (h : MergeInv env K n0 L D st) {c : Row} (hc : c ∈ st.kids) :
    MergeInv env K n0 L (D ++ [c.nd.fd.name])
      { st with old := g_list_remove st.old c.nd.ptr } where
  orig_or_new := by
    intro x hx
    rcases h.orig_or_new x hx with h1 | ⟨h1, h2, h3⟩
    · exact Or.inl h1
    · exact Or.inr ⟨h1, List.mem_append_left _ h2, h3⟩
  orig_kept := h.orig_kept
  done_present := by
    intro n hn
    rcases List.mem_append.mp hn with hn | hn
    · exact h.done_present n hn
    · simp only [List.mem_singleton] at hn
      exact ⟨c.ident, List.mem_map_of_mem _ hc, hn.symm⟩
  old_sound := by
    intro o ho
    have hne := g_list_remove_not_mem h.old_nodup ho
    obtain ⟨k, hk, hko, hkD⟩ := h.old_sound o (g_list_remove_subset ho)
    refine ⟨k, hk, hko, ?_⟩
    intro hmem
    rcases List.mem_append.mp hmem with hm | hm
    · exact hkD hm
    · simp only [List.mem_singleton] at hm
      rcases h.orig_or_new c.ident (List.mem_map_of_mem _ hc) with h1 | ⟨-, -, h3⟩
      · have := ident_of_nodup_name hKn hk h1 hm
        apply hne
        rw [hko, this]
        rfl
      · exact h3 k hk hm
  old_complete := by
    intro k hk hkD
    have hkD1 : k.name ∉ D := fun hm => hkD (List.mem_append_left _ hm)
    have hkn : k.name ≠ c.nd.fd.name := fun hm => hkD (List.mem_append_right _ (by simp [hm]))
    obtain ⟨o, ho, hok⟩ := h.old_complete k hk hkD1
    refine ⟨o, g_list_remove_mem ho ?_, hok⟩
    intro hoc
    rcases h.orig_or_new c.ident (List.mem_map_of_mem _ hc) with h1 | ⟨h1, -, -⟩
    · have : k = c.ident := ident_of_nodup_ptr hKp hk h1 (by rw [← hok, hoc]; rfl)
      exact hkn (by rw [this]; rfl)
    · have := hKb k hk
      have h2 : k.nd_ptr = c.nd.ptr := by rw [← hok, hoc]
      simp only [Row.ident] at h1
      omega
  old_nodup := ((g_list_remove_sublist _ _).map _).nodup h.old_nodup
  ptr_nodup := h.ptr_nodup
  names_nodup := h.names_nodup
  ptr_bound := h.ptr_bound
  mono := h.mono
  dirs := h.dirs

/-- Adding a row for a fresh entry whose name no row has. -/
theorem MergeInv.added {env : Env} {K : List Ident} {n0 : Nat} {L D : List CStr}
    {st st1 : MergeState} (h : MergeInv env K n0 L D st) {fd : FileData}
    (hno : ∀ r ∈ st.kids, r.nd.fd.name ≠ fd.name)
    (hperm : (st1.kids.map Row.ident).Perm
      ({ nd_ptr := st.g.next_ptr, fd_ptr := fd.ptr, name := fd.name, path := fd.path } ::
        st.kids.map Row.ident))
    (ho : st1.old = st.old) (hg : st.g.next_ptr + 3 ≤ st1.g.next_ptr)
    (hdir : env.isdir fd.path = true) :
    MergeInv env K n0 L (D ++ [fd.name]) st1 := by
  have hno2 : ∀ x ∈ st.kids.map Row.ident, x.name ≠ fd.name := by
    intro x hx
    obtain ⟨r, hr, rfl⟩ := List.mem_map.mp hx
    exact hno r hr
  have hmem : ∀ x, x ∈ st1.kids.map Row.ident ↔
      x = { nd_ptr := st.g.next_ptr, fd_ptr := fd.ptr, name := fd.name, path := fd.path } ∨
        x ∈ st.kids.map Row.ident := by
    intro x
    rw [hperm.mem_iff, List.mem_cons]
  refine
    { orig_or_new := ?_, orig_kept := ?_, done_present := ?_, old_sound := ?_, old_complete := ?_,
      old_nodup := ?_, ptr_nodup := ?_, names_nodup := ?_, ptr_bound := ?_, mono := ?_,
      dirs := ?_ }
  · intro x hx
    rcases (hmem x).mp hx with rfl | hx
    · refine Or.inr ⟨h.mono, List.mem_append_right _ (by simp), ?_⟩
      intro k hk
      exact hno2 k (h.orig_kept k hk)
    · rcases h.orig_or_new x hx with h1 | ⟨h1, h2, h3⟩
      · exact Or.inl h1
      · exact Or.inr ⟨h1, List.mem_append_left _ h2, h3⟩
  · intro k hk
    exact (hmem k).mpr (Or.inr (h.orig_kept k hk))
  · intro n hn
    rcases List.mem_append.mp hn with hn | hn
    · obtain ⟨x, hx, hxn⟩ := h.done_present n hn
      exact ⟨x, (hmem x).mpr (Or.inr hx), hxn⟩
    · simp only [List.mem_singleton] at hn
      exact ⟨_, (hmem _).mpr (Or.inl rfl), hn.symm⟩
  · intro o ho1
    rw [ho] at ho1
    obtain ⟨k, hk, hko, hkD⟩ := h.old_sound o ho1
    refine ⟨k, hk, hko, ?_⟩
    intro hm
    rcases List.mem_append.mp hm with hm | hm
    · exact hkD hm
    · simp only [List.mem_singleton] at hm
      exact hno2 k (h.orig_kept k hk) hm
  · intro k hk hkD
    rw [ho]
    exact h.old_complete k hk (fun hm => hkD (List.mem_append_left _ hm))
  · rw [ho]; exact h.old_nodup
  · rw [(hperm.map Ident.nd_ptr).nodup_iff]
    simp only [List.map_cons, List.nodup_cons]
    refine ⟨?_, h.ptr_nodup⟩
    intro hm
    obtain ⟨x, hx, hxp⟩ := List.mem_map.mp hm
    have := h.ptr_bound x hx
    omega
  · rw [(hperm.map Ident.name).nodup_iff]
    simp only [List.map_cons, List.nodup_cons]
    refine ⟨?_, h.names_nodup⟩
    intro hm
    obtain ⟨x, hx, hxp⟩ := List.mem_map.mp hm
    exact hno2 x hx hxp
  · intro x hx
    rcases (hmem x).mp hx with rfl | hx
    · simp only
      omega
    · have := h.ptr_bound x hx
      omega
  · have := h.mono
    omega
  · intro x hx hxL
    rcases (hmem x).mp hx with rfl | hx
    · exact hdir
    · exact h.dirs x hx hxL

/-- One round of the loop over the listing keeps the invariant. -/
theorem merge_entry_inv {pop_child pop_new : G → Row → Option (G × Option Row)} {env : Env}
    (hpc : PopOK env pop_child) (hpn : PopOK env pop_new) {ve : Bool}
    {K : List Ident} {n0 : Nat} {L D : List CStr} {st st1 : MergeState} {fd : FileData}
    (hKn : (K.map Ident.name).Nodup) (hKp : (K.map Ident.nd_ptr).Nodup)
    (hKb : ∀ k ∈ K, k.nd_ptr < n0) (hinv : MergeInv env K n0 L D st)
    (hfd : ¬ (fd.name = ['.'] ∨ fd.name = ['.', '.']) →
      fd.name ∈ L ∧ env.isdir fd.path = true)
    (h : merge_entry pop_child pop_new env ve st fd = some st1) :
    MergeInv env K n0 L (D ++ listed_names [fd]) st1 := by
  unfold merge_entry at h
  split at h
  · rename_i hps
    simp only [Option.some.injEq] at h
    subst h
    rw [listed_names_pseudo hps, List.append_nil]
    exact hinv
  · rename_i hps
    rw [listed_names_real hps]
    obtain ⟨hfL, hfdir⟩ := hfd hps
    split at h
    · rename_i i hfi
      obtain ⟨c, hci, hcn⟩ := first_index_some hfi
      simp only [decide_eq_true_eq] at hcn
      have hcmem : c ∈ st.kids := List.getElem?_mem hci
      have hm := MergeInv.matched hKn hKp hKb hinv hcmem
      rw [hcn] at hm
      simp only [hci] at h
      split at h
      · split at h
        · simp at h
        · rename_i g1 kids1 hs
          rcases sync_at_cases hs hci with ⟨c1, hp, rfl, -⟩ | ⟨-, -, hb⟩
          · simp only [Option.some.injEq] at h
            subst h
            have hlt : i < st.kids.length := (List.getElem?_eq_some_iff.mp hci).1
            have hget : (st.kids.set i c1)[i]? = some c1 := by
              simp [List.getElem?_set, hlt]
            refine hm.of_same ?_ rfl (hpc.mono _ _ _ _ hp)
            simp only [hget]
            rw [map_set_same Row.ident hget (set_size_date_ident c1 fd.size fd.date)]
            exact map_set_same Row.ident hci (hpc.keep _ _ _ _ hp)
          · simp at hb
        · rename_i g1 kids1 hs
          rcases sync_at_cases hs hci with ⟨c1, -, -, hb⟩ | ⟨hp, -, -⟩
          · simp at hb
          · have hgone := (hpc.gone _ _ _ hp).2
            have hd := hinv.dirs c.ident (List.mem_map_of_mem _ hcmem)
              (by simp only [Row.ident]; rw [hcn]; exact hfL)
            simp only [Row.ident] at hd
            rw [hd] at hgone
            simp at hgone
      · simp only [Option.some.injEq] at h
        subst h
        exact hm
    · rename_i hfi
      have hno : ∀ r ∈ st.kids, r.nd.fd.name ≠ fd.name := by
        intro r hr
        have := first_index_none hfi r hr
        simpa using this
      split at h
      · simp at h
      · rename_i g1 kids1 ha
        simp only [Option.some.injEq] at h
        subst h
        exact MergeInv.added hinv hno (vdtree_add_by_data_ident hpn ha) rfl
          (vdtree_add_by_data_mono hpn.mono ha) hfdir

/-- The loop over the listing keeps the invariant. -/
theorem merge_loop_inv {pop_child pop_new : G → Row → Option (G × Option Row)} {env : Env}
    (hpc : PopOK env pop_child) (hpn : PopOK env pop_new) {ve : Bool}
    {K : List Ident} {n0 : Nat} {L : List CStr}
    (hKn : (K.map Ident.name).Nodup) (hKp : (K.map Ident.nd_ptr).Nodup)
    (hKb : ∀ k ∈ K, k.nd_ptr < n0) :
    ∀ (list : List FileData) (D : List CStr) (st st1 : MergeState),
      MergeInv env K n0 L D st →
      (∀ fd ∈ list, ¬ (fd.name = ['.'] ∨ fd.name = ['.', '.']) →
        fd.name ∈ L ∧ env.isdir fd.path = true) →
      merge_loop pop_child pop_new env ve list st = some st1 →
      MergeInv env K n0 L (D ++ listed_names list) st1
  | [], D, st, st1, hinv, _, h => by
    simp only [merge_loop, Option.some.injEq] at h
    subst h
    simpa [listed_names] using hinv
  | fd :: work, D, st, st1, hinv, hfd, h => by
    simp only [merge_loop] at h
    split at h
    · simp at h
    · rename_i st2 he
      have h1 := merge_entry_inv hpc hpn hKn hKp hKb hinv (hfd fd (List.mem_cons_self _ _)) he
      have h2 := merge_loop_inv hpc hpn hKn hKp hKb work _ st2 st1 h1
        (fun x hx => hfd x (List.mem_cons_of_mem _ hx)) h
      rw [listed_names_cons, ← List.append_assoc]
      exact h2

/-- The merge, on the identities of the rows: afterwards the names of the rows are
the listed names, a row whose name is listed is still there, every other row that
is there is new, and the rows whose names are not listed are gone. -/
theorem merge_rows_spec {pop_child pop_new : G → Row → Option (G × Option Row)} {env : Env}
    (hpc : PopOK env pop_child) (hpn : PopOK env pop_new) {ve : Bool}
    {list : List FileData} {g g4 : G} {kids kids1 : List Row}
    (hKn : ((kids.map Row.ident).map Ident.name).Nodup)
    (hKp : ((kids.map Row.ident).map Ident.nd_ptr).Nodup)
    (hKb : ∀ k ∈ kids.map Row.ident, k.nd_ptr < g.next_ptr)
    (hdk : ∀ k ∈ kids.map Row.ident, k.name ∈ listed_names list → env.isdir k.path = true)
    (hdl : ∀ fd ∈ list, ¬ (fd.name = ['.'] ∨ fd.name = ['.', '.']) → env.isdir fd.path = true)
    (h : merge_rows pop_child pop_new env ve list g kids = some (g4, kids1)) :
    (∀ x ∈ kids1.map Row.ident, x.name ∈ listed_names list) ∧
    (∀ n ∈ listed_names list, ∃ x ∈ kids1.map Row.ident, x.name = n) ∧
    (∀ k ∈ kids.map Row.ident, k.name ∈ listed_names list → k ∈ kids1.map Row.ident) ∧
    (∀ x ∈ kids1.map Row.ident, x ∈ kids.map Row.ident ∨
      (g.next_ptr ≤ x.nd_ptr ∧ ∀ k ∈ kids.map Row.ident, k.name ≠ x.name)) ∧
    (∀ k ∈ kids.map Row.ident, k.name ∉ listed_names list →
      ∀ x ∈ kids1.map Row.ident, x.nd_ptr ≠ k.nd_ptr) ∧
    ((kids1.map Row.ident).map Ident.name).Nodup ∧
    ((kids1.map Row.ident).map Ident.nd_ptr).Nodup ∧
    (∀ x ∈ kids1.map Row.ident, x.nd_ptr < g4.next_ptr) := by
  unfold merge_rows at h
  split at h
  · simp at h
  · rename_i st hl
    simp only [Option.some.injEq] at h
    have hinit : MergeInv env (kids.map Row.ident) g.next_ptr (listed_names list) []
        { g := g, kids := kids, old := (kids.map Row.nd).reverse } :=
      { orig_or_new := fun x hx => Or.inl hx
        orig_kept := fun k hk => hk
        done_present := fun n hn => by simp at hn
        old_sound := by
          intro o ho
          simp only [List.mem_reverse, List.mem_map] at ho
          obtain ⟨r, hr, rfl⟩ := ho
          exact ⟨r.ident, List.mem_map_of_mem _ hr, rfl, by simp⟩
        old_complete := by
          intro k hk _
          obtain ⟨r, hr, rfl⟩ := List.mem_map.mp hk
          exact ⟨r.nd, by simp only [List.mem_reverse]; exact List.mem_map_of_mem _ hr, rfl⟩
        old_nodup := by
          rw [List.map_reverse, List.nodup_reverse]
          simpa [List.map_map, Function.comp, Row.ident] using hKp
        ptr_nodup := hKp
        names_nodup := hKn
        ptr_bound := hKb
        mono := Nat.le_refl _
        dirs := hdk }
    have hfd : ∀ fd ∈ list, ¬ (fd.name = ['.'] ∨ fd.name = ['.', '.']) →
        fd.name ∈ listed_names list ∧ env.isdir fd.path = true := by
      intro fd hfd hps
      refine ⟨?_, hdl fd hfd hps⟩
      simp only [listed_names, List.mem_map, List.mem_filter]
      simp only [not_or] at hps
      exact ⟨fd, ⟨hfd, by simp [hps.1, hps.2]⟩, rfl⟩
    have hinv := merge_loop_inv hpc hpn hKn hKp hKb list [] _ st hinit hfd hl
    simp only [List.nil_append] at hinv
    have hpn2 : (st.kids.map (fun r => r.nd.ptr)).Nodup := by
      simpa [List.map_map, Function.comp, Row.ident] using hinv.ptr_nodup
    have hk1 : kids1 = st.kids.filter (fun r => decide (r.nd.ptr ∉ st.old.map NodeData.ptr)) := by
      rw [← stale_loop_kids st.old st.g st.kids hpn2, h]
    have hg4 : g4.next_ptr = st.g.next_ptr := by
      rw [← stale_loop_next_ptr st.old st.g st.kids, h]
    have hmem : ∀ x, x ∈ kids1.map Row.ident ↔
        x ∈ st.kids.map Row.ident ∧ x.nd_ptr ∉ st.old.map NodeData.ptr := by
      intro x
      rw [hk1]
      simp only [List.mem_map, List.mem_filter, decide_eq_true_eq]
      constructor
      · rintro ⟨r, ⟨hr, hro⟩, rfl⟩
        exact ⟨⟨r, hr, rfl⟩, hro⟩
      · rintro ⟨⟨r, hr, rfl⟩, hro⟩
        exact ⟨r, ⟨hr, hro⟩, rfl⟩
    have hsub : (kids1.map Row.ident).Sublist (st.kids.map Row.ident) := by
      rw [hk1]
      exact (List.filter_sublist _).map _
    -- a row that is still in `old` is an original row whose name is not listed
    have hold : ∀ x ∈ st.kids.map Row.ident, x.name ∈ listed_names list →
        x.nd_ptr ∉ st.old.map NodeData.ptr := by
      intro x hx hxn hm
      obtain ⟨o, ho, hox⟩ := List.mem_map.mp hm
      obtain ⟨k, hk, hko, hkD⟩ := hinv.old_sound o ho
      rcases hinv.orig_or_new x hx with h1 | ⟨h1, -, -⟩
      · have : k = x := ident_of_nodup_ptr hKp hk h1 (by rw [← hko, hox])
        exact hkD (this ▸ hxn)
      · have := hKb k hk
        omega
    refine ⟨?_, ?_, ?_, ?_, ?_, (hsub.map _).nodup hinv.names_nodup,
      (hsub.map _).nodup hinv.ptr_nodup, ?_⟩
    · intro x hx
      obtain ⟨hx1, hx2⟩ := (hmem x).mp hx
      rcases hinv.orig_or_new x hx1 with h1 | ⟨-, h2, -⟩
      · by_contra hn
        obtain ⟨o, ho, hok⟩ := hinv.old_complete x h1 hn
        exact hx2 (List.mem_map.mpr ⟨o, ho, hok⟩)
      · exact h2
    · intro n hn
      obtain ⟨x, hx, hxn⟩ := hinv.done_present n hn
      exact ⟨x, (hmem x).mpr ⟨hx, hold x hx (hxn ▸ hn)⟩, hxn⟩
    · intro k hk hkn
      exact (hmem k).mpr ⟨hinv.orig_kept k hk, hold k (hinv.orig_kept k hk) hkn⟩
    · intro x hx
      obtain ⟨hx1, -⟩ := (hmem x).mp hx
      rcases hinv.orig_or_new x hx1 with h1 | ⟨h1, -, h3⟩
      · exact Or.inl h1
      · exact Or.inr ⟨h1, h3⟩
    · intro k hk hkn x hx hxk
      obtain ⟨-, hx2⟩ := (hmem x).mp hx
      obtain ⟨o, ho, hok⟩ := hinv.old_complete k hk hkn
      exact hx2 (List.mem_map.mpr ⟨o, ho, by rw [hok, hxk]⟩)
    · intro x hx
      obtain ⟨hx1, -⟩ := (hmem x).mp hx
      rw [hg4]
      exact hinv.ptr_bound x hx1

/-- C1, as stated, fails: the root has the expanded row `b`, recorded with an
older date; the listing still names `b`, but the stat provider says `/b` is no
directory.  The forced sync of the root reads and merges the listing, the matched
row `b` is synced in turn and removes itself, and the root is left without any
row although the listing names `b`. -/
theorem merge_counterexample :
    listed_names (fresh_listing env_b_file (g_at 4 0) root_nd true none) = ["b".toList] ∧
      populate_row 2 env_b_file none (g_at 4 0)
          (Row.mk root_nd true [dir_row 2 "/b" "b" true 100 1 false []]) true none =
        some ({ g_at 5 2 with
                  cursor := [true, false],
                  trace := [IOEvent.isdir "/".toList, IOEvent.filelist_read "/".toList,
                            IOEvent.isdir "/b".toList] },
              some (Row.mk { root_nd with last_update := 200 } true [])) := by
  constructor <;> decide!

/-- C1, amended: when a sync reads and merges the listing (it takes none of its
early exits and keeps its row), the rows below the node had distinct names and
distinct addresses, and every listed entry and every row with a listed name is a
directory for the stat provider (so that no matched row removes itself when it is
synced in turn), then afterwards the names of the rows below the node are exactly
the names of the fresh listing without `.` and `..`; every previous row whose name
is listed is still there with the same `NodeData` and entry; for every listed name
that no previous row had there is a row at a new address; and no row has the
address of a previous row whose name is not listed. -/
theorem merge_correct (fuel : Nat) (env : Env) (vd_path : Option CStr) (g g1 : G)
    (nd : NodeData) (ve : Bool) (kids : List Row) (force : Bool) (target_path : Option CStr)
    (r1 : Row)
    (h : populate_row fuel env vd_path g (Row.mk nd ve kids) force target_path =
      some (g1, some r1))
    (hread : nd.expanded = false ∨ force = true ∨
      (¬ env.clock g.ticks - nd.last_update < 10 ∧ env.filetime nd.fd.path ≠ nd.fd.date))
    (hnames : (kids.map (fun c => c.nd.fd.name)).Nodup)
    (hptrs : (kids.map (fun c => c.nd.ptr)).Nodup)
    (hbound : ∀ c ∈ kids, c.nd.ptr < g.next_ptr)
    (hdir_kids : ∀ c ∈ kids,
      c.nd.fd.name ∈ listed_names (fresh_listing env g nd force target_path) →
      env.isdir c.nd.fd.path = true)
    (hdir_list : ∀ fd ∈ fresh_listing env g nd force target_path, env.isdir fd.path = true) :
    (∀ n, n ∈ r1.kids.map (fun c => c.nd.fd.name) ↔
      n ∈ listed_names (fresh_listing env g nd force target_path)) ∧
    (∀ c ∈ kids, c.nd.fd.name ∈ listed_names (fresh_listing env g nd force target_path) →
      ∃ c1 ∈ r1.kids, c1.ident = c.ident) ∧
    (∀ n ∈ listed_names (fresh_listing env g nd force target_path),
      (∀ c ∈ kids, c.nd.fd.name ≠ n) →
      ∃ c1 ∈ r1.kids, c1.nd.fd.name = n ∧ g.next_ptr ≤ c1.nd.ptr) ∧
    (∀ c ∈ kids, c.nd.fd.name ∉ listed_names (fresh_listing env g nd force target_path) →
      ∀ c1 ∈ r1.kids, c1.nd.ptr ≠ c.nd.ptr) := by
  cases fuel with
  | zero => simp [populate_row] at h
  | succ fuel =>
    have hread2 : nd.expanded = false ∨
        (env.isdir nd.fd.path = true ∧
          (force = true ∨
            (¬ env.clock g.ticks - nd.last_update < 10 ∧
              env.filetime nd.fd.path ≠ nd.fd.date))) := by
      cases hexp : nd.expanded with
      | false => exact Or.inl rfl
      | true =>
        right
        have hw : force = true ∨
            (¬ env.clock g.ticks - nd.last_update < 10 ∧
              env.filetime nd.fd.path ≠ nd.fd.date) := by
          rcases hread with h1 | h1 | h1
          · rw [hexp] at h1; simp at h1
          · exact Or.inl h1
          · exact Or.inr h1
        refine ⟨?_, hw⟩
        cases hdir : env.isdir nd.fd.path with
        | true => rfl
        | false =>
          have := populate_row_removed fuel env vd_path g nd ve kids force target_path hexp
            (hw.imp id (fun x => x.1)) hdir
          rw [this] at h
          simp at h
    rw [populate_row_merge_eq fuel env vd_path g nd ve kids force target_path hread2] at h
    simp only [Option.map_eq_some', Prod.mk.injEq, Option.some.injEq] at h
    obtain ⟨⟨g4, kids1⟩, hm, -, rfl⟩ := h
    have hmap : ∀ (l : List Row), (l.map Row.ident).map Ident.name =
        l.map (fun c => c.nd.fd.name) := by
      intro l; simp [List.map_map, Function.comp, Row.ident]
    have hmap2 : ∀ (l : List Row), (l.map Row.ident).map Ident.nd_ptr =
        l.map (fun c => c.nd.ptr) := by
      intro l; simp [List.map_map, Function.comp, Row.ident]
    have hg3 : g.next_ptr ≤ (read_listing env
        (before_read { g with ticks := g.ticks + 1 } nd force) nd.fd.path
        target_path).2.next_ptr := by
      have := read_listing_next_ptr env
        (before_read { g with ticks := g.ticks + 1 } nd force) nd.fd.path target_path
      rw [before_read_next_ptr] at this
      exact this
    have hspec := merge_rows_spec
      (populate_row_popok env vd_path fuel false target_path)
      (populate_row_popok env vd_path fuel false vd_path)
      (by rw [hmap]; exact hnames) (by rw [hmap2]; exact hptrs)
      (by
        intro k hk
        obtain ⟨c, hc, rfl⟩ := List.mem_map.mp hk
        exact Nat.lt_of_lt_of_le (hbound c hc) hg3)
      (by
        intro k hk hkn
        obtain ⟨c, hc, rfl⟩ := List.mem_map.mp hk
        exact hdir_kids c hc hkn)
      (fun fd hfd _ => hdir_list fd hfd) hm
    obtain ⟨s1, s2, s3, s4, s5, -, -, -⟩ := hspec
    simp only [Row.kids]
    refine ⟨?_, ?_, ?_, ?_⟩
    · intro n
      constructor
      · intro hn
        obtain ⟨c, hc, rfl⟩ := List.mem_map.mp hn
        exact s1 c.ident (List.mem_map_of_mem _ hc)
      · intro hn
        obtain ⟨x, hx, rfl⟩ := s2 n hn
        obtain ⟨c, hc, rfl⟩ := List.mem_map.mp hx
        exact List.mem_map.mpr ⟨c, hc, rfl⟩
    · intro c hc hcn
      have := s3 c.ident (List.mem_map_of_mem _ hc) hcn
      obtain ⟨c1, hc1, he⟩ := List.mem_map.mp this
      exact ⟨c1, hc1, he⟩
    · intro n hn hno
      obtain ⟨x, hx, rfl⟩ := s2 n hn
      obtain ⟨c1, hc1, rfl⟩ := List.mem_map.mp hx
      refine ⟨c1, hc1, rfl, ?_⟩
      rcases s4 c1.ident hx with h1 | ⟨h1, -⟩
      · obtain ⟨c, hc, he⟩ := List.mem_map.mp h1
        exact absurd (congrArg Ident.name he) (hno c hc)
      · exact Nat.le_trans hg3 h1
    · intro c hc hcn c1 hc1
      exact s5 c.ident (List.mem_map_of_mem _ hc) hcn c1.ident (List.mem_map_of_mem _ hc1)

/-- The amended C1 on the rows `a`, `b`, `c` and the listing `b`, `c`, `d`: the
forced sync leaves the rows `b`, `c`, `d`, with `b` and `c` the rows they were. -/
theorem merge_correct_witness :
    populate_row 2 env_bcd none (g_at 10 0) (Row.mk root_nd true rows_abc) true none =
        some (g_bcd, some root_bcd) ∧
      listed_names (fresh_listing env_bcd (g_at 10 0) root_nd true none) =
        ["b".toList, "c".toList, "d".toList] ∧
      (∀ n, n ∈ root_bcd.kids.map (fun c => c.nd.fd.name) ↔
        n ∈ listed_names (fresh_listing env_bcd (g_at 10 0) root_nd true none)) ∧
      (∀ c ∈ rows_abc,
        c.nd.fd.name ∈ listed_names (fresh_listing env_bcd (g_at 10 0) root_nd true none) →
        ∃ c1 ∈ root_bcd.kids, c1.ident = c.ident) ∧
      (∀ n ∈ listed_names (fresh_listing env_bcd (g_at 10 0) root_nd true none),
        (∀ c ∈ rows_abc, c.nd.fd.name ≠ n) →
        ∃ c1 ∈ root_bcd.kids, c1.nd.fd.name = n ∧ (g_at 10 0).next_ptr ≤ c1.nd.ptr) ∧
      (∀ c ∈ rows_abc,
        c.nd.fd.name ∉ listed_names (fresh_listing env_bcd (g_at 10 0) root_nd true none) →
        ∀ c1 ∈ root_bcd.kids, c1.nd.ptr ≠ c.nd.ptr) :=
  ⟨by decide!, by decide!,
    merge_correct 2 env_bcd none (g_at 10 0) g_bcd root_nd true rows_abc true none root_bcd
      (by decide!) (Or.inr (Or.inl rfl)) (by decide!) (by decide!) (by decide!) (by decide!)
      (by decide!)⟩

/-! ### Properties of all rows below a synced row -/

theorem insert_at_set (p : Nat) (r r1 : Row) (rows : List Row) (hp : p ≤ rows.length) :
    (insert_at p r rows).set p r1 = insert_at p r1 rows := by
  unfold insert_at
  have hl : (List.take p rows).length = p := by simp [List.length_take, hp]
  rw [List.set_append_right _ _ (by omega)]
  simp [hl]

theorem insert_at_eraseIdx (p : Nat) (r : Row) (rows : List Row) (hp : p ≤ rows.length) :
    (insert_at p r rows).eraseIdx p = rows := by
  unfold insert_at
  have hl : (List.take p rows).length = p := by simp [List.length_take, hp]
  rw [List.eraseIdx_append_of_length_le (by omega)]
  simp [hl]

theorem mem_insert_at {p : Nat} {r c : Row} {rows : List Row} :
    c ∈ insert_at p r rows ↔ c = r ∨ c ∈ rows := by
  rw [(insert_at_perm p r rows).mem_iff, List.mem_cons]

/-- The rows after `vdtree_add_by_data`: the new row is placed among the rows, as
it was created or synced at once. -/
theorem vdtree_add_by_data_rows {pop : G → Row → Option (G × Option Row)} {env : Env}
    {g g1 : G} {fd : FileData} {ve : Bool} {rows rows1 : List Row}
    (h : vdtree_add_by_data pop env g fd (some ve) rows = some (g1, rows1)) :
    ∃ child pos, is_new_child g.next_ptr fd child ∧
      ((g1.next_ptr = g.next_ptr + 3 ∧ rows1 = insert_at pos child rows) ∨
       (∃ g2 child1, g2.next_ptr = g.next_ptr + 3 ∧ pop g2 child = some (g1, some child1) ∧
          rows1 = insert_at pos child1 rows) ∨
       (∃ g2, g2.next_ptr = g.next_ptr + 3 ∧ pop g2 child = some (g1, none) ∧ rows1 = rows)) := by
  unfold vdtree_add_by_data at h
  simp only [time, file_data_new_simple] at h
  have hfn : (if ([] : CStr) = ['/'] then ([] : CStr) else filename_from_path []) = [] := by
    simp [filename_from_path]
  rw [hfn] at h
  have hpos : min (env.sort_pos (rows.map (fun r => r.nd.fd.name)) fd.name) rows.length
      ≤ rows.length := Nat.min_le_right _ _
  refine ⟨Row.mk { ptr := g.next_ptr, fd := fd, expanded := false,
                   last_update := env.clock g.ticks } false
      [Row.mk { ptr := g.next_ptr + 1,
                fd := { ptr := g.next_ptr + 2, path := [], name := [],
                        size := ((env.stat_utf8 []).getD (0, 0)).1,
                        date := ((env.stat_utf8 []).getD (0, 0)).2 },
                expanded := true, last_update := 0 } false []],
    min (env.sort_pos (rows.map (fun r => r.nd.fd.name)) fd.name) rows.length,
    ⟨env.clock g.ticks, _, _, rfl⟩, ?_⟩
  split at h
  · split at h
    · simp at h
    · rename_i g4 rows2 b hs
      simp only [Option.some.injEq, Prod.mk.injEq] at h
      obtain ⟨rfl, rfl⟩ := h
      have hget := insert_at_getElem _
        (Row.mk { ptr := g.next_ptr, fd := fd, expanded := false,
                  last_update := env.clock g.ticks } false
          [Row.mk { ptr := g.next_ptr + 1,
                    fd := { ptr := g.next_ptr + 1 + 1, path := [], name := [],
                            size := ((env.stat_utf8 []).getD (0, 0)).1,
                            date := ((env.stat_utf8 []).getD (0, 0)).2 },
                    expanded := true, last_update := 0 } false []]) rows hpos
      rcases sync_at_cases hs hget with ⟨r1, hp, rfl, -⟩ | ⟨hp, rfl, -⟩
      · right; left
        exact ⟨_, r1, rfl, hp, insert_at_set _ _ _ _ hpos⟩
      · right; right
        exact ⟨_, rfl, hp, insert_at_eraseIdx _ _ _ hpos⟩
  · left
    simp only [Option.some.injEq, Prod.mk.injEq] at h
    obtain ⟨rfl, rfl⟩ := h
    exact ⟨rfl, rfl⟩

/-- A property of rows that the syncs called by the merge keep, that does not
depend on the recorded size and date, and that the rows created for the listed
entries have, holds for all rows after the merge if it held for all rows before. -/
theorem merge_rows_forall (Q : Row → Prop) (lo : Nat)
    {pop_child pop_new : G → Row → Option (G × Option Row)} {env : Env} {ve : Bool}
    (hmc : ∀ g r g1 res, pop_child g r = some (g1, res) → g.next_ptr ≤ g1.next_ptr)
    (hmn : ∀ g r g1 res, pop_new g r = some (g1, res) → g.next_ptr ≤ g1.next_ptr)
    (hpc : ∀ g r g1 r1, lo ≤ g.next_ptr → pop_child g r = some (g1, some r1) → Q r → Q r1)
    (hpn : ∀ g r g1 r1, lo ≤ g.next_ptr → pop_new g r = some (g1, some r1) → Q r → Q r1)
    (hssd : ∀ r size date, Q r → Q (r.set_size_date size date))
    {list : List FileData}
    (hfresh : ∀ fd ∈ list, ¬ (fd.name = ['.'] ∨ fd.name = ['.', '.']) →
      ∀ r, is_fresh_child lo fd r → Q r)
    {g g4 : G} {kids kids1 : List Row} (hlo : lo ≤ g.next_ptr) (hk : ∀ c ∈ kids, Q c)
    (h : merge_rows pop_child pop_new env ve list g kids = some (g4, kids1)) :
    ∀ c ∈ kids1, Q c := by
  have hentry : ∀ (fd : FileData) (st st1 : MergeState),
      (¬ (fd.name = ['.'] ∨ fd.name = ['.', '.']) → ∀ r, is_fresh_child lo fd r → Q r) →
      lo ≤ st.g.next_ptr → (∀ c ∈ st.kids, Q c) →
      merge_entry pop_child pop_new env ve st fd = some st1 → ∀ c ∈ st1.kids, Q c := by
    intro fd st st1 hf hlo1 hk1 he
    unfold merge_entry at he
    split at he
    · simp only [Option.some.injEq] at he
      subst he
      exact hk1
    · rename_i hps
      split at he
      · rename_i i hfi
        obtain ⟨c, hci, -⟩ := first_index_some hfi
        simp only [hci] at he
        split at he
        · split at he
          · simp at he
          · rename_i g1 kids2 hs
            rcases sync_at_cases hs hci with ⟨c1, hp, rfl, -⟩ | ⟨-, -, hb⟩
            · simp only [Option.some.injEq] at he
              subst he
              have hlt : i < st.kids.length := (List.getElem?_eq_some_iff.mp hci).1
              have hget : (st.kids.set i c1)[i]? = some c1 := by
                simp [List.getElem?_set, hlt]
              have hQ1 : Q c1 := hpc _ _ _ _ hlo1 hp (hk1 c (List.getElem?_mem hci))
              simp only [hget]
              intro x hx
              rcases List.mem_or_eq_of_mem_set hx with h1 | h1
              · rcases List.mem_or_eq_of_mem_set h1 with h2 | h2
                · exact hk1 x h2
                · exact h2 ▸ hQ1
              · exact h1 ▸ hssd c1 _ _ hQ1
            · simp at hb
          · rename_i g1 kids2 hs
            rcases sync_at_cases hs hci with ⟨c1, -, -, hb⟩ | ⟨-, rfl, -⟩
            · simp at hb
            · simp only [Option.some.injEq] at he
              subst he
              intro x hx
              exact hk1 x (List.mem_of_mem_eraseIdx hx)
        · simp only [Option.some.injEq] at he
          subst he
          exact hk1
      · split at he
        · simp at he
        · rename_i g1 kids2 ha
          simp only [Option.some.injEq] at he
          subst he
          obtain ⟨child, pos, hfc, hcases⟩ := vdtree_add_by_data_rows ha
          have hfc2 : is_fresh_child lo fd child := ⟨_, hlo1, hfc⟩
          have hQc : Q child := hf hps child hfc2
          intro x hx
          simp only at hx
          rcases hcases with ⟨-, rfl⟩ | ⟨g2, child1, hg2, hp, rfl⟩ | ⟨g2, -, -, rfl⟩
          · rcases mem_insert_at.mp hx with rfl | h1
            · exact hQc
            · exact hk1 x h1
          · rcases mem_insert_at.mp hx with rfl | h1
            · exact hpn _ _ _ _ (by omega) hp hQc
            · exact hk1 x h1
          · exact hk1 x hx
  have hloop : ∀ (l : List FileData) (st st1 : MergeState),
      (∀ fd ∈ l, ¬ (fd.name = ['.'] ∨ fd.name = ['.', '.']) → ∀ r, is_fresh_child lo fd r → Q r) →
      lo ≤ st.g.next_ptr → (∀ c ∈ st.kids, Q c) →
      merge_loop pop_child pop_new env ve l st = some st1 → ∀ c ∈ st1.kids, Q c := by
    intro l
    induction l with
    | nil =>
      intro st st1 _ _ hk1 hl
      simp only [merge_loop, Option.some.injEq] at hl
      subst hl
      exact hk1
    | cons fd work ih =>
      intro st st1 hf hlo1 hk1 hl
      simp only [merge_loop] at hl
      split at hl
      · simp at hl
      · rename_i st2 he
        exact ih st2 st1 (fun x hx => hf x (List.mem_cons_of_mem _ hx))
          (Nat.le_trans hlo1 (merge_entry_mono hmc hmn he))
          (hentry fd st st2 (hf fd (List.mem_cons_self _ _)) hlo1 hk1 he) hl
  unfold merge_rows at h
  split at h
  · simp at h
  · rename_i st hl
    simp only [Option.some.injEq] at h
    have hst := hloop list _ st hfresh hlo hk hl
    have hsub : ∀ (old : List NodeData) (g : G) (rows : List Row),
        ∀ c ∈ (stale_loop old g rows).2, c ∈ rows := by
      intro old
      induction old with
      | nil => intro g rows c hc; simpa [stale_loop] using hc
      | cons cnd work ih =>
        intro g rows c hc
        simp only [stale_loop] at hc
        have := ih _ _ c hc
        split at this
        · split at this
          · exact List.mem_of_mem_eraseIdx this
          · exact this
        · exact this
    intro c hc
    have hk2 : kids1 = (stale_loop st.old st.g st.kids).2 := by rw [h]
    rw [hk2] at hc
    exact hst c (hsub _ _ _ c hc)

/-! ### The placeholder invariant and the stability of identities -/

theorem placeholder_inv_iff : ∀ (rows : List Row),
    placeholder_inv rows = true ↔ ∀ c ∈ rows, placeholder_inv_row c = true
  | [] => by simp [placeholder_inv]
  | r :: rs => by
    simp only [placeholder_inv, Bool.and_eq_true, placeholder_inv_iff rs, List.mem_cons,
      forall_eq_or_imp]

theorem placeholder_inv_row_mk (nd : NodeData) (ve : Bool) (kids : List Row) :
    placeholder_inv_row (Row.mk nd ve kids) = true ↔
      (nd.expanded = true ∨ ∃ e, kids = [e] ∧ is_placeholder e = true) ∧
        placeholder_inv kids = true := by
  simp only [placeholder_inv_row, Bool.and_eq_true, Bool.or_eq_true]
  constructor
  · rintro ⟨h1 | h1, h2⟩
    · exact ⟨Or.inl h1, h2⟩
    · refine ⟨Or.inr ?_, h2⟩
      split at h1
      · exact ⟨_, rfl, h1⟩
      · simp at h1
  · rintro ⟨h1 | ⟨e, rfl, he⟩, h2⟩
    · exact ⟨Or.inl h1, h2⟩
    · exact ⟨Or.inr he, h2⟩

theorem placeholder_inv_set_size_date (r : Row) (size date : Int) :
    placeholder_inv_row (r.set_size_date size date) = placeholder_inv_row r := by
  obtain ⟨nd, ve, kids⟩ := r
  simp [Row.set_size_date, placeholder_inv_row]

theorem placeholder_inv_fresh {lo : Nat} {fd : FileData} {r : Row} (h : is_fresh_child lo fd r) :
    placeholder_inv_row r = true := by
  obtain ⟨p, -, t, sz, dt, rfl⟩ := h
  simp [placeholder_inv_row, placeholder_inv, is_placeholder, Row.nd, Row.kids]

/-- A sync keeps the placeholder invariant at and below its row. -/
theorem populate_row_placeholder (env : Env) (vd_path : Option CStr) : ∀ (fuel : Nat) (g : G)
    (r : Row) (force : Bool) (target_path : Option CStr) (g1 : G) (r1 : Row),
    populate_row fuel env vd_path g r force target_path = some (g1, some r1) →
    placeholder_inv_row r = true → placeholder_inv_row r1 = true
  | 0, g, r, force, target_path, g1, r1, h, _ => by
    obtain ⟨nd, ve, kids⟩ := r
    simp [populate_row] at h
  | fuel + 1, g, r, force, target_path, g1, r1, h, hinv => by
    obtain ⟨nd, ve, kids⟩ := r
    rcases populate_row_cases fuel env vd_path g g1 nd ve kids force target_path _ h with
      ⟨-, -, h3⟩ | ⟨-, -, h3, -⟩ | ⟨-, h3, -⟩ | ⟨-, g4, kids1, hm, -, h3⟩
    · simp only [Option.some.injEq] at h3; subst h3; exact hinv
    · simp at h3
    · simp only [Option.some.injEq] at h3; subst h3; exact hinv
    · simp only [Option.some.injEq] at h3
      subst h3
      rw [placeholder_inv_row_mk]
      refine ⟨Or.inl rfl, ?_⟩
      rw [placeholder_inv_iff]
      have hk := (placeholder_inv_iff kids).mp ((placeholder_inv_row_mk nd ve kids).mp hinv).2
      exact merge_rows_forall (fun c => placeholder_inv_row c = true) 0
        (fun g r g1 res hh => populate_row_mono env vd_path fuel g r false target_path g1 res hh)
        (fun g r g1 res hh => populate_row_mono env vd_path fuel g r false vd_path g1 res hh)
        (fun g r g1 r1 _ hh hq =>
          populate_row_placeholder env vd_path fuel g r false target_path g1 r1 hh hq)
        (fun g r g1 r1 _ hh hq =>
          populate_row_placeholder env vd_path fuel g r false vd_path g1 r1 hh hq)
        (fun r size date hq => by simpa only [placeholder_inv_set_size_date] using hq)
        (fun fd _ _ r hr => placeholder_inv_fresh hr) (Nat.zero_le _) hk hm

theorem idents_append : ∀ (a b : List Row), idents (a ++ b) = idents a ++ idents b
  | [], b => by simp [idents]
  | r :: a, b => by simp [idents, idents_append a b]

theorem idents_cons (r : Row) (rs : List Row) : idents (r :: rs) = idents_row r ++ idents rs := by
  simp [idents]

theorem idents_row_mk (nd : NodeData) (ve : Bool) (kids : List Row) :
    idents_row (Row.mk nd ve kids) =
      { nd_ptr := nd.ptr, fd_ptr := nd.fd.ptr, name := nd.fd.name, path := nd.fd.path } ::
        idents kids := by
  simp [idents_row]

theorem mem_idents : ∀ {rows : List Row} {x : Ident},
    x ∈ idents rows ↔ ∃ c ∈ rows, x ∈ idents_row c
  | [], x => by simp [idents]
  | r :: rs, x => by
    simp only [idents_cons, List.mem_append, @mem_idents rs, List.mem_cons,
      exists_eq_or_imp]

theorem idents_row_set_size_date (r : Row) (size date : Int) :
    idents_row (r.set_size_date size date) = idents_row r := by
  obtain ⟨nd, ve, kids⟩ := r
  simp [Row.set_size_date, idents_row]

theorem stamp_entries_ptr : ∀ (es : List DirEntry) (p : Nat) (fd : FileData),
    fd ∈ stamp_entries p es → p ≤ fd.ptr ∧ fd.ptr < p + es.length
  | [], p, fd, h => by simp [stamp_entries] at h
  | e :: es, p, fd, h => by
    simp only [stamp_entries, List.mem_cons] at h
    rcases h with rfl | h
    · simp
    · have := stamp_entries_ptr es (p + 1) fd h
      simp only [List.length_cons]
      omega

/-- The entries of a fresh listing are at addresses that were free before. -/
theorem read_listing_ptr (env : Env) (g : G) (path : CStr) (target_path : Option CStr)
    (fd : FileData) (h : fd ∈ (read_listing env g path target_path).1) :
    g.next_ptr ≤ fd.ptr ∧ fd.ptr < (read_listing env g path target_path).2.next_ptr := by
  unfold read_listing filelist_read at h ⊢
  simp only at h ⊢
  cases hh : hidden_name8 env path target_path with
  | none =>
    simp only [hh] at h ⊢
    exact stamp_entries_ptr _ _ _ h
  | some name8 =>
    simp only [hh] at h ⊢
    cases hst : (env.stat_utf8 name8).isSome with
    | true =>
      simp only [hst, if_true, file_data_new_simple, List.mem_cons] at h ⊢
      rcases h with rfl | h
      · simp
      · have := stamp_entries_ptr _ _ _ h
        omega
    | false =>
      simp only [hst, Bool.false_eq_true, if_false] at h ⊢
      exact stamp_entries_ptr _ _ _ h

/-- Every row at or below a synced row was there before, with the same identity,
or its entry is at an address that was free before the sync. -/
theorem populate_row_idents (env : Env) (vd_path : Option CStr) : ∀ (fuel : Nat) (g : G)
    (r : Row) (force : Bool) (target_path : Option CStr) (g1 : G) (r1 : Row),
    populate_row fuel env vd_path g r force target_path = some (g1, some r1) →
    ∀ x ∈ idents_row r1, x ∈ idents_row r ∨ g.next_ptr ≤ x.fd_ptr
  | 0, g, r, force, target_path, g1, r1, h => by
    obtain ⟨nd, ve, kids⟩ := r
    simp [populate_row] at h
  | fuel + 1, g, r, force, target_path, g1, r1, h => by
    obtain ⟨nd, ve, kids⟩ := r
    rcases populate_row_cases fuel env vd_path g g1 nd ve kids force target_path _ h with
      ⟨-, -, h3⟩ | ⟨-, -, h3, -⟩ | ⟨-, h3, -⟩ | ⟨-, g4, kids1, hm, -, h3⟩
    · simp only [Option.some.injEq] at h3; subst h3; exact fun x hx => Or.inl hx
    · simp at h3
    · simp only [Option.some.injEq] at h3; subst h3; exact fun x hx => Or.inl hx
    · simp only [Option.some.injEq] at h3
      subst h3
      have hg3 : g.next_ptr ≤ (read_listing env
          (before_read { g with ticks := g.ticks + 1 } nd force) nd.fd.path
          target_path).2.next_ptr := by
        have := read_listing_next_ptr env
          (before_read { g with ticks := g.ticks + 1 } nd force) nd.fd.path target_path
        rw [before_read_next_ptr] at this
        exact this
      have hkids := merge_rows_forall
        (fun c => ∀ x ∈ idents_row c, x ∈ idents kids ∨ g.next_ptr ≤ x.fd_ptr) g.next_ptr
        (fun g r g1 res hh => populate_row_mono env vd_path fuel g r false target_path g1 res hh)
        (fun g r g1 res hh => populate_row_mono env vd_path fuel g r false vd_path g1 res hh)
        (fun g2 r g3 r1 hlo hh hq x hx => by
          rcases populate_row_idents env vd_path fuel g2 r false target_path g3 r1 hh x hx with
            h1 | h1
          · exact hq x h1
          · exact Or.inr (Nat.le_trans hlo h1))
        (fun g2 r g3 r1 hlo hh hq x hx => by
          rcases populate_row_idents env vd_path fuel g2 r false vd_path g3 r1 hh x hx with
            h1 | h1
          · exact hq x h1
          · exact Or.inr (Nat.le_trans hlo h1))
        (fun r size date hq => by simpa only [idents_row_set_size_date] using hq)
        (fun fd hfd _ r hr x hx => by
          obtain ⟨p, h3, t, sz, dt, rfl⟩ := hr
          have hfp := (read_listing_ptr env _ _ _ fd hfd).1
          rw [before_read_next_ptr] at hfp
          simp only [idents_row_mk, idents_cons, idents, List.append_nil, List.mem_cons,
            List.mem_singleton, List.not_mem_nil, or_false] at hx
          rcases hx with rfl | rfl
          · exact Or.inr hfp
          · exact Or.inr (by simp only; omega))
        hg3 (fun c hc x hx => Or.inl (mem_idents.mpr ⟨c, hc, hx⟩)) hm
      intro x hx
      rw [idents_row_mk] at hx ⊢
      rcases List.mem_cons.mp hx with rfl | hx
      · exact Or.inl (List.mem_cons_self _ _)
      · obtain ⟨c, hc, hxc⟩ := mem_idents.mp hx
        rcases hkids c hc x hxc with h1 | h1
        · exact Or.inl (List.mem_cons_of_mem _ h1)
        · exact Or.inr h1

/-! ### Distinct addresses -/

theorem addrs_sublist {rows1 rows : List Row} (h : rows1.Sublist rows) :
    (addrs rows1).Sublist (addrs rows) := by
  induction h with
  | slnil => exact List.Sublist.refl _
  | cons r _ ih =>
    rw [addrs_cons]
    exact ih.trans (List.sublist_append_right _ _)
  | cons₂ r _ ih =>
    rw [addrs_cons, addrs_cons]
    exact List.Sublist.append (List.Sublist.refl _) ih

theorem stale_loop_sublist : ∀ (old : List NodeData) (g : G) (rows : List Row),
    (stale_loop old g rows).2.Sublist rows
  | [], g, rows => by simp [stale_loop]
  | cnd :: work, g, rows => by
    simp only [stale_loop]
    refine (stale_loop_sublist work _ _).trans ?_
    split
    · split
      · exact List.eraseIdx_sublist _ _
      · exact List.Sublist.refl _
    · exact List.Sublist.refl _

theorem addrs_row_set_size_date (r : Row) (size date : Int) :
    addrs_row (r.set_size_date size date) = addrs_row r := by
  obtain ⟨nd, ve, kids⟩ := r
  simp [Row.set_size_date, addrs_row]

theorem count_addrs_insert_at (p : Nat) (r : Row) (rows : List Row) (a : Nat) :
    (addrs (insert_at p r rows)).count a = (addrs_row r).count a + (addrs rows).count a := by
  unfold insert_at
  rw [addrs_append, addrs_cons]
  have h := congrArg (fun l => (addrs l).count a) (List.take_append_drop p rows)
  simp only [addrs_append, List.count_append] at h ⊢
  omega

theorem count_addrs_split {rows : List Row} {i : Nat} {c : Row} (h : rows[i]? = some c)
    (a : Nat) :
    (addrs rows).count a = (addrs (rows.eraseIdx i)).count a + (addrs_row c).count a ∧
    ∀ c1, (addrs (rows.set i c1)).count a =
      (addrs (rows.eraseIdx i)).count a + (addrs_row c1).count a := by
  obtain ⟨l1, l2, h1, -, h3, h4⟩ := split_at_index h
  refine ⟨?_, fun c1 => ?_⟩
  · rw [h4, h1]
    simp only [addrs_append, addrs_cons, List.count_append]
    omega
  · rw [h4, h3 c1]
    simp only [addrs_append, addrs_cons, List.count_append]
    omega

theorem count_addrs_new_child {p : Nat} {fd : FileData} {r : Row} (h : is_new_child p fd r)
    (a : Nat) :
    (addrs_row r).count a =
      (if a = p then 1 else 0) + (if a = fd.ptr then 1 else 0) + (if a = p + 1 then 1 else 0) +
        (if a = p + 2 then 1 else 0) := by
  obtain ⟨t, sz, dt, rfl⟩ := h
  simp only [addrs_row_mk, addrs_cons, addrs, List.append_nil, List.count_cons, List.count_nil,
    beq_iff_eq]
  split_ifs <;> omega

/-- One round of the loop over the listing keeps the addresses distinct. -/
theorem merge_entry_addr {pop_child pop_new : G → Row → Option (G × Option Row)} {env : Env}
    {ve : Bool} {nlo : Nat} {kids0 : List Row} {st st1 : MergeState} {fd : FileData}
    {pend : List Nat}
    (hmc : ∀ g r g1 res, pop_child g r = some (g1, res) → g.next_ptr ≤ g1.next_ptr)
    (hmn : ∀ g r g1 res, pop_new g r = some (g1, res) → g.next_ptr ≤ g1.next_ptr)
    (hac : PopAddr pop_child) (han : PopAddr pop_new)
    (hinv : AddrInv nlo kids0 st (fd.ptr :: pend)) (hlo : nlo ≤ st.g.next_ptr)
    (h : merge_entry pop_child pop_new env ve st fd = some st1) :
    AddrInv nlo kids0 st1 pend := by
  have hweak : AddrInv nlo kids0 st pend := by
    intro a
    have := hinv a
    simp only [List.count_cons, beq_iff_eq] at this
    refine ⟨fun _ => ?_, fun _ => ?_, fun _ => ?_⟩ <;> split_ifs at this <;> omega
  unfold merge_entry at h
  split at h
  · simp only [Option.some.injEq] at h
    subst h
    exact hweak
  · split at h
    · rename_i i hfi
      obtain ⟨c, hci, -⟩ := first_index_some hfi
      simp only [hci] at h
      split at h
      · split at h
        · simp at h
        · rename_i g1 kids2 hs
          rcases sync_at_cases hs hci with ⟨c1, hp, rfl, -⟩ | ⟨-, -, hb⟩
          · simp only [Option.some.injEq] at h
            subst h
            have hlt : i < st.kids.length := (List.getElem?_eq_some_iff.mp hci).1
            have hget : (st.kids.set i c1)[i]? = some c1 := by
              simp [List.getElem?_set, hlt]
            have hmono := hmc _ _ _ _ hp
            have hcb : ∀ a, 0 < (addrs_row c).count a → a < st.g.next_ptr := by
              intro a ha
              have h1 := (hweak a).2.2
              have h2 := (count_addrs_split hci a).1
              omega
            have hpa := hac _ _ _ _ hp hcb
            intro a
            simp only [hget]
            have e1 := (count_addrs_split hci a).1
            have e2 := (count_addrs_split hci a).2 (c1.set_size_date fd.size fd.date)
            have e3 : (st.kids.set i c1).set i (c1.set_size_date fd.size fd.date) =
                st.kids.set i (c1.set_size_date fd.size fd.date) := List.set_set _ _ _ _
            rw [e3, e2, addrs_row_set_size_date]
            have h1 := hweak a
            have h2 := hpa a
            simp only at h1 h2 ⊢
            refine ⟨fun _ => ?_, fun _ => ?_, fun _ => ?_⟩ <;> omega
          · simp at hb
        · rename_i g1 kids2 hs
          rcases sync_at_cases hs hci with ⟨c1, -, -, hb⟩ | ⟨hp, rfl, -⟩
          · simp at hb
          · simp only [Option.some.injEq] at h
            subst h
            have hmono := hmc _ _ _ _ hp
            intro a
            have e1 := (count_addrs_split hci a).1
            have h1 := hweak a
            simp only at h1 ⊢
            refine ⟨fun _ => ?_, fun _ => ?_, fun _ => ?_⟩ <;> omega
      · simp only [Option.some.injEq] at h
        subst h
        exact hweak
    · split at h
      · simp at h
      · rename_i g1 kids2 ha
        simp only [Option.some.injEq] at h
        subst h
        obtain ⟨child, pos, hnc, hcases⟩ := vdtree_add_by_data_rows ha
        intro a
        have hc := count_addrs_new_child hnc a
        have h0 := hinv a
        simp only [List.count_cons, beq_iff_eq] at h0
        simp only
        rcases hcases with ⟨hg, rfl⟩ | ⟨g2, child1, hg2, hp, rfl⟩ | ⟨g2, hg2, hp, rfl⟩
        · rw [count_addrs_insert_at, hc, hg]
          refine ⟨fun hh => ?_, fun hh => ?_, fun hh => ?_⟩ <;> split_ifs at h0 hh ⊢ <;> omega
        · have hmono := hmn _ _ _ _ hp
          have hcb : ∀ b, 0 < (addrs_row child).count b → b < g2.next_ptr := by
            intro b hb
            rw [count_addrs_new_child hnc b] at hb
            have hb0 := hinv b
            simp only [List.count_cons, beq_iff_eq] at hb0
            split_ifs at hb hb0 <;> omega
          have hpa := han _ _ _ _ hp hcb a
          rw [count_addrs_insert_at]
          rw [hc] at hpa
          refine ⟨fun _ => ?_, fun _ => ?_, fun _ => ?_⟩ <;> split_ifs at h0 hpa <;> omega
        · have hmono := hmn _ _ _ _ hp
          refine ⟨fun _ => ?_, fun _ => ?_, fun _ => ?_⟩ <;> split_ifs at h0 <;> omega

/-- The loop over the listing keeps the addresses distinct. -/
theorem merge_loop_addr {pop_child pop_new : G → Row → Option (G × Option Row)} {env : Env}
    {ve : Bool} {nlo : Nat} {kids0 : List Row}
    (hmc : ∀ g r g1 res, pop_child g r = some (g1, res) → g.next_ptr ≤ g1.next_ptr)
    (hmn : ∀ g r g1 res, pop_new g r = some (g1, res) → g.next_ptr ≤ g1.next_ptr)
    (hac : PopAddr pop_child) (han : PopAddr pop_new) :
    ∀ (list : List FileData) (st st1 : MergeState),
      AddrInv nlo kids0 st (list.map FileData.ptr) → nlo ≤ st.g.next_ptr →
      merge_loop pop_child pop_new env ve list st = some st1 → AddrInv nlo kids0 st1 []
  | [], st, st1, hinv, _, h => by
    simp only [merge_loop, Option.some.injEq] at h
    subst h
    exact hinv
  | fd :: work, st, st1, hinv, hlo, h => by
    simp only [merge_loop] at h
    split at h
    · simp at h
    · rename_i st2 he
      exact merge_loop_addr hmc hmn hac han work st2 st1
        (merge_entry_addr hmc hmn hac han hinv hlo he)
        (Nat.le_trans hlo (merge_entry_mono hmc hmn he)) h

theorem stamp_entries_map_ptr : ∀ (es : List DirEntry) (p : Nat),
    (stamp_entries p es).map FileData.ptr = List.range' p es.length
  | [], p => by simp [stamp_entries]
  | e :: es, p => by
    simp [stamp_entries, stamp_entries_map_ptr es (p + 1), List.range'_succ]

/-- The entries of a fresh listing are at distinct addresses. -/
theorem read_listing_nodup (env : Env) (g : G) (path : CStr) (target_path : Option CStr) :
    ((read_listing env g path target_path).1.map FileData.ptr).Nodup := by
  unfold read_listing filelist_read
  simp only
  cases hh : hidden_name8 env path target_path with
  | none =>
    simp only [stamp_entries_map_ptr]
    exact List.nodup_range' _ _
  | some name8 =>
    simp only
    cases hst : (env.stat_utf8 name8).isSome with
    | true =>
      simp only [if_true, file_data_new_simple, List.map_cons, List.nodup_cons,
        stamp_entries_map_ptr]
      refine ⟨?_, List.nodup_range' _ _⟩
      simp [List.mem_range']
    | false =>
      simp only [Bool.false_eq_true, if_false, stamp_entries_map_ptr]
      exact List.nodup_range' _ _

/-- A sync keeps the addresses at and below its row distinct. -/
theorem populate_row_addr (env : Env) (vd_path : Option CStr) : ∀ (fuel : Nat) (force : Bool)
    (target_path : Option CStr),
    PopAddr (fun g r => populate_row fuel env vd_path g r force target_path)
  | 0, force, target_path => by
    intro g r g1 r1 h
    obtain ⟨nd, ve, kids⟩ := r
    simp [populate_row] at h
  | fuel + 1, force, target_path => by
    intro g r g1 r1 h hb a
    obtain ⟨nd, ve, kids⟩ := r
    simp only at h
    have hmono := populate_row_mono env vd_path (fuel + 1) g _ force target_path g1 _ h
    rcases populate_row_cases fuel env vd_path g g1 nd ve kids force target_path _ h with
      ⟨-, -, h3⟩ | ⟨-, -, h3, -⟩ | ⟨-, h3, -⟩ | ⟨-, g4, kids1, hm, hg1, h3⟩
    · simp only [Option.some.injEq] at h3
      subst h3
      have := hb a
      refine ⟨fun _ => Nat.le_refl _, fun _ => ?_, fun _ => ?_⟩ <;> omega
    · simp at h3
    · simp only [Option.some.injEq] at h3
      subst h3
      have := hb a
      refine ⟨fun _ => Nat.le_refl _, fun _ => ?_, fun _ => ?_⟩ <;> omega
    · simp only [Option.some.injEq] at h3
      subst h3
      have hmc := fun g r g1 res hh =>
        populate_row_mono env vd_path fuel g r false target_path g1 res hh
      have hmn := fun g r g1 res hh =>
        populate_row_mono env vd_path fuel g r false vd_path g1 res hh
      have hg3 : g.next_ptr ≤ (read_listing env
          (before_read { g with ticks := g.ticks + 1 } nd force) nd.fd.path
          target_path).2.next_ptr := by
        have := read_listing_next_ptr env
          (before_read { g with ticks := g.ticks + 1 } nd force) nd.fd.path target_path
        rw [before_read_next_ptr] at this
        exact this
      unfold merge_rows at hm
      split at hm
      · simp at hm
      · rename_i st hl
        simp only [Option.some.injEq] at hm
        have hinit : AddrInv g.next_ptr kids
            { g := (read_listing env (before_read { g with ticks := g.ticks + 1 } nd force)
                nd.fd.path target_path).2, kids := kids, old := (kids.map Row.nd).reverse }
            ((read_listing env (before_read { g with ticks := g.ticks + 1 } nd force)
                nd.fd.path target_path).1.map FileData.ptr) := by
          intro b
          have hbb := hb b
          rw [addrs_row_mk] at hbb
          simp only [List.count_cons, beq_iff_eq] at hbb
          have hnd := List.nodup_iff_count_le_one.mp (read_listing_nodup env
            (before_read { g with ticks := g.ticks + 1 } nd force) nd.fd.path target_path) b
          have hpend : 0 < List.count b ((read_listing env
              (before_read { g with ticks := g.ticks + 1 } nd force) nd.fd.path
              target_path).1.map FileData.ptr) →
              g.next_ptr ≤ b ∧ b < (read_listing env
                (before_read { g with ticks := g.ticks + 1 } nd force) nd.fd.path
                target_path).2.next_ptr := by
            intro hpos
            obtain ⟨fd, hfd, rfl⟩ := List.mem_map.mp (List.count_pos_iff.mp hpos)
            have := read_listing_ptr env _ _ _ fd hfd
            rw [before_read_next_ptr] at this
            exact this
          simp only
          refine ⟨fun _ => ?_, fun _ => ?_, fun _ => ?_⟩ <;> split_ifs at hbb <;> omega
        have hfin := merge_loop_addr hmc hmn (populate_row_addr env vd_path fuel false target_path)
          (populate_row_addr env vd_path fuel false vd_path) _ _ st hinit hg3 hl a
        simp only [List.count_nil, Nat.add_zero] at hfin
        have hsub := (addrs_sublist (stale_loop_sublist st.old st.g st.kids)).count_le a
        have hk1 : kids1 = (stale_loop st.old st.g st.kids).2 := by rw [hm]
        have hg4 : g4.next_ptr = st.g.next_ptr := by
          rw [← stale_loop_next_ptr st.old st.g st.kids, hm]
        have hbb := hb a
        have hmono2 := merge_loop_mono hmc hmn _ _ _ hl
        simp only at hmono2
        simp only [addrs_row_mk, List.count_cons, beq_iff_eq] at hbb ⊢
        rw [hk1, hg1, vdtree_busy_pop_next_ptr, hg4]
        refine ⟨fun hh => ?_, fun hh => ?_, fun hh => ?_⟩ <;> split_ifs at hbb hh ⊢ <;> omega

/-! ### Syncs inside the store -/

/-- A sync at an iterator is the sync of the row it points to, put back in its
place. -/
theorem sync_iter_eq (pop : G → Row → Option (G × Option Row)) (g : G) :
    ∀ (iter : List Nat) (rows : List Row),
      sync_iter pop iter g rows =
        match row_at rows iter with
        | none => some (g, rows, false)
        | some r =>
          match pop g r with
          | none => none
          | some (g1, res) => some (g1, replace_at iter res rows, res.isSome)
  | [], rows => by simp [sync_iter, row_at]
  | [i], rows => by
    simp only [sync_iter, sync_at, row_at]
    cases hi : rows[i]? with
    | none => rfl
    | some r =>
      simp only
      cases hp : pop g r with
      | none => rfl
      | some res =>
        obtain ⟨g1, o⟩ := res
        cases o <;> rfl
  | i :: j :: rest, rows => by
    simp only [sync_iter, row_at]
    cases hi : rows[i]? with
    | none => rfl
    | some ri =>
      obtain ⟨nd, ve, kids⟩ := ri
      simp only [Row.kids]
      rw [sync_iter_eq pop g (j :: rest) kids]
      cases hr : row_at kids (j :: rest) with
      | none =>
        simp only
        have hlt : i < rows.length := (List.getElem?_eq_some_iff.mp hi).1
        have hset : rows.set i (Row.mk nd ve kids) = rows := by
          apply List.ext_getElem? ; intro k
          by_cases hk : i = k
          · subst hk; simp [List.getElem?_set, hlt, hi]
          · simp [List.getElem?_set, hk]
        rw [hset]
      | some r =>
        simp only
        cases hp : pop g r with
        | none => rfl
        | some res =>
          obtain ⟨g1, o⟩ := res
          simp only [replace_at, hi]

/-- Replacing a row changes the addresses of the store by those of the row. -/
theorem count_addrs_replace_at (a : Nat) (res : Option Row) :
    ∀ (iter : List Nat) (rows : List Row) (r : Row), row_at rows iter = some r →
      (addrs (replace_at iter res rows)).count a + (addrs_row r).count a =
        (addrs rows).count a + (addrs_opt res).count a
  | [], rows, r, h => by simp [row_at] at h
  | [i], rows, r, h => by
    simp only [row_at] at h
    have e := count_addrs_split h a
    cases res with
    | none =>
      simp only [replace_at, addrs_opt, List.count_nil]
      omega
    | some r1 =>
      simp only [replace_at, addrs_opt]
      have := e.2 r1
      omega
  | i :: j :: rest, rows, r, h => by
    simp only [row_at] at h
    cases hi : rows[i]? with
    | none => simp [hi] at h
    | some ri =>
      obtain ⟨nd, ve, kids⟩ := ri
      simp only [hi, Row.kids] at h
      have ih := count_addrs_replace_at a res (j :: rest) kids r h
      have e := count_addrs_split hi a
      have e2 := e.2 (Row.mk nd ve (replace_at (j :: rest) res kids))
      simp only [replace_at, hi]
      simp only [addrs_row_mk, List.count_cons] at e e2
      omega

/-- The rows of the store after a replacement are rows of the store before, or
rows at or below the new row. -/
theorem idents_replace_at (res : Option Row) :
    ∀ (iter : List Nat) (rows : List Row), ∀ x ∈ idents (replace_at iter res rows),
      x ∈ idents rows ∨ ∃ r1, res = some r1 ∧ x ∈ idents_row r1
  | [], rows, x, hx => Or.inl (by simpa [replace_at] using hx)
  | [i], rows, x, hx => by
    cases res with
    | none =>
      simp only [replace_at] at hx
      obtain ⟨c, hc, hxc⟩ := mem_idents.mp hx
      exact Or.inl (mem_idents.mpr ⟨c, List.mem_of_mem_eraseIdx hc, hxc⟩)
    | some r1 =>
      simp only [replace_at] at hx
      obtain ⟨c, hc, hxc⟩ := mem_idents.mp hx
      rcases List.mem_or_eq_of_mem_set hc with h1 | h1
      · exact Or.inl (mem_idents.mpr ⟨c, h1, hxc⟩)
      · exact Or.inr ⟨r1, rfl, h1 ▸ hxc⟩
  | i :: j :: rest, rows, x, hx => by
    simp only [replace_at] at hx
    cases hi : rows[i]? with
    | none =>
      simp only [hi] at hx
      exact Or.inl hx
    | some ri =>
      obtain ⟨nd, ve, kids⟩ := ri
      simp only [hi] at hx
      obtain ⟨c, hc, hxc⟩ := mem_idents.mp hx
      rcases List.mem_or_eq_of_mem_set hc with h1 | h1
      · exact Or.inl (mem_idents.mpr ⟨c, h1, hxc⟩)
      · subst h1
        rw [idents_row_mk] at hxc
        rcases List.mem_cons.mp hxc with h2 | h2
        · refine Or.inl (mem_idents.mpr ⟨Row.mk nd ve kids, List.getElem?_mem hi, ?_⟩)
          rw [idents_row_mk, h2]
          exact List.mem_cons_self _ _
        · rcases idents_replace_at res (j :: rest) kids x h2 with h3 | h3
          · refine Or.inl (mem_idents.mpr ⟨Row.mk nd ve kids, List.getElem?_mem hi, ?_⟩)
            rw [idents_row_mk]
            exact List.mem_cons_of_mem _ h3
          · exact Or.inr h3

/-! ### Rows without the view -/

theorem parts_list_nonempty (path : CStr) : ∀ s ∈ parts_list path, s ≠ [] := by
  intro s hs
  unfold parts_list at hs
  split at hs
  · rename_i strp
    rcases List.mem_cons.mp hs with h | h
    · rw [h]; simp
    · exact (parts_list_loop_segments strp [] [] (by simp) (by simp) s
        (List.mem_reverse.mp h)).1
  · simp at hs

theorem strip_rows_eq_map : ∀ (rows : List Row), strip_rows rows = rows.map strip_row
  | [] => rfl
  | r :: rs => by rw [strip_rows, strip_rows_eq_map rs, List.map_cons]

theorem strip_row_mk (nd : NodeData) (ve : Bool) (kids : List Row) :
    strip_row (Row.mk nd ve kids) = Row.mk nd false (strip_rows kids) := by
  rw [strip_row]

mutual
theorem addrs_row_strip : ∀ (r : Row), addrs_row (strip_row r) = addrs_row r
  | Row.mk nd ve kids => by
    rw [strip_row_mk, addrs_row_mk, addrs_row_mk, addrs_strip kids]
theorem addrs_strip : ∀ (rows : List Row), addrs (strip_rows rows) = addrs rows
  | [] => rfl
  | r :: rs => by
    rw [strip_rows, addrs_cons, addrs_cons, addrs_row_strip r, addrs_strip rs]
end

mutual
theorem idents_row_strip : ∀ (r : Row), idents_row (strip_row r) = idents_row r
  | Row.mk nd ve kids => by
    rw [strip_row_mk, idents_row_mk, idents_row_mk, idents_strip kids]
theorem idents_strip : ∀ (rows : List Row), idents (strip_rows rows) = idents rows
  | [] => rfl
  | r :: rs => by
    rw [strip_rows, idents_cons, idents_cons, idents_row_strip r, idents_strip rs]
end

theorem is_placeholder_strip (r : Row) : is_placeholder (strip_row r) = is_placeholder r := by
  obtain ⟨nd, ve, kids⟩ := r
  rw [strip_row_mk]
  cases kids <;> simp [is_placeholder, Row.nd, Row.kids, strip_rows]

mutual
theorem placeholder_inv_row_strip : ∀ (r : Row),
    placeholder_inv_row (strip_row r) = placeholder_inv_row r
  | Row.mk nd ve kids => by
    rw [Bool.eq_iff_iff, strip_row_mk, placeholder_inv_row_mk, placeholder_inv_row_mk,
      placeholder_inv_strip kids]
    have hk : (∃ e, strip_rows kids = [e] ∧ is_placeholder e = true) ↔
        ∃ e, kids = [e] ∧ is_placeholder e = true := by
      rw [strip_rows_eq_map]
      constructor
      · rintro ⟨e, he, hp⟩
        match kids, he with
        | [a], he =>
          simp only [List.map_cons, List.map_nil, List.cons.injEq, and_true] at he
          subst he
          exact ⟨a, rfl, by rwa [is_placeholder_strip] at hp⟩
      · rintro ⟨e, he, hp⟩
        exact ⟨strip_row e, by simp [he], by rwa [is_placeholder_strip]⟩
    rw [hk]
theorem placeholder_inv_strip : ∀ (rows : List Row),
    placeholder_inv (strip_rows rows) = placeholder_inv rows
  | [] => rfl
  | r :: rs => by
    rw [strip_rows, placeholder_inv, placeholder_inv, placeholder_inv_row_strip r,
      placeholder_inv_strip rs]
end

theorem strip_set_view_expanded (expand : Bool) : ∀ (iter : List Nat) (rows : List Row),
    strip_rows (set_view_expanded expand iter rows) = strip_rows rows
  | [], rows => rfl
  | [i], rows => by
    simp only [set_view_expanded]
    cases hi : rows[i]? with
    | none => rfl
    | some r =>
      obtain ⟨nd, ve, kids⟩ := r
      simp only [strip_rows_eq_map]
      exact map_set_same strip_row hi (by simp only [strip_row_mk])
  | i :: j :: rest, rows => by
    simp only [set_view_expanded]
    cases hi : rows[i]? with
    | none => rfl
    | some r =>
      obtain ⟨nd, ve, kids⟩ := r
      simp only [strip_rows_eq_map]
      refine map_set_same strip_row hi ?_
      rw [strip_row_mk, strip_row_mk, strip_set_view_expanded expand (j :: rest) kids]

theorem strip_row_kids (r : Row) : (strip_row r).kids = strip_rows r.kids := by
  obtain ⟨nd, ve, kids⟩ := r
  rw [strip_row_mk]
  rfl

theorem row_at_strip : ∀ (iter : List Nat) (rows : List Row),
    row_at (strip_rows rows) iter = (row_at rows iter).map strip_row
  | [], rows => by simp [row_at]
  | [i], rows => by simp [row_at, strip_rows_eq_map]
  | i :: j :: rest, rows => by
    simp only [row_at, strip_rows_eq_map, List.getElem?_map]
    cases hi : rows[i]? with
    | none => rfl
    | some r =>
      simp only [Option.map_some']
      rw [strip_row_kids, row_at_strip (j :: rest) r.kids]

/-! ### Rows of the store -/

theorem row_at_nil : ∀ (iter : List Nat), row_at [] iter = none
  | [] => rfl
  | [i] => by simp [row_at]
  | i :: j :: rest => by simp [row_at]

theorem row_at_idents : ∀ (iter : List Nat) (rows : List Row) (r : Row),
    row_at rows iter = some r → ∀ x ∈ idents_row r, x ∈ idents rows
  | [], rows, r, h => by simp [row_at] at h
  | [i], rows, r, h => by
    simp only [row_at] at h
    intro x hx
    exact mem_idents.mpr ⟨r, List.getElem?_mem h, hx⟩
  | i :: j :: rest, rows, r, h => by
    simp only [row_at] at h
    cases hi : rows[i]? with
    | none => simp [hi] at h
    | some ri =>
      simp only [hi] at h
      obtain ⟨nd, ve, kids⟩ := ri
      intro x hx
      refine mem_idents.mpr ⟨_, List.getElem?_mem hi, ?_⟩
      rw [idents_row_mk]
      exact List.mem_cons_of_mem _ (row_at_idents (j :: rest) kids r h x hx)

theorem ident_mem_idents_row (r : Row) : r.ident ∈ idents_row r := by
  obtain ⟨nd, ve, kids⟩ := r
  rw [idents_row_mk]
  exact List.mem_cons_self _ _

mutual
theorem find_row_below_some (fd : Nat) : ∀ (r : Row) (found : List Nat),
    find_row_below fd r = some found →
    ∃ x, row_at r.kids found = some x ∧ x.nd.fd.ptr = fd
  | Row.mk nd ve kids, found, h => by
    rw [find_row_below] at h
    obtain ⟨k, rest, x, h1, h2, h3⟩ := find_row_from_some fd 0 kids found h
    rw [Nat.zero_add] at h1
    exact ⟨x, by rw [h1]; exact h2, h3⟩
theorem find_row_from_some (fd : Nat) : ∀ (i : Nat) (rows : List Row) (found : List Nat),
    find_row_from fd i rows = some found →
    ∃ k rest x, found = (i + k) :: rest ∧ row_at rows (k :: rest) = some x ∧ x.nd.fd.ptr = fd
  | _, [], found, h => by simp [find_row_from] at h
  | i, r :: rs, found, h => by
    rw [find_row_from] at h
    split at h
    · rename_i hp
      simp only [Option.some.injEq] at h
      exact ⟨0, [], r, by simp [h], by simp [row_at], hp⟩
    · split at h
      · rename_i f hf
        simp only [Option.some.injEq] at h
        obtain ⟨x, hx, hp⟩ := find_row_below_some fd r f hf
        cases f with
        | nil => simp [row_at] at hx
        | cons j rest =>
          exact ⟨0, j :: rest, x, by simp [h], by simpa [row_at] using hx, hp⟩
      · obtain ⟨k, rest, x, h1, h2, h3⟩ := find_row_from_some fd (i + 1) rs found h
        refine ⟨k + 1, rest, x, by rw [h1]; congr 1; omega, ?_, h3⟩
        cases rest with
        | nil => simpa [row_at] using h2
        | cons j rest => simpa [row_at] using h2
end

/-- The row that `vdtree_find_row` finds holds the entry. -/
theorem vdtree_find_row_some {store : List Row} {p : Nat} {iter : List Nat}
    (h : vdtree_find_row store (some p) = some iter) :
    ∃ x, row_at store iter = some x ∧ x.nd.fd.ptr = p := by
  simp only [vdtree_find_row] at h
  obtain ⟨k, rest, x, h1, h2, h3⟩ := find_row_from_some p 0 store iter h
  rw [Nat.zero_add] at h1
  exact ⟨x, by rw [h1]; exact h2, h3⟩

mutual
theorem fd_ptrs_sublist_row : ∀ (r : Row),
    ((idents_row r).map Ident.fd_ptr).Sublist (addrs_row r)
  | Row.mk nd ve kids => by
    rw [idents_row_mk, addrs_row_mk, List.map_cons]
    exact ((fd_ptrs_sublist kids).cons₂ _).cons _
theorem fd_ptrs_sublist : ∀ (rows : List Row),
    ((idents rows).map Ident.fd_ptr).Sublist (addrs rows)
  | [] => by simp [idents, addrs]
  | r :: rs => by
    rw [idents_cons, addrs_cons, List.map_append]
    exact (fd_ptrs_sublist_row r).append (fd_ptrs_sublist rs)
end

mutual
theorem idents_nodup_row : ∀ (r : Row), (addrs_row r).Nodup → (idents_row r).Nodup
  | Row.mk nd ve kids, h => by
    rw [idents_row_mk]
    rw [addrs_row_mk] at h
    have h2 := (List.nodup_cons.mp (List.nodup_cons.mp h).2)
    refine List.nodup_cons.mpr ⟨?_, idents_nodup kids h2.2⟩
    intro hm
    apply h2.1
    exact (fd_ptrs_sublist kids).subset (List.mem_map_of_mem Ident.fd_ptr hm)
theorem idents_nodup : ∀ (rows : List Row), (addrs rows).Nodup → (idents rows).Nodup
  | [], _ => by simp [idents]
  | r :: rs, h => by
    rw [idents_cons]
    rw [addrs_cons] at h
    have h1 := List.nodup_append.mp h
    refine List.nodup_append.mpr ⟨idents_nodup_row r h1.1, idents_nodup rs h1.2.1, ?_⟩
    intro x hx hy
    exact h1.2.2 ((fd_ptrs_sublist_row r).subset (List.mem_map_of_mem Ident.fd_ptr hx))
      ((fd_ptrs_sublist rs).subset (List.mem_map_of_mem Ident.fd_ptr hy))
end

/-- With distinct addresses, the address of its entry identifies a row. -/
theorem ident_unique {rows : List Row} (h : (addrs rows).Nodup) {x y : Ident}
    (hx : x ∈ idents rows) (hy : y ∈ idents rows) (he : x.fd_ptr = y.fd_ptr) : x = y := by
  have hn : ((idents rows).map Ident.fd_ptr).Nodup := h.sublist (fd_ptrs_sublist rows)
  exact List.inj_on_of_nodup_map hn hx hy he

theorem fd_ptr_mem_addrs {rows : List Row} {x : Ident} (hx : x ∈ idents rows) :
    x.fd_ptr ∈ addrs rows :=
  (fd_ptrs_sublist rows).subset (List.mem_map_of_mem Ident.fd_ptr hx)

/-! ### The invariants of the store under a sync -/

/-- Below a row that is not expanded there is only the placeholder. -/
theorem row_at_only_placeholder {e : Row} (he : is_placeholder e = true) :
    ∀ (iter : List Nat) (r : Row), row_at [e] iter = some r → is_placeholder r = true
  | [], r, h => by simp [row_at] at h
  | [i], r, h => by
    cases i with
    | zero =>
      simp only [row_at, List.getElem?_cons_zero, Option.some.injEq] at h
      rw [← h]; exact he
    | succ i => simp [row_at] at h
  | i :: j :: rest, r, h => by
    cases i with
    | zero =>
      simp only [row_at, List.getElem?_cons_zero] at h
      have hk : e.kids = [] := by
        obtain ⟨nd, ve, kids⟩ := e
        simp only [is_placeholder, Row.kids, Bool.and_eq_true, List.isEmpty_iff] at he
        exact he.2
      rw [hk, row_at_nil] at h
      simp at h
    | succ i => simp [row_at] at h

/-- The placeholder invariant holds below every row of a store that has it. -/
theorem row_at_placeholder : ∀ (iter : List Nat) (rows : List Row) (r : Row),
    row_at rows iter = some r → placeholder_inv rows = true → placeholder_inv_row r = true
  | [], rows, r, h, _ => by simp [row_at] at h
  | [i], rows, r, h, hinv => by
    simp only [row_at] at h
    exact (placeholder_inv_iff rows).mp hinv r (List.getElem?_mem h)
  | i :: j :: rest, rows, r, h, hinv => by
    simp only [row_at] at h
    cases hi : rows[i]? with
    | none => simp [hi] at h
    | some ri =>
      obtain ⟨nd, ve, kids⟩ := ri
      simp only [hi, Row.kids] at h
      have hri := (placeholder_inv_row_mk nd ve kids).mp
        ((placeholder_inv_iff rows).mp hinv _ (List.getElem?_mem hi))
      exact row_at_placeholder (j :: rest) kids r h hri.2

/-- Replacing a row that is not a placeholder keeps the placeholder invariant. -/
theorem placeholder_inv_replace_at (res : Option Row)
    (hres : ∀ r1, res = some r1 → placeholder_inv_row r1 = true) :
    ∀ (iter : List Nat) (rows : List Row) (r : Row), row_at rows iter = some r →
      is_placeholder r = false → placeholder_inv rows = true →
      placeholder_inv (replace_at iter res rows) = true
  | [], rows, r, h, _, _ => by simp [row_at] at h
  | [i], rows, r, h, _, hinv => by
    rw [placeholder_inv_iff] at hinv ⊢
    cases res with
    | none =>
      intro c hc
      exact hinv c (List.mem_of_mem_eraseIdx hc)
    | some r1 =>
      intro c hc
      rcases List.mem_or_eq_of_mem_set hc with h1 | h1
      · exact hinv c h1
      · rw [h1]; exact hres r1 rfl
  | i :: j :: rest, rows, r, h, hp, hinv => by
    simp only [row_at] at h
    cases hi : rows[i]? with
    | none => simp [hi] at h
    | some ri =>
      obtain ⟨nd, ve, kids⟩ := ri
      simp only [hi, Row.kids] at h
      simp only [replace_at, hi]
      rw [placeholder_inv_iff] at hinv ⊢
      intro c hc
      rcases List.mem_or_eq_of_mem_set hc with h1 | h1
      · exact hinv c h1
      · rw [h1, placeholder_inv_row_mk]
        have hri := (placeholder_inv_row_mk nd ve kids).mp (hinv _ (List.getElem?_mem hi))
        refine ⟨?_, placeholder_inv_replace_at res hres (j :: rest) kids r h hp hri.2⟩
        rcases hri.1 with he | ⟨e, hk, he⟩
        · exact Or.inl he
        · rw [hk] at h
          rw [row_at_only_placeholder he (j :: rest) r h] at hp
          simp at hp

theorem stable_refl (vd : ViewDir) : Stable vd vd :=
  ⟨Nat.le_refl _, fun _ hx => Or.inl hx⟩

theorem stable_trans {a b c : ViewDir} (h1 : Stable a b) (h2 : Stable b c) : Stable a c := by
  refine ⟨Nat.le_trans h1.1 h2.1, fun x hx => ?_⟩
  rcases h2.2 x hx with h | h
  · exact h1.2 x h
  · exact Or.inr (Nat.le_trans h1.1 h)

/-- A sync of a row that is not a placeholder keeps the store well formed. -/
theorem populate_by_iter_ok {fuel : Nat} {env : Env} {vd vd1 : ViewDir} {iter : List Nat}
    {force : Bool} {target_path : Option CStr} {b : Bool}
    (h : vdtree_populate_path_by_iter fuel env vd iter force target_path = some (vd1, b))
    (hok : TreeOK vd) (hp : ∀ r, row_at vd.store iter = some r → is_placeholder r = false) :
    TreeOK vd1 ∧ Stable vd vd1 := by
  unfold vdtree_populate_path_by_iter at h
  rw [sync_iter_eq] at h
  cases hr : row_at vd.store iter with
  | none =>
    simp only [hr, Option.some.injEq, Prod.mk.injEq] at h
    obtain ⟨rfl, -⟩ := h
    exact ⟨hok, stable_refl _⟩
  | some r =>
    simp only [hr] at h
    cases hpop : populate_row fuel env vd.path vd.g r force target_path with
    | none => simp [hpop] at h
    | some out =>
      obtain ⟨g1, res⟩ := out
      simp only [hpop, Option.some.injEq, Prod.mk.injEq] at h
      obtain ⟨rfl, -⟩ := h
      obtain ⟨hpl, hnd, hbd⟩ := hok
      have hmono := populate_row_mono env vd.path fuel vd.g r force target_path g1 res hpop
      have hcnt := fun a => count_addrs_replace_at a res iter vd.store r hr
      have hle1 : ∀ a, (addrs vd.store).count a ≤ 1 := fun a =>
        List.nodup_iff_count_le_one.mp hnd a
      have hbd2 : ∀ a, 0 < (addrs vd.store).count a → a < vd.g.next_ptr := fun a ha =>
        hbd a (List.count_pos_iff.mp ha)
      have hrb : ∀ a, 0 < (addrs_row r).count a → a < vd.g.next_ptr := by
        intro a ha
        apply hbd2
        have := count_addrs_replace_at a none iter vd.store r hr
        simp only [addrs_opt, List.count_nil] at this
        omega
      have hres : ∀ a, (a < vd.g.next_ptr → (addrs_opt res).count a ≤ (addrs_row r).count a) ∧
          (vd.g.next_ptr ≤ a → (addrs_opt res).count a ≤ 1) ∧
          (0 < (addrs_opt res).count a → a < g1.next_ptr) := by
        intro a
        cases res with
        | none => simp [addrs_opt]
        | some r1 =>
          exact populate_row_addr env vd.path fuel force target_path vd.g r g1 r1 hpop hrb a
      refine ⟨⟨?_, ?_, ?_⟩, ?_, ?_⟩
      · apply placeholder_inv_replace_at res ?_ iter vd.store r hr (hp r hr) hpl
        intro r1 hr1
        subst hr1
        have hrow : placeholder_inv_row r = true := by
          have := row_at_placeholder iter vd.store r hr hpl
          exact this
        exact populate_row_placeholder env vd.path fuel vd.g r force target_path g1 r1 hpop hrow
      · show (addrs (replace_at iter res vd.store)).Nodup
        rw [List.nodup_iff_count_le_one]
        intro a
        have h1 := hcnt a
        have h2 := hres a
        have h3 := hle1 a
        have h4 := hbd2 a
        by_cases hlt : a < vd.g.next_ptr
        · have := h2.1 hlt; omega
        · have := h2.2.1 (by omega)
          have : (addrs vd.store).count a = 0 := by
            by_contra hne
            exact hlt (h4 (by omega))
          omega
      · intro a ha
        have ha2 : 0 < (addrs (replace_at iter res vd.store)).count a := List.count_pos_iff.mpr ha
        show a < g1.next_ptr
        have h1 := hcnt a
        have h2 := hres a
        have h4 := hbd2 a
        by_cases hpos : 0 < (addrs_opt res).count a
        · exact h2.2.2 hpos
        · have := h4 (by omega)
          omega
      · exact hmono
      · intro x hx
        rcases idents_replace_at res iter vd.store x hx with h1 | ⟨r1, hr1, h1⟩
        · exact Or.inl h1
        · subst hr1
          rcases populate_row_idents env vd.path fuel vd.g r force target_path g1 r1 hpop x h1
            with h2 | h2
          · exact Or.inl (row_at_idents iter vd.store r hr x h2)
          · exact Or.inr h2

/-! ### The segment walk keeps the store well formed -/

theorem known_stable {vd vd1 : ViewDir} {pd : PathData} (h : Known vd pd)
    (hs : Stable vd vd1) : Known vd1 pd := by
  intro f hf
  obtain ⟨h1, h2⟩ := h f hf
  refine ⟨Nat.lt_of_lt_of_le h1 hs.1, fun x hx he => ?_⟩
  rcases hs.2 x hx with h3 | h3
  · exact h2 x h3 he
  · omega

theorem same_rows_refl (vd : ViewDir) : SameRows vd vd := ⟨rfl, rfl⟩

theorem same_rows_expand (vd : ViewDir) (iter : List Nat) (expand : Bool) :
    SameRows vd (vdtree_expand_by_iter vd iter expand) :=
  ⟨strip_set_view_expanded expand iter vd.store, rfl⟩

theorem same_rows_trans {a b c : ViewDir} (h1 : SameRows a b) (h2 : SameRows b c) :
    SameRows a c := ⟨h2.1.trans h1.1, h2.2.trans h1.2⟩

theorem same_rows_idents {vd vd1 : ViewDir} (h : SameRows vd vd1) :
    idents vd1.store = idents vd.store := by
  rw [← idents_strip vd1.store, h.1, idents_strip]

theorem same_rows_ok {vd vd1 : ViewDir} (h : SameRows vd vd1) (hok : TreeOK vd) :
    TreeOK vd1 := by
  unfold TreeOK
  rw [← placeholder_inv_strip vd1.store, ← addrs_strip vd1.store, h.1, h.2,
    placeholder_inv_strip, addrs_strip]
  exact hok

theorem same_rows_stable {vd vd1 : ViewDir} (h : SameRows vd vd1) : Stable vd vd1 := by
  refine ⟨by rw [h.2], fun x hx => Or.inl ?_⟩
  rwa [same_rows_idents h] at hx

theorem same_rows_placeholder {vd vd1 : ViewDir} (h : SameRows vd vd1) {iter : List Nat}
    {r : Row} (hr : ∀ c, row_at vd.store iter = some c → is_placeholder c = false)
    (h1 : row_at vd1.store iter = some r) : is_placeholder r = false := by
  have e1 := row_at_strip iter vd1.store
  have e2 := row_at_strip iter vd.store
  rw [h.1, e2, h1] at e1
  cases hc : row_at vd.store iter with
  | none => simp [hc] at e1
  | some c =>
    simp only [hc, Option.map_some', Option.some.injEq] at e1
    rw [← is_placeholder_strip r, ← e1, is_placeholder_strip]
    exact hr c hc

theorem not_placeholder_of_name {r : Row} (h : r.nd.fd.name ≠ []) : is_placeholder r = false := by
  obtain ⟨nd, ve, kids⟩ := r
  simp only [Row.nd] at h
  simp [is_placeholder, Row.nd, h]

theorem known_not_placeholder {vd : ViewDir} {pd : PathData} {f : FileData} (h : Known vd pd)
    (hf : pd.node = some f) {iter : List Nat} {r : Row} (hr : row_at vd.store iter = some r)
    (hp : r.nd.fd.ptr = f.ptr) : is_placeholder r = false := by
  apply not_placeholder_of_name
  exact (h f hf).2 r.ident (row_at_idents iter vd.store r hr _ (ident_mem_idents_row r)) hp

theorem known_of_row {vd : ViewDir} (hok : TreeOK vd) {r : Row} (hr : r.ident ∈ idents vd.store)
    (hn : r.nd.fd.name ≠ []) (n : CStr) : Known vd { name := n, node := some r.nd.fd } := by
  intro f hf
  simp only [Option.some.injEq] at hf
  subst hf
  refine ⟨hok.2.2 _ (fd_ptr_mem_addrs hr), fun x hx he => ?_⟩
  rw [ident_unique hok.2.1 hx hr he]
  exact hn

theorem row_at_append : ∀ (iter : List Nat) (rows : List Row) (p c : Row) (j : Nat),
    row_at rows iter = some p → p.kids[j]? = some c → row_at rows (iter ++ [j]) = some c
  | [], rows, p, c, j, h, _ => by simp [row_at] at h
  | [i], rows, p, c, j, h, hc => by
    simp only [row_at] at h
    simp only [List.singleton_append, row_at, h]
    exact hc
  | i :: k :: rest, rows, p, c, j, h, hc => by
    simp only [row_at] at h
    cases hi : rows[i]? with
    | none => simp [hi] at h
    | some ri =>
      simp only [hi] at h
      have ih := row_at_append (k :: rest) ri.kids p c j h hc
      simp only [List.cons_append] at ih ⊢
      cases hrest : rest ++ [j] with
      | nil => simp at hrest
      | cons a b =>
        rw [hrest] at ih
        simp only [row_at, hi]
        exact ih

theorem same_rows_if_expand (expand : Bool) (v : ViewDir) (it : List Nat) :
    SameRows v (if expand = true then vdtree_expand_by_iter v it true else v) := by
  split
  · exact same_rows_expand _ _ _
  · exact same_rows_refl _

theorem same_rows_if_expand2 (expand : Bool) (v : ViewDir) (it1 it2 : List Nat) :
    SameRows v (if expand = true then
      vdtree_expand_by_iter (vdtree_expand_by_iter v it1 true) it2 true else v) := by
  split
  · exact same_rows_trans (same_rows_expand _ _ _) (same_rows_expand _ _ _)
  · exact same_rows_refl _

/-- The segment walk keeps the store well formed, when no resolved segment is a
placeholder and no segment name is empty. -/
theorem populate_path_loop_ok (fuel : Nat) (env : Env) (path : CStr) (expand force : Bool) :
    ∀ (work : List PathData) (vd : ViewDir) (prev : Option PathData) (w : Walk),
      TreeOK vd → (∀ pd ∈ work, Known vd pd ∧ pd.name ≠ []) →
      (∀ pd, prev = some pd → Known vd pd) →
      populate_path_loop fuel env path expand force vd prev work = some w →
      TreeOK w.vd ∧ Stable vd w.vd
  | [], vd, prev, w, hok, _, _, h => by
    simp only [populate_path_loop, Option.some.injEq] at h
    subst h
    exact ⟨hok, stable_refl _⟩
  | pd :: work, vd, prev, w, hok, hw, hprev, h => by
    have hpd := hw pd (List.mem_cons_self _ _)
    have hwork : ∀ vd1, Stable vd vd1 → ∀ q ∈ work, Known vd1 q ∧ q.name ≠ [] :=
      fun vd1 hs q hq =>
        ⟨known_stable (hw q (List.mem_cons_of_mem _ hq)).1 hs,
          (hw q (List.mem_cons_of_mem _ hq)).2⟩
    simp only [populate_path_loop] at h
    cases hnode : pd.node with
    | none =>
      simp only [hnode] at h
      cases prev with
      | none => simp only [Option.some.injEq] at h; subst h; exact ⟨hok, stable_refl _⟩
      | some parent_pd =>
        simp only at h
        cases hpn : parent_pd.node with
        | none =>
          simp only [hpn, Option.map_none', vdtree_find_row, Option.some.injEq] at h
          subst h; exact ⟨hok, stable_refl _⟩
        | some pf =>
          simp only [hpn, Option.map_some'] at h
          cases hfr : vdtree_find_row vd.store (some pf.ptr) with
          | none => simp only [hfr, Option.some.injEq] at h; subst h; exact ⟨hok, stable_refl _⟩
          | some parent_iter =>
            simp only [hfr] at h
            obtain ⟨pr, hpr, hprp⟩ := vdtree_find_row_some hfr
            have hkp := hprev parent_pd rfl
            have hnp : ∀ r, row_at vd.store parent_iter = some r → is_placeholder r = false := by
              intro r hr
              rw [hpr, Option.some.injEq] at hr
              subst hr
              exact known_not_placeholder hkp hpn hpr hprp
            cases hs : vdtree_populate_path_by_iter fuel env vd parent_iter force (some path) with
            | none => simp [hs] at h
            | some out =>
              obtain ⟨vd1, b⟩ := out
              obtain ⟨hok1, hst1⟩ := populate_by_iter_ok hs hok hnp
              cases b with
              | false => simp only [hs, Option.some.injEq] at h; subst h; exact ⟨hok1, hst1⟩
              | true =>
                simp only [hs] at h
                cases hra : row_at vd1.store parent_iter with
                | none => simp only [hra, Option.some.injEq] at h; subst h; exact ⟨hok1, hst1⟩
                | some parent =>
                  simp only [hra] at h
                  cases hfn : vdtree_find_iter_by_name parent.kids pd.name with
                  | none =>
                    simp only [hfn, Option.some.injEq] at h; subst h; exact ⟨hok1, hst1⟩
                  | some j =>
                    simp only [hfn] at h
                    cases hc : parent.kids[j]? with
                    | none =>
                      simp only [hc, Option.some.injEq] at h; subst h; exact ⟨hok1, hst1⟩
                    | some c =>
                      simp only [hc] at h
                      obtain ⟨c2, hc2, hname⟩ := first_index_some hfn
                      rw [hc, Option.some.injEq] at hc2
                      subst hc2
                      simp only [decide_eq_true_eq] at hname
                      have hcn : c.nd.fd.name ≠ [] := by rw [hname]; exact hpd.2
                      have hrc := row_at_append parent_iter vd1.store parent c j hra hc
                      have hsr := same_rows_if_expand2 expand vd1 parent_iter (parent_iter ++ [j])
                      have hok2 := same_rows_ok hsr hok1
                      have hst2 := same_rows_stable hsr
                      have hnp2 : ∀ r, row_at
                          (if expand = true then
                            vdtree_expand_by_iter (vdtree_expand_by_iter vd1 parent_iter true)
                              (parent_iter ++ [j]) true
                          else vd1).store (parent_iter ++ [j]) = some r →
                          is_placeholder r = false := by
                        intro r hr
                        refine same_rows_placeholder hsr ?_ hr
                        intro c3 hc3
                        rw [hrc, Option.some.injEq] at hc3
                        subst hc3
                        exact not_placeholder_of_name hcn
                      cases hs2 : vdtree_populate_path_by_iter fuel env
                          (if expand = true then
                            vdtree_expand_by_iter (vdtree_expand_by_iter vd1 parent_iter true)
                              (parent_iter ++ [j]) true
                          else vd1) (parent_iter ++ [j]) force (some path) with
                      | none => simp [hs2] at h
                      | some out2 =>
                        obtain ⟨vd3, b3⟩ := out2
                        simp only [hs2] at h
                        obtain ⟨hok3, hst3⟩ := populate_by_iter_ok hs2 hok2 hnp2
                        have hst13 := stable_trans hst2 hst3
                        have hst03 := stable_trans hst1 hst13
                        have hk1 : Known vd1 { name := pd.name, node := some c.nd.fd } :=
                          known_of_row hok1
                            (row_at_idents _ _ _ hrc _ (ident_mem_idents_row c)) hcn pd.name
                        have ih := populate_path_loop_ok fuel env path expand force work vd3 _ w
                          hok3 (hwork vd3 hst03)
                          (fun q hq => by
                            simp only [Option.some.injEq] at hq
                            subst hq
                            exact known_stable hk1 hst13) h
                        exact ⟨ih.1, stable_trans hst03 ih.2⟩
    | some fd =>
      simp only [hnode] at h
      cases hfr : vdtree_find_row vd.store (some fd.ptr) with
      | none =>
        simp only [hfr] at h
        exact populate_path_loop_ok fuel env path expand force work vd _ w hok
          (hwork vd (stable_refl _))
          (fun q hq => by
            simp only [Option.some.injEq] at hq
            subst hq
            exact hpd.1) h
      | some iter =>
        simp only [hfr] at h
        obtain ⟨r, hr, hrp⟩ := vdtree_find_row_some hfr
        have hsr := same_rows_if_expand expand vd iter
        have hok1 := same_rows_ok hsr hok
        have hst1 := same_rows_stable hsr
        have hnp : ∀ r, row_at
            (if expand = true then vdtree_expand_by_iter vd iter true else vd).store iter =
              some r → is_placeholder r = false := by
          intro r1 hr1
          refine same_rows_placeholder hsr ?_ hr1
          intro c3 hc3
          exact known_not_placeholder hpd.1 hnode hc3 (by
            rw [hr, Option.some.injEq] at hc3
            subst hc3
            exact hrp)
        cases hs : vdtree_populate_path_by_iter fuel env
            (if expand = true then vdtree_expand_by_iter vd iter true else vd) iter force
            (some path) with
        | none => simp [hs] at h
        | some out =>
          obtain ⟨vd2, b⟩ := out
          simp only [hs] at h
          obtain ⟨hok2, hst2⟩ := populate_by_iter_ok hs hok1 hnp
          have hst02 := stable_trans hst1 hst2
          have ih := populate_path_loop_ok fuel env path expand force work vd2 _ w hok2
            (hwork vd2 hst02)
            (fun q hq => by
              simp only [Option.some.injEq] at hq
              subst hq
              exact known_stable hpd.1 hst02) h
          exact ⟨ih.1, stable_trans hst02 ih.2⟩

/-- The segments resolved on the store are names of its rows. -/
theorem add_node_points_known {vd : ViewDir} (hok : TreeOK vd) :
    ∀ (names : List CStr) (rows : List Row),
      (∀ r ∈ rows, ∀ x ∈ idents_row r, x ∈ idents vd.store) → (∀ n ∈ names, n ≠ []) →
      ∀ pd ∈ add_node_points_loop rows names, Known vd pd ∧ pd.name ≠ []
  | [], rows, _, _, pd, hpd => by simp [add_node_points_loop] at hpd
  | name :: work, rows, hrows, hn, pd, hpd => by
    have hne : name ≠ [] := hn name (List.mem_cons_self _ _)
    have hn2 : ∀ n ∈ work, n ≠ [] := fun n h => hn n (List.mem_cons_of_mem _ h)
    simp only [add_node_points_loop] at hpd
    cases hf : rows.find? (fun r => decide (r.nd.fd.name = name)) with
    | none =>
      simp only [hf, List.mem_cons] at hpd
      rcases hpd with h | h
      · subst h
        exact ⟨fun f hf2 => by simp at hf2, hne⟩
      · exact add_node_points_known hok work [] (by simp) hn2 pd h
    | some r =>
      simp only [hf, List.mem_cons] at hpd
      have hr := List.mem_of_find?_eq_some hf
      have hrn : r.nd.fd.name = name := by simpa using List.find?_some hf
      rcases hpd with h | h
      · subst h
        exact ⟨known_of_row hok (hrows r hr _ (ident_mem_idents_row r)) (by rw [hrn]; exact hne)
          name, hne⟩
      · refine add_node_points_known hok work r.kids ?_ hn2 pd h
        intro c hc x hx
        apply hrows r hr
        obtain ⟨nd, ve, kids⟩ := r
        rw [idents_row_mk]
        exact List.mem_cons_of_mem _ (mem_idents.mpr ⟨c, hc, hx⟩)

theorem tree_ok_g {vd : ViewDir} (hok : TreeOK vd) (g : G) (hg : g.next_ptr = vd.g.next_ptr) :
    TreeOK { vd with g := g } := by
  obtain ⟨h1, h2, h3⟩ := hok
  exact ⟨h1, h2, fun a ha => by rw [hg]; exact h3 a ha⟩

/-- Materialisation keeps the store well formed. -/
theorem populate_path_ok {fuel : Nat} {env : Env} {vd vd1 : ViewDir} {path : Option CStr}
    {expand force : Bool} {res : Option FileData}
    (h : vdtree_populate_path fuel env vd path expand force = some (vd1, res))
    (hok : TreeOK vd) : TreeOK vd1 ∧ Stable vd vd1 := by
  unfold vdtree_populate_path at h
  cases path with
  | none =>
    simp only [Option.some.injEq, Prod.mk.injEq] at h
    obtain ⟨rfl, -⟩ := h
    exact ⟨hok, stable_refl _⟩
  | some p =>
    simp only at h
    have hok0 : TreeOK { vd with g := vdtree_busy_push vd.g } :=
      tree_ok_g hok _ (vdtree_busy_push_next_ptr vd.g)
    have hst0 : Stable vd { vd with g := vdtree_busy_push vd.g } :=
      ⟨by simp [vdtree_busy_push_next_ptr], fun x hx => Or.inl hx⟩
    have hlist := add_node_points_known hok0 (parts_list p) vd.store
      (fun r hr x hx => mem_idents.mpr ⟨r, hr, hx⟩) (parts_list_nonempty p)
    cases hl : populate_path_loop fuel env p expand force { vd with g := vdtree_busy_push vd.g }
        none (parts_list_add_node_points { vd with g := vdtree_busy_push vd.g } (parts_list p)) with
    | none => simp [hl] at h
    | some w =>
      have hw := populate_path_loop_ok fuel env p expand force _ _ _ w hok0 hlist
        (fun q hq => by simp at hq) hl
      have hfin : ∀ v : ViewDir, TreeOK v → Stable vd v →
          TreeOK { v with g := vdtree_busy_pop v.g } ∧
            Stable vd { v with g := vdtree_busy_pop v.g } := by
        intro v hv hs
        refine ⟨tree_ok_g hv _ (vdtree_busy_pop_next_ptr v.g), ?_, fun x hx => hs.2 x hx⟩
        show vd.g.next_ptr ≤ (vdtree_busy_pop v.g).next_ptr
        rw [vdtree_busy_pop_next_ptr]
        exact hs.1
      cases w with
      | aborted vd2 =>
        simp only [hl, Option.some.injEq, Prod.mk.injEq] at h
        obtain ⟨rfl, -⟩ := h
        exact hfin vd2 hw.1 (stable_trans hst0 hw.2)
      | done vd2 last =>
        simp only [hl, Option.some.injEq, Prod.mk.injEq] at h
        obtain ⟨rfl, -⟩ := h
        exact hfin vd2 hw.1 (stable_trans hst0 hw.2)

/-! ### The states reached from the root -/

theorem vdtree_add_by_data_top {pop : G → Row → Option (G × Option Row)} {env : Env}
    {g g1 : G} {fd : FileData} {rows rows1 : List Row}
    (h : vdtree_add_by_data pop env g fd none rows = some (g1, rows1)) :
    ∃ child pos, is_new_child g.next_ptr fd child ∧ g1.next_ptr = g.next_ptr + 3 ∧
      rows1 = insert_at pos child rows := by
  unfold vdtree_add_by_data at h
  simp only [time, file_data_new_simple] at h
  have hfn : (if ([] : CStr) = ['/'] then ([] : CStr) else filename_from_path []) = [] := by
    simp [filename_from_path]
  rw [hfn] at h
  simp only [Option.some.injEq, Prod.mk.injEq] at h
  obtain ⟨rfl, rfl⟩ := h
  exact ⟨_, _, ⟨env.clock g.ticks, _, _, rfl⟩, rfl, rfl⟩

theorem idents_new_child {p : Nat} {fd : FileData} {r : Row} (h : is_new_child p fd r) :
    ∀ x ∈ idents_row r, x.fd_ptr = fd.ptr ∨ x.fd_ptr = p + 2 := by
  obtain ⟨t, sz, dt, rfl⟩ := h
  intro x hx
  simp only [idents_row_mk, idents_cons, idents, List.append_nil, List.mem_cons,
    List.mem_singleton, List.not_mem_nil, or_false] at hx
  rcases hx with rfl | rfl
  · exact Or.inl rfl
  · exact Or.inr rfl

/-- A new row without parent for a new entry keeps the store well formed. -/
theorem add_top_ok {pop : G → Row → Option (G × Option Row)} {env : Env} {vd : ViewDir}
    {path : CStr} {g2 : G} {store1 : List Row} (hok : TreeOK vd)
    (h : vdtree_add_by_data pop env (file_data_new_simple env vd.g path).2
      (file_data_new_simple env vd.g path).1 none vd.store = some (g2, store1)) :
    TreeOK { vd with g := g2, store := store1 } ∧
      Stable vd { vd with g := g2, store := store1 } := by
  obtain ⟨child, pos, hc, hg, rfl⟩ := vdtree_add_by_data_top h
  have hp : (file_data_new_simple env vd.g path).2.next_ptr = vd.g.next_ptr + 1 := rfl
  have hf : (file_data_new_simple env vd.g path).1.ptr = vd.g.next_ptr := rfl
  obtain ⟨hpl, hnd, hbd⟩ := hok
  have hcnt := fun a => count_addrs_insert_at pos child vd.store a
  have hch := fun a => count_addrs_new_child hc a
  have hle1 : ∀ a, (addrs vd.store).count a ≤ 1 := fun a =>
    List.nodup_iff_count_le_one.mp hnd a
  have hbd2 : ∀ a, 0 < (addrs vd.store).count a → a < vd.g.next_ptr := fun a ha =>
    hbd a (List.count_pos_iff.mp ha)
  refine ⟨⟨?_, ?_, ?_⟩, ?_, ?_⟩
  · show placeholder_inv (insert_at pos child vd.store) = true
    rw [placeholder_inv_iff] at hpl ⊢
    intro c hcm
    rcases mem_insert_at.mp hcm with h1 | h1
    · rw [h1]; exact placeholder_inv_fresh ⟨_, Nat.le_refl _, hc⟩
    · exact hpl c h1
  · show (addrs (insert_at pos child vd.store)).Nodup
    rw [List.nodup_iff_count_le_one]
    intro a
    have h1 := hcnt a
    have h2 := hch a
    have h3 := hle1 a
    have h4 := hbd2 a
    rw [hp, hf] at h2
    split_ifs at h2 <;> omega
  · intro a ha
    have ha2 : 0 < (addrs (insert_at pos child vd.store)).count a := List.count_pos_iff.mpr ha
    show a < g2.next_ptr
    have h1 := hcnt a
    have h2 := hch a
    have h4 := hbd2 a
    rw [hp, hf] at h2
    rw [hg, hp]
    split_ifs at h2 <;> omega
  · show vd.g.next_ptr ≤ g2.next_ptr
    rw [hg, hp]; omega
  · intro x hx
    obtain ⟨c, hcm, hxc⟩ := mem_idents.mp hx
    rcases mem_insert_at.mp hcm with h1 | h1
    · subst h1
      right
      rcases idents_new_child hc x hxc with h2 | h2
      · rw [h2, hf]
      · rw [h2, hp]; omega
    · exact Or.inl (mem_idents.mpr ⟨c, h1, hxc⟩)

theorem same_rows_expand_by_data (vd : ViewDir) (fd : Option Nat) (expand : Bool) :
    SameRows vd (vdtree_expand_by_data vd fd expand) := by
  unfold vdtree_expand_by_data
  split
  · exact same_rows_expand _ _ _
  · exact same_rows_refl _

/-- Setting up the root keeps the store well formed. -/
theorem setup_root_ok {fuel : Nat} {env : Env} {vd vd1 : ViewDir} (hok : TreeOK vd)
    (h : vdtree_setup_root fuel env vd = some vd1) : TreeOK vd1 := by
  unfold vdtree_setup_root at h
  simp only at h
  cases ha : vdtree_add_by_data (fun g r => populate_row fuel env vd.path g r false vd.path) env
      (file_data_new_simple env vd.g ['/']).2 (file_data_new_simple env vd.g ['/']).1 none
      vd.store with
  | none => simp [ha] at h
  | some out =>
    obtain ⟨g2, store1⟩ := out
    simp only [ha, Option.map_eq_some', Prod.exists, exists_and_right, exists_eq_right] at h
    obtain ⟨res, h⟩ := h
    have h1 := (add_top_ok hok ha).1
    have h2 := same_rows_ok (same_rows_expand_by_data _
      (some (file_data_new_simple env vd.g ['/']).1.ptr) true) h1
    exact (populate_path_ok h h2).1

theorem tree_ok_empty (select_func : Bool) : TreeOK (vdtree_empty select_func) := by
  refine ⟨rfl, ?_, ?_⟩
  · simp [vdtree_empty, addrs]
  · simp [vdtree_empty, addrs]

/-- Every state reached from the root is well formed. -/
theorem reachable_ok {vd : ViewDir} (h : Reachable vd) : TreeOK vd := by
  induction h with
  | setup_root fuel env select_func vd h => exact setup_root_ok (tree_ok_empty _) h
  | add_by_data fuel env vd path g2 store1 _ h ih => exact (add_top_ok ih h).1
  | populate_path_by_iter fuel env vd iter force target_path vd1 b _ hp h ih =>
    exact (populate_by_iter_ok h ih hp).1
  | populate_path fuel env vd path expand force vd1 res _ h ih => exact (populate_path_ok h ih).1
  | expand vd iter expand _ ih => exact same_rows_ok (same_rows_expand _ _ _) ih
  | set_path vd path _ ih => exact ih
  | set_targets vd click_fd drop_fd _ ih => exact ih

/-! ### The depth of the recursion -/

theorem safe_mono : ∀ (E E1 : Nat) (r : Row), Safe E r → E ≤ E1 → Safe E1 r
  | 0, _, _, h, _ => by simp [Safe] at h
  | E + 1, 0, _, _, hle => by omega
  | E + 1, E1 + 1, r, h, hle => by
    simp only [Safe] at h ⊢
    exact ⟨fun hv => Nat.le_trans (h.1 hv) (by omega),
      fun k hk he => safe_mono E E1 k (h.2 k hk he) (by omega)⟩

theorem safe_set_size_date (E : Nat) (r : Row) (size date : Int) (h : Safe E r) :
    Safe E (r.set_size_date size date) := by
  obtain ⟨nd, ve, kids⟩ := r
  cases E with
  | zero => simp [Safe] at h
  | succ E => exact h

theorem safe_new_child {p : Nat} {fd : FileData} {r : Row} (h : is_new_child p fd r) :
    Safe 2 r := by
  obtain ⟨t, sz, dt, rfl⟩ := h
  simp [Safe, Row.view_expanded, Row.kids, Row.nd]

theorem sync_at_total {pop : G → Row → Option (G × Option Row)} {g : G} {rows : List Row}
    {i : Nat} (h : ∀ r, rows[i]? = some r → (pop g r).isSome = true) :
    (sync_at pop g rows i).isSome = true := by
  unfold sync_at
  cases hi : rows[i]? with
  | none => rfl
  | some r =>
    have := h r hi
    cases hp : pop g r with
    | none => simp [hp] at this
    | some out =>
      obtain ⟨g1, o⟩ := out
      cases o <;> simp [hp]

theorem vdtree_add_by_data_total {pop : G → Row → Option (G × Option Row)} {env : Env} {g : G}
    {fd : FileData} {ve : Bool} {rows : List Row}
    (h : ve = true → ∀ g2 child, is_new_child g.next_ptr fd child → (pop g2 child).isSome = true) :
    (vdtree_add_by_data pop env g fd (some ve) rows).isSome = true := by
  unfold vdtree_add_by_data
  simp only [time, file_data_new_simple]
  have hfn : (if ([] : CStr) = ['/'] then ([] : CStr) else filename_from_path []) = [] := by
    simp [filename_from_path]
  rw [hfn]
  have hpos : min (env.sort_pos (rows.map (fun r => r.nd.fd.name)) fd.name) rows.length
      ≤ rows.length := Nat.min_le_right _ _
  split
  · rename_i hc
    simp only [Bool.and_eq_true] at hc
    have hs := @sync_at_total pop
      { click_fd := g.click_fd, drop_fd := g.drop_fd, busy_ref := g.busy_ref, cursor := g.cursor,
        next_ptr := g.next_ptr + 1 + 1 + 1, ticks := g.ticks + 1, trace := g.trace }
      (insert_at (min (env.sort_pos (rows.map (fun r => r.nd.fd.name)) fd.name) rows.length)
        (Row.mk { ptr := g.next_ptr, fd := fd, expanded := false,
                  last_update := env.clock g.ticks } false
          [Row.mk { ptr := g.next_ptr + 1,
                    fd := { ptr := g.next_ptr + 1 + 1, path := [], name := [],
                            size := ((env.stat_utf8 []).getD (0, 0)).1,
                            date := ((env.stat_utf8 []).getD (0, 0)).2 },
                    expanded := true, last_update := 0 } false []]) rows)
      (min (env.sort_pos (rows.map (fun r => r.nd.fd.name)) fd.name) rows.length)
      (by
        intro r hr
        rw [insert_at_getElem _ _ _ hpos, Option.some.injEq] at hr
        subst hr
        exact h hc.1.2 _ _ ⟨env.clock g.ticks, _, _, rfl⟩)
    cases hsa : sync_at pop _ _ _ with
    | none => rw [hsa] at hs; simp at hs
    | some out => rfl
  · rfl

theorem vdtree_add_by_data_no_sync {pop : G → Row → Option (G × Option Row)} {env : Env}
    {g g1 : G} {fd : FileData} {rows rows1 : List Row}
    (h : vdtree_add_by_data pop env g fd (some false) rows = some (g1, rows1)) :
    ∃ child pos, is_new_child g.next_ptr fd child ∧ rows1 = insert_at pos child rows := by
  unfold vdtree_add_by_data at h
  simp only [time, file_data_new_simple] at h
  have hfn : (if ([] : CStr) = ['/'] then ([] : CStr) else filename_from_path []) = [] := by
    simp [filename_from_path]
  rw [hfn] at h
  simp only [Bool.and_false, Bool.false_and, Bool.false_eq_true, if_false, Option.some.injEq,
    Prod.mk.injEq] at h
  obtain ⟨-, rfl⟩ := h
  exact ⟨_, _, ⟨env.clock g.ticks, _, _, rfl⟩, rfl⟩

/-- One round of the loop over the listing has a result when the syncs it calls
have one, and keeps the depth that suffices for the expanded rows. -/
theorem merge_entry_safe {pop_child pop_new : G → Row → Option (G × Option Row)} {env : Env}
    {ve : Bool} (E : Nat)
    (hpc : ∀ g r, r.nd.expanded = true → Safe E r →
      ∃ g1 res, pop_child g r = some (g1, res) ∧ ∀ r1, res = some r1 → Safe E r1)
    (hpn : ve = true → ∀ g r, Safe 2 r →
      ∃ g1 res, pop_new g r = some (g1, res) ∧ ∀ r1, res = some r1 → Safe E r1)
    (st : MergeState) (fd : FileData)
    (hk : ∀ c ∈ st.kids, c.nd.expanded = true → Safe E c) :
    ∃ st1, merge_entry pop_child pop_new env ve st fd = some st1 ∧
      ∀ c ∈ st1.kids, c.nd.expanded = true → Safe E c := by
  unfold merge_entry
  split
  · exact ⟨st, rfl, hk⟩
  · cases hfi : vdtree_find_iter_by_name st.kids fd.name with
    | some i =>
      obtain ⟨c, hci, -⟩ := first_index_some hfi
      simp only [hci]
      split
      · rename_i hce
        simp only [Bool.and_eq_true] at hce
        have hcm := List.getElem?_mem hci
        obtain ⟨g1, res, hp, hsafe⟩ := hpc st.g c hce.1 (hk c hcm hce.1)
        cases hs : sync_at pop_child st.g st.kids i with
        | none =>
          have := @sync_at_total pop_child st.g st.kids i (fun r hr => by
            rw [hci, Option.some.injEq] at hr
            subst hr
            simp [hp])
          rw [hs] at this
          simp at this
        | some out =>
          obtain ⟨g2, kids2, b⟩ := out
          rcases sync_at_cases hs hci with ⟨c1, hp1, rfl, rfl⟩ | ⟨hp1, rfl, rfl⟩
          · rw [hp] at hp1
            simp only [Option.some.injEq, Prod.mk.injEq] at hp1
            obtain ⟨rfl, rfl⟩ := hp1
            have hs1 : Safe E c1 := hsafe c1 rfl
            refine ⟨_, rfl, ?_⟩
            have hlt : i < st.kids.length := (List.getElem?_eq_some_iff.mp hci).1
            have hget : (st.kids.set i c1)[i]? = some c1 := by
              simp [List.getElem?_set, hlt]
            simp only [hget]
            intro x hx hxe
            rcases List.mem_or_eq_of_mem_set hx with h1 | h1
            · rcases List.mem_or_eq_of_mem_set h1 with h2 | h2
              · exact hk x h2 hxe
              · exact h2 ▸ hs1
            · exact h1 ▸ safe_set_size_date E c1 _ _ hs1
          · refine ⟨_, rfl, ?_⟩
            intro x hx hxe
            exact hk x (List.mem_of_mem_eraseIdx hx) hxe
      · exact ⟨_, rfl, hk⟩
    | none =>
      simp only
      have htot := @vdtree_add_by_data_total pop_new env st.g fd ve st.kids (by
        intro hve g2 child hc
        obtain ⟨g1, res, hp, -⟩ := hpn hve g2 child (safe_new_child hc)
        simp [hp])
      cases ha : vdtree_add_by_data pop_new env st.g fd (some ve) st.kids with
      | none => rw [ha] at htot; simp at htot
      | some out =>
        obtain ⟨g1, kids1⟩ := out
        refine ⟨_, rfl, ?_⟩
        obtain ⟨child, pos, hfc, hcases⟩ := vdtree_add_by_data_rows ha
        have hcu : child.nd.expanded = false := by
          obtain ⟨t, sz, dt, rfl⟩ := hfc
          rfl
        intro x hx hxe
        simp only at hx
        cases ve with
        | false =>
          obtain ⟨child2, pos2, hfc2, rfl⟩ := vdtree_add_by_data_no_sync ha
          have hcu2 : child2.nd.expanded = false := by
            obtain ⟨t, sz, dt, rfl⟩ := hfc2
            rfl
          rcases mem_insert_at.mp hx with rfl | h1
          · rw [hcu2] at hxe; simp at hxe
          · exact hk x h1 hxe
        | true =>
        rcases hcases with ⟨-, rfl⟩ | ⟨g2, child1, hg2, hp, rfl⟩ | ⟨g2, -, -, rfl⟩
        · rcases mem_insert_at.mp hx with rfl | h1
          · rw [hcu] at hxe; simp at hxe
          · exact hk x h1 hxe
        · rcases mem_insert_at.mp hx with rfl | h1
          · obtain ⟨g1b, res, hp2, hsafe⟩ := hpn rfl g2 child (safe_new_child hfc)
            rw [hp] at hp2
            simp only [Option.some.injEq, Prod.mk.injEq] at hp2
            obtain ⟨rfl, rfl⟩ := hp2
            exact hsafe _ rfl
          · exact hk x h1 hxe
        · exact hk x hx hxe

theorem merge_loop_safe {pop_child pop_new : G → Row → Option (G × Option Row)} {env : Env}
    {ve : Bool} (E : Nat)
    (hpc : ∀ g r, r.nd.expanded = true → Safe E r →
      ∃ g1 res, pop_child g r = some (g1, res) ∧ ∀ r1, res = some r1 → Safe E r1)
    (hpn : ve = true → ∀ g r, Safe 2 r →
      ∃ g1 res, pop_new g r = some (g1, res) ∧ ∀ r1, res = some r1 → Safe E r1) :
    ∀ (list : List FileData) (st : MergeState),
      (∀ c ∈ st.kids, c.nd.expanded = true → Safe E c) →
      ∃ st1, merge_loop pop_child pop_new env ve list st = some st1 ∧
        ∀ c ∈ st1.kids, c.nd.expanded = true → Safe E c
  | [], st, hk => ⟨st, rfl, hk⟩
  | fd :: work, st, hk => by
    obtain ⟨st1, h1, hk1⟩ := @merge_entry_safe pop_child pop_new env ve E hpc hpn st fd hk
    obtain ⟨st2, h2, hk2⟩ := @merge_loop_safe pop_child pop_new env ve E hpc hpn work st1 hk1
    exact ⟨st2, by simp only [merge_loop, h1, h2], hk2⟩

/-- A sync has a result when the depth of the recursion suffices for its row,
and the depth then suffices for the synced row as well. -/
theorem populate_row_total (env : Env) (vd_path : Option CStr) :
    ∀ (F E : Nat) (r : Row), Safe E r → E ≤ F → ∀ (g : G) (force : Bool)
      (target_path : Option CStr),
      ∃ g1 res, populate_row F env vd_path g r force target_path = some (g1, res) ∧
        ∀ r1, res = some r1 → Safe E r1
  | 0, E, r, h, hle, _, _, _ => by
    have : E = 0 := by omega
    subst this
    simp [Safe] at h
  | F + 1, 0, r, h, _, _, _, _ => by simp [Safe] at h
  | F + 1, E + 1, Row.mk nd ve kids, h, hle, g, force, target_path => by
    have hE : E ≤ F := by omega
    simp only [populate_row, time]
    split
    · exact ⟨_, _, rfl, fun r1 hr1 => by
        simp only [Option.some.injEq] at hr1; subst hr1; exact h⟩
    · split
      · exact ⟨_, _, rfl, fun r1 hr1 => by simp at hr1⟩
      · split
        · exact ⟨_, _, rfl, fun r1 hr1 => by
            simp only [Option.some.injEq] at hr1; subst hr1; exact h⟩
        · simp only [Safe, Row.view_expanded, Row.kids] at h
          have hpc : ∀ g r, r.nd.expanded = true → Safe E r →
              ∃ g1 res, populate_row F env vd_path g r false target_path = some (g1, res) ∧
                ∀ r1, res = some r1 → Safe E r1 := fun g r _ hs =>
            populate_row_total env vd_path F E r hs hE g false target_path
          have hpn : ve = true → ∀ g r, Safe 2 r →
              ∃ g1 res, populate_row F env vd_path g r false vd_path = some (g1, res) ∧
                ∀ r1, res = some r1 → Safe E r1 := by
            intro hve g r hs
            have h2 := h.1 hve
            obtain ⟨g1, res, hp, hsafe⟩ :=
              populate_row_total env vd_path F 2 r hs (by omega) g false vd_path
            exact ⟨g1, res, hp, fun r1 hr1 => safe_mono 2 E r1 (hsafe r1 hr1) h2⟩
          obtain ⟨st1, hl, hk1⟩ := @merge_loop_safe _ _ env ve E hpc hpn
            (read_listing env (before_read { g with ticks := g.ticks + 1 } nd force) nd.fd.path
              target_path).1
            { g := (read_listing env (before_read { g with ticks := g.ticks + 1 } nd force)
                nd.fd.path target_path).2,
              kids := kids, old := (kids.map Row.nd).reverse } h.2
          simp only [merge_rows, hl]
          refine ⟨_, _, rfl, fun r1 hr1 => ?_⟩
          simp only [Option.some.injEq] at hr1
          subst hr1
          simp only [Safe, Row.view_expanded, Row.kids]
          exact ⟨h.1, fun k hk he =>
            hk1 k ((stale_loop_sublist st1.old st1.g st1.kids).subset hk) he⟩

/-! ### The first sync of a row -/

theorem safe_childless {E : Nat} {r : Row} (hk : r.kids = []) (hE : 3 ≤ E) : Safe E r := by
  obtain ⟨F, rfl⟩ : ∃ F, E = F + 1 := ⟨E - 1, by omega⟩
  refine ⟨fun _ => by omega, fun k hkm _ => ?_⟩
  rw [hk] at hkm
  simp at hkm

theorem row_at_replace_at (r1 : Row) : ∀ (iter : List Nat) (rows : List Row) (r : Row),
    row_at rows iter = some r → row_at (replace_at iter (some r1) rows) iter = some r1
  | [], rows, r, h => by simp [row_at] at h
  | [i], rows, r, h => by
    simp only [row_at] at h
    have hlt : i < rows.length := (List.getElem?_eq_some_iff.mp h).1
    simp [row_at, replace_at, List.getElem?_set, hlt]
  | i :: j :: rest, rows, r, h => by
    simp only [row_at] at h
    cases hi : rows[i]? with
    | none => simp [hi] at h
    | some ri =>
      obtain ⟨nd, ve, kids⟩ := ri
      simp only [hi, Row.kids] at h
      have hlt : i < rows.length := (List.getElem?_eq_some_iff.mp hi).1
      have ih := row_at_replace_at r1 (j :: rest) kids r h
      simp only [replace_at, hi, row_at, List.getElem?_set, hlt, if_true, Row.kids]
      simpa using ih

/-- The first sync of a row below which there is only the placeholder: it has a
result for every depth of the recursion from four on, and the rows below the
synced row are the rows of the listed entries. -/
theorem first_sync_row (fuel : Nat) (env : Env) (vd_path : Option CStr) (g : G)
    (nd : NodeData) (ve : Bool) (e : Row) (force : Bool) (target_path : Option CStr)
    (hF : 4 ≤ fuel) (hexp : nd.expanded = false) (he : is_placeholder e = true)
    (hb : e.nd.ptr < g.next_ptr)
    (hnd : (listed_names (fresh_listing env g nd force target_path)).Nodup)
    (hne : [] ∉ listed_names (fresh_listing env g nd force target_path))
    (hdl : ∀ fd ∈ fresh_listing env g nd force target_path, env.isdir fd.path = true) :
    ∃ g1 r1, populate_row fuel env vd_path g (Row.mk nd ve [e]) force target_path =
        some (g1, some r1) ∧ r1.nd.expanded = true ∧
      r1.kids.length = (listed_names (fresh_listing env g nd force target_path)).length ∧
      ∀ c ∈ r1.kids, is_placeholder c = false := by
  have hek : e.kids = [] := by
    obtain ⟨end_nd, eve, ekids⟩ := e
    simp only [is_placeholder, Row.kids, Bool.and_eq_true, List.isEmpty_iff] at he
    exact he.2
  have hen : e.nd.fd.name = [] := by
    obtain ⟨end_nd, eve, ekids⟩ := e
    simp only [is_placeholder, Row.nd, Bool.and_eq_true, decide_eq_true_eq] at he
    exact he.1.1.2
  have hsafe : Safe 4 (Row.mk nd ve [e]) := by
    show Safe (3 + 1) (Row.mk nd ve [e])
    refine ⟨fun _ => by decide, fun k hk _ => ?_⟩
    simp only [Row.kids, List.mem_singleton] at hk
    subst hk
    exact safe_childless hek (Nat.le_refl 3)
  obtain ⟨g1, res, hp, -⟩ :=
    populate_row_total env vd_path fuel 4 _ hsafe hF g force target_path
  obtain ⟨F, rfl⟩ : ∃ F, fuel = F + 1 := ⟨fuel - 1, by omega⟩
  rcases populate_row_cases F env vd_path g g1 nd ve [e] force target_path res hp with
    ⟨h1, -⟩ | ⟨h1, -⟩ | ⟨h1, -⟩ | ⟨-, g4, kids1, hm, -, rfl⟩
  · rw [hexp] at h1; simp at h1
  · rw [hexp] at h1; simp at h1
  · rw [hexp] at h1; simp at h1
  · refine ⟨g1, _, hp, rfl, ?_⟩
    have hg3 : g.next_ptr ≤ (read_listing env
        (before_read { g with ticks := g.ticks + 1 } nd force) nd.fd.path
        target_path).2.next_ptr := by
      have := read_listing_next_ptr env
        (before_read { g with ticks := g.ticks + 1 } nd force) nd.fd.path target_path
      rw [before_read_next_ptr] at this
      exact this
    have hspec := merge_rows_spec
      (populate_row_popok env vd_path F false target_path)
      (populate_row_popok env vd_path F false vd_path)
      (by simp) (by simp)
      (by
        intro k hk
        simp only [List.map_cons, List.map_nil, List.mem_singleton] at hk
        subst hk
        exact Nat.lt_of_lt_of_le hb hg3)
      (by
        intro k hk hkn
        simp only [List.map_cons, List.map_nil, List.mem_singleton] at hk
        subst hk
        simp only [Row.ident, hen] at hkn
        exact absurd hkn hne)
      (fun fd hfd _ => hdl fd hfd) hm
    obtain ⟨s1, s2, -, -, -, s6, -, -⟩ := hspec
    simp only [Row.kids]
    constructor
    · have hperm : ((kids1.map Row.ident).map Ident.name).Perm
          (listed_names (fresh_listing env g nd force target_path)) := by
        rw [List.perm_ext_iff_of_nodup s6 hnd]
        intro a
        constructor
        · intro ha
          obtain ⟨x, hx, rfl⟩ := List.mem_map.mp ha
          exact s1 x hx
        · intro ha
          obtain ⟨x, hx, rfl⟩ := s2 a ha
          exact List.mem_map_of_mem _ hx
      have := hperm.length_eq
      simpa using this
    · intro c hc
      apply not_placeholder_of_name
      intro hcn
      have := s1 c.ident (List.mem_map_of_mem _ hc)
      simp only [Row.ident, hcn] at this
      exact hne this

/-! ### The placeholder invariant -/

/-- C2, counterexample: in the view that `vdtree_setup_root` builds on a disk with
the directory `/a`, the row of `/a` is not expanded and has the placeholder below
it.  A call of `vdtree_populate_path_by_iter` on the placeholder row finds its
empty path to be no directory, removes the row and returns `FALSE`: the row of
`/a` is still not expanded and has no row below it. -/
theorem placeholder_counterexample :
    vdtree_setup_root 2 env_root_a (vdtree_empty true) = some vd_setup_a ∧
    row_at vd_setup_a.store [0, 0, 0] = some (empty_row 6) ∧
    (vdtree_populate_path_by_iter 1 env_root_a vd_setup_a [0, 0, 0] false none).map
        (fun p => (p.1.store, p.2)) =
      some ([mk_row 1 0 "/" "/" true 101 true [mk_row 5 4 "/a" "a" false 102 false []]],
        false) ∧
    placeholder_inv
      [mk_row 1 0 "/" "/" true 101 true [mk_row 5 4 "/a" "a" false 102 false []]] = false := by
  decide!

/-- C2, amended: in every state of the view reached from `vdtree_setup_root` by
`vdtree_add_by_data` for new entries without parent, by
`vdtree_populate_path_by_iter` on rows that are not placeholders and by
`vdtree_populate_path`, every row that is not expanded has exactly one row below
it, the placeholder.  A sync of such a row, with a depth of recursion of four or
more, against a listing whose entries other than `.` and `..` have pairwise
distinct, non-empty names and are directories, returns `TRUE`; afterwards the row
is expanded, the rows below it are as many as those entries, none of them is a
placeholder, and the state is again one of the states reached. -/
theorem placeholder_invariant (vd : ViewDir) (hr : Reachable vd) :
    placeholder_inv vd.store = true ∧
    ∀ (fuel : Nat) (env : Env) (iter : List Nat) (force : Bool) (target_path : Option CStr)
      (nd : NodeData) (ve : Bool) (kids : List Row),
      4 ≤ fuel → row_at vd.store iter = some (Row.mk nd ve kids) → nd.expanded = false →
      (listed_names (fresh_listing env vd.g nd force target_path)).Nodup →
      [] ∉ listed_names (fresh_listing env vd.g nd force target_path) →
      (∀ fd ∈ fresh_listing env vd.g nd force target_path, env.isdir fd.path = true) →
      ∃ vd1 r1,
        vdtree_populate_path_by_iter fuel env vd iter force target_path = some (vd1, true) ∧
        Reachable vd1 ∧ row_at vd1.store iter = some r1 ∧ r1.nd.expanded = true ∧
        r1.kids.length = (listed_names (fresh_listing env vd.g nd force target_path)).length ∧
        ∀ c ∈ r1.kids, is_placeholder c = false := by
  have hok := reachable_ok hr
  refine ⟨hok.1, ?_⟩
  intro fuel env iter force target_path nd ve kids hF hrow hexp hnd hne hdl
  have hpr := row_at_placeholder iter vd.store _ hrow hok.1
  rw [placeholder_inv_row_mk, hexp] at hpr
  obtain ⟨e, rfl, he⟩ : ∃ e, kids = [e] ∧ is_placeholder e = true := by
    rcases hpr.1 with h | h
    · simp at h
    · exact h
  have hb : e.nd.ptr < vd.g.next_ptr := by
    apply hok.2.2
    have hsub : ∀ a ∈ addrs_row (Row.mk nd ve [e]), a ∈ addrs vd.store := by
      intro a ha
      have h1 := count_addrs_replace_at a none iter vd.store _ hrow
      simp only [addrs_opt, List.count_nil] at h1
      have h2 : 0 < (addrs_row (Row.mk nd ve [e])).count a := List.count_pos_iff.mpr ha
      exact List.count_pos_iff.mp (by omega)
    apply hsub
    obtain ⟨end_nd, eve, ekids⟩ := e
    simp [addrs_row_mk, addrs_cons, Row.nd]
  obtain ⟨g1, r1, hp, h1, h2, h3⟩ := first_sync_row fuel env vd.path vd.g nd ve e force
    target_path hF hexp he hb hnd hne hdl
  have hby : vdtree_populate_path_by_iter fuel env vd iter force target_path =
      some ({ vd with g := g1, store := replace_at iter (some r1) vd.store }, true) := by
    unfold vdtree_populate_path_by_iter
    rw [sync_iter_eq]
    simp only [hrow, hp, Option.isSome_some]
  have hnp : ∀ r, row_at vd.store iter = some r → is_placeholder r = false := by
    intro r hr2
    rw [hrow, Option.some.injEq] at hr2
    subst hr2
    simp [is_placeholder, Row.nd, hexp]
  exact ⟨_, r1, hby, Reachable.populate_path_by_iter fuel env vd iter force target_path _ true hr
    hnp hby, row_at_replace_at r1 iter vd.store _ hrow, h1, h2, h3⟩

/-- The amended C2 on the view that `vdtree_setup_root` builds on a disk with the
directory `/a`: the first sync of the row of `/a`, when `/a` has the directories
`x` and `y`, leaves two rows below it. -/
theorem placeholder_invariant_witness :
    placeholder_inv vd_setup_a.store = true ∧
    ∃ vd1 r1,
      vdtree_populate_path_by_iter 4 env_a_xy vd_setup_a [0, 0] false none = some (vd1, true) ∧
      Reachable vd1 ∧ row_at vd1.store [0, 0] = some r1 ∧ r1.nd.expanded = true ∧
      r1.kids.length = 2 ∧ ∀ c ∈ r1.kids, is_placeholder c = false :=
  have h := placeholder_invariant vd_setup_a
    (Reachable.setup_root 2 env_root_a true vd_setup_a (by decide!))
  ⟨h.1, h.2 4 env_a_xy [0, 0] false none
      { ptr := 5, fd := { ptr := 4, path := "/a".toList, name := "a".toList, size := 0, date := 5 },
        expanded := false, last_update := 102 } false [empty_row 6]
      (by decide) (by decide!) rfl (by decide!) (by decide!) (by decide!)⟩

/-! ### Canonical paths -/

theorem join_path_ne_root (dir s : CStr) (hs : s ≠ []) : join_path dir s ≠ ['/'] := by
  unfold join_path
  split
  · intro h
    simp only [List.cons.injEq, true_and] at h
    exact hs h
  · intro h
    have h1 := congrArg List.length h
    have h2 : 0 < s.length := List.length_pos.mpr hs
    simp only [List.length_append, List.length_cons, List.length_singleton, List.length_nil]
      at h1
    omega

theorem path_from_tail_str : ∀ (rest : List CStr) (dir s : CStr),
    (∀ x ∈ s :: rest, x ≠ []) →
    path_from dir (s :: rest) = join_path dir (tail_str s rest)
  | [], dir, s, _ => rfl
  | s1 :: rest, dir, s, h => by
    have hs : s ≠ [] := h s (List.mem_cons_self _ _)
    have ih := path_from_tail_str rest (join_path dir s) s1
      (fun x hx => h x (List.mem_cons_of_mem _ hx))
    simp only [path_from, List.foldl_cons] at ih ⊢
    rw [ih]
    simp only [tail_str]
    have hne := join_path_ne_root dir s hs
    conv_lhs => rw [join_path, if_neg hne]
    unfold join_path
    split <;> simp

theorem parts_list_loop_append : ∀ (s rest seg : CStr) (list : List CStr), '/' ∉ s →
    parts_list_loop (s ++ rest) seg list = parts_list_loop rest (seg ++ s) list
  | [], rest, seg, list, _ => by simp
  | c :: cs, rest, seg, list, h => by
    have hc : c ≠ '/' := fun e => h (by simp [e])
    have hcs : '/' ∉ cs := fun e => h (List.mem_cons_of_mem _ e)
    have ih := parts_list_loop_append cs rest (seg ++ [c]) list hcs
    simp only [List.cons_append, parts_list_loop, hc, if_false]
    simp only [List.append_assoc, List.singleton_append] at ih
    exact ih

theorem parts_list_loop_tail_str : ∀ (rest : List CStr) (s : CStr) (list : List CStr),
    (∀ x ∈ s :: rest, x ≠ [] ∧ '/' ∉ x) →
    parts_list_loop (tail_str s rest) [] list = (s :: rest).reverse ++ list
  | [], s, list, h => by
    have hs := h s (List.mem_cons_self _ _)
    have := parts_list_loop_append s [] [] list hs.2
    simp only [List.append_nil, List.nil_append] at this
    rw [tail_str, this, parts_list_loop]
    have : s.length > 0 := List.length_pos.mpr hs.1
    simp [this]
  | s1 :: rest, s, list, h => by
    have hs := h s (List.mem_cons_self _ _)
    have hlen : s.length > 0 := List.length_pos.mpr hs.1
    rw [tail_str, parts_list_loop_append s _ [] list hs.2]
    simp only [List.nil_append, parts_list_loop, if_true, hlen]
    rw [parts_list_loop_tail_str rest s1 (s :: list)
      (fun x hx => h x (List.mem_cons_of_mem _ hx))]
    simp

/-- The segments of a canonical path are the root and its components. -/
theorem parts_list_path_from (segs : List CStr) (h : ∀ s ∈ segs, s ≠ [] ∧ '/' ∉ s) :
    parts_list (path_from ['/'] segs) = ['/'] :: segs := by
  cases segs with
  | nil => simp [path_from, parts_list, parts_list_loop]
  | cons s rest =>
    rw [path_from_tail_str rest ['/'] s (fun x hx => (h x hx).1)]
    simp only [join_path, if_true, parts_list]
    rw [parts_list_loop_tail_str rest s [] h]
    simp

/-! ### The iterator of a row -/

theorem row_at_cons_zero (r : Row) (rs : List Row) (rest : List Nat) :
    row_at (r :: rs) (0 :: rest) = match rest with
      | [] => some r
      | _ :: _ => row_at r.kids rest := by
  cases rest <;> simp [row_at]

theorem row_at_cons_succ (r : Row) (rs : List Row) (k : Nat) (rest : List Nat) :
    row_at (r :: rs) ((k + 1) :: rest) = row_at rs (k :: rest) := by
  cases rest <;> simp [row_at]

theorem row_at_fd_ptr_mem {rows : List Row} {iter : List Nat} {x : Row}
    (h : row_at rows iter = some x) : x.nd.fd.ptr ∈ addrs rows :=
  fd_ptr_mem_addrs (row_at_idents iter rows x h _ (ident_mem_idents_row x))

mutual
theorem find_row_below_at (p : Nat) : ∀ (r : Row) (iter : List Nat) (x : Row),
    (addrs_row r).Nodup → row_at r.kids iter = some x → x.nd.fd.ptr = p →
    find_row_below p r = some iter
  | Row.mk nd ve kids, iter, x, hn, hx, hp => by
    rw [find_row_below]
    rw [addrs_row_mk] at hn
    have hk : (addrs kids).Nodup := (List.nodup_cons.mp (List.nodup_cons.mp hn).2).2
    cases iter with
    | nil => simp [row_at] at hx
    | cons k rest =>
      have := find_row_from_at p 0 kids k rest x hk hx hp
      rw [Nat.zero_add] at this
      exact this
theorem find_row_from_at (p : Nat) : ∀ (i : Nat) (rows : List Row) (k : Nat) (rest : List Nat)
    (x : Row), (addrs rows).Nodup → row_at rows (k :: rest) = some x → x.nd.fd.ptr = p →
    find_row_from p i rows = some ((i + k) :: rest)
  | i, [], k, rest, x, _, hx, _ => by rw [row_at_nil] at hx; simp at hx
  | i, r :: rs, 0, rest, x, hn, hx, hp => by
    rw [row_at_cons_zero] at hx
    rw [find_row_from]
    cases rest with
    | nil =>
      simp only [Option.some.injEq] at hx
      subst hx
      simp [hp]
    | cons j rest1 =>
      simp only at hx
      rw [addrs_cons] at hn
      have hr : (addrs_row r).Nodup := (List.nodup_append.mp hn).1
      have hne : ¬ r.nd.fd.ptr = p := by
        intro he
        obtain ⟨nd, ve, kids⟩ := r
        rw [addrs_row_mk] at hr
        have h1 := (List.nodup_cons.mp (List.nodup_cons.mp hr).2).1
        apply h1
        simp only [Row.nd] at he
        rw [he, ← hp]
        exact row_at_fd_ptr_mem hx
      rw [if_neg hne, find_row_below_at p r (j :: rest1) x hr hx hp]
      simp
  | i, r :: rs, k + 1, rest, x, hn, hx, hp => by
    rw [row_at_cons_succ] at hx
    rw [find_row_from]
    rw [addrs_cons] at hn
    have hd := (List.nodup_append.mp hn)
    have hpm : p ∈ addrs rs := hp ▸ row_at_fd_ptr_mem hx
    have hnr : p ∉ addrs_row r := fun hm => hd.2.2 hm hpm
    have hne : ¬ r.nd.fd.ptr = p := by
      intro he
      apply hnr
      obtain ⟨nd, ve, kids⟩ := r
      simp only [Row.nd] at he
      simp [addrs_row_mk, he]
    rw [if_neg hne, find_row_below_none p r hnr]
    have := find_row_from_at p (i + 1) rs k rest x hd.2.1 hx hp
    rw [this, Nat.add_assoc, Nat.add_comm 1 k]
end

/-- With distinct addresses, `vdtree_find_row` finds the iterator of the row that
holds the entry. -/
theorem vdtree_find_row_at {store : List Row} {iter : List Nat} {x : Row}
    (hn : (addrs store).Nodup) (hx : row_at store iter = some x) :
    vdtree_find_row store (some x.nd.fd.ptr) = some iter := by
  cases iter with
  | nil => simp [row_at] at hx
  | cons k rest =>
    have := find_row_from_at x.nd.fd.ptr 0 store k rest x hn hx rfl
    rw [Nat.zero_add] at this
    exact this

/-! ### Properties of the rows below a synced row that depend on the addresses -/

/-- A property of rows relative to the allocation counter, that the syncs called
by the merge keep and that the rows created for the listed entries have, holds
for all rows after the merge if it held for all rows before. -/
theorem merge_rows_bounded (Q : Nat → Row → Prop) (lo : Nat)
    {pop_child pop_new : G → Row → Option (G × Option Row)} {env : Env} {ve : Bool}
    (hQm : ∀ b b1 r, b ≤ b1 → Q b r → Q b1 r)
    (hmc : ∀ g r g1 res, pop_child g r = some (g1, res) → g.next_ptr ≤ g1.next_ptr)
    (hmn : ∀ g r g1 res, pop_new g r = some (g1, res) → g.next_ptr ≤ g1.next_ptr)
    (hpc : ∀ g r g1 r1, lo ≤ g.next_ptr → pop_child g r = some (g1, some r1) →
      Q g.next_ptr r → Q g1.next_ptr r1)
    (hssd : ∀ b r size date, Q b r → Q b (r.set_size_date size date))
    {list : List FileData}
    (hfresh : ∀ fd ∈ list, ¬ (fd.name = ['.'] ∨ fd.name = ['.', '.']) →
      ∀ p r, lo ≤ p → is_new_child p fd r →
        Q (p + 3) r ∧ ∀ g g1 r1, g.next_ptr = p + 3 → pop_new g r = some (g1, some r1) →
          Q g1.next_ptr r1)
    {g g4 : G} {kids kids1 : List Row} (hlo : lo ≤ g.next_ptr) (hk : ∀ c ∈ kids, Q g.next_ptr c)
    (h : merge_rows pop_child pop_new env ve list g kids = some (g4, kids1)) :
    ∀ c ∈ kids1, Q g4.next_ptr c := by
  have hentry : ∀ (fd : FileData) (st st1 : MergeState),
      (¬ (fd.name = ['.'] ∨ fd.name = ['.', '.']) →
        ∀ p r, lo ≤ p → is_new_child p fd r →
          Q (p + 3) r ∧ ∀ g g1 r1, g.next_ptr = p + 3 → pop_new g r = some (g1, some r1) →
            Q g1.next_ptr r1) →
      lo ≤ st.g.next_ptr → (∀ c ∈ st.kids, Q st.g.next_ptr c) →
      merge_entry pop_child pop_new env ve st fd = some st1 →
      ∀ c ∈ st1.kids, Q st1.g.next_ptr c := by
    intro fd st st1 hf hlo1 hk1 he
    have hmono := merge_entry_mono hmc hmn he
    have hk2 : ∀ c ∈ st.kids, Q st1.g.next_ptr c := fun c hc => hQm _ _ c hmono (hk1 c hc)
    unfold merge_entry at he
    split at he
    · simp only [Option.some.injEq] at he
      subst he
      exact hk1
    · rename_i hps
      split at he
      · rename_i i hfi
        obtain ⟨c, hci, -⟩ := first_index_some hfi
        simp only [hci] at he
        split at he
        · split at he
          · simp at he
          · rename_i g1 kids2 hs
            rcases sync_at_cases hs hci with ⟨c1, hp, rfl, -⟩ | ⟨-, -, hb⟩
            · simp only [Option.some.injEq] at he
              subst he
              have hlt : i < st.kids.length := (List.getElem?_eq_some_iff.mp hci).1
              have hget : (st.kids.set i c1)[i]? = some c1 := by
                simp [List.getElem?_set, hlt]
              have hQ1 : Q g1.next_ptr c1 := hpc _ _ _ _ hlo1 hp (hk1 c (List.getElem?_mem hci))
              simp only [hget]
              intro x hx
              rcases List.mem_or_eq_of_mem_set hx with h1 | h1
              · rcases List.mem_or_eq_of_mem_set h1 with h2 | h2
                · exact hk2 x h2
                · exact h2 ▸ hQ1
              · exact h1 ▸ hssd _ c1 _ _ hQ1
            · simp at hb
          · rename_i g1 kids2 hs
            rcases sync_at_cases hs hci with ⟨c1, -, -, hb⟩ | ⟨-, rfl, -⟩
            · simp at hb
            · simp only [Option.some.injEq] at he
              subst he
              intro x hx
              exact hk2 x (List.mem_of_mem_eraseIdx hx)
        · simp only [Option.some.injEq] at he
          subst he
          exact hk1
      · split at he
        · simp at he
        · rename_i g1 kids2 ha
          simp only [Option.some.injEq] at he
          subst he
          obtain ⟨child, pos, hfc, hcases⟩ := vdtree_add_by_data_rows ha
          obtain ⟨hQc, hQp⟩ := hf hps _ child hlo1 hfc
          intro x hx
          simp only at hx hk2 ⊢
          rcases hcases with ⟨hg1, rfl⟩ | ⟨g2, child1, hg2, hp, rfl⟩ | ⟨g2, -, -, rfl⟩
          · rcases mem_insert_at.mp hx with rfl | h1
            · rw [hg1]; exact hQc
            · exact hk2 x h1
          · rcases mem_insert_at.mp hx with rfl | h1
            · exact hQp g2 g1 _ hg2 hp
            · exact hk2 x h1
          · exact hk2 x hx
  have hloop : ∀ (l : List FileData) (st st1 : MergeState),
      (∀ fd ∈ l, ¬ (fd.name = ['.'] ∨ fd.name = ['.', '.']) →
        ∀ p r, lo ≤ p → is_new_child p fd r →
          Q (p + 3) r ∧ ∀ g g1 r1, g.next_ptr = p + 3 → pop_new g r = some (g1, some r1) →
            Q g1.next_ptr r1) →
      lo ≤ st.g.next_ptr → (∀ c ∈ st.kids, Q st.g.next_ptr c) →
      merge_loop pop_child pop_new env ve l st = some st1 →
      ∀ c ∈ st1.kids, Q st1.g.next_ptr c := by
    intro l
    induction l with
    | nil =>
      intro st st1 _ _ hk1 hl
      simp only [merge_loop, Option.some.injEq] at hl
      subst hl
      exact hk1
    | cons fd work ih =>
      intro st st1 hf hlo1 hk1 hl
      simp only [merge_loop] at hl
      split at hl
      · simp at hl
      · rename_i st2 he
        exact ih st2 st1 (fun x hx => hf x (List.mem_cons_of_mem _ hx))
          (Nat.le_trans hlo1 (merge_entry_mono hmc hmn he))
          (hentry fd st st2 (hf fd (List.mem_cons_self _ _)) hlo1 hk1 he) hl
  unfold merge_rows at h
  split at h
  · simp at h
  · rename_i st hl
    simp only [Option.some.injEq] at h
    have hst := hloop list _ st hfresh hlo hk hl
    intro c hc
    have hk2 : kids1 = (stale_loop st.old st.g st.kids).2 := by rw [h]
    have hg2 : g4 = (stale_loop st.old st.g st.kids).1 := by rw [h]
    rw [hk2] at hc
    rw [hg2, stale_loop_next_ptr]
    exact hst c ((stale_loop_sublist _ _ _).subset hc)

/-! ### The entries a sync merges -/

theorem stamp_entries_map : ∀ (es : List DirEntry) (p : Nat),
    (stamp_entries p es).map (fun fd => (fd.path, fd.name)) =
      es.map (fun e => (e.path, e.name))
  | [], p => rfl
  | e :: es, p => by simp [stamp_entries, stamp_entries_map es (p + 1)]

theorem read_listing_entries (env : Env) (g : G) (dir : CStr) (t : Option CStr) :
    (read_listing env g dir t).1.map (fun fd => (fd.path, fd.name)) =
      (listed_entries env dir t).map (fun e => (e.path, e.name)) := by
  unfold read_listing filelist_read listed_entries hint_entries
  simp only
  cases hh : hidden_name8 env dir t with
  | none => simp [stamp_entries_map]
  | some name8 =>
    simp only
    cases hst : (env.stat_utf8 name8).isSome with
    | false => simp [stamp_entries_map]
    | true => simp [stamp_entries_map, file_data_new_simple]

theorem read_listing_mem {env : Env} {g : G} {dir : CStr} {t : Option CStr} {fd : FileData}
    (h : fd ∈ (read_listing env g dir t).1) :
    ∃ e ∈ listed_entries env dir t, e.path = fd.path ∧ e.name = fd.name := by
  have h1 : (fd.path, fd.name) ∈ (read_listing env g dir t).1.map (fun fd => (fd.path, fd.name)) :=
    List.mem_map_of_mem _ h
  rw [read_listing_entries] at h1
  obtain ⟨e, he, heq⟩ := List.mem_map.mp h1
  simp only [Prod.mk.injEq] at heq
  exact ⟨e, he, heq.1, heq.2⟩

theorem listed_mem_read {env : Env} {dir : CStr} {t : Option CStr} {e : DirEntry}
    (h : e ∈ listed_entries env dir t) (g : G) :
    ∃ fd ∈ (read_listing env g dir t).1, fd.path = e.path ∧ fd.name = e.name := by
  have h1 : (e.path, e.name) ∈ (listed_entries env dir t).map (fun e => (e.path, e.name)) :=
    List.mem_map_of_mem _ h
  rw [← read_listing_entries env g] at h1
  obtain ⟨fd, hfd, heq⟩ := List.mem_map.mp h1
  simp only [Prod.mk.injEq] at heq
  exact ⟨fd, hfd, heq.1, heq.2⟩

theorem mem_listed_names {list : List FileData} {n : CStr} :
    n ∈ listed_names list ↔
      ∃ fd ∈ list, ¬ (fd.name = ['.'] ∨ fd.name = ['.', '.']) ∧ fd.name = n := by
  simp only [listed_names, List.mem_map, List.mem_filter, Bool.not_eq_true',
    Bool.or_eq_false_iff, decide_eq_false_iff_not, not_or]
  constructor
  · rintro ⟨fd, ⟨h1, h2⟩, h3⟩
    exact ⟨fd, h1, h2, h3⟩
  · rintro ⟨fd, h1, h2, h3⟩
    exact ⟨fd, ⟨h1, h2⟩, h3⟩

/-! ### Syncs along a path -/

theorem pdle_refl (a : PathData) : PDle a a :=
  ⟨rfl, fun f hf => ⟨f, hf, rfl, rfl⟩⟩

theorem pdle_list_refl : ∀ (l : List PathData), List.Forall₂ PDle l l
  | [] => List.Forall₂.nil
  | a :: l => List.Forall₂.cons (pdle_refl a) (pdle_list_refl l)

theorem pdle_list_trans : ∀ {l1 l2 l3 : List PathData}, List.Forall₂ PDle l1 l2 →
    List.Forall₂ PDle l2 l3 → List.Forall₂ PDle l1 l3
  | [], _, _, h1, h2 => by
    cases h1
    cases h2
    exact List.Forall₂.nil
  | a :: l1, _, _, h1, h2 => by
    cases h1 with
    | cons hab h1 =>
      cases h2 with
      | cons hbc h2 =>
        refine List.Forall₂.cons ⟨hab.1.trans hbc.1, fun f hf => ?_⟩ (pdle_list_trans h1 h2)
        obtain ⟨f1, hf1, e1, e2⟩ := hab.2 f hf
        obtain ⟨f2, hf2, e3, e4⟩ := hbc.2 f1 hf1
        exact ⟨f2, hf2, e3.trans e1, e4.trans e2⟩

theorem add_node_points_nil_le : ∀ (names : List CStr) (rows : List Row),
    List.Forall₂ PDle (add_node_points_loop [] names) (add_node_points_loop rows names)
  | [], rows => by simp [add_node_points_loop]
  | n :: names, rows => by
    simp only [add_node_points_loop, List.find?_nil]
    have hd : ∀ (b : PathData), b.name = n → PDle { name := n, node := none } b :=
      fun b hb => ⟨hb.symm, fun f hf => by simp at hf⟩
    cases rows.find? (fun r => decide (r.nd.fd.name = n)) with
    | none => exact List.Forall₂.cons (hd _ rfl) (add_node_points_nil_le names [])
    | some c => exact List.Forall₂.cons (hd _ rfl) (add_node_points_nil_le names c.kids)

theorem find_of_nodup_names {rows : List Row} {c : Row} {s : CStr} (hc : c ∈ rows)
    (hs : c.nd.fd.name = s) (hn : (rows.map (fun c => c.nd.fd.name)).Nodup) :
    rows.find? (fun r => decide (r.nd.fd.name = s)) = some c := by
  cases hf : rows.find? (fun r => decide (r.nd.fd.name = s)) with
  | none =>
    have := List.find?_eq_none.mp hf c hc
    simp [hs] at this
  | some c1 =>
    have h1 := List.mem_of_find?_eq_some hf
    have h2 : c1.nd.fd.name = s := by simpa using List.find?_some hf
    rw [List.inj_on_of_nodup_map hn h1 hc (h2.trans hs.symm)]

theorem nd_ptrs_sublist : ∀ (rows : List Row),
    (rows.map (fun c => c.nd.ptr)).Sublist (addrs rows)
  | [] => by simp [addrs]
  | Row.mk nd ve kids :: rs => by
    rw [addrs_cons, addrs_row_mk, List.map_cons]
    simp only [Row.nd, List.cons_append]
    exact ((nd_ptrs_sublist rs).trans (List.sublist_append_right _ _) |>.cons _).cons₂ _

theorem addrs_row_sublist {rows : List Row} {c : Row} (hc : c ∈ rows) :
    (addrs_row c).Sublist (addrs rows) := by
  induction rows with
  | nil => simp at hc
  | cons r rs ih =>
    rw [addrs_cons]
    rcases List.mem_cons.mp hc with rfl | h
    · exact List.sublist_append_left _ _
    · exact (ih h).trans (List.sublist_append_right _ _)

theorem chain_set_size_date (segs : List CStr) (dir : CStr) (r : Row) (size date : Int)
    (h : ChainOK segs dir r) : ChainOK segs dir (r.set_size_date size date) := by
  obtain ⟨nd, ve, kids⟩ := r
  cases segs <;> exact h

theorem env_ok_head_ne {env : Env} {hint : Option CStr} {P dir s : CStr} {rest : List CStr}
    (h : EnvOK env hint P dir (s :: rest)) : s ≠ [] := by
  obtain ⟨-, hd, -, ⟨e, he, hen⟩, h1, h2, -⟩ := h
  have := (hd e he (by rw [hen]; simp [h1, h2])).1
  rwa [hen] at this

theorem chain_new_child {p : Nat} {fd : FileData} {r : Row} (h : is_new_child p fd r)
    (segs : List CStr) (hs : ∀ s rest, segs = s :: rest → s ≠ []) :
    ChainOK segs fd.path r := by
  obtain ⟨t, sz, dt, rfl⟩ := h
  cases segs with
  | nil => rfl
  | cons s rest =>
    have hne := hs s rest rfl
    refine ⟨rfl, by simp [Row.kids], ?_, ?_⟩
    · intro c hc hcn
      simp only [Row.kids, List.mem_singleton] at hc
      subst hc
      exact absurd rfl hcn
    · intro c hc hcn
      simp only [Row.kids, List.mem_singleton] at hc
      subst hc
      exact absurd hcn.symm hne

theorem pop_addr_ok {env : Env} {vp : Option CStr} {fuel : Nat} {force : Bool}
    {t : Option CStr} {g g1 : G} {r r1 : Row}
    (hp : populate_row fuel env vp g r force t = some (g1, some r1))
    (hb : ∀ a ∈ addrs_row r, a < g.next_ptr) (hn : (addrs_row r).Nodup) :
    (∀ a ∈ addrs_row r1, a < g1.next_ptr) ∧ (addrs_row r1).Nodup := by
  have h := populate_row_addr env vp fuel force t g r g1 r1 hp
    (fun a ha => hb a (List.count_pos_iff.mp ha))
  refine ⟨fun a ha => (h a).2.2 (List.count_pos_iff.mpr ha), ?_⟩
  rw [List.nodup_iff_count_le_one]
  intro a
  have h1 := List.nodup_iff_count_le_one.mp hn a
  by_cases hlt : a < g.next_ptr
  · have := (h a).1 hlt; omega
  · exact (h a).2.1 (by omega)

theorem utd_set_size_date (segs : List CStr) (r : Row) (size date : Int)
    (h : UTD segs r) : UTD segs (r.set_size_date size date) := by
  obtain ⟨nd, ve, kids⟩ := r
  cases segs <;> exact h

theorem utd_new_child {p : Nat} {fd : FileData} {r : Row} (h : is_new_child p fd r)
    (segs : List CStr) (hs : ∀ s rest, segs = s :: rest → s ≠ []) : UTD segs r := by
  obtain ⟨t, sz, dt, rfl⟩ := h
  cases segs with
  | nil => trivial
  | cons s rest =>
    have hne := hs s rest rfl
    refine ⟨fun he => by simp [Row.nd] at he, ?_⟩
    intro c hc hcn
    simp only [Row.kids, List.mem_singleton] at hc
    subst hc
    exact absurd hcn.symm hne

/-- The merge below a row that is consistent along the components `s :: rest`,
when the syncs it calls act as `ChainSync` says. -/
theorem merge_chain {env : Env} {vp : Option CStr} {P : CStr} {fuel : Nat}
    (hIH : ChainSync env vp P fuel) {s : CStr} {rest : List CStr} {dir : CStr}
    {t : Option CStr} (ht : t = some P ∨ t = vp) (henv : EnvOK env vp P dir (s :: rest))
    {g0 g4 : G} {ve : Bool} {kids kids1 : List Row}
    (hnames : (kids.map (fun c => c.nd.fd.name)).Nodup)
    (hpaths : ∀ c ∈ kids, c.nd.fd.name ≠ [] → c.nd.fd.path = join_path dir c.nd.fd.name)
    (hchain : ∀ c ∈ kids, c.nd.fd.name = s → ChainOK rest (join_path dir s) c)
    (hnd : (addrs kids).Nodup) (hb : ∀ a ∈ addrs kids, a < g0.next_ptr)
    (hm : merge_rows (fun g r => populate_row fuel env vp g r false t)
        (fun g r => populate_row fuel env vp g r false vp) env ve
        (read_listing env g0 dir t).1 (read_listing env g0 dir t).2 kids = some (g4, kids1)) :
    (kids1.map (fun c => c.nd.fd.name)).Nodup ∧
    (∀ c ∈ kids1, c.nd.fd.name ≠ [] → c.nd.fd.path = join_path dir c.nd.fd.name) ∧
    (∀ c ∈ kids1, c.nd.fd.name = s → ChainOK rest (join_path dir s) c) ∧
    (t = some P →
      List.Forall₂ PDle (add_node_points_loop kids (s :: rest))
        (add_node_points_loop kids1 (s :: rest)) ∧
      ∃ c ∈ kids1, c.nd.fd.name = s) ∧
    (EnvU env vp dir (s :: rest) → (∀ c ∈ kids, c.nd.fd.name = s → UTD rest c) →
      (∃ c ∈ kids1, c.nd.fd.name = s) ∧ ∀ c ∈ kids1, c.nd.fd.name = s → UTD rest c) := by
  have hsne := env_ok_head_ne henv
  obtain ⟨-, hd1, hd2, ⟨e0, he0, he0n⟩, hs1, hs2, hrest⟩ := henv
  have hdt : DirOK env dir t := by
    rcases ht with rfl | rfl
    · exact hd1
    · exact hd2
  have hg3 := read_listing_next_ptr env g0 dir t
  have hlm : ∀ fd ∈ (read_listing env g0 dir t).1, ¬ (fd.name = ['.'] ∨ fd.name = ['.', '.']) →
      fd.name ≠ [] ∧ fd.path = join_path dir fd.name ∧ env.isdir fd.path = true := by
    intro fd hfd hps
    obtain ⟨e, he, hep, hen⟩ := read_listing_mem hfd
    have := hdt e he (by rw [hen]; exact hps)
    rw [hep, hen] at this
    exact this
  have hmapn : ∀ (l : List Row), (l.map Row.ident).map Ident.name =
      l.map (fun c => c.nd.fd.name) := by
    intro l; simp [List.map_map, Function.comp, Row.ident]
  have hmapp : ∀ (l : List Row), (l.map Row.ident).map Ident.nd_ptr =
      l.map (fun c => c.nd.ptr) := by
    intro l; simp [List.map_map, Function.comp, Row.ident]
  have hKp : (kids.map (fun c => c.nd.ptr)).Nodup := hnd.sublist (nd_ptrs_sublist kids)
  have hkb : ∀ c ∈ kids, c.nd.ptr < g0.next_ptr := fun c hc =>
    hb _ ((nd_ptrs_sublist kids).subset (List.mem_map_of_mem (fun c => c.nd.ptr) hc))
  have hspec := merge_rows_spec
    (populate_row_popok env vp fuel false t) (populate_row_popok env vp fuel false vp)
    (by rw [hmapn]; exact hnames) (by rw [hmapp]; exact hKp)
    (by
      intro k hk
      obtain ⟨c, hc, rfl⟩ := List.mem_map.mp hk
      exact Nat.lt_of_lt_of_le (hkb c hc) hg3)
    (by
      intro k hk hkn
      obtain ⟨c, hc, rfl⟩ := List.mem_map.mp hk
      obtain ⟨fd, hfd, hps, hfn⟩ := mem_listed_names.mp hkn
      obtain ⟨h1, h2, h3⟩ := hlm fd hfd hps
      have hcn : c.nd.fd.name = fd.name := hfn.symm
      have hcp := hpaths c hc (by rw [hcn]; exact h1)
      show env.isdir c.nd.fd.path = true
      rw [hcp, hcn, ← h2]
      exact h3)
    (fun fd hfd hps => (hlm fd hfd hps).2.2) hm
  obtain ⟨-, s2, s3, -, -, s6, -, -⟩ := hspec
  have hall := merge_rows_bounded
    (fun b x => (∀ a ∈ addrs_row x, a < b) ∧ (addrs_row x).Nodup ∧
      (x.nd.fd.name ≠ [] → x.nd.fd.path = join_path dir x.nd.fd.name) ∧
      (x.nd.fd.name = s → ChainOK rest (join_path dir s) x) ∧
      (t = some P → ∀ c ∈ kids, x.nd.ptr = c.nd.ptr → c.nd.fd.name = s →
        x.nd.fd.name = s ∧
          List.Forall₂ PDle (add_node_points_loop c.kids rest)
            (add_node_points_loop x.kids rest)) ∧
      (EnvU env vp dir (s :: rest) → (∀ c ∈ kids, c.nd.fd.name = s → UTD rest c) →
        x.nd.fd.name = s → UTD rest x))
    (read_listing env g0 dir t).2.next_ptr
    (fun b b1 r hbb hq => ⟨fun a ha => Nat.lt_of_lt_of_le (hq.1 a ha) hbb, hq.2⟩)
    (fun g r g1 res hh => populate_row_mono env vp fuel g r false t g1 res hh)
    (fun g r g1 res hh => populate_row_mono env vp fuel g r false vp g1 res hh)
    (by
      intro g r g1 r1 _ hp hq
      obtain ⟨q1, q2, q3, q4, q5, q6⟩ := hq
      have hid := (populate_row_popok env vp fuel false t).keep g r g1 r1 hp
      have hidn : r1.nd.fd.name = r.nd.fd.name := congrArg Ident.name hid
      have hidp : r1.nd.fd.path = r.nd.fd.path := congrArg Ident.path hid
      have hidq : r1.nd.ptr = r.nd.ptr := congrArg Ident.nd_ptr hid
      obtain ⟨a1, a2⟩ := pop_addr_ok hp q1 q2
      refine ⟨a1, a2, ?_, ?_, ?_, ?_⟩
      · rw [hidn, hidp]; exact q3
      · intro hn
        obtain ⟨r2, hr2, hc2, -⟩ := hIH rest (join_path dir s) g r false t g1 (some r1) ht hrest
          (q4 (hidn ▸ hn)) q2 q1 hp
        simp only [Option.some.injEq] at hr2
        rw [hr2]; exact hc2
      · intro htp c hc hpe hcn
        obtain ⟨hrn, hle⟩ := q5 htp c hc (hidq ▸ hpe) hcn
        obtain ⟨r2, hr2, -, -, hx, -⟩ := hIH rest (join_path dir s) g r false t g1 (some r1) ht
          hrest (q4 hrn) q2 q1 hp
        simp only [Option.some.injEq] at hr2
        subst hr2
        exact ⟨hidn.trans hrn, pdle_list_trans hle (hx htp).1⟩
      · intro hu hk hn
        have hrn : r.nd.fd.name = s := hidn ▸ hn
        obtain ⟨r2, hr2, -, -, -, hx⟩ := hIH rest (join_path dir s) g r false t g1 (some r1) ht
          hrest (q4 hrn) q2 q1 hp
        simp only [Option.some.injEq] at hr2
        subst hr2
        exact hx hu.2 (q6 hu hk hrn))
    (by
      intro b r size date hq
      obtain ⟨nd, ve1, kids2⟩ := r
      obtain ⟨q1, q2, q3, q4, q5, q6⟩ := hq
      exact ⟨q1, q2, q3, fun hn => chain_set_size_date rest _ _ size date (q4 hn), q5,
        fun hu hk hn => utd_set_size_date rest _ size date (q6 hu hk hn)⟩)
    (by
      intro fd hfd hps p r hp hnc
      obtain ⟨h1, h2, h3⟩ := hlm fd hfd hps
      have hfp := (read_listing_ptr env g0 dir t fd hfd).2
      have hrn : r.nd.fd = fd := by
        obtain ⟨t1, sz, dt, rfl⟩ := hnc
        rfl
      have hrp : r.nd.ptr = p := by
        obtain ⟨t1, sz, dt, rfl⟩ := hnc
        rfl
      have hcnt := count_addrs_new_child hnc
      have hq1 : ∀ a ∈ addrs_row r, a < p + 3 := by
        intro a ha
        have h4 := hcnt a
        have h5 : 0 < (addrs_row r).count a := List.count_pos_iff.mpr ha
        split_ifs at h4 <;> omega
      have hq2 : (addrs_row r).Nodup := by
        rw [List.nodup_iff_count_le_one]
        intro a
        have h4 := hcnt a
        split_ifs at h4 <;> omega
      have hq4 : r.nd.fd.name = s → ChainOK rest (join_path dir s) r := by
        intro hn
        have := chain_new_child hnc rest (fun s2 rest2 he => by
          rw [he] at hrest
          exact env_ok_head_ne hrest)
        rw [h2, ← hrn, hn] at this
        exact this
      have hvac : ∀ (x : Row), x.nd.ptr = p → ∀ c ∈ kids, x.nd.ptr = c.nd.ptr → False := by
        intro x hx c hc hpe
        have := hkb c hc
        omega
      have hq6 : UTD rest r := utd_new_child hnc rest (fun s2 rest2 he => by
        rw [he] at hrest
        exact env_ok_head_ne hrest)
      refine ⟨⟨hq1, hq2, ?_, hq4, fun _ c hc hpe _ => (hvac r hrp c hc hpe).elim,
        fun _ _ _ => hq6⟩, ?_⟩
      · intro _
        rw [hrn]; exact h2
      · intro g g1 r1 hg hpop
        have hid := (populate_row_popok env vp fuel false vp).keep g r g1 r1 hpop
        have hidn : r1.nd.fd.name = r.nd.fd.name := congrArg Ident.name hid
        have hidp : r1.nd.fd.path = r.nd.fd.path := congrArg Ident.path hid
        have hidq : r1.nd.ptr = r.nd.ptr := congrArg Ident.nd_ptr hid
        obtain ⟨a1, a2⟩ := pop_addr_ok hpop (by rw [hg]; exact hq1) hq2
        refine ⟨a1, a2, ?_, ?_, fun _ c hc hpe _ => (hvac r1 (hidq.trans hrp) c hc hpe).elim,
          ?_⟩
        · intro _
          rw [hidn, hidp, hrn]; exact h2
        · intro hn
          obtain ⟨r2, hr2, hc2, -⟩ := hIH rest (join_path dir s) g r false vp g1 (some r1)
            (Or.inr rfl) hrest (hq4 (hidn ▸ hn)) hq2 (by rw [hg]; exact hq1) hpop
          simp only [Option.some.injEq] at hr2
          rw [hr2]; exact hc2
        · intro hu _ hn
          obtain ⟨r2, hr2, -, -, -, hx⟩ := hIH rest (join_path dir s) g r false vp g1 (some r1)
            (Or.inr rfl) hrest (hq4 (hidn ▸ hn)) hq2 (by rw [hg]; exact hq1) hpop
          simp only [Option.some.injEq] at hr2
          subst hr2
          exact hx hu.2 hq6)
    (Nat.le_refl _)
    (by
      intro c hc
      have hsub := addrs_row_sublist hc
      refine ⟨fun a ha => Nat.lt_of_lt_of_le (hb a (hsub.subset ha)) hg3, hnd.sublist hsub,
        hpaths c hc, hchain c hc, ?_, fun _ hk hn => hk c hc hn⟩
      intro _ c2 hc2 hpe hcn
      have : c = c2 := List.inj_on_of_nodup_map hKp hc hc2 hpe
      subst this
      exact ⟨hcn, pdle_list_refl _⟩)
    hm
  have hlist_of : ∀ (t1 : Option CStr) (e : DirEntry), e ∈ listed_entries env dir t1 →
      e.name = s → s ∈ listed_names (read_listing env g0 dir t1).1 := by
    intro t1 e he hen
    obtain ⟨fd, hfd, -, hfn⟩ := listed_mem_read he g0
    exact mem_listed_names.mpr ⟨fd, hfd, by rw [hfn, hen]; simp [hs1, hs2], hfn.trans hen⟩
  refine ⟨by rw [← hmapn]; exact s6, fun c hc => (hall c hc).2.2.1,
    fun c hc => (hall c hc).2.2.2.1, ?_, ?_⟩
  swap
  · intro hu hk
    have hlisted : s ∈ listed_names (read_listing env g0 dir t).1 := by
      rcases ht with rfl | rfl
      · exact hlist_of _ e0 he0 he0n
      · obtain ⟨e, he, hen⟩ := hu.1
        exact hlist_of _ e he hen
    obtain ⟨x, hx, hxn⟩ := s2 s hlisted
    obtain ⟨c, hc, rfl⟩ := List.mem_map.mp hx
    exact ⟨⟨c, hc, hxn⟩, fun c1 hc1 hn => (hall c1 hc1).2.2.2.2.2 hu hk hn⟩
  intro htp
  subst htp
  have hlisted : s ∈ listed_names (read_listing env g0 dir (some P)).1 :=
    hlist_of _ e0 he0 he0n
  constructor
  · cases hf : kids.find? (fun r => decide (r.nd.fd.name = s)) with
    | none =>
      have := add_node_points_nil_le (s :: rest) kids1
      simpa [add_node_points_loop, hf] using this
    | some c =>
      have hc := List.mem_of_find?_eq_some hf
      have hcn : c.nd.fd.name = s := by simpa using List.find?_some hf
      have h3 := s3 c.ident (List.mem_map_of_mem _ hc) (by
        show c.nd.fd.name ∈ _
        rw [hcn]; exact hlisted)
      obtain ⟨c1, hc1, hid⟩ := List.mem_map.mp h3
      have hidn : c1.nd.fd.name = c.nd.fd.name := congrArg Ident.name hid
      have hf1 := find_of_nodup_names hc1 (hidn.trans hcn) (by rw [← hmapn]; exact s6)
      simp only [add_node_points_loop, hf, hf1]
      refine List.Forall₂.cons ⟨rfl, fun f hff => ?_⟩
        ((hall c1 hc1).2.2.2.2.1 rfl c hc (congrArg Ident.nd_ptr hid) hcn).2
      simp only [Option.some.injEq] at hff
      subst hff
      exact ⟨_, rfl, congrArg Ident.fd_ptr hid, congrArg Ident.path hid⟩
  · obtain ⟨x, hx, hxn⟩ := s2 s hlisted
    obtain ⟨c, hc, rfl⟩ := List.mem_map.mp hx
    exact ⟨c, hc, hxn⟩

/-- Syncs act on consistent rows as `ChainSync` says, whatever the depth of the
recursion. -/
theorem populate_row_chain (env : Env) (vp : Option CStr) (P : CStr) :
    ∀ (fuel : Nat), ChainSync env vp P fuel
  | 0 => by
    intro segs dir g r force t g1 res _ _ _ _ _ hp
    obtain ⟨nd, ve, kids⟩ := r
    simp [populate_row] at hp
  | fuel + 1 => by
    have hIH := populate_row_chain env vp P fuel
    intro segs dir g r force t g1 res ht henv hchain hn hb hp
    obtain ⟨nd, ve, kids⟩ := r
    have hpath : nd.fd.path = dir := by
      cases segs with
      | nil => exact hchain
      | cons s rest => exact hchain.1
    have hdir : env.isdir nd.fd.path = true := by
      rw [hpath]
      cases segs with
      | nil => exact henv
      | cons s rest => exact henv.1
    rw [addrs_row_mk] at hn hb
    have hnk : (addrs kids).Nodup := (List.nodup_cons.mp (List.nodup_cons.mp hn).2).2
    have hbk : ∀ a ∈ addrs kids,
        a < (before_read { g with ticks := g.ticks + 1 } nd force).next_ptr := by
      intro a ha
      rw [before_read_next_ptr]
      exact hb a (List.mem_cons_of_mem _ (List.mem_cons_of_mem _ ha))
    have hcore : ∀ g4 kids1,
        merge_rows (fun g r => populate_row fuel env vp g r false t)
          (fun g r => populate_row fuel env vp g r false vp) env ve
          (read_listing env (before_read { g with ticks := g.ticks + 1 } nd force) nd.fd.path
            t).1
          (read_listing env (before_read { g with ticks := g.ticks + 1 } nd force) nd.fd.path
            t).2 kids = some (g4, kids1) →
        ChainOK segs dir
            (Row.mk { nd with expanded := true, last_update := env.clock g.ticks } ve kids1) ∧
          (t = some P →
            List.Forall₂ PDle (add_node_points_loop kids segs)
              (add_node_points_loop kids1 segs) ∧
            ∀ s rest, segs = s :: rest → ∃ c ∈ kids1, c.nd.fd.name = s) ∧
          (EnvU env vp dir segs → UTD segs (Row.mk nd ve kids) →
            UTD segs
              (Row.mk { nd with expanded := true, last_update := env.clock g.ticks } ve
                kids1)) := by
      intro g4 kids1 hm
      cases segs with
      | nil =>
        exact ⟨hpath, fun _ => ⟨by simp [add_node_points_loop], fun s rest he => by simp at he⟩,
          fun _ _ => trivial⟩
      | cons s rest =>
        obtain ⟨-, hnames, hpaths, hch⟩ := hchain
        subst hpath
        obtain ⟨m1, m2, m3, m4, m5⟩ := merge_chain hIH ht henv hnames hpaths hch hnk hbk hm
        refine ⟨⟨rfl, m1, m2, m3⟩, fun htp => ⟨(m4 htp).1, fun s2 rest2 he => ?_⟩,
          fun hu hutd => ?_⟩
        · simp only [List.cons.injEq] at he
          obtain ⟨c, hc, hcn⟩ := (m4 htp).2
          exact ⟨c, hc, hcn.trans he.1⟩
        · have := m5 hu hutd.2
          exact ⟨fun _ => this.1, this.2⟩
    by_cases hread : nd.expanded = false ∨ force = true
    · have hread2 : nd.expanded = false ∨
          (env.isdir nd.fd.path = true ∧
            (force = true ∨
              (¬ env.clock g.ticks - nd.last_update < 10 ∧
                env.filetime nd.fd.path ≠ nd.fd.date))) := by
        rcases hread with h | h
        · exact Or.inl h
        · exact Or.inr ⟨hdir, Or.inl h⟩
      rw [populate_row_merge_eq fuel env vp g nd ve kids force t hread2] at hp
      simp only [Option.map_eq_some', Prod.mk.injEq] at hp
      obtain ⟨⟨g4, kids1⟩, hm, -, rfl⟩ := hp
      obtain ⟨c1, c2, c3⟩ := hcore g4 kids1 hm
      exact ⟨_, rfl, c1, rfl, fun htp => ⟨(c2 htp).1, fun _ => (c2 htp).2⟩, c3⟩
    · have hself : ∃ r1, some (Row.mk nd ve kids) = some r1 ∧ ChainOK segs dir r1 ∧
          r1.ident = (Row.mk nd ve kids).ident ∧
          (t = some P →
            List.Forall₂ PDle (add_node_points_loop (Row.mk nd ve kids).kids segs)
              (add_node_points_loop r1.kids segs) ∧
            (((Row.mk nd ve kids).nd.expanded = false ∨ force = true) → ∀ s rest,
              segs = s :: rest → ∃ c ∈ r1.kids, c.nd.fd.name = s)) ∧
          (EnvU env vp dir segs → UTD segs (Row.mk nd ve kids) → UTD segs r1) :=
        ⟨_, rfl, hchain, rfl, fun _ => ⟨pdle_list_refl _, fun h => absurd h hread⟩,
          fun _ h => h⟩
      rcases populate_row_cases fuel env vp g g1 nd ve kids force t res hp with
        ⟨-, -, h3⟩ | ⟨-, h2, -, -⟩ | ⟨-, h3, -⟩ | ⟨-, g4, kids1, hm, -, h3⟩
      · rw [h3]; exact hself
      · rw [hdir] at h2; simp at h2
      · rw [h3]; exact hself
      · obtain ⟨c1, c2, c3⟩ := hcore g4 kids1 hm
        rw [h3]
        exact ⟨_, rfl, c1, rfl, fun htp => ⟨(c2 htp).1, fun _ => (c2 htp).2⟩, c3⟩

/-! ### The depth of the recursion in the store -/

mutual
theorem safe_of_ht_row : ∀ (r : Row) (E : Nat), ht_row r + 2 ≤ E → Safe E r
  | Row.mk nd ve kids, E, h => by
    rw [ht_row] at h
    obtain ⟨F, rfl⟩ : ∃ F, E = F + 1 := ⟨E - 1, by omega⟩
    exact ⟨fun _ => by omega, fun k hk _ => safe_of_ht_rows kids F (by omega) k hk⟩
theorem safe_of_ht_rows : ∀ (rows : List Row) (E : Nat), ht_rows rows + 2 ≤ E →
    ∀ r ∈ rows, Safe E r
  | [], _, _, r, hr => by simp at hr
  | x :: xs, E, h, r, hr => by
    rw [ht_rows] at h
    rcases List.mem_cons.mp hr with rfl | h1
    · exact safe_of_ht_row r E (by omega)
    · exact safe_of_ht_rows xs E (by omega) r h1
end

theorem safe_store_of_ht (rows : List Row) (E : Nat) (h : ht_rows rows + 2 ≤ E) :
    SafeStore E rows := fun r hr _ => safe_of_ht_rows rows E h r hr

theorem safe_kids {E : Nat} {nd : NodeData} {ve : Bool} {kids : List Row}
    (h : Safe (E + 1) (Row.mk nd ve kids)) : SafeStore E kids := h.2

/-- The depth that suffices for the row at an iterator. -/
theorem safe_at : ∀ (iter : List Nat) (rows : List Row) (x : Row) (E : Nat),
    placeholder_inv rows = true → SafeStore E rows → row_at rows iter = some x →
    is_placeholder x = false → iter.length + 3 ≤ E → Safe (E + 1 - iter.length) x
  | [], rows, x, E, _, _, h, _, _ => by simp [row_at] at h
  | [i], rows, x, E, hinv, hs, h, hp, hE => by
    simp only [row_at] at h
    have hm := List.getElem?_mem h
    simp only [List.length_singleton, Nat.add_sub_cancel]
    cases hx : x.nd.expanded with
    | true => exact hs x hm hx
    | false =>
      have hpi := (placeholder_inv_iff rows).mp hinv x hm
      obtain ⟨nd, ve, kids⟩ := x
      rw [placeholder_inv_row_mk] at hpi
      simp only [Row.nd] at hx
      rcases hpi.1 with h1 | ⟨e, rfl, he⟩
      · rw [hx] at h1; simp at h1
      · obtain ⟨F, rfl⟩ : ∃ F, E = F + 1 := ⟨E - 1, by simp at hE; omega⟩
        simp only [List.length_singleton] at hE
        refine ⟨fun _ => by omega, fun k hk _ => ?_⟩
        simp only [Row.kids, List.mem_singleton] at hk
        subst hk
        have hek : k.kids = [] := by
          obtain ⟨end_nd, eve, ekids⟩ := k
          simp only [is_placeholder, Row.kids, Bool.and_eq_true, List.isEmpty_iff] at he
          exact he.2
        exact safe_childless hek (by omega)
  | i :: j :: rest, rows, x, E, hinv, hs, h, hp, hE => by
    simp only [row_at] at h
    cases hi : rows[i]? with
    | none => simp [hi] at h
    | some y =>
      obtain ⟨nd, ve, kids⟩ := y
      simp only [hi, Row.kids] at h
      have hm := List.getElem?_mem hi
      have hpi := (placeholder_inv_row_mk nd ve kids).mp ((placeholder_inv_iff rows).mp hinv _ hm)
      have hexp : nd.expanded = true := by
        rcases hpi.1 with h1 | ⟨e, rfl, he⟩
        · exact h1
        · rw [row_at_only_placeholder he (j :: rest) x h] at hp
          simp at hp
      have hy := hs _ hm hexp
      simp only [List.length_cons] at hE
      obtain ⟨F, rfl⟩ : ∃ F, E = F + 1 := ⟨E - 1, by omega⟩
      have ih := safe_at (j :: rest) kids x F hpi.2 (safe_kids hy) h hp
        (by simp only [List.length_cons]; omega)
      simp only [List.length_cons] at ih ⊢
      have e : F + 1 + 1 - (rest.length + 1 + 1) = F + 1 - (rest.length + 1) := by omega
      rw [e]
      exact ih

/-- Putting back a synced row keeps the depth that suffices for the store. -/
theorem safe_replace (res : Option Row) : ∀ (iter : List Nat) (rows : List Row) (x : Row)
    (E : Nat), SafeStore E rows → row_at rows iter = some x →
    (∀ x1, res = some x1 → Safe (E + 1 - iter.length) x1) →
    SafeStore E (replace_at iter res rows)
  | [], rows, x, E, _, h, _ => by simp [row_at] at h
  | [i], rows, x, E, hs, h, hres => by
    simp only [List.length_singleton, Nat.add_sub_cancel] at hres
    cases res with
    | none =>
      intro r hr he
      exact hs r (List.mem_of_mem_eraseIdx hr) he
    | some x1 =>
      intro r hr he
      rcases List.mem_or_eq_of_mem_set hr with h1 | h1
      · exact hs r h1 he
      · rw [h1]; exact hres x1 rfl
  | i :: j :: rest, rows, x, E, hs, h, hres => by
    simp only [row_at] at h
    cases hi : rows[i]? with
    | none => simp [hi] at h
    | some y =>
      obtain ⟨nd, ve, kids⟩ := y
      simp only [hi, Row.kids] at h
      simp only [replace_at, hi]
      intro r hr he
      rcases List.mem_or_eq_of_mem_set hr with h1 | h1
      · exact hs r h1 he
      · subst h1
        have hy := hs _ (List.getElem?_mem hi) he
        obtain ⟨F, rfl⟩ : ∃ F, E = F + 1 := by
          cases E with
          | zero => simp [Safe] at hy
          | succ F => exact ⟨F, rfl⟩
        refine ⟨hy.1, ?_⟩
        apply safe_replace res (j :: rest) kids x F (safe_kids hy) h
        intro x1 hx1
        have := hres x1 hx1
        simp only [List.length_cons] at this ⊢
        have e : F + 1 + 1 - (rest.length + 1 + 1) = F + 1 - (rest.length + 1) := by omega
        rw [e] at this
        exact this

/-- Showing a row expanded keeps the depth that suffices for the store, when the
row is not too deep. -/
theorem safe_set_view_expanded (expand : Bool) : ∀ (iter : List Nat) (rows : List Row)
    (E : Nat), SafeStore E rows → iter.length + 2 ≤ E →
    SafeStore E (set_view_expanded expand iter rows)
  | [], rows, E, hs, _ => hs
  | [i], rows, E, hs, hE => by
    simp only [set_view_expanded]
    cases hi : rows[i]? with
    | none => exact hs
    | some y =>
      obtain ⟨nd, ve, kids⟩ := y
      intro r hr he
      rcases List.mem_or_eq_of_mem_set hr with h1 | h1
      · exact hs r h1 he
      · subst h1
        have hy := hs _ (List.getElem?_mem hi) he
        obtain ⟨F, rfl⟩ : ∃ F, E = F + 1 := ⟨E - 1, by simp at hE; omega⟩
        simp only [List.length_singleton] at hE
        exact ⟨fun _ => by omega, hy.2⟩
  | i :: j :: rest, rows, E, hs, hE => by
    simp only [set_view_expanded]
    cases hi : rows[i]? with
    | none => exact hs
    | some y =>
      obtain ⟨nd, ve, kids⟩ := y
      intro r hr he
      rcases List.mem_or_eq_of_mem_set hr with h1 | h1
      · exact hs r h1 he
      · subst h1
        have hy := hs _ (List.getElem?_mem hi) he
        simp only [List.length_cons] at hE
        obtain ⟨F, rfl⟩ : ∃ F, E = F + 1 := ⟨E - 1, by omega⟩
        exact ⟨hy.1, safe_set_view_expanded expand (j :: rest) kids F (safe_kids hy)
          (by simp only [List.length_cons]; omega)⟩

/-! ### Rows that differ in what the view shows -/

theorem strip_row_nd (r : Row) : (strip_row r).nd = r.nd := by
  obtain ⟨nd, ve, kids⟩ := r
  rw [strip_row_mk]
  rfl

theorem chain_strip : ∀ (segs : List CStr) (dir : CStr) (r : Row),
    ChainOK segs dir (strip_row r) ↔ ChainOK segs dir r
  | [], dir, r => by simp only [ChainOK, strip_row_nd]
  | s :: rest, dir, r => by
    have hfun : ((fun c : Row => c.nd.fd.name) ∘ strip_row) = (fun c : Row => c.nd.fd.name) :=
      funext (fun c => by simp only [Function.comp, strip_row_nd])
    simp only [ChainOK, strip_row_nd, strip_row_kids, strip_rows_eq_map, List.map_map,
      List.mem_map, forall_exists_index, and_imp, forall_apply_eq_imp_iff₂,
      chain_strip rest, hfun]

theorem add_node_points_strip : ∀ (names : List CStr) (rows : List Row),
    add_node_points_loop (strip_rows rows) names = add_node_points_loop rows names
  | [], rows => by simp [add_node_points_loop]
  | n :: names, rows => by
    have hfun : ((fun r : Row => decide (r.nd.fd.name = n)) ∘ strip_row) =
        (fun r : Row => decide (r.nd.fd.name = n)) :=
      funext (fun c => by simp only [Function.comp, strip_row_nd])
    simp only [add_node_points_loop, strip_rows_eq_map, List.find?_map, hfun]
    cases rows.find? (fun r => decide (r.nd.fd.name = n)) with
    | none => rfl
    | some c =>
      simp only [Option.map_some', strip_row_nd, strip_row_kids]
      rw [add_node_points_strip names c.kids]

theorem same_rows_row_at {vd vd1 : ViewDir} (h : SameRows vd vd1) {iter : List Nat} {c : Row}
    (hc : row_at vd.store iter = some c) :
    ∃ c1, row_at vd1.store iter = some c1 ∧ strip_row c1 = strip_row c := by
  have e1 := row_at_strip iter vd1.store
  have e2 := row_at_strip iter vd.store
  rw [h.1, e2, hc] at e1
  cases hc1 : row_at vd1.store iter with
  | none => simp [hc1] at e1
  | some c1 =>
    simp only [hc1, Option.map_some', Option.some.injEq] at e1
    exact ⟨c1, rfl, e1.symm⟩

theorem strip_eq_facts {c c1 : Row} (h : strip_row c1 = strip_row c) :
    c1.nd = c.nd ∧ (∀ segs dir, ChainOK segs dir c → ChainOK segs dir c1) ∧
      ∀ names, add_node_points_loop c1.kids names = add_node_points_loop c.kids names := by
  refine ⟨?_, ?_, ?_⟩
  · rw [← strip_row_nd c1, h, strip_row_nd]
  · intro segs dir hc
    rw [← chain_strip, h, chain_strip]
    exact hc
  · intro names
    rw [← add_node_points_strip names c1.kids, ← strip_row_kids, h, strip_row_kids,
      add_node_points_strip]

theorem row_at_addrs_sublist : ∀ (iter : List Nat) (rows : List Row) (x : Row),
    row_at rows iter = some x → (addrs_row x).Sublist (addrs rows)
  | [], rows, x, h => by simp [row_at] at h
  | [i], rows, x, h => by
    simp only [row_at] at h
    exact addrs_row_sublist (List.getElem?_mem h)
  | i :: j :: rest, rows, x, h => by
    simp only [row_at] at h
    cases hi : rows[i]? with
    | none => simp [hi] at h
    | some y =>
      obtain ⟨nd, ve, kids⟩ := y
      simp only [hi, Row.kids] at h
      refine (row_at_addrs_sublist (j :: rest) kids x h).trans ?_
      refine List.Sublist.trans ?_ (addrs_row_sublist (List.getElem?_mem hi))
      rw [addrs_row_mk]
      exact (List.sublist_cons_self _ _).trans (List.sublist_cons_self _ _)

/-! ### The syncs of the segment walk -/

/-- The sync of a consistent row during the walk over the path `P`, forced or of
a row that is up to date: it returns `TRUE`, the row keeps its identity and stays
consistent, what was resolved below it stays resolved, and the row of the next
component is below it. -/
theorem row_sync_step (fuel : Nat) (env : Env) (P : CStr) (force : Bool) {vd : ViewDir}
    {it : List Nat} {x : Row} {segs : List CStr} {dir : CStr}
    (hok : TreeOK vd) (hsafe : SafeStore fuel vd.store) (hfuel : it.length + 3 ≤ fuel)
    (henv : EnvOK env vd.path P dir segs) (hx : row_at vd.store it = some x)
    (hxn : x.nd.fd.name ≠ []) (hchain : ChainOK segs dir x)
    (hU : force = true ∨ (EnvU env vd.path dir segs ∧ UTD segs x)) :
    ∃ vd1 x1, vdtree_populate_path_by_iter fuel env vd it force (some P) = some (vd1, true) ∧
      TreeOK vd1 ∧ SafeStore fuel vd1.store ∧ vd1.path = vd.path ∧
      row_at vd1.store it = some x1 ∧ x1.ident = x.ident ∧ ChainOK segs dir x1 ∧
      List.Forall₂ PDle (add_node_points_loop x.kids segs)
        (add_node_points_loop x1.kids segs) ∧
      (∀ s rest, segs = s :: rest → ∃ c ∈ x1.kids, c.nd.fd.name = s) ∧
      (EnvU env vd.path dir segs → UTD segs x → UTD segs x1) ∧ x1.nd.expanded = true := by
  have hnp : is_placeholder x = false := not_placeholder_of_name hxn
  have hs := safe_at it vd.store x fuel hok.1 hsafe hx hnp hfuel
  have hlen : 1 ≤ it.length := by
    cases it with
    | nil => simp [row_at] at hx
    | cons a b => simp
  obtain ⟨g1, res, hp, hsafe1⟩ :=
    populate_row_total env vd.path fuel _ x hs (by omega) vd.g force (some P)
  have hsub := row_at_addrs_sublist it vd.store x hx
  obtain ⟨x1, rfl, hc1, hid, hext, hutd⟩ := populate_row_chain env vd.path P fuel segs dir vd.g
    x force (some P) g1 res (Or.inl rfl) henv hchain (hok.2.1.sublist hsub)
    (fun a ha => hok.2.2 a (hsub.subset ha)) hp
  have hexp : x1.nd.expanded = true := by
    obtain ⟨nd, ve, kids⟩ := x
    exact (populate_row_some fuel env vd.path vd.g g1 nd ve kids force (some P) x1 hp).2.2.1
  have hby : vdtree_populate_path_by_iter fuel env vd it force (some P) =
      some ({ vd with g := g1, store := replace_at it (some x1) vd.store }, true) := by
    unfold vdtree_populate_path_by_iter
    rw [sync_iter_eq]
    simp only [hx, hp, Option.isSome_some]
  have hok1 := (populate_by_iter_ok hby hok (fun r hr => by
    rw [hx, Option.some.injEq] at hr
    subst hr
    exact hnp)).1
  refine ⟨_, x1, hby, hok1, safe_replace (some x1) it vd.store x fuel hsafe hx
      (fun y hy => hsafe1 y hy), rfl, row_at_replace_at x1 it vd.store x hx, hid, hc1,
    (hext rfl).1, ?_, hutd, hexp⟩
  intro s rest hseg
  rcases hU with hf | ⟨hu, hx2⟩
  · exact (hext rfl).2 (Or.inr hf) s rest hseg
  · have h1 := hutd hu hx2
    subst hseg
    exact h1.1 hexp

/-! ### Completeness of the segment walk -/

theorem safe_if_expand {fuel : Nat} (expand : Bool) (v : ViewDir) (it : List Nat)
    (hs : SafeStore fuel v.store) (hf : it.length + 2 ≤ fuel) :
    SafeStore fuel (if expand = true then vdtree_expand_by_iter v it true else v).store := by
  split
  · exact safe_set_view_expanded true it v.store fuel hs hf
  · exact hs

theorem safe_if_expand2 {fuel : Nat} (expand : Bool) (v : ViewDir) (it1 it2 : List Nat)
    (hs : SafeStore fuel v.store) (hf1 : it1.length + 2 ≤ fuel) (hf2 : it2.length + 2 ≤ fuel) :
    SafeStore fuel (if expand = true then
      vdtree_expand_by_iter (vdtree_expand_by_iter v it1 true) it2 true else v).store := by
  split
  · exact safe_set_view_expanded true it2 _ fuel
      (safe_set_view_expanded true it1 v.store fuel hs hf1) hf2
  · exact hs

theorem utd_strip : ∀ (segs : List CStr) (r : Row), UTD segs (strip_row r) ↔ UTD segs r
  | [], r => by simp only [UTD]
  | s :: rest, r => by
    simp only [UTD, strip_row_nd, strip_row_kids, strip_rows_eq_map, List.mem_map,
      forall_exists_index, and_imp, forall_apply_eq_imp_iff₂, utd_strip rest,
      exists_exists_and_eq_and]

theorem utd_of_strip_eq {c c1 : Row} (h : strip_row c1 = strip_row c) (segs : List CStr)
    (hc : UTD segs c) : UTD segs c1 := by
  rw [← utd_strip, h, utd_strip]
  exact hc

/-- The sync of the row of the next component, in a view that may have expanded
rows in between. -/
theorem child_sync_step (fuel : Nat) (env : Env) (P : CStr) (force : Bool) {vdA vdB : ViewDir}
    {it : List Nat} {j : Nat} {RA c : Row} {s dir : CStr} {rest : List CStr}
    (hokA : TreeOK vdA) (hsame : SameRows vdA vdB) (hpath : vdB.path = vdA.path)
    (hsafeB : SafeStore fuel vdB.store) (hfuel : it.length + 4 ≤ fuel)
    (henv : EnvOK env vdA.path P (join_path dir s) rest)
    (hRA : row_at vdA.store it = some RA) (hchainA : ChainOK (s :: rest) dir RA)
    (hc : RA.kids[j]? = some c) (hcn : c.nd.fd.name = s) (hsne : s ≠ [])
    (hU : force = true ∨ (EnvU env vdA.path (join_path dir s) rest ∧ UTD rest c)) :
    ∃ vdC x1,
      vdtree_populate_path_by_iter fuel env vdB (it ++ [j]) force (some P) =
        some (vdC, true) ∧
      TreeOK vdC ∧ SafeStore fuel vdC.store ∧ vdC.path = vdA.path ∧
      row_at vdC.store (it ++ [j]) = some x1 ∧ x1.nd.fd.ptr = c.nd.fd.ptr ∧
      x1.nd.fd.name = s ∧ c.nd.fd.path = join_path dir s ∧
      ChainOK rest (join_path dir s) x1 ∧
      List.Forall₂ PDle (add_node_points_loop c.kids rest)
        (add_node_points_loop x1.kids rest) ∧
      (force = true ∨ (EnvU env vdA.path (join_path dir s) rest ∧ UTD rest x1)) ∧
      x1.nd.expanded = true := by
  have hcm := List.getElem?_mem hc
  have hrc := row_at_append it vdA.store RA c j hRA hc
  obtain ⟨cB, hcB, hstrip⟩ := same_rows_row_at hsame hrc
  obtain ⟨f1, f2, f3⟩ := strip_eq_facts hstrip
  obtain ⟨-, -, hpaths, hch⟩ := hchainA
  have hcBn : cB.nd.fd.name = s := by rw [f1]; exact hcn
  have hlen : (it ++ [j]).length + 3 ≤ fuel := by
    simp only [List.length_append, List.length_singleton]
    omega
  have hUB : force = true ∨ (EnvU env vdB.path (join_path dir s) rest ∧ UTD rest cB) := by
    rcases hU with h | ⟨h1, h2⟩
    · exact Or.inl h
    · exact Or.inr ⟨by rw [hpath]; exact h1, utd_of_strip_eq hstrip rest h2⟩
  obtain ⟨vdC, x1, hby, hokC, hsafeC, hpathC, hrowC, hid, hchainC, hext, -, hutd, hexp⟩ :=
    @row_sync_step fuel env P force vdB (it ++ [j]) cB rest (join_path dir s)
      (same_rows_ok hsame hokA) hsafeB hlen
      (by rw [hpath]; exact henv) hcB (by rw [hcBn]; exact hsne)
      (f2 _ _ (hch c hcm hcn)) hUB
  refine ⟨vdC, x1, hby, hokC, hsafeC, hpathC.trans hpath, hrowC, ?_, ?_, ?_, hchainC, ?_, ?_,
    hexp⟩
  · have := congrArg Ident.fd_ptr hid
    simp only [Row.ident] at this
    rw [this, f1]
  · have := congrArg Ident.name hid
    simp only [Row.ident] at this
    rw [this, hcBn]
  · have := hpaths c hcm (by rw [hcn]; exact hsne)
    rw [this, hcn]
  · rw [← f3 rest]
    exact hext
  · rcases hUB with h | ⟨h1, h2⟩
    · exact Or.inl h
    · exact Or.inr ⟨by rw [← hpath]; exact h1, hutd h1 h2⟩

/-! ### The rows shown expanded on the way to a row -/

theorem set_view_expanded_cons (e : Bool) (i k : Nat) (rest : List Nat) (rows : List Row) :
    set_view_expanded e (i :: k :: rest) rows =
      match rows[i]? with
      | none => rows
      | some (Row.mk nd ve kids) =>
        rows.set i (Row.mk nd ve (set_view_expanded e (k :: rest) kids)) := by
  cases h : rows[i]? with
  | none => simp only [set_view_expanded, h]
  | some r =>
    obtain ⟨nd, ve, kids⟩ := r
    simp only [set_view_expanded, h]

/-- Replacing the row at an iterator by a row with the same view flag keeps the
rows on the way to it shown expanded. -/
theorem path_shown_replace_at (r1 : Row) : ∀ (it : List Nat) (rows : List Row) (x : Row),
    row_at rows it = some x → r1.view_expanded = x.view_expanded →
    path_shown it rows = true → path_shown it (replace_at it (some r1) rows) = true
  | [], rows, x, h, _, _ => by simp [row_at] at h
  | [i], rows, x, h, hv, hs => by
    simp only [row_at] at h
    have hlt : i < rows.length := (List.getElem?_eq_some_iff.mp h).1
    simp only [path_shown, h, Bool.and_true] at hs
    simp only [replace_at, path_shown, List.getElem?_set, hlt, if_true, Bool.and_true, hv, hs]
  | i :: j :: rest, rows, x, h, hv, hs => by
    simp only [row_at] at h
    cases hi : rows[i]? with
    | none => simp [hi] at h
    | some ri =>
      obtain ⟨nd, ve, kids⟩ := ri
      simp only [hi, Row.kids] at h
      have hlt : i < rows.length := (List.getElem?_eq_some_iff.mp hi).1
      rw [path_shown] at hs
      simp only [hi, Row.view_expanded, Row.kids, Bool.and_eq_true] at hs
      rw [replace_at]
      simp only [hi]
      rw [path_shown]
      simp only [List.getElem?_set, hlt, if_true, Row.view_expanded, Row.kids, Bool.and_eq_true]
      exact ⟨hs.1, path_shown_replace_at r1 (j :: rest) kids x h hv hs.2⟩

/-- Showing a row expanded hides no row. -/
theorem path_shown_set_view : ∀ (it2 it : List Nat) (rows : List Row),
    path_shown it rows = true → path_shown it (set_view_expanded true it2 rows) = true
  | [], it, rows, h => by simpa [set_view_expanded] using h
  | _ :: _, [], rows, _ => by simp [path_shown]
  | [i], k :: rest, rows, h => by
    simp only [set_view_expanded]
    cases hi : rows[i]? with
    | none => exact h
    | some ri =>
      obtain ⟨nd, ve, kids⟩ := ri
      simp only
      have hlt : i < rows.length := (List.getElem?_eq_some_iff.mp hi).1
      rw [path_shown] at h ⊢
      by_cases hik : i = k
      · subst hik
        simp only [hi, Row.view_expanded, Row.kids, Bool.and_eq_true] at h
        simp only [List.getElem?_set, hlt, if_true, Row.view_expanded, Row.kids, Bool.true_and]
        exact h.2
      · rw [List.getElem?_set_ne hik]
        exact h
  | i :: j :: r2, k :: rest, rows, h => by
    rw [set_view_expanded_cons]
    cases hi : rows[i]? with
    | none => exact h
    | some ri =>
      obtain ⟨nd, ve, kids⟩ := ri
      simp only
      have hlt : i < rows.length := (List.getElem?_eq_some_iff.mp hi).1
      rw [path_shown] at h ⊢
      by_cases hik : i = k
      · subst hik
        simp only [hi, Row.view_expanded, Row.kids, Bool.and_eq_true] at h
        simp only [List.getElem?_set, hlt, if_true, Row.view_expanded, Row.kids,
          Bool.and_eq_true]
        exact ⟨h.1, path_shown_set_view (j :: r2) rest kids h.2⟩
      · rw [List.getElem?_set_ne hik]
        exact h

/-- Showing the row at an iterator expanded, when the rows on the way to the row
above it are shown expanded, leaves the rows on the way to it shown expanded. -/
theorem path_shown_expand_child : ∀ (it : List Nat) (rows : List Row) (j : Nat) (c : Row),
    path_shown it rows = true → row_at rows (it ++ [j]) = some c →
    path_shown (it ++ [j]) (set_view_expanded true (it ++ [j]) rows) = true
  | [], rows, j, c, _, h => by
    simp only [List.nil_append, row_at] at h
    obtain ⟨nd, ve, kids⟩ := c
    have hlt : j < rows.length := (List.getElem?_eq_some_iff.mp h).1
    simp only [List.nil_append, set_view_expanded, h, path_shown, List.getElem?_set, hlt,
      if_true, Row.view_expanded, Bool.and_true]
  | i :: rest, rows, j, c, hs, h => by
    obtain ⟨k, rest2, hk⟩ : ∃ k rest2, rest ++ [j] = k :: rest2 := by
      cases rest with
      | nil => exact ⟨j, [], rfl⟩
      | cons a b => exact ⟨a, b ++ [j], rfl⟩
    rw [List.cons_append, hk] at h
    rw [path_shown] at hs
    rw [List.cons_append, hk, set_view_expanded_cons]
    simp only [row_at] at h
    cases hi : rows[i]? with
    | none => simp [hi] at h
    | some ri =>
      obtain ⟨nd, ve, kids⟩ := ri
      simp only [hi, Row.kids] at h
      simp only [hi, Row.view_expanded, Row.kids, Bool.and_eq_true] at hs
      have hlt : i < rows.length := (List.getElem?_eq_some_iff.mp hi).1
      simp only
      rw [path_shown]
      simp only [List.getElem?_set, hlt, if_true, Row.view_expanded, Row.kids,
        Bool.and_eq_true]
      refine ⟨hs.1, ?_⟩
      rw [← hk] at h ⊢
      exact path_shown_expand_child rest kids j c hs.2 h

/-- A sync that returns `TRUE` keeps the rows on the way to its row shown expanded. -/
theorem populate_by_iter_shown {fuel : Nat} {env : Env} {vd vd1 : ViewDir} {it : List Nat}
    {force : Bool} {target_path : Option CStr}
    (h : vdtree_populate_path_by_iter fuel env vd it force target_path = some (vd1, true))
    (hs : path_shown it vd.store = true) : path_shown it vd1.store = true := by
  unfold vdtree_populate_path_by_iter at h
  rw [sync_iter_eq] at h
  cases hr : row_at vd.store it with
  | none => simp [hr] at h
  | some x =>
    simp only [hr] at h
    cases hp : populate_row fuel env vd.path vd.g x force target_path with
    | none => simp [hp] at h
    | some out =>
      obtain ⟨g1, res⟩ := out
      simp only [hp, Option.some.injEq, Prod.mk.injEq] at h
      obtain ⟨rfl, hb⟩ := h
      cases res with
      | none => simp at hb
      | some r1 =>
        obtain ⟨nd, ve, kids⟩ := x
        have hv := (populate_row_some fuel env vd.path vd.g g1 nd ve kids force target_path r1
          hp).2.2.2
        exact path_shown_replace_at r1 it vd.store _ hr hv hs

/-- The sync of the row of a resolved segment, after the view has expanded it. -/
theorem shown_child_step {fuel : Nat} {env : Env} {P : CStr} {force expand : Bool}
    {vd vdC : ViewDir} {it : List Nat} {j : Nat} {c : Row} (he : expand = true)
    (hs : path_shown it vd.store = true) (hrc : row_at vd.store (it ++ [j]) = some c)
    (hby : vdtree_populate_path_by_iter fuel env
      (if expand = true then vdtree_expand_by_iter vd (it ++ [j]) true else vd) (it ++ [j])
      force (some P) = some (vdC, true)) :
    path_shown (it ++ [j]) vdC.store = true := by
  subst he
  simp only [if_true] at hby
  exact populate_by_iter_shown hby (path_shown_expand_child it vd.store j c hs hrc)

/-- The sync of the row of a segment found below its parent, after the view has
expanded the parent and the row. -/
theorem shown_parent_step {fuel : Nat} {env : Env} {P : CStr} {force expand : Bool}
    {vd vdC : ViewDir} {it : List Nat} {j : Nat} {c : Row} (he : expand = true)
    (hs : path_shown it vd.store = true) (hrc : row_at vd.store (it ++ [j]) = some c)
    (hby : vdtree_populate_path_by_iter fuel env
      (if expand = true then
        vdtree_expand_by_iter (vdtree_expand_by_iter vd it true) (it ++ [j]) true
      else vd) (it ++ [j]) force (some P) = some (vdC, true)) :
    path_shown (it ++ [j]) vdC.store = true := by
  subst he
  simp only [if_true] at hby
  obtain ⟨c1, hc1, -⟩ := same_rows_row_at (same_rows_if_expand true vd it) hrc
  simp only [if_true] at hc1
  exact populate_by_iter_shown hby
    (path_shown_expand_child it _ j c1 (path_shown_set_view it it vd.store hs) hc1)

theorem env_ok_isdir_last {env : Env} {hint : Option CStr} {P : CStr} :
    ∀ (segs : List CStr) (dir : CStr), EnvOK env hint P dir segs →
      env.isdir (path_from dir segs) = true
  | [], _, h => h
  | s :: rest, dir, h => env_ok_isdir_last rest (join_path dir s) h.2.2.2.2.2.2

/-- The segment walk below a synced row, along components that the disk has: it
runs through all segments and ends at the row of the last component. -/
theorem populate_path_loop_complete (fuel : Nat) (env : Env) (P : CStr) (expand force : Bool) :
    ∀ (segs : List CStr) (work : List PathData) (dir : CStr) (vd : ViewDir) (ppd : PathData)
      (pf : FileData) (it : List Nat) (R : Row),
      TreeOK vd → SafeStore fuel vd.store → it.length + segs.length + 3 ≤ fuel →
      EnvOK env vd.path P dir segs → path_from dir segs = P →
      ppd.node = some pf → pf.path = dir →
      row_at vd.store it = some R → R.nd.fd.ptr = pf.ptr → R.nd.fd.name ≠ [] →
      R.nd.expanded = true → ChainOK segs dir R →
      (force = true ∨ (EnvU env vd.path dir segs ∧ UTD segs R)) →
      List.Forall₂ PDle work (add_node_points_loop R.kids segs) →
      ∃ vd1 last f itf Rf,
        populate_path_loop fuel env P expand force vd (some ppd) work =
          some (Walk.done vd1 (some last)) ∧
        last.node = some f ∧ f.path = P ∧ TreeOK vd1 ∧ SafeStore fuel vd1.store ∧
        vd1.path = vd.path ∧ row_at vd1.store itf = some Rf ∧ Rf.nd.fd.ptr = f.ptr ∧
        itf.length = it.length + segs.length ∧ Rf.nd.fd.path = P ∧ Rf.nd.fd.name ≠ [] ∧
        Rf.nd.expanded = true ∧
        (expand = true → path_shown it vd.store = true → path_shown itf vd1.store = true)
  | [], work, dir, vd, ppd, pf, it, R, hok, hsafe, _, _, hP, hppd, hpf, hR, hRp, hRn, hRe,
      hchain, _, hwork => by
    simp only [add_node_points_loop] at hwork
    cases hwork
    refine ⟨vd, ppd, pf, it, R, by simp only [populate_path_loop], hppd, ?_, hok, hsafe, rfl, hR,
      hRp, rfl, ?_, hRn, hRe, fun _ h => h⟩
    · rw [hpf]; exact hP
    · have : R.nd.fd.path = dir := hchain
      rw [this]; exact hP
  | s :: rest, work, dir, vd, ppd, pf, it, R, hok, hsafe, hfuel, henv, hP, hppd, hpf, hR, hRp,
      hRn, hRe, hchain, hU, hwork => by
    have hsne := env_ok_head_ne henv
    have henv2 : EnvOK env vd.path P (join_path dir s) rest := henv.2.2.2.2.2.2
    simp only [List.length_cons] at hfuel
    have hP2 : path_from (join_path dir s) rest = P := hP
    -- the step that follows the sync of the row of `s`
    have hnext : ∀ (vdC : ViewDir) (x1 : Row) (pd1 : PathData) (f1 : FileData) (j : Nat)
        (work1 : List PathData),
        TreeOK vdC → SafeStore fuel vdC.store → vdC.path = vd.path →
        pd1.node = some f1 → f1.path = join_path dir s →
        row_at vdC.store (it ++ [j]) = some x1 → x1.nd.fd.ptr = f1.ptr →
        x1.nd.fd.name = s → x1.nd.expanded = true → ChainOK rest (join_path dir s) x1 →
        (force = true ∨ (EnvU env vd.path (join_path dir s) rest ∧ UTD rest x1)) →
        List.Forall₂ PDle work1 (add_node_points_loop x1.kids rest) →
        ∃ vd1 last f itf Rf,
          populate_path_loop fuel env P expand force vdC (some pd1) work1 =
            some (Walk.done vd1 (some last)) ∧
          last.node = some f ∧ f.path = P ∧ TreeOK vd1 ∧ SafeStore fuel vd1.store ∧
          vd1.path = vd.path ∧ row_at vd1.store itf = some Rf ∧ Rf.nd.fd.ptr = f.ptr ∧
          itf.length = it.length + (rest.length + 1) ∧ Rf.nd.fd.path = P ∧
          Rf.nd.fd.name ≠ [] ∧ Rf.nd.expanded = true ∧
          (expand = true → path_shown (it ++ [j]) vdC.store = true →
            path_shown itf vd1.store = true) := by
      intro vdC x1 pd1 f1 j work1 hokC hsafeC hpathC hn1 hf1 hrowC hptr hname hexp hch1 hU1 hw1
      obtain ⟨vd1, last, f, itf, Rf, h1, h2, h3, h4, h5, h6, h7, h8, h9, h10, h11, h12, h13⟩ :=
        populate_path_loop_complete fuel env P expand force rest work1 (join_path dir s) vdC pd1
          f1 (it ++ [j]) x1 hokC hsafeC
          (by simp only [List.length_append, List.length_singleton]; omega)
          (by rw [hpathC]; exact henv2) hP2 hn1 hf1 hrowC hptr (by rw [hname]; exact hsne)
          hexp hch1 (by rw [hpathC]; exact hU1) hw1
      refine ⟨vd1, last, f, itf, Rf, h1, h2, h3, h4, h5, h6.trans hpathC, h7, h8, ?_, h10, h11,
        h12, h13⟩
      rw [h9]
      simp only [List.length_append, List.length_singleton]
      omega
    have hfl1 : it.length + 2 ≤ fuel := by omega
    cases work with
    | nil =>
      simp only [add_node_points_loop] at hwork
      cases hf : R.kids.find? (fun r => decide (r.nd.fd.name = s)) <;>
        simp only [hf] at hwork <;> cases hwork
    | cons pd work1 =>
      cases hnode : pd.node with
      | some f =>
        -- the segment was resolved: its row is below `R`
        simp only [add_node_points_loop] at hwork
        cases hf : R.kids.find? (fun r => decide (r.nd.fd.name = s)) with
        | none =>
          simp only [hf] at hwork
          cases hwork with
          | cons hpd hw =>
            obtain ⟨f1, hf1, -⟩ := hpd.2 f hnode
            simp at hf1
        | some c =>
          simp only [hf] at hwork
          cases hwork with
          | cons hpd hw =>
            obtain ⟨f1, hf1, hp1, hp2⟩ := hpd.2 f hnode
            simp only [Option.some.injEq] at hf1
            subst hf1
            have hcm := List.mem_of_find?_eq_some hf
            have hcn : c.nd.fd.name = s := by simpa using List.find?_some hf
            obtain ⟨j, hj⟩ := List.getElem?_of_mem hcm
            have hrc := row_at_append it vd.store R c j hR hj
            have hfr : vdtree_find_row vd.store (some f.ptr) = some (it ++ [j]) := by
              rw [← hp1]
              exact vdtree_find_row_at hok.2.1 hrc
            have hUc : force = true ∨
                (EnvU env vd.path (join_path dir s) rest ∧ UTD rest c) := by
              rcases hU with h | ⟨h1, h2⟩
              · exact Or.inl h
              · exact Or.inr ⟨h1.2, h2.2 c hcm hcn⟩
            obtain ⟨vdC, x1, hby, hokC, hsafeC, hpathC, hrowC, hptr, hname, hcp, hch1, hext,
                hU1, hexp⟩ :=
              @child_sync_step fuel env P force vd
                (if expand = true then vdtree_expand_by_iter vd (it ++ [j]) true else vd)
                it j R c s dir rest hok (same_rows_if_expand expand vd (it ++ [j]))
                (by split <;> rfl)
                (safe_if_expand expand vd (it ++ [j]) hsafe
                  (by simp only [List.length_append, List.length_singleton]; omega))
                (by omega) henv2 hR hchain hj hcn hsne hUc
            have heq : populate_path_loop fuel env P expand force vd (some ppd) (pd :: work1) =
                populate_path_loop fuel env P expand force vdC (some pd) work1 := by
              simp only [populate_path_loop, hnode, hfr, hby]
            rw [heq]
            obtain ⟨vd1, last, f9, itf, Rf, k1, k2, k3, k4, k5, k6, k7, k8, k9, k10, k11, k12,
                k13⟩ :=
              hnext vdC x1 pd f j work1 hokC hsafeC hpathC hnode (by rw [← hp2]; exact hcp)
                hrowC (by rw [hptr, hp1]) hname hexp hch1 hU1 (pdle_list_trans hw hext)
            exact ⟨vd1, last, f9, itf, Rf, k1, k2, k3, k4, k5, k6, k7, k8, k9, k10, k11, k12,
              fun he hs => k13 he (shown_child_step he hs hrc hby)⟩
      | none =>
        -- the segment was not resolved: the row `R` is synced again
        have hfr : vdtree_find_row vd.store (some pf.ptr) = some it := by
          rw [← hRp]
          exact vdtree_find_row_at hok.2.1 hR
        obtain ⟨vdP, R1, hbyP, hokP, hsafeP, hpathP, hrowP, hidP, hchainP, hextP, hexP, hutdP,
            hexpP⟩ :=
          @row_sync_step fuel env P force vd it R (s :: rest) dir hok hsafe (by omega) henv hR
            hRn hchain hU
        obtain ⟨c0, hc0, hc0n⟩ := hexP s rest rfl
        have hpdn : pd.name = s := by
          simp only [add_node_points_loop] at hwork
          cases hf : R.kids.find? (fun r => decide (r.nd.fd.name = s)) <;>
            simp only [hf] at hwork <;> cases hwork with
            | cons hpd hw => exact hpd.1
        obtain ⟨j, hfn⟩ := @first_index_isSome
          (fun r => decide (r.nd.fd.name = pd.name)) R1.kids c0 hc0 (by simp [hc0n, hpdn])
        obtain ⟨c, hj, hcn0⟩ := first_index_some hfn
        have hcn : c.nd.fd.name = s := by
          simp only [decide_eq_true_eq] at hcn0
          rw [hcn0, hpdn]
        have hcm := List.getElem?_mem hj
        have hfind := find_of_nodup_names hcm hcn hchainP.2.1
        have hw1 : List.Forall₂ PDle work1 (add_node_points_loop c.kids rest) := by
          simp only [add_node_points_loop, hfind] at hextP
          simp only [add_node_points_loop] at hwork
          cases hf : R.kids.find? (fun r => decide (r.nd.fd.name = s)) with
          | none =>
            simp only [hf] at hwork hextP
            cases hwork with
            | cons hpd hw =>
              cases hextP with
              | cons _ hx => exact pdle_list_trans hw hx
          | some c9 =>
            simp only [hf] at hwork hextP
            cases hwork with
            | cons hpd hw =>
              cases hextP with
              | cons _ hx => exact pdle_list_trans hw hx
        have hUc : force = true ∨
            (EnvU env vdP.path (join_path dir s) rest ∧ UTD rest c) := by
          rcases hU with h | ⟨h1, h2⟩
          · exact Or.inl h
          · exact Or.inr ⟨by rw [hpathP]; exact h1.2, (hutdP h1 h2).2 c hcm hcn⟩
        obtain ⟨vdC, x1, hby, hokC, hsafeC, hpathC, hrowC, hptr, hname, hcp, hch1, hext,
            hU1, hexp⟩ :=
          @child_sync_step fuel env P force vdP
            (if expand = true then
              vdtree_expand_by_iter (vdtree_expand_by_iter vdP it true) (it ++ [j]) true
            else vdP)
            it j R1 c s dir rest hokP (same_rows_if_expand2 expand vdP it (it ++ [j]))
            (by split <;> rfl)
            (safe_if_expand2 expand vdP it (it ++ [j]) hsafeP (by omega)
              (by simp only [List.length_append, List.length_singleton]; omega))
            (by omega) (by rw [hpathP]; exact henv2) hrowP hchainP hj hcn hsne hUc
        have heq : populate_path_loop fuel env P expand force vd (some ppd) (pd :: work1) =
            populate_path_loop fuel env P expand force vdC
              (some { pd with node := some c.nd.fd }) work1 := by
          simp only [populate_path_loop, hnode, hppd, Option.map_some', hfr, hbyP, hrowP,
            vdtree_find_iter_by_name, hfn, hj, hby]
        rw [heq]
        obtain ⟨vd1, last, f9, itf, Rf, k1, k2, k3, k4, k5, k6, k7, k8, k9, k10, k11, k12,
            k13⟩ :=
          hnext vdC x1 { pd with node := some c.nd.fd } c.nd.fd j work1 hokC hsafeC
            (hpathC.trans hpathP) rfl hcp
            hrowC hptr hname hexp hch1 (by rw [← hpathP]; exact hU1) (pdle_list_trans hw1 hext)
        exact ⟨vd1, last, f9, itf, Rf, k1, k2, k3, k4, k5, k6, k7, k8, k9, k10, k11, k12,
          fun he hs => k13 he (shown_parent_step he (populate_by_iter_shown hbyP hs)
            (row_at_append it vdP.store R1 c j hrowP hj) hby)⟩

theorem safe_store_g {fuel : Nat} (vd : ViewDir) (g : G) (h : SafeStore fuel vd.store) :
    SafeStore fuel ({ vd with g := g } : ViewDir).store := h

/-- Materialisation of a canonical path along which the disk and the tree are
consistent: the walk ends at the row of the last component, and its entry is
returned. -/
theorem populate_path_complete (fuel : Nat) (env : Env) (vd : ViewDir) (segs : List CStr)
    (expand force : Bool) (hok : TreeOK vd)
    (hfuel : ht_rows vd.store + segs.length + 4 ≤ fuel)
    (hsegs : ∀ s ∈ segs, '/' ∉ s)
    (hroot : ∃ r ∈ vd.store, r.nd.fd.name = ['/'])
    (hchain : ∀ r ∈ vd.store, r.nd.fd.name = ['/'] → ChainOK segs ['/'] r)
    (henv : EnvOK env vd.path (path_from ['/'] segs) ['/'] segs)
    (hU : force = true ∨
      (EnvU env vd.path ['/'] segs ∧ ∀ r ∈ vd.store, r.nd.fd.name = ['/'] → UTD segs r)) :
    ∃ vd1 fd itf Rf,
      vdtree_populate_path fuel env vd (some (path_from ['/'] segs)) expand force =
        some (vd1, some fd) ∧
      fd.path = path_from ['/'] segs ∧ TreeOK vd1 ∧ SafeStore fuel vd1.store ∧
      vd1.path = vd.path ∧ row_at vd1.store itf = some Rf ∧ Rf.nd.fd.ptr = fd.ptr ∧
      itf.length = segs.length + 1 ∧ Rf.nd.fd.path = path_from ['/'] segs ∧
      Rf.nd.fd.name ≠ [] ∧ Rf.nd.expanded = true ∧
      (expand = true → path_shown itf vd1.store = true) := by
  have hsne : ∀ s ∈ segs, s ≠ [] ∧ '/' ∉ s := by
    have : ∀ (l : List CStr) (dir : CStr),
        EnvOK env vd.path (path_from ['/'] segs) dir l → ∀ s ∈ l, s ≠ [] := by
      intro l
      induction l with
      | nil => intro dir _ s hs; simp at hs
      | cons a l ih =>
        intro dir he s hs
        rcases List.mem_cons.mp hs with rfl | h
        · exact env_ok_head_ne he
        · exact ih _ he.2.2.2.2.2.2 s h
    exact fun s hs => ⟨this segs _ henv s hs, hsegs s hs⟩
  obtain ⟨r9, hr9, hr9n⟩ := hroot
  cases hf : vd.store.find? (fun r => decide (r.nd.fd.name = ['/'])) with
  | none =>
    have := List.find?_eq_none.mp hf r9 hr9
    simp [hr9n] at this
  | some r0 =>
    have hr0 := List.mem_of_find?_eq_some hf
    have hr0n : r0.nd.fd.name = ['/'] := by simpa using List.find?_some hf
    obtain ⟨i0, hi0⟩ := List.getElem?_of_mem hr0
    have hok0 : TreeOK { vd with g := vdtree_busy_push vd.g } :=
      tree_ok_g hok _ (vdtree_busy_push_next_ptr vd.g)
    have hsafe : SafeStore fuel vd.store := safe_store_of_ht vd.store fuel (by omega)
    have hrow0 : row_at ({ vd with g := vdtree_busy_push vd.g } : ViewDir).store [i0] =
        some r0 := by
      simp only [row_at]
      exact hi0
    have hfr : vdtree_find_row vd.store (some r0.nd.fd.ptr) = some [i0] :=
      vdtree_find_row_at hok.2.1 hrow0
    have hsame := same_rows_if_expand expand { vd with g := vdtree_busy_push vd.g } [i0]
    obtain ⟨cB, hcB, hstrip⟩ := same_rows_row_at hsame hrow0
    obtain ⟨f1, f2, f3⟩ := strip_eq_facts hstrip
    have hpathB : (if expand = true then
        vdtree_expand_by_iter { vd with g := vdtree_busy_push vd.g } [i0] true
        else { vd with g := vdtree_busy_push vd.g }).path = vd.path := by
      split <;> rfl
    have hUB : force = true ∨
        (EnvU env (if expand = true then
            vdtree_expand_by_iter { vd with g := vdtree_busy_push vd.g } [i0] true
            else { vd with g := vdtree_busy_push vd.g }).path ['/'] segs ∧ UTD segs cB) := by
      rcases hU with h | ⟨h1, h2⟩
      · exact Or.inl h
      · exact Or.inr ⟨by rw [hpathB]; exact h1, utd_of_strip_eq hstrip segs (h2 r0 hr0 hr0n)⟩
    obtain ⟨vdC, x1, hby, hokC, hsafeC, hpathC, hrowC, hid, hchainC, hext, -, hutd, hexp⟩ :=
      @row_sync_step fuel env (path_from ['/'] segs) force
        (if expand = true then
          vdtree_expand_by_iter { vd with g := vdtree_busy_push vd.g } [i0] true
          else { vd with g := vdtree_busy_push vd.g })
        [i0] cB segs ['/']
        (same_rows_ok hsame hok0)
        (safe_if_expand expand _ [i0] hsafe (by simp only [List.length_singleton]; omega))
        (by simp only [List.length_singleton]; omega)
        (by rw [hpathB]; exact henv) hcB (by rw [f1, hr0n]; simp)
        (f2 _ _ (hchain r0 hr0 hr0n)) hUB
    have hidp : x1.nd.fd.ptr = r0.nd.fd.ptr := by
      have := congrArg Ident.fd_ptr hid
      simp only [Row.ident] at this
      rw [this, f1]
    have hidn : x1.nd.fd.name = ['/'] := by
      have := congrArg Ident.name hid
      simp only [Row.ident] at this
      rw [this, f1, hr0n]
    have hr0p : r0.nd.fd.path = ['/'] := by
      have := hchain r0 hr0 hr0n
      cases segs with
      | nil => exact this
      | cons a l => exact this.1
    obtain ⟨vd1, last, f, itf, Rf, h1, h2, h3, h4, h5, h6, h7, h8, h9, h10, h11, h12, h13⟩ :=
      populate_path_loop_complete fuel env (path_from ['/'] segs) expand force segs
        (add_node_points_loop r0.kids segs) ['/'] vdC
        { name := ['/'], node := some r0.nd.fd } r0.nd.fd [i0] x1 hokC hsafeC
        (by simp only [List.length_singleton]; omega)
        (by rw [hpathC, hpathB]; exact henv) rfl rfl hr0p hrowC hidp
        (by rw [hidn]; simp) hexp hchainC
        (by
          rcases hUB with h | ⟨hu1, hu2⟩
          · exact Or.inl h
          · exact Or.inr ⟨by rw [hpathC]; exact hu1, hutd hu1 hu2⟩)
        (by rw [← f3 segs]; exact hext)
    refine ⟨{ vd1 with g := vdtree_busy_pop vd1.g }, f, itf, Rf, ?_, h3,
      tree_ok_g h4 _ (vdtree_busy_pop_next_ptr vd1.g), h5, ?_, h7, h8, ?_, h10, h11, h12,
      fun he => h13 he (@shown_child_step fuel env (path_from ['/'] segs) force expand
        { vd with g := vdtree_busy_push vd.g } vdC [] i0 r0 he rfl hrow0 hby)⟩
    · unfold vdtree_populate_path
      simp only [parts_list_add_node_points, parts_list_path_from segs hsne,
        add_node_points_loop, hf, populate_path_loop, hfr, hby, h1]
      simp only [Option.bind, h2]
    · show vd1.path = vd.path
      rw [h6, hpathC, hpathB]
    · rw [h9]
      simp only [List.length_singleton]
      omega

/-! ### Completeness of materialisation -/

/-- C4, counterexample: on a disk with the directories `/` and `/a`, in the view
built by `vdtree_setup_root`, the forced materialisation of `/a/` returns the
entry of the row of `/a`, whose path is `/a` and not `/a/`; and in the view that
`vdtree_setup_root` built before `/a` was created, the materialisation of `/a`
without force, within ten time units of the sync of the root, returns `NULL`. -/
theorem materialize_counterexample :
    env_root_a.isdir "/".toList = true ∧ env_root_a.isdir "/a".toList = true ∧
    (vdtree_populate_path 5 env_root_a vd_setup_a (some "/a/".toList) false true).map
        (fun p => p.2.map FileData.path) = some (some "/a".toList) ∧
    ((vdtree_setup_root 3 env_root_only (vdtree_empty true)).bind
        (fun v => vdtree_populate_path 5 env_root_a v (some "/a".toList) false false)).map
        Prod.snd = some none := by
  decide!

/-- C4, amended: let `P` be the canonical path of the components `segs` (no
component contains the separator), and let the view be in a state reached from
`vdtree_setup_root` that has a root row and is consistent along `P`.  Let the disk
be consistent along `P`: every directory on the way is a directory for the stat
provider, every entry it lists other than `.` and `..` is a directory with the
path of the listing directory joined with its name, and it lists the next
component.  When `force` is `TRUE`, or the rows along `P` are up to date and the
listings under the hint of the view list the components as well,
`vdtree_populate_path(P, expand, force)` - with a depth of recursion that exceeds
the height of the tree and the number of components by four - returns a non-null
entry whose path is `P`, the entry of a row of the tree. -/
theorem materialize_complete (fuel : Nat) (env : Env) (vd : ViewDir) (segs : List CStr)
    (expand force : Bool) (hr : Reachable vd)
    (hfuel : ht_rows vd.store + segs.length + 4 ≤ fuel)
    (hsegs : ∀ s ∈ segs, '/' ∉ s)
    (hroot : ∃ r ∈ vd.store, r.nd.fd.name = ['/'])
    (hchain : ∀ r ∈ vd.store, r.nd.fd.name = ['/'] → ChainOK segs ['/'] r)
    (henv : EnvOK env vd.path (path_from ['/'] segs) ['/'] segs)
    (hU : force = true ∨
      (EnvU env vd.path ['/'] segs ∧ ∀ r ∈ vd.store, r.nd.fd.name = ['/'] → UTD segs r)) :
    ∃ vd1 fd,
      vdtree_populate_path fuel env vd (some (path_from ['/'] segs)) expand force =
        some (vd1, some fd) ∧
      fd.path = path_from ['/'] segs ∧ Reachable vd1 ∧
      ∃ it R, row_at vd1.store it = some R ∧ R.nd.fd.ptr = fd.ptr ∧
        R.nd.fd.path = path_from ['/'] segs := by
  obtain ⟨vd1, fd, itf, Rf, h1, h2, -, -, -, h6, h7, -, h9, -, -⟩ :=
    populate_path_complete fuel env vd segs expand force (reachable_ok hr) hfuel hsegs hroot
      hchain henv hU
  exact ⟨vd1, fd, h1, h2, Reachable.populate_path fuel env vd _ expand force vd1 _ hr h1,
    itf, Rf, h6, h7, h9⟩

theorem chain_ok_setup_a : ChainOK ["a".toList, "x".toList] ['/']
    (mk_row 1 0 "/" "/" true 101 true [mk_row 5 4 "/a" "a" false 102 false [empty_row 6]]) := by
  simp [ChainOK, mk_row, empty_row, Row.kids, Row.nd, join_path]

theorem env_ok_a_xy : EnvOK env_a_xy none "/a/x".toList ['/'] ["a".toList, "x".toList] := by
  simp [EnvOK, DirOK, listed_entries, hint_entries, hidden_name8, env_a_xy, env_root_a,
    listing_of, join_path]

theorem env_u_a_xy : EnvU env_a_xy none ['/'] ["a".toList, "x".toList] := by
  simp [EnvU, listed_entries, hint_entries, hidden_name8, env_a_xy, env_root_a,
    listing_of, join_path]

theorem utd_setup_a : UTD ["a".toList, "x".toList]
    (mk_row 1 0 "/" "/" true 101 true [mk_row 5 4 "/a" "a" false 102 false [empty_row 6]]) := by
  simp [UTD, mk_row, empty_row, Row.kids, Row.nd]

/-- The amended C4 on the view that `vdtree_setup_root` builds on a disk with the
directory `/a`, after `/a` got the directories `x` and `y`: the materialisation
of `/a/x` without force returns an entry with that path. -/
theorem materialize_complete_witness :
    ∃ vd1 fd,
      vdtree_populate_path 9 env_a_xy vd_setup_a (some "/a/x".toList) true false =
        some (vd1, some fd) ∧
      fd.path = "/a/x".toList ∧ Reachable vd1 ∧
      ∃ it R, row_at vd1.store it = some R ∧ R.nd.fd.ptr = fd.ptr ∧
        R.nd.fd.path = "/a/x".toList :=
  materialize_complete 9 env_a_xy vd_setup_a ["a".toList, "x".toList] true false
    (Reachable.setup_root 2 env_root_a true vd_setup_a (by decide!)) (by decide) (by decide)
    ⟨_, List.mem_singleton_self _, rfl⟩
    (fun r hr _ => by
      rw [List.mem_singleton.mp hr]
      exact chain_ok_setup_a)
    env_ok_a_xy
    (Or.inr ⟨env_u_a_xy, fun r hr _ => by
      rw [List.mem_singleton.mp hr]
      exact utd_setup_a⟩)

/-! ### Deletion without force -/

/-- C14, counterexample: the row `/a` is expanded, was synced at time 100, and its
directory is gone.  The sync without force at time 109 returns `TRUE` without
any call of the stat provider, and the row stays in the store. -/
theorem unforced_sync_counterexample :
    env_gone.isdir "/a".toList = false ∧ env_gone.clock 0 = 109 ∧
    row_at vd_root_a.store [0, 0] = some (dir_row 2 "/a" "a" true 100 5 false []) ∧
    vdtree_populate_path_by_iter 1 env_gone vd_root_a [0, 0] false none =
      some ({ vd_root_a with g := g_at 4 1 }, true) := by
  decide!

/-- C14, amended: for every expanded row whose path is no directory, in a store
whose objects have distinct addresses, the sync without force at a time that is
ten or more after the row's `last_update` returns `FALSE` and detaches the row
with all rows below it and no other row; afterwards `vdtree_find_row` does not
find its entry.  Less than ten after `last_update`, the sync returns `TRUE` and
leaves the store as it is. -/
theorem unforced_sync_detaches (fuel : Nat) (env : Env) (vd : ViewDir) (iter : List Nat)
    (r : Row) (target_path : Option CStr)
    (hrow : row_at vd.store iter = some r) (hexp : r.nd.expanded = true)
    (hdir : env.isdir r.nd.fd.path = false) (hnd : (addrs vd.store).Nodup) :
    (¬ env.clock vd.g.ticks - r.nd.last_update < 10 →
      ∃ vd1, vdtree_populate_path_by_iter (fuel + 1) env vd iter false target_path =
          some (vd1, false) ∧
        vdtree_find_row vd1.store (some r.nd.fd.ptr) = none ∧
        (addrs vd.store).Perm (addrs_row r ++ addrs vd1.store)) ∧
    (env.clock vd.g.ticks - r.nd.last_update < 10 →
      vdtree_populate_path_by_iter (fuel + 1) env vd iter false target_path =
        some ({ vd with g := { vd.g with ticks := vd.g.ticks + 1 } }, true)) := by
  obtain ⟨nd, ve, kids⟩ := r
  simp only [Row.nd] at hexp hdir ⊢
  constructor
  · intro hwin
    have hp := populate_row_removed fuel env vd.path vd.g nd ve kids false target_path hexp
      (Or.inr hwin) hdir
    obtain ⟨store1, hs, hperm⟩ := @sync_iter_removed
      (fun g r => populate_row (fuel + 1) env vd.path g r false target_path) vd.g _
      iter vd.store (Row.mk nd ve kids) hrow hp
    refine ⟨{ vd with
        g := clear_refs { vd.g with ticks := vd.g.ticks + 1,
                                    trace := vd.g.trace ++ [IOEvent.isdir nd.fd.path] } nd.fd.ptr,
        store := store1 },
      by simp only [vdtree_populate_path_by_iter, hs], ?_, hperm⟩
    simp only [vdtree_find_row]
    apply find_row_from_none
    have hnd2 := hperm.nodup_iff.mp hnd
    rw [addrs_row_mk] at hnd2
    intro hmem
    simp only [List.cons_append, List.nodup_cons, List.mem_append, List.mem_cons] at hnd2
    exact hnd2.2.1 (Or.inr hmem)
  · intro hwin
    have hp := populate_row_skip fuel env vd.path vd.g nd ve kids target_path hexp hwin
    have hs := @sync_iter_unchanged
      (fun g r => populate_row (fuel + 1) env vd.path g r false target_path) vd.g _
      iter vd.store (Row.mk nd ve kids) hrow hp
    simp only [vdtree_populate_path_by_iter, hs]

/-- The amended C14 on the expanded row `/a`, synced at time 100, whose directory
is gone: at time 115 the sync without force detaches it. -/
theorem unforced_sync_detaches_witness :
    (¬ env_gone.clock 1 - 100 < 10 →
      ∃ vd1, vdtree_populate_path_by_iter (0 + 1) env_gone { vd_root_a with g := g_at 4 1 }
          [0, 0] false none = some (vd1, false) ∧
        vdtree_find_row vd1.store (some 3) = none ∧
        (addrs vd_root_a.store).Perm
          (addrs_row (dir_row 2 "/a" "a" true 100 5 false []) ++ addrs vd1.store)) ∧
    (env_gone.clock 1 - 100 < 10 →
      vdtree_populate_path_by_iter (0 + 1) env_gone { vd_root_a with g := g_at 4 1 } [0, 0]
          false none =
        some ({ vd_root_a with g := { g_at 4 1 with ticks := 1 + 1 } }, true)) :=
  unforced_sync_detaches 0 env_gone { vd_root_a with g := g_at 4 1 } [0, 0]
    (dir_row 2 "/a" "a" true 100 5 false []) none rfl rfl rfl (by decide)

/-! ### The state a successful sync leaves in its row -/

/-- A sync without force of an expanded row that is answered by one of its two
short cuts leaves the row as it is. -/
theorem populate_row_short_cut (fuel : Nat) (env : Env) (vd_path : Option CStr) (g g1 : G)
    (nd : NodeData) (ve : Bool) (kids : List Row) (target_path : Option CStr) (r1 : Row)
    (h : populate_row fuel env vd_path g (Row.mk nd ve kids) false target_path =
      some (g1, some r1))
    (hexp : nd.expanded = true)
    (hcut : env.clock g.ticks - nd.last_update < 10 ∨ env.filetime nd.fd.path = nd.fd.date) :
    r1 = Row.mk nd ve kids := by
  cases fuel with
  | zero => simp [populate_row] at h
  | succ fuel =>
    rcases populate_row_cases fuel env vd_path g g1 nd ve kids false target_path _ h with
      ⟨-, -, h1⟩ | ⟨-, -, h1, -⟩ | ⟨-, h1, -⟩ | ⟨h1, -⟩
    · exact (Option.some.inj h1)
    · simp at h1
    · exact (Option.some.inj h1)
    · rcases h1 with h1 | ⟨-, h1 | ⟨h1, h2⟩⟩
      · simp [hexp] at h1
      · simp at h1
      · rcases hcut with hc | hc
        · exact absurd hc h1
        · exact absurd hc h2

/-- C18, counterexample: the row `/a` is expanded and was updated at time 100.  A
sync without force at time 105 returns `TRUE` by the quiescence exit, and one at
time 500 returns `TRUE` because the directory has the recorded modification time;
after both the `last_update` of the row is still 100. -/
theorem sync_state_counterexample :
    vdtree_populate_path_by_iter 1 { env_root_a with clock := fun _ => 105 } vd_root_a [0, 0]
        false none = some ({ vd_root_a with g := g_at 4 1 }, true) ∧
    vdtree_populate_path_by_iter 1 { env_root_a with clock := fun _ => 500 } vd_root_a [0, 0]
        false none =
      some ({ vd_root_a with
                g := { g_at 4 1 with
                  trace := [IOEvent.isdir "/a".toList, IOEvent.filetime "/a".toList] } }, true) ∧
    (row_at vd_root_a.store [0, 0]).map (fun r => r.nd.last_update) = some 100 := by
  decide!

/-- C18, amended: whenever `vdtree_populate_path_by_iter` returns `TRUE` on a
row, afterwards the row is expanded.  Its `last_update` is the time read at the
start of the call when the row was not expanded before, or the call was forced,
or the call was ten or more after the `last_update` and the directory did not
have the recorded modification time: these are the calls that read the listing.
A call without force on an expanded row less than ten after its `last_update`,
or on a directory with the recorded modification time, leaves the row with its
`last_update` as it was. -/
theorem sync_state_update (fuel : Nat) (env : Env) (vd vd1 : ViewDir) (iter : List Nat)
    (force : Bool) (target_path : Option CStr)
    (h : vdtree_populate_path_by_iter fuel env vd iter force target_path = some (vd1, true)) :
    ∃ r r1, row_at vd.store iter = some r ∧ row_at vd1.store iter = some r1 ∧
      r1.nd.expanded = true ∧
      ((r.nd.expanded = false ∨ force = true ∨
          (¬ env.clock vd.g.ticks - r.nd.last_update < 10 ∧
            env.filetime r.nd.fd.path ≠ r.nd.fd.date)) →
        r1.nd.last_update = env.clock vd.g.ticks) ∧
      (r.nd.expanded = true → force = false →
        (env.clock vd.g.ticks - r.nd.last_update < 10 ∨
          env.filetime r.nd.fd.path = r.nd.fd.date) → r1 = r) := by
  unfold vdtree_populate_path_by_iter at h
  cases hs : sync_iter (fun g r => populate_row fuel env vd.path g r force target_path)
      iter vd.g vd.store with
  | none => simp [hs] at h
  | some res =>
    obtain ⟨g1, store1, b⟩ := res
    simp only [hs, Option.some.injEq, Prod.mk.injEq] at h
    obtain ⟨rfl, rfl⟩ := h
    obtain ⟨r, r1, hr, hp, hr1⟩ := sync_iter_true iter vd.store store1 hs
    obtain ⟨nd, ve, kids⟩ := r
    have hsome := populate_row_some fuel env vd.path vd.g g1 nd ve kids force target_path r1 hp
    refine ⟨Row.mk nd ve kids, r1, hr, hr1, hsome.2.2.1, ?_, ?_⟩
    · intro hread
      exact populate_row_last_update fuel env vd.path vd.g g1 nd ve kids force target_path r1 hp
        hread
    · intro hexp hf hcut
      subst hf
      exact populate_row_short_cut fuel env vd.path vd.g g1 nd ve kids target_path r1 hp hexp hcut

/-- The amended C18 on the first sync of the row `/a`, at time 109. -/
theorem sync_state_update_witness :
    ∃ r r1, row_at vd_root_a_new.store [0, 0] = some r ∧
      row_at [dir_row 0 "/" "/" true 100 5 true [dir_row 2 "/a" "a" true 109 5 false []]]
        [0, 0] = some r1 ∧
      r1.nd.expanded = true ∧
      ((r.nd.expanded = false ∨ false = true ∨
          (¬ env_gone.clock 0 - r.nd.last_update < 10 ∧
            env_gone.filetime r.nd.fd.path ≠ r.nd.fd.date)) →
        r1.nd.last_update = env_gone.clock 0) ∧
      (r.nd.expanded = true → false = false →
        (env_gone.clock 0 - r.nd.last_update < 10 ∨
          env_gone.filetime r.nd.fd.path = r.nd.fd.date) → r1 = r) :=
  sync_state_update 1 env_gone vd_root_a_new
    { vd_root_a_new with
      store := [dir_row 0 "/" "/" true 100 5 true [dir_row 2 "/a" "a" true 109 5 false []]],
      g := { g_at 6 1 with cursor := [true, false],
                           trace := [IOEvent.filelist_read "/a".toList] } }
    [0, 0] false none (by decide!)

/-! ### A directory without entries -/

/-- The loop over the stale rows empties the rows when `old` holds the `NodeData`
of each of them. -/
theorem stale_loop_all : ∀ (old : List NodeData) (g : G) (kids : List Row),
    (kids.map (fun r => r.nd.ptr)).Perm (old.map NodeData.ptr) →
    (stale_loop old g kids).2 = []
  | [], g, kids, hp => by
    simp only [List.map_nil, List.perm_nil] at hp
    simpa [stale_loop] using hp
  | cnd :: work, g, kids, hp => by
    have hmem : cnd.ptr ∈ kids.map (fun r => r.nd.ptr) :=
      hp.symm.subset (by simp)
    obtain ⟨k, hk, hkp⟩ := List.mem_map.mp hmem
    cases kids with
    | nil => simp at hk
    | cons k0 ks =>
      cases hfi : first_index (fun r => decide (r.nd.ptr = cnd.ptr)) (k0 :: ks) with
      | none =>
        have := filter_first_index_none hfi
        have hk2 : k ∈ (k0 :: ks).filter (fun r => decide (r.nd.ptr ≠ cnd.ptr)) := by
          rw [this]; exact hk
        simp [List.mem_filter, hkp] at hk2
      | some i =>
        have hstep : (stale_loop (cnd :: work) g (k0 :: ks)) =
            stale_loop work (clear_refs g cnd.fd.ptr) ((k0 :: ks).eraseIdx i) := by
          simp [stale_loop, vdtree_find_iter_by_data, hfi]
        rw [hstep]
        apply stale_loop_all work
        have he : ((k0 :: ks).eraseIdx i).map (fun r => r.nd.ptr) =
            ((k0 :: ks).map (fun r => r.nd.ptr)).erase cnd.ptr := by
          clear hstep hp hmem hk
          revert i
          generalize (k0 :: ks) = l
          induction l with
          | nil => intro i hfi; simp [first_index] at hfi
          | cons a l ih =>
            intro i hfi
            simp only [first_index] at hfi
            by_cases ha : a.nd.ptr = cnd.ptr
            · simp only [ha, decide_True, if_true, Option.some.injEq] at hfi
              subst hfi
              simp [ha]
            · simp only [ha, decide_False, Bool.false_eq_true, if_false, Option.map_eq_some'] at hfi
              obtain ⟨j, hj, rfl⟩ := hfi
              simp only [List.eraseIdx_cons_succ, List.map_cons]
              rw [List.erase_cons_tail (by simpa using ha)]
              rw [ih j hj]
        rw [he]
        have := hp.erase cnd.ptr
        simpa using this

/-- A listing without entries: no directory is listed and the hint adds no
hidden entry. -/
theorem read_listing_nil (env : Env) (g : G) (path : CStr) (target_path : Option CStr)
    (hlist : env.filelist_read path = [])
    (hhint : ∀ n, hidden_name8 env path target_path = some n → env.stat_utf8 n = none) :
    (read_listing env g path target_path).1 = [] := by
  simp only [read_listing, filelist_read, hlist, stamp_entries]
  cases hh : hidden_name8 env path target_path with
  | none => rfl
  | some n => simp [hhint n hh]

/-- C12: a sync that reads the listing of its row (the row is not expanded, or
its path is a directory and the sync is forced, or is ten or more after the last
update of a directory whose modification time is not the recorded one), when the
listing provider yields no entry and the hint adds no hidden entry, returns
`TRUE`, leaves the row in its place, expanded and updated at the time of the
call, and leaves no row below it, the placeholder included. -/
theorem empty_listing_sync (fuel : Nat) (env : Env) (vd : ViewDir) (iter : List Nat) (r : Row)
    (force : Bool) (target_path : Option CStr)
    (hrow : row_at vd.store iter = some r)
    (hread : r.nd.expanded = false ∨
      (env.isdir r.nd.fd.path = true ∧
        (force = true ∨
          (¬ env.clock vd.g.ticks - r.nd.last_update < 10 ∧
            env.filetime r.nd.fd.path ≠ r.nd.fd.date))))
    (hlist : env.filelist_read r.nd.fd.path = [])
    (hhint : ∀ n, hidden_name8 env r.nd.fd.path target_path = some n →
      env.stat_utf8 n = none) :
    ∃ vd1, vdtree_populate_path_by_iter (fuel + 1) env vd iter force target_path =
        some (vd1, true) ∧
      row_at vd1.store iter =
        some (Row.mk { r.nd with expanded := true, last_update := env.clock vd.g.ticks }
          r.view_expanded []) ∧
      vd1.store = replace_at iter
        (some (Row.mk { r.nd with expanded := true, last_update := env.clock vd.g.ticks }
          r.view_expanded [])) vd.store := by
  obtain ⟨nd, ve, kids⟩ := r
  simp only [Row.nd, Row.view_expanded] at hread hlist hhint ⊢
  have hp := populate_row_merge_eq fuel env vd.path vd.g nd ve kids force target_path hread
  have hnil := read_listing_nil env (before_read { vd.g with ticks := vd.g.ticks + 1 } nd force)
    nd.fd.path target_path hlist hhint
  rw [hnil] at hp
  simp only [merge_rows, merge_loop, Option.map_some'] at hp
  rw [stale_loop_all _ _ kids (by simp [List.map_reverse, Function.comp_def]; exact
    (List.reverse_perm _).symm)] at hp
  unfold vdtree_populate_path_by_iter
  rw [sync_iter_eq, hrow]
  simp only [hp, Option.isSome_some]
  exact ⟨_, rfl, row_at_replace_at _ iter vd.store _ hrow, rfl⟩

/-- C12 on the first sync of the row `/a`, which has the placeholder below it, on
a disk that lists nothing. -/
theorem empty_listing_sync_witness :
    ∃ vd1, vdtree_populate_path_by_iter (0 + 1) env_gone vd_root_a_new [0, 0] false none =
        some (vd1, true) ∧
      row_at vd1.store [0, 0] =
        some (Row.mk { (dir_row 2 "/a" "a" false 100 5 false [empty_row 4]).nd with
            expanded := true, last_update := env_gone.clock vd_root_a_new.g.ticks }
          (dir_row 2 "/a" "a" false 100 5 false [empty_row 4]).view_expanded []) ∧
      vd1.store = replace_at [0, 0]
        (some (Row.mk { (dir_row 2 "/a" "a" false 100 5 false [empty_row 4]).nd with
            expanded := true, last_update := env_gone.clock vd_root_a_new.g.ticks }
          (dir_row 2 "/a" "a" false 100 5 false [empty_row 4]).view_expanded []))
        vd_root_a_new.store :=
  empty_listing_sync 0 env_gone vd_root_a_new [0, 0]
    (dir_row 2 "/a" "a" false 100 5 false [empty_row 4]) false none rfl (Or.inl rfl) rfl
    (fun n h => by simp [hidden_name8] at h)

/-! ### The click and hover targets -/

/-- C13 fails in the code: the entry of `/a/x` (address 5) is the click and the
hover target and `/a` is no directory any more.  The forced sync of `/a` removes
the row `/a` with the row `/a/x` below it and returns `FALSE`; the forced sync of
the root prunes the stale row `/a` with the row `/a/x` below it and returns
`TRUE`.  After either call no row of the store has the entry at address 5, and
both targets still hold that address. -/
theorem descendant_target_dangles :
    vdtree_find_row vd_click_x.store (some 5) = some [0, 0, 0] ∧
    (vdtree_populate_path_by_iter 1 env_root_only vd_click_x [0, 0] true none).map
        (fun p => (p.2, p.1.store, p.1.g.click_fd, p.1.g.drop_fd,
          vdtree_find_row p.1.store (some 5))) =
      some (false, [dir_row 0 "/" "/" true 100 5 true []], some 5, some 5, none) ∧
    (vdtree_populate_path_by_iter 1 env_root_only vd_click_x [0] true none).map
        (fun p => (p.2, p.1.store, p.1.g.click_fd, p.1.g.drop_fd,
          vdtree_find_row p.1.store (some 5))) =
      some (true, [dir_row 0 "/" "/" true 100 5 true []], some 5, some 5, none) :=
  ⟨by decide!, by rfl, by rfl⟩

/-! ### The recorded modification time -/

/-- C19 fails in the code: `/b` was synced at time 198, when it was empty and had
the modification time 1; now it lists `x` and has the modification time 5.  The
forced sync of the root at time 200 finds the differing date and calls the sync
of `/b`, which is answered by the quiescence exit (time 201, less than ten after
198): the listing of `/b` is not read, and the recorded date of `/b` is set to 5
all the same.  Every later sync of `/b` without force, here at time 500, finds
the recorded date equal to the modification time and returns `TRUE` without
reading the listing: the row `/b` stays without the row `x`. -/
theorem date_advanced_without_read :
    vdtree_populate_path_by_iter 2 env_b_x vd_root_b [0] true none =
      some (vd_root_b_synced, true) ∧
    IOEvent.filelist_read "/b".toList ∉ vd_root_b_synced.g.trace ∧
    env_b_x.filelist_read "/b".toList = listing_of "/b" ["x"] ∧
    vdtree_populate_path_by_iter 2 { env_b_x with clock := fun _ => 500 } vd_root_b_synced
        [0, 0] false none =
      some ({ vd_root_b_synced with
          g := { vd_root_b_synced.g with
            ticks := 3,
            trace := vd_root_b_synced.g.trace ++
              [IOEvent.isdir "/b".toList, IOEvent.filetime "/b".toList] } }, true) := by
  decide!

/-! ### The busy indication -/

theorem same_busy_refl (g : G) : SameBusy g g := ⟨rfl, rfl⟩

theorem same_busy_trans {g g1 g2 : G} (h1 : SameBusy g g1) (h2 : SameBusy g1 g2) :
    SameBusy g g2 := ⟨h2.1.trans h1.1, h2.2.trans h1.2⟩

theorem same_busy_pos {g g1 : G} (h : SameBusy g g1) (h0 : 0 < g.busy_ref) :
    0 < g1.busy_ref := by rw [h.1]; exact h0

theorem vdtree_busy_push_ref (g : G) : (vdtree_busy_push g).busy_ref = g.busy_ref + 1 := by
  simp only [vdtree_busy_push]; split <;> rfl

theorem sync_at_busy {pop : G → Row → Option (G × Option Row)} (hpop : PopBusy pop)
    {g g1 : G} {rows rows1 : List Row} {i : Nat} {b : Bool} (h0 : 0 < g.busy_ref)
    (h : sync_at pop g rows i = some (g1, rows1, b)) : SameBusy g g1 := by
  unfold sync_at at h
  split at h
  · simp only [Option.some.injEq, Prod.mk.injEq] at h
    rw [← h.1]; exact same_busy_refl g
  · split at h
    · simp at h
    · rename_i hp
      simp only [Option.some.injEq, Prod.mk.injEq] at h
      rw [← h.1]; exact hpop _ _ _ _ h0 hp
    · rename_i hp
      simp only [Option.some.injEq, Prod.mk.injEq] at h
      rw [← h.1]; exact hpop _ _ _ _ h0 hp

theorem vdtree_add_by_data_busy {pop : G → Row → Option (G × Option Row)} (hpop : PopBusy pop)
    {env : Env} {g g1 : G} {fd : FileData} {pve : Option Bool} {rows rows1 : List Row}
    (h0 : 0 < g.busy_ref)
    (h : vdtree_add_by_data pop env g fd pve rows = some (g1, rows1)) : SameBusy g g1 := by
  unfold vdtree_add_by_data at h
  simp only [time, file_data_new_simple] at h
  split at h
  · simp only [Option.some.injEq, Prod.mk.injEq] at h
    rw [← h.1]; exact ⟨rfl, rfl⟩
  · split at h
    · split at h
      · simp at h
      · rename_i hs
        simp only [Option.some.injEq, Prod.mk.injEq] at h
        rw [← h.1]
        refine same_busy_trans ?_ (sync_at_busy hpop ?_ hs)
        · exact ⟨rfl, rfl⟩
        · exact h0
    · simp only [Option.some.injEq, Prod.mk.injEq] at h
      rw [← h.1]; exact ⟨rfl, rfl⟩

/-- The insertion of a row without parent makes no sync and leaves the busy
indication as it is. -/
theorem vdtree_add_top_busy {pop : G → Row → Option (G × Option Row)}
    {env : Env} {g g1 : G} {fd : FileData} {rows rows1 : List Row}
    (h : vdtree_add_by_data pop env g fd none rows = some (g1, rows1)) : SameBusy g g1 := by
  unfold vdtree_add_by_data at h
  simp only [time, file_data_new_simple, Option.some.injEq, Prod.mk.injEq] at h
  rw [← h.1]; exact ⟨rfl, rfl⟩

theorem merge_entry_busy {pop_child pop_new : G → Row → Option (G × Option Row)}
    (hpc : PopBusy pop_child) (hpn : PopBusy pop_new) {env : Env} {ve : Bool}
    {st st1 : MergeState} {fd : FileData} (h0 : 0 < st.g.busy_ref)
    (h : merge_entry pop_child pop_new env ve st fd = some st1) : SameBusy st.g st1.g := by
  unfold merge_entry at h
  split at h
  · simp only [Option.some.injEq] at h
    rw [← h]; exact same_busy_refl _
  · split at h
    · split at h
      · simp only [Option.some.injEq] at h
        rw [← h]; exact same_busy_refl _
      · split at h
        · split at h
          · simp at h
          · rename_i hs
            simp only [Option.some.injEq] at h
            rw [← h]; exact sync_at_busy hpc h0 hs
          · rename_i hs
            simp only [Option.some.injEq] at h
            rw [← h]; exact sync_at_busy hpc h0 hs
        · simp only [Option.some.injEq] at h
          rw [← h]; exact same_busy_refl _
    · split at h
      · simp at h
      · rename_i ha
        simp only [Option.some.injEq] at h
        rw [← h]; exact vdtree_add_by_data_busy hpn h0 ha

theorem merge_loop_busy {pop_child pop_new : G → Row → Option (G × Option Row)}
    (hpc : PopBusy pop_child) (hpn : PopBusy pop_new) {env : Env} {ve : Bool} :
    ∀ (list : List FileData) (st st1 : MergeState), 0 < st.g.busy_ref →
      merge_loop pop_child pop_new env ve list st = some st1 → SameBusy st.g st1.g
  | [], st, st1, _, h => by
    simp only [merge_loop, Option.some.injEq] at h
    rw [← h]; exact same_busy_refl _
  | fd :: work, st, st1, h0, h => by
    simp only [merge_loop] at h
    split at h
    · simp at h
    · rename_i st2 he
      have h1 := merge_entry_busy hpc hpn h0 he
      exact same_busy_trans h1 (merge_loop_busy hpc hpn work st2 st1 (same_busy_pos h1 h0) h)

theorem stale_loop_busy : ∀ (old : List NodeData) (g : G) (kids : List Row),
    SameBusy g (stale_loop old g kids).1
  | [], g, kids => by simp only [stale_loop]; exact same_busy_refl g
  | cnd :: work, g, kids => by
    simp only [stale_loop]
    exact @same_busy_trans g (clear_refs g cnd.fd.ptr) _ ⟨rfl, rfl⟩ (stale_loop_busy work _ _)

theorem merge_rows_busy {pop_child pop_new : G → Row → Option (G × Option Row)}
    (hpc : PopBusy pop_child) (hpn : PopBusy pop_new) {env : Env} {ve : Bool}
    {list : List FileData} {g g4 : G} {kids kids1 : List Row} (h0 : 0 < g.busy_ref)
    (h : merge_rows pop_child pop_new env ve list g kids = some (g4, kids1)) :
    SameBusy g g4 := by
  unfold merge_rows at h
  split at h
  · simp at h
  · rename_i st hl
    simp only [Option.some.injEq] at h
    have h1 := merge_loop_busy hpc hpn list _ st h0 hl
    have h2 := stale_loop_busy st.old st.g st.kids
    rw [h] at h2
    exact same_busy_trans h1 h2

theorem read_listing_busy (env : Env) (g : G) (path : CStr) (target_path : Option CStr) :
    SameBusy g (read_listing env g path target_path).2 := by
  simp only [read_listing, filelist_read]
  split
  · exact ⟨rfl, rfl⟩
  · split
    · exact ⟨rfl, rfl⟩
    · exact ⟨rfl, rfl⟩

theorem busy_ok_same {g g1 : G} (h : BusyOK g g1) (h0 : 0 < g.busy_ref) : SameBusy g g1 :=
  ⟨h.1, h.2.1 h0⟩

theorem same_busy_ok {g g1 : G} (h : SameBusy g g1) : BusyOK g g1 :=
  ⟨h.1, fun _ => h.2, fun _ => Or.inl h.2⟩

/-- Taking a reference, a stretch that leaves the indication alone, and giving
the reference back. -/
theorem push_pop_busy {g g3 g4 : G} (h0 : 0 ≤ g.busy_ref)
    (h3 : SameBusy (vdtree_busy_push g) g3) (h4 : SameBusy g3 g4) :
    (vdtree_busy_pop g4).busy_ref = g.busy_ref ∧
      (0 < g.busy_ref → (vdtree_busy_pop g4).cursor = g.cursor) ∧
      (g.busy_ref = 0 → (vdtree_busy_pop g4).cursor = g.cursor ++ [true, false]) := by
  have h := same_busy_trans h3 h4
  obtain ⟨hb, hc⟩ := h
  have hb2 : g4.busy_ref = g.busy_ref + 1 := by
    rw [hb]; simp only [vdtree_busy_push]; split <;> rfl
  by_cases hz : g.busy_ref = 0
  · have hc2 : g4.cursor = g.cursor ++ [true] := by
      rw [hc]; simp [vdtree_busy_push, hz]
    have h1 : g4.busy_ref = 1 := by rw [hb2, hz]; rfl
    refine ⟨?_, fun hp => by omega, fun _ => ?_⟩
    · simp [vdtree_busy_pop, h1, hz]
    · simp [vdtree_busy_pop, h1, hc2]
  · have hc2 : g4.cursor = g.cursor := by
      rw [hc]; simp [vdtree_busy_push, hz]
    have h1 : g4.busy_ref ≠ 1 := by omega
    have h2 : g4.busy_ref > 0 := by omega
    refine ⟨?_, fun _ => ?_, fun hp => absurd hp hz⟩
    · simp only [vdtree_busy_pop, h1, if_false, h2, if_true]
      show g4.busy_ref - 1 = g.busy_ref
      omega
    · simp only [vdtree_busy_pop, h1, if_false, h2, if_true]
      exact hc2

/-- Every sync gives back the busy reference it takes, and touches the cursor
only when no reference was held at its start. -/
theorem populate_row_busy (env : Env) (vd_path : Option CStr) :
    ∀ (fuel : Nat) (g : G) (r : Row) (force : Bool) (target_path : Option CStr) (g1 : G)
      (res : Option Row), 0 ≤ g.busy_ref →
      populate_row fuel env vd_path g r force target_path = some (g1, res) → BusyOK g g1
  | 0, g, r, force, target_path, g1, res, _, h => by simp [populate_row] at h
  | fuel + 1, g, Row.mk nd ve kids, force, target_path, g1, res, h0, h => by
    have hpop : ∀ t, PopBusy (fun g r => populate_row fuel env vd_path g r false t) :=
      fun t g r g1 res hg hp =>
        busy_ok_same (populate_row_busy env vd_path fuel g r false t g1 res (le_of_lt hg) hp) hg
    rcases populate_row_cases fuel env vd_path g g1 nd ve kids force target_path res h with
      ⟨-, h1, -⟩ | ⟨-, -, -, h1⟩ | ⟨-, -, h1⟩ | ⟨-, g4, kids1, hm, h1, -⟩
    · subst h1; exact same_busy_ok ⟨rfl, rfl⟩
    · subst h1; exact same_busy_ok ⟨rfl, rfl⟩
    · subst h1; exact same_busy_ok ⟨rfl, rfl⟩
    · subst h1
      have hbr : SameBusy (vdtree_busy_push g)
          (read_listing env (before_read { g with ticks := g.ticks + 1 } nd force) nd.fd.path
            target_path).2 := by
        refine same_busy_trans ?_ (read_listing_busy env _ _ _)
        simp only [before_read, vdtree_busy_push]
        split <;> (constructor <;> (split <;> rfl))
      have hpos : 0 < (read_listing env (before_read { g with ticks := g.ticks + 1 } nd force)
          nd.fd.path target_path).2.busy_ref := by
        rw [hbr.1, vdtree_busy_push_ref]; omega
      have hmb := merge_rows_busy (hpop target_path) (hpop vd_path) hpos hm
      obtain ⟨a, b, c⟩ := push_pop_busy h0 hbr hmb
      exact ⟨a, b, fun hz => Or.inr (c hz)⟩

theorem populate_row_pop_busy (fuel : Nat) (env : Env) (vd_path : Option CStr) (force : Bool)
    (t : Option CStr) : PopBusy (fun g r => populate_row fuel env vd_path g r force t) :=
  fun g r g1 res hg hp =>
    busy_ok_same (populate_row_busy env vd_path fuel g r force t g1 res (le_of_lt hg) hp) hg

theorem populate_by_iter_busy {fuel : Nat} {env : Env} {vd vd1 : ViewDir} {iter : List Nat}
    {force : Bool} {target_path : Option CStr} {b : Bool} (h0 : 0 ≤ vd.g.busy_ref)
    (h : vdtree_populate_path_by_iter fuel env vd iter force target_path = some (vd1, b)) :
    BusyOK vd.g vd1.g := by
  unfold vdtree_populate_path_by_iter at h
  rw [sync_iter_eq] at h
  cases hr : row_at vd.store iter with
  | none =>
    simp only [hr, Option.some.injEq, Prod.mk.injEq] at h
    rw [← h.1]; exact same_busy_ok (same_busy_refl _)
  | some r =>
    simp only [hr] at h
    cases hp : populate_row fuel env vd.path vd.g r force target_path with
    | none => simp [hp] at h
    | some res =>
      obtain ⟨g1, o⟩ := res
      simp only [hp, Option.some.injEq, Prod.mk.injEq] at h
      rw [← h.1]
      exact populate_row_busy env vd.path fuel vd.g r force target_path g1 o h0 hp

/-- A sync called while a reference is held, on a view that differs from `vd0`
in its rows only. -/
theorem populate_by_iter_held {fuel : Nat} {env : Env} {vd0 vd vd1 : ViewDir} {iter : List Nat}
    {force : Bool} {target_path : Option CStr} {b : Bool} (hg : vd.g = vd0.g)
    (h0 : 0 < vd0.g.busy_ref)
    (h : vdtree_populate_path_by_iter fuel env vd iter force target_path = some (vd1, b)) :
    SameBusy vd0.g vd1.g := by
  rw [← hg] at h0 ⊢
  exact busy_ok_same (populate_by_iter_busy (le_of_lt h0) h) h0

theorem vdtree_expand_by_iter_g (vd : ViewDir) (iter : List Nat) (e : Bool) :
    (vdtree_expand_by_iter vd iter e).g = vd.g := rfl

/-- The segment walk runs while the reference of `vdtree_populate_path` is held
and leaves the busy indication as it is. -/
theorem populate_path_loop_busy (fuel : Nat) (env : Env) (path : CStr) (expand force : Bool) :
    ∀ (list : List PathData) (vd : ViewDir) (prev : Option PathData) (w : Walk),
      0 < vd.g.busy_ref →
      populate_path_loop fuel env path expand force vd prev list = some w →
      SameBusy vd.g w.vd.g
  | [], vd, prev, w, _, h => by
    simp only [populate_path_loop, Option.some.injEq] at h
    rw [← h]; exact same_busy_refl _
  | pd :: work, vd, prev, w, h0, h => by
    simp only [populate_path_loop] at h
    split at h
    · split at h
      · simp only [Option.some.injEq] at h
        rw [← h]; exact same_busy_refl _
      · split at h
        · simp only [Option.some.injEq] at h
          rw [← h]; exact same_busy_refl _
        · split at h
          · simp at h
          · rename_i vd1 hp
            simp only [Option.some.injEq] at h
            rw [← h]
            exact busy_ok_same (populate_by_iter_busy (le_of_lt h0) hp) h0
          · rename_i vd1 hp
            have h1 := busy_ok_same (populate_by_iter_busy (le_of_lt h0) hp) h0
            split at h
            · simp only [Option.some.injEq] at h
              rw [← h]; exact h1
            · split at h
              · simp only [Option.some.injEq] at h
                rw [← h]; exact h1
              · split at h
                · simp only [Option.some.injEq] at h
                  rw [← h]; exact h1
                · split at h
                  · simp at h
                  · rename_i vd3 b3 hp3
                    have h01 := same_busy_pos h1 h0
                    have h2 : SameBusy vd1.g vd3.g :=
                      populate_by_iter_held (by split <;> rfl) h01 hp3
                    have h3 := populate_path_loop_busy fuel env path expand force work vd3 _ w
                      (same_busy_pos h2 h01) h
                    exact same_busy_trans h1 (same_busy_trans h2 h3)
    · split at h
      · rename_i iter hf
        split at h
        · simp at h
        · rename_i vd2 b2 hp
          have h1 : SameBusy vd.g vd2.g := populate_by_iter_held (by split <;> rfl) h0 hp
          exact same_busy_trans h1
            (populate_path_loop_busy fuel env path expand force work vd2 _ w
              (same_busy_pos h1 h0) h)
      · exact populate_path_loop_busy fuel env path expand force work vd _ w h0 h

/-- The call `vdtree_populate_path`: without path nothing is touched; with a path
the reference is taken and given back. -/
theorem populate_path_busy {fuel : Nat} {env : Env} {vd vd1 : ViewDir} {path : Option CStr}
    {expand force : Bool} {res : Option FileData} (h0 : 0 ≤ vd.g.busy_ref)
    (h : vdtree_populate_path fuel env vd path expand force = some (vd1, res)) :
    vd1.g.busy_ref = vd.g.busy_ref ∧ (0 < vd.g.busy_ref → vd1.g.cursor = vd.g.cursor) ∧
      (vd.g.busy_ref = 0 →
        (path = none → vd1.g.cursor = vd.g.cursor) ∧
        (path ≠ none → vd1.g.cursor = vd.g.cursor ++ [true, false])) := by
  unfold vdtree_populate_path at h
  cases path with
  | none =>
    simp only [Option.some.injEq, Prod.mk.injEq] at h
    rw [← h.1]
    exact ⟨rfl, fun _ => rfl, fun _ => ⟨fun _ => rfl, fun hn => absurd rfl hn⟩⟩
  | some p =>
    simp only at h
    have hpos : 0 < (vdtree_busy_push vd.g).busy_ref := by
      rw [vdtree_busy_push_ref]; omega
    have key : ∀ w, populate_path_loop fuel env p expand force
        { vd with g := vdtree_busy_push vd.g } none
        (parts_list_add_node_points { vd with g := vdtree_busy_push vd.g } (parts_list p)) =
          some w → vd1.g = vdtree_busy_pop w.vd.g →
        vd1.g.busy_ref = vd.g.busy_ref ∧ (0 < vd.g.busy_ref → vd1.g.cursor = vd.g.cursor) ∧
          (vd.g.busy_ref = 0 → vd1.g.cursor = vd.g.cursor ++ [true, false]) := by
      intro w hw hg
      have hl := populate_path_loop_busy fuel env p expand force _ _ none w hpos hw
      rw [hg]
      exact push_pop_busy h0 (same_busy_refl _) hl
    split at h
    · simp at h
    · rename_i vd2 hw
      simp only [Option.some.injEq, Prod.mk.injEq] at h
      obtain ⟨a, b, c⟩ := key _ hw (by rw [← h.1]; rfl)
      exact ⟨a, b, fun hz => ⟨fun hn => by simp at hn, fun _ => c hz⟩⟩
    · rename_i vd2 last hw
      simp only [Option.some.injEq, Prod.mk.injEq] at h
      obtain ⟨a, b, c⟩ := key _ hw (by rw [← h.1]; rfl)
      exact ⟨a, b, fun hz => ⟨fun hn => by simp at hn, fun _ => c hz⟩⟩

/-- No busy reference is held in a state of the view reached from the root. -/
theorem reachable_busy {vd : ViewDir} (h : Reachable vd) : vd.g.busy_ref = 0 := by
  induction h with
  | setup_root fuel env sf vd hs =>
    unfold vdtree_setup_root at hs
    simp only [file_data_new_simple] at hs
    split at hs
    · simp at hs
    · rename_i g2 store1 ha
      have h1 := vdtree_add_top_busy ha
      simp only [Option.map_eq_some'] at hs
      obtain ⟨⟨vd2, res⟩, hp, rfl⟩ := hs
      have hg : (vdtree_expand_by_data
          { vdtree_empty sf with g := g2, store := store1 } (some (vdtree_empty sf).g.next_ptr)
          true).g = g2 := by
        unfold vdtree_expand_by_data
        split <;> rfl
      have h2 := (populate_path_busy (by rw [hg, h1.1]; exact le_refl _) hp).1
      rw [h2, hg, h1.1]; rfl
  | add_by_data fuel env vd path g2 store1 _ ha ih =>
    have h1 := vdtree_add_top_busy ha
    show g2.busy_ref = 0
    rw [h1.1]; exact ih
  | populate_path_by_iter fuel env vd iter force target_path vd1 b _ _ hp ih =>
    rw [(populate_by_iter_busy (by rw [ih]) hp).1]; exact ih
  | populate_path fuel env vd path expand force vd1 res _ hp ih =>
    rw [(populate_path_busy (by rw [ih]) hp).1]; exact ih
  | expand vd iter e _ ih => exact ih
  | set_path vd path _ ih => exact ih
  | set_targets vd c d _ ih => exact ih

/-- C17: a busy reference is taken with the cursor set exactly when none was
held, and given back with the cursor reset exactly when it was the only one; no
reference is held, so the count is not negative, in any state of the view reached
from the root; and from every state whose count is not negative, every call of
`vdtree_populate_path_by_iter` and of `vdtree_populate_path` that returns, by
whichever exit, leaves the count as it was at entry, leaves the cursor alone when
a reference was held at entry, and otherwise leaves it alone or sets and resets it
once (`vdtree_populate_path` with a path: exactly once). -/
theorem busy_balanced (fuel : Nat) (env : Env) (vd : ViewDir) :
    (Reachable vd → vd.g.busy_ref = 0) ∧
    (vdtree_busy_push vd.g).busy_ref = vd.g.busy_ref + 1 ∧
    (vdtree_busy_push vd.g).cursor =
      (if vd.g.busy_ref = 0 then vd.g.cursor ++ [true] else vd.g.cursor) ∧
    (vdtree_busy_pop vd.g).busy_ref =
      (if 0 < vd.g.busy_ref then vd.g.busy_ref - 1 else vd.g.busy_ref) ∧
    (vdtree_busy_pop vd.g).cursor =
      (if vd.g.busy_ref = 1 then vd.g.cursor ++ [false] else vd.g.cursor) ∧
    (0 ≤ vd.g.busy_ref →
      (∀ iter force target_path vd1 b,
        vdtree_populate_path_by_iter fuel env vd iter force target_path = some (vd1, b) →
        vd1.g.busy_ref = vd.g.busy_ref ∧ (0 < vd.g.busy_ref → vd1.g.cursor = vd.g.cursor) ∧
          (vd.g.busy_ref = 0 →
            vd1.g.cursor = vd.g.cursor ∨ vd1.g.cursor = vd.g.cursor ++ [true, false])) ∧
      (∀ path expand force vd1 res,
        vdtree_populate_path fuel env vd path expand force = some (vd1, res) →
        vd1.g.busy_ref = vd.g.busy_ref ∧ (0 < vd.g.busy_ref → vd1.g.cursor = vd.g.cursor) ∧
          (vd.g.busy_ref = 0 →
            (path = none → vd1.g.cursor = vd.g.cursor) ∧
            (path ≠ none → vd1.g.cursor = vd.g.cursor ++ [true, false])))) := by
  refine ⟨reachable_busy, ?_, ?_, ?_, ?_, fun h0 => ⟨?_, ?_⟩⟩
  · simp only [vdtree_busy_push]; split <;> rfl
  · simp only [vdtree_busy_push]; split <;> rfl
  · simp only [vdtree_busy_pop]
    by_cases h1 : vd.g.busy_ref = 1
    · simp [h1]
    · simp only [h1, if_false]
      split <;> rfl
  · simp only [vdtree_busy_pop]
    by_cases h1 : vd.g.busy_ref = 1
    · simp [h1]
    · simp only [h1, if_false]
      split <;> rfl
  · intro iter force target_path vd1 b h
    exact populate_by_iter_busy h0 h
  · intro path expand force vd1 res h
    exact populate_path_busy h0 h

/-- C17 on the view that `vdtree_setup_root` builds: no reference is held, and
every call of `vdtree_populate_path` leaves the count at zero and, given a path,
sets and resets the cursor once. -/
theorem busy_balanced_witness :
    vd_setup_a.g.busy_ref = 0 ∧
    ∀ path expand force vd1 res,
      vdtree_populate_path 9 env_a_xy vd_setup_a path expand force = some (vd1, res) →
      vd1.g.busy_ref = vd_setup_a.g.busy_ref ∧
        (0 < vd_setup_a.g.busy_ref → vd1.g.cursor = vd_setup_a.g.cursor) ∧
        (vd_setup_a.g.busy_ref = 0 →
          (path = none → vd1.g.cursor = vd_setup_a.g.cursor) ∧
          (path ≠ none → vd1.g.cursor = vd_setup_a.g.cursor ++ [true, false])) :=
  ⟨(busy_balanced 9 env_a_xy vd_setup_a).1
      (Reachable.setup_root 2 env_root_a true vd_setup_a (by decide!)),
    ((busy_balanced 9 env_a_xy vd_setup_a).2.2.2.2.2 (by decide)).2⟩

/-! ### The resolved segments -/

theorem add_node_points_loop_nil : ∀ (names : List CStr),
    add_node_points_loop [] names = names.map (fun n => { name := n, node := none })
  | [] => rfl
  | n :: work => by
    simp only [add_node_points_loop, List.find?_nil, List.map_cons]
    rw [add_node_points_loop_nil work]

/-- The resolved segments are a leading run of the segments, resolved to a chain
of rows. -/
theorem add_node_points_loop_chain : ∀ (names : List CStr) (rows : List Row),
    ∃ chain rest, RowChain rows chain ∧
      names = chain.map (fun r => r.nd.fd.name) ++ rest ∧
      add_node_points_loop rows names =
        chain.map (fun r => { name := r.nd.fd.name, node := some r.nd.fd }) ++
          rest.map (fun n => { name := n, node := none })
  | [], rows => ⟨[], [], trivial, rfl, rfl⟩
  | name :: work, rows => by
    cases hf : rows.find? (fun r => decide (r.nd.fd.name = name)) with
    | none =>
      refine ⟨[], name :: work, trivial, rfl, ?_⟩
      simp only [add_node_points_loop, hf, List.map_nil, List.nil_append, List.map_cons]
      rw [add_node_points_loop_nil work]
    | some r =>
      have hmem : r ∈ rows := List.mem_of_find?_eq_some hf
      have hname : r.nd.fd.name = name := by
        have := List.find?_some hf
        simpa using this
      obtain ⟨chain, rest, hc, hn, he⟩ := add_node_points_loop_chain work r.kids
      refine ⟨r :: chain, rest, ⟨hmem, hc⟩, ?_, ?_⟩
      · simp only [List.map_cons, List.cons_append, hname]
        rw [← hn]
      · simp only [add_node_points_loop, hf, List.map_cons, List.cons_append, hname]
        rw [he]

/-- The previous segment that the walk hands on is a resolved one. -/
theorem populate_path_loop_prev (fuel : Nat) (env : Env) (path : CStr) (expand force : Bool) :
    ∀ (pre : List PathData) (vd : ViewDir) (prev : Option PathData) (vdk : ViewDir)
      (prevk : Option PathData),
      (∀ q, prev = some q → q.node ≠ none) →
      populate_path_loop fuel env path expand force vd prev pre = some (Walk.done vdk prevk) →
      (∀ q, prevk = some q → q.node ≠ none) ∧ (pre ≠ [] → prevk ≠ none)
  | [], vd, prev, vdk, prevk, hprev, h => by
    simp only [populate_path_loop, Option.some.injEq, Walk.done.injEq] at h
    rw [← h.2]
    exact ⟨hprev, fun hn => absurd rfl hn⟩
  | pd :: pre, vd, prev, vdk, prevk, hprev, h => by
    have key : ∀ (vd1 : ViewDir) (q1 : PathData), q1.node ≠ none →
        populate_path_loop fuel env path expand force vd1 (some q1) pre =
          some (Walk.done vdk prevk) →
        (∀ q, prevk = some q → q.node ≠ none) ∧ (pd :: pre ≠ [] → prevk ≠ none) := by
      intro vd1 q1 hq1 h1
      have ih := populate_path_loop_prev fuel env path expand force pre vd1 (some q1) vdk prevk
        (fun q hq => by rw [← Option.some.inj hq]; exact hq1) h1
      refine ⟨ih.1, fun _ => ?_⟩
      cases pre with
      | nil =>
        simp only [populate_path_loop, Option.some.injEq, Walk.done.injEq] at h1
        rw [← h1.2]; simp
      | cons a l => exact ih.2 (by simp)
    simp only [populate_path_loop] at h
    split at h
    · split at h
      · simp at h
      · split at h
        · simp at h
        · split at h
          · simp at h
          · simp at h
          · split at h
            · simp at h
            · split at h
              · simp at h
              · split at h
                · simp at h
                · split at h
                  · simp at h
                  · exact key _ _ (by simp) h
    · rename_i fd hfd
      split at h
      · split at h
        · simp at h
        · exact key _ pd (by rw [hfd]; simp) h
      · exact key _ pd (by rw [hfd]; simp) h

/-- C20: for every view and every list of segments, `parts_list_add_node_points`
resolves a leading run of the segments, which may be empty, to the entries of a
chain of rows: the first a row of the top level, each further one a row below the
one before; every later segment is left without node.  And whenever the walk of
`vdtree_populate_path` has passed the segments `pre`, not none, of its list and
stands at the next one in the state `vdk` with the previous segment `prevk`,
there is a previous segment and its node is not null. -/
theorem resolved_run (fuel : Nat) (env : Env) (vd : ViewDir) (names : List CStr) (p : CStr)
    (expand force : Bool) :
    (∃ chain rest, RowChain vd.store chain ∧
      names = chain.map (fun r => r.nd.fd.name) ++ rest ∧
      parts_list_add_node_points vd names =
        chain.map (fun r => { name := r.nd.fd.name, node := some r.nd.fd }) ++
          rest.map (fun n => { name := n, node := none })) ∧
    (∀ (pre work : List PathData) (pd : PathData) (vdk : ViewDir) (prevk : Option PathData),
      parts_list_add_node_points { vd with g := vdtree_busy_push vd.g } (parts_list p) =
        pre ++ pd :: work →
      pre ≠ [] →
      populate_path_loop fuel env p expand force { vd with g := vdtree_busy_push vd.g } none pre =
        some (Walk.done vdk prevk) →
      (∃ parent_pd fd, prevk = some parent_pd ∧ parent_pd.node = some fd) ∧
      populate_path_loop fuel env p expand force { vd with g := vdtree_busy_push vd.g } none
          (parts_list_add_node_points { vd with g := vdtree_busy_push vd.g } (parts_list p)) =
        populate_path_loop fuel env p expand force vdk prevk (pd :: work)) := by
  refine ⟨add_node_points_loop_chain names vd.store, ?_⟩
  intro pre work pd vdk prevk hlist hne hreach
  have h := populate_path_loop_prev fuel env p expand force pre _ none vdk prevk
    (fun q hq => by simp at hq) hreach
  refine ⟨?_, ?_⟩
  · cases hp : prevk with
    | none => exact absurd hp (h.2 hne)
    | some q =>
      cases hq : q.node with
      | none => exact absurd hq (h.1 q hp)
      | some fd => exact ⟨q, fd, rfl, hq⟩
  · rw [hlist, populate_path_loop_append, hreach]
    rfl

/-- C20 on the walk over `/a/x` in the view that `vdtree_setup_root` builds on a
disk with the directory `/a`: the segments `/` and `a` are resolved, `x` is not,
and at `x` the previous segment has the entry of `/a`. -/
theorem resolved_run_witness :
    (∃ parent_pd fd,
      some (PathData.mk "a".toList (some (FileData.mk 4 "/a".toList "a".toList 0 5))) =
          some parent_pd ∧ parent_pd.node = some fd) ∧
    populate_path_loop 2 env_root_a "/a/x".toList false false
        { vd_setup_a with g := vdtree_busy_push vd_setup_a.g } none
        (parts_list_add_node_points { vd_setup_a with g := vdtree_busy_push vd_setup_a.g }
          (parts_list "/a/x".toList)) =
      populate_path_loop 2 env_root_a "/a/x".toList false false vd_walk_a
        (some (PathData.mk "a".toList (some (FileData.mk 4 "/a".toList "a".toList 0 5))))
        (PathData.mk "x".toList none :: []) :=
  (resolved_run 2 env_root_a vd_setup_a [] "/a/x".toList false false).2
    [PathData.mk "/".toList (some (FileData.mk 0 "/".toList "/".toList 0 5)),
     PathData.mk "a".toList (some (FileData.mk 4 "/a".toList "a".toList 0 5))]
    [] (PathData.mk "x".toList none) vd_walk_a
    (some (PathData.mk "a".toList (some (FileData.mk 4 "/a".toList "a".toList 0 5))))
    (by decide!) (by simp) (by decide!)

/-! ### Distinct names -/

theorem names_inv_iff : ∀ (rows : List Row),
    names_inv rows = true ↔ ∀ c ∈ rows, names_inv_row c = true
  | [] => by simp [names_inv]
  | r :: rs => by
    simp only [names_inv, Bool.and_eq_true, names_inv_iff rs, List.mem_cons, forall_eq_or_imp]

theorem names_inv_row_mk (nd : NodeData) (ve : Bool) (kids : List Row) :
    names_inv_row (Row.mk nd ve kids) = true ↔ names_ok kids = true := by
  simp [names_inv_row, names_ok]

theorem names_ok_iff (rows : List Row) :
    names_ok rows = true ↔
      (rows.map (fun r => r.nd.fd.name)).Nodup ∧ ∀ c ∈ rows, names_inv_row c = true := by
  simp [names_ok, names_inv_iff]

theorem names_inv_set_size_date (r : Row) (size date : Int) :
    names_inv_row (r.set_size_date size date) = names_inv_row r := by
  obtain ⟨nd, ve, kids⟩ := r
  simp [Row.set_size_date, names_inv_row]

theorem set_size_date_name (r : Row) (size date : Int) :
    (r.set_size_date size date).nd.fd.name = r.nd.fd.name := by
  obtain ⟨nd, ve, kids⟩ := r
  rfl

theorem names_inv_fresh {lo : Nat} {fd : FileData} {r : Row} (h : is_fresh_child lo fd r) :
    names_inv_row r = true := by
  obtain ⟨p, -, t, sz, dt, rfl⟩ := h
  simp [names_inv_row, names_inv]

/-- One round of the loop over the listing keeps the names of the rows distinct:
a row is added only for a name that no row has. -/
theorem merge_entry_names {pop_child pop_new : G → Row → Option (G × Option Row)} {env : Env}
    {ve : Bool}
    (hpc : ∀ g r g1 r1, pop_child g r = some (g1, some r1) → r1.nd.fd.name = r.nd.fd.name)
    (hpn : ∀ g r g1 r1, pop_new g r = some (g1, some r1) → r1.nd.fd.name = r.nd.fd.name)
    {fd : FileData} {st st1 : MergeState}
    (hk1 : (st.kids.map (fun r => r.nd.fd.name)).Nodup)
    (he : merge_entry pop_child pop_new env ve st fd = some st1) :
    (st1.kids.map (fun r => r.nd.fd.name)).Nodup := by
  unfold merge_entry at he
  split at he
  · simp only [Option.some.injEq] at he
    subst he
    exact hk1
  · split at he
    · rename_i i hfi
      obtain ⟨c, hci, -⟩ := first_index_some hfi
      simp only [hci] at he
      split at he
      · split at he
        · simp at he
        · rename_i g1 kids2 hs
          rcases sync_at_cases hs hci with ⟨c1, hp, rfl, -⟩ | ⟨-, -, hb⟩
          · simp only [Option.some.injEq] at he
            subst he
            have hlt : i < st.kids.length := (List.getElem?_eq_some_iff.mp hci).1
            have hget : (st.kids.set i c1)[i]? = some c1 := by
              simp [List.getElem?_set, hlt]
            simp only [hget]
            rw [map_set_same (fun r => r.nd.fd.name) hget (set_size_date_name c1 _ _),
              map_set_same (fun r => r.nd.fd.name) hci (hpc _ _ _ _ hp)]
            exact hk1
          · simp at hb
        · rename_i g1 kids2 hs
          rcases sync_at_cases hs hci with ⟨c1, -, -, hb⟩ | ⟨-, rfl, -⟩
          · simp at hb
          · simp only [Option.some.injEq] at he
            subst he
            exact ((List.eraseIdx_sublist _ _).map _).nodup hk1
      · simp only [Option.some.injEq] at he
        subst he
        exact hk1
    · rename_i hfi
      split at he
      · simp at he
      · rename_i g1 kids2 ha
        simp only [Option.some.injEq] at he
        subst he
        have hno : fd.name ∉ st.kids.map (fun r => r.nd.fd.name) := by
          intro hm
          obtain ⟨r, hr, hrn⟩ := List.mem_map.mp hm
          have := first_index_none hfi r hr
          simp [hrn] at this
        obtain ⟨child, pos, ⟨t, sz, dt, rfl⟩, hcases⟩ := vdtree_add_by_data_rows ha
        simp only
        rcases hcases with ⟨-, rfl⟩ | ⟨g2, child1, -, hp, rfl⟩ | ⟨g2, -, -, rfl⟩
        · rw [((insert_at_perm _ _ _).map _).nodup_iff]
          exact List.nodup_cons.mpr ⟨hno, hk1⟩
        · rw [((insert_at_perm _ _ _).map _).nodup_iff]
          have hn1 : child1.nd.fd.name = fd.name := hpn _ _ _ _ hp
          refine List.nodup_cons.mpr ⟨?_, hk1⟩
          show child1.nd.fd.name ∉ _
          rw [hn1]
          exact hno
        · exact hk1

theorem merge_loop_names {pop_child pop_new : G → Row → Option (G × Option Row)} {env : Env}
    {ve : Bool}
    (hpc : ∀ g r g1 r1, pop_child g r = some (g1, some r1) → r1.nd.fd.name = r.nd.fd.name)
    (hpn : ∀ g r g1 r1, pop_new g r = some (g1, some r1) → r1.nd.fd.name = r.nd.fd.name) :
    ∀ (l : List FileData) (st st1 : MergeState),
      (st.kids.map (fun r => r.nd.fd.name)).Nodup →
      merge_loop pop_child pop_new env ve l st = some st1 →
      (st1.kids.map (fun r => r.nd.fd.name)).Nodup := by
  intro l
  induction l with
  | nil =>
    intro st st1 hk1 hl
    simp only [merge_loop, Option.some.injEq] at hl
    subst hl
    exact hk1
  | cons fd work ih =>
    intro st st1 hk1 hl
    simp only [merge_loop] at hl
    split at hl
    · simp at hl
    · rename_i st2 he
      exact ih st2 st1 (merge_entry_names hpc hpn hk1 he) hl

/-- The merge keeps the names of the rows distinct, whatever the listing. -/
theorem merge_rows_names {pop_child pop_new : G → Row → Option (G × Option Row)} {env : Env}
    {ve : Bool}
    (hpc : ∀ g r g1 r1, pop_child g r = some (g1, some r1) → r1.nd.fd.name = r.nd.fd.name)
    (hpn : ∀ g r g1 r1, pop_new g r = some (g1, some r1) → r1.nd.fd.name = r.nd.fd.name)
    {list : List FileData} {g g4 : G} {kids kids1 : List Row}
    (hk : (kids.map (fun r => r.nd.fd.name)).Nodup)
    (h : merge_rows pop_child pop_new env ve list g kids = some (g4, kids1)) :
    (kids1.map (fun r => r.nd.fd.name)).Nodup := by
  unfold merge_rows at h
  split at h
  · simp at h
  · rename_i st hl
    simp only [Option.some.injEq] at h
    have hst := merge_loop_names hpc hpn list _ st hk hl
    have hk2 : kids1 = (stale_loop st.old st.g st.kids).2 := by rw [h]
    rw [hk2]
    exact ((stale_loop_sublist _ _ _).map _).nodup hst

/-- A sync that keeps its row keeps the name of the row. -/
theorem populate_row_name (fuel : Nat) (env : Env) (vd_path : Option CStr) (force : Bool)
    (t : Option CStr) (g : G) (r : Row) (g1 : G) (r1 : Row)
    (h : populate_row fuel env vd_path g r force t = some (g1, some r1)) :
    r1.nd.fd.name = r.nd.fd.name := by
  obtain ⟨nd, ve, kids⟩ := r
  exact congrArg FileData.name (populate_row_some fuel env vd_path g g1 nd ve kids force t r1 h).2.1

/-- A sync keeps the names distinct below its row, at every level. -/
theorem populate_row_names (env : Env) (vd_path : Option CStr) : ∀ (fuel : Nat) (g : G)
    (r : Row) (force : Bool) (target_path : Option CStr) (g1 : G) (r1 : Row),
    populate_row fuel env vd_path g r force target_path = some (g1, some r1) →
    names_inv_row r = true → names_inv_row r1 = true
  | 0, g, r, force, target_path, g1, r1, h, _ => by
    obtain ⟨nd, ve, kids⟩ := r
    simp [populate_row] at h
  | fuel + 1, g, r, force, target_path, g1, r1, h, hinv => by
    obtain ⟨nd, ve, kids⟩ := r
    rcases populate_row_cases fuel env vd_path g g1 nd ve kids force target_path _ h with
      ⟨-, -, h3⟩ | ⟨-, -, h3, -⟩ | ⟨-, h3, -⟩ | ⟨-, g4, kids1, hm, -, h3⟩
    · simp only [Option.some.injEq] at h3; subst h3; exact hinv
    · simp at h3
    · simp only [Option.some.injEq] at h3; subst h3; exact hinv
    · simp only [Option.some.injEq] at h3
      subst h3
      rw [names_inv_row_mk, names_ok_iff] at hinv ⊢
      refine ⟨merge_rows_names (populate_row_name fuel env vd_path false target_path)
        (populate_row_name fuel env vd_path false vd_path) hinv.1 hm, ?_⟩
      exact merge_rows_forall (fun c => names_inv_row c = true) 0
        (fun g r g1 res hh => populate_row_mono env vd_path fuel g r false target_path g1 res hh)
        (fun g r g1 res hh => populate_row_mono env vd_path fuel g r false vd_path g1 res hh)
        (fun g r g1 r1 _ hh hq =>
          populate_row_names env vd_path fuel g r false target_path g1 r1 hh hq)
        (fun g r g1 r1 _ hh hq =>
          populate_row_names env vd_path fuel g r false vd_path g1 r1 hh hq)
        (fun r size date hq => by simpa only [names_inv_set_size_date] using hq)
        (fun fd _ _ r hr => names_inv_fresh hr) (Nat.zero_le _) hinv.2 hm

/-- Replacing the row at an iterator by a row of the same name below which the
names are distinct, or taking it out, keeps the names distinct. -/
theorem names_ok_replace_at (res : Option Row) (r : Row)
    (hres : ∀ r1, res = some r1 → names_inv_row r1 = true ∧ r1.nd.fd.name = r.nd.fd.name) :
    ∀ (iter : List Nat) (rows : List Row), row_at rows iter = some r →
      names_ok rows = true → names_ok (replace_at iter res rows) = true
  | [], rows, h, _ => by simp [row_at] at h
  | [i], rows, h, hinv => by
    simp only [row_at] at h
    rw [names_ok_iff] at hinv ⊢
    cases res with
    | none =>
      simp only [replace_at]
      exact ⟨((List.eraseIdx_sublist _ _).map _).nodup hinv.1,
        fun c hc => hinv.2 c (List.mem_of_mem_eraseIdx hc)⟩
    | some r1 =>
      simp only [replace_at]
      refine ⟨?_, fun c hc => ?_⟩
      · rw [map_set_same (fun r => r.nd.fd.name) h (hres r1 rfl).2]
        exact hinv.1
      · rcases List.mem_or_eq_of_mem_set hc with h1 | h1
        · exact hinv.2 c h1
        · rw [h1]; exact (hres r1 rfl).1
  | i :: j :: rest, rows, h, hinv => by
    simp only [row_at] at h
    cases hi : rows[i]? with
    | none => simp [hi] at h
    | some ri =>
      obtain ⟨nd, ve, kids⟩ := ri
      simp only [hi, Row.kids] at h
      simp only [replace_at, hi]
      rw [names_ok_iff] at hinv ⊢
      refine ⟨?_, fun c hc => ?_⟩
      · have hsame := @map_set_same _ (fun r : Row => r.nd.fd.name) rows i (Row.mk nd ve kids)
          (Row.mk nd ve (replace_at (j :: rest) res kids)) hi rfl
        rw [hsame]
        exact hinv.1
      · rcases List.mem_or_eq_of_mem_set hc with h1 | h1
        · exact hinv.2 c h1
        · rw [h1, names_inv_row_mk]
          have hri := (names_inv_row_mk nd ve kids).mp (hinv.2 _ (List.getElem?_mem hi))
          exact names_ok_replace_at res r hres (j :: rest) kids h hri

/-- Below the row at an iterator the names are distinct at every level. -/
theorem row_at_names_inv : ∀ (iter : List Nat) (rows : List Row) (r : Row),
    row_at rows iter = some r → names_ok rows = true → names_inv_row r = true
  | [], rows, r, h, _ => by simp [row_at] at h
  | [i], rows, r, h, hinv => by
    simp only [row_at] at h
    exact ((names_ok_iff rows).mp hinv).2 r (List.getElem?_mem h)
  | i :: j :: rest, rows, r, h, hinv => by
    simp only [row_at] at h
    cases hi : rows[i]? with
    | none => simp [hi] at h
    | some ri =>
      obtain ⟨nd, ve, kids⟩ := ri
      simp only [hi, Row.kids] at h
      have hri := (names_inv_row_mk nd ve kids).mp
        (((names_ok_iff rows).mp hinv).2 _ (List.getElem?_mem hi))
      exact row_at_names_inv (j :: rest) kids r h hri

/-- C15: if the rows that have the same parent have distinct names before a call
of `vdtree_populate_path_by_iter`, at the top level and below every row, then
they have so after the call, whatever the listing read: no hypothesis is made on
the listing provider or on the hint, so a listing that names a directory twice
and a hidden entry of the hint that is also listed are covered. -/
theorem sync_keeps_names (fuel : Nat) (env : Env) (vd vd1 : ViewDir) (iter : List Nat)
    (force : Bool) (target_path : Option CStr) (b : Bool)
    (hok : names_ok vd.store = true)
    (h : vdtree_populate_path_by_iter fuel env vd iter force target_path = some (vd1, b)) :
    names_ok vd1.store = true := by
  unfold vdtree_populate_path_by_iter at h
  rw [sync_iter_eq] at h
  cases hr : row_at vd.store iter with
  | none =>
    simp only [hr, Option.some.injEq, Prod.mk.injEq] at h
    rw [← h.1]; exact hok
  | some r =>
    simp only [hr] at h
    cases hp : populate_row fuel env vd.path vd.g r force target_path with
    | none => simp [hp] at h
    | some out =>
      obtain ⟨g1, res⟩ := out
      simp only [hp, Option.some.injEq, Prod.mk.injEq] at h
      rw [← h.1]
      show names_ok (replace_at iter res vd.store) = true
      refine names_ok_replace_at res r ?_ iter vd.store hr hok
      intro r1 hres
      subst hres
      exact ⟨populate_row_names env vd.path fuel vd.g r force target_path g1 r1 hp
          (row_at_names_inv iter vd.store r hr hok),
        populate_row_name fuel env vd.path force target_path vd.g r g1 r1 hp⟩

/-- C15 on the forced sync of the root of `vd_root_a` against a listing that
names `b` twice: one row `b` is added, the row `a` is pruned. -/
theorem sync_keeps_names_witness :
    names_ok [dir_row 0 "/" "/" true 100 5 true
      [mk_row 6 4 "/b" "b" false 101 false [empty_row 7]]] = true :=
  sync_keeps_names 1 env_dup vd_root_a
    { vd_root_a with
      store := [dir_row 0 "/" "/" true 100 5 true
        [mk_row 6 4 "/b" "b" false 101 false [empty_row 7]]],
      g := { g_at 9 2 with cursor := [true, false],
                           trace := [IOEvent.isdir "/".toList, IOEvent.filelist_read "/".toList] } }
    [0] true none true (by decide) (by decide!)

/-! ### What a sync leaves alone -/

theorem mem_set_of_ne {l : List Row} {i : Nat} {c x y : Row} (hc : c ∈ l)
    (hi : l[i]? = some x) (hne : c ≠ x) : c ∈ l.set i y := by
  obtain ⟨l1, l2, h1, -, h3, -⟩ := split_at_index hi
  rw [h3 y]
  rw [h1] at hc
  simp only [List.mem_append, List.mem_cons] at hc ⊢
  rcases hc with h | h | h
  · exact Or.inl h
  · exact absurd h hne
  · exact Or.inr (Or.inr h)

theorem mem_eraseIdx_of_ne {l : List Row} {i : Nat} {c x : Row} (hc : c ∈ l)
    (hi : l[i]? = some x) (hne : c ≠ x) : c ∈ l.eraseIdx i := by
  obtain ⟨l1, l2, h1, -, -, h4⟩ := split_at_index hi
  rw [h4]
  rw [h1] at hc
  simp only [List.mem_append, List.mem_cons] at hc ⊢
  rcases hc with h | h | h
  · exact Or.inl h
  · exact absurd h hne
  · exact Or.inr h

/-- One round of the loop over the listing leaves the row `c` among the rows when
the fresh entry has another name, or has the name of `c` while `c` is not expanded
or has the date of the entry; in the second case the `NodeData` of `c` leaves
`old`. -/
theorem merge_entry_keep {pop_child pop_new : G → Row → Option (G × Option Row)} {env : Env}
    {ve : Bool}
    (hpc : ∀ g r g1 r1, pop_child g r = some (g1, some r1) → r1.nd.fd.name = r.nd.fd.name)
    (hpn : ∀ g r g1 r1, pop_new g r = some (g1, some r1) → r1.nd.fd.name = r.nd.fd.name)
    {c : Row} {fd : FileData} {st st1 : MergeState} (hinv : KeepInv c st)
    (hdate : fd.name = c.nd.fd.name → c.nd.expanded = false ∨ c.nd.fd.date = fd.date)
    (he : merge_entry pop_child pop_new env ve st fd = some st1) :
    KeepInv c st1 ∧ (∀ x ∈ st1.old, x ∈ st.old) ∧
      (fd.name = c.nd.fd.name → ¬ (fd.name = ['.'] ∨ fd.name = ['.', '.']) →
        c.nd.ptr ∉ st1.old.map NodeData.ptr) := by
  have hnames := merge_entry_names hpc hpn hinv.names he
  unfold merge_entry at he
  split at he
  · rename_i hps
    simp only [Option.some.injEq] at he
    subst he
    exact ⟨hinv, fun x hx => hx, fun _ hn => absurd hps hn⟩
  · split at he
    · rename_i i hfi
      obtain ⟨c0, hci, hc0⟩ := first_index_some hfi
      simp only [decide_eq_true_eq] at hc0
      simp only [hci] at he
      have hold : ∀ x ∈ g_list_remove st.old c0.nd.ptr, x ∈ st.old :=
        fun x hx => g_list_remove_subset hx
      have hold_nd : ((g_list_remove st.old c0.nd.ptr).map NodeData.ptr).Nodup :=
        ((g_list_remove_sublist _ _).map _).nodup hinv.old_nodup
      by_cases hn : fd.name = c.nd.fd.name
      · have hcc : c0 = c := by
          have h1 := List.inj_on_of_nodup_map hinv.names (List.getElem?_mem hci) hinv.mem
          exact h1 (hc0.trans hn)
        subst hcc
        have hcond : (c0.nd.expanded && decide (c0.nd.fd.date ≠ fd.date)) = false := by
          rcases hdate hn with h | h
          · simp [h]
          · simp [h]
        simp only [hcond, Bool.false_eq_true, if_false, Option.some.injEq] at he
        subst he
        refine ⟨⟨hinv.mem, hinv.names, hold_nd⟩, hold, fun _ _ hm => ?_⟩
        obtain ⟨x, hx, hxp⟩ := List.mem_map.mp hm
        exact g_list_remove_not_mem hinv.old_nodup hx hxp
      · have hne : c ≠ c0 := fun hcc => hn (by rw [hcc]; exact hc0.symm)
        split at he
        · split at he
          · simp at he
          · rename_i g1 kids2 hs
            rcases sync_at_cases hs hci with ⟨c1, hp, rfl, -⟩ | ⟨-, -, hb⟩
            · simp only [Option.some.injEq] at he
              subst he
              have hlt : i < st.kids.length := (List.getElem?_eq_some_iff.mp hci).1
              have hget : (st.kids.set i c1)[i]? = some c1 := by
                simp [List.getElem?_set, hlt]
              have hc1 : c ≠ c1 := by
                intro hcc
                apply hn
                rw [hcc, hpc _ _ _ _ hp]
                exact hc0.symm
              refine ⟨⟨?_, hnames, hold_nd⟩, hold, fun h _ => absurd h hn⟩
              simp only [hget]
              exact mem_set_of_ne (mem_set_of_ne hinv.mem hci hne) hget hc1
            · simp at hb
          · rename_i g1 kids2 hs
            rcases sync_at_cases hs hci with ⟨c1, -, -, hb⟩ | ⟨-, rfl, -⟩
            · simp at hb
            · simp only [Option.some.injEq] at he
              subst he
              exact ⟨⟨mem_eraseIdx_of_ne hinv.mem hci hne, hnames, hold_nd⟩, hold,
                fun h _ => absurd h hn⟩
        · simp only [Option.some.injEq] at he
          subst he
          exact ⟨⟨hinv.mem, hinv.names, hold_nd⟩, hold, fun h _ => absurd h hn⟩
    · rename_i hfi
      split at he
      · simp at he
      · rename_i g1 kids2 ha
        simp only [Option.some.injEq] at he
        subst he
        have hn : fd.name ≠ c.nd.fd.name := by
          intro hn
          have := first_index_none hfi c hinv.mem
          simp [hn] at this
        refine ⟨⟨?_, hnames, hinv.old_nodup⟩, fun x hx => hx, fun h _ => absurd h hn⟩
        obtain ⟨child, pos, -, hcases⟩ := vdtree_add_by_data_rows ha
        simp only
        rcases hcases with ⟨-, rfl⟩ | ⟨g2, child1, -, -, rfl⟩ | ⟨g2, -, -, rfl⟩
        · exact mem_insert_at.mpr (Or.inr hinv.mem)
        · exact mem_insert_at.mpr (Or.inr hinv.mem)
        · exact hinv.mem

theorem merge_loop_keep {pop_child pop_new : G → Row → Option (G × Option Row)} {env : Env}
    {ve : Bool}
    (hpc : ∀ g r g1 r1, pop_child g r = some (g1, some r1) → r1.nd.fd.name = r.nd.fd.name)
    (hpn : ∀ g r g1 r1, pop_new g r = some (g1, some r1) → r1.nd.fd.name = r.nd.fd.name)
    {c : Row} : ∀ (list : List FileData) (st st1 : MergeState), KeepInv c st →
      (∀ fd ∈ list, fd.name = c.nd.fd.name →
        c.nd.expanded = false ∨ c.nd.fd.date = fd.date) →
      merge_loop pop_child pop_new env ve list st = some st1 →
      KeepInv c st1 ∧ (∀ x ∈ st1.old, x ∈ st.old) ∧
        ((∃ fd ∈ list, fd.name = c.nd.fd.name ∧ ¬ (fd.name = ['.'] ∨ fd.name = ['.', '.'])) →
          c.nd.ptr ∉ st1.old.map NodeData.ptr)
  | [], st, st1, hinv, _, h => by
    simp only [merge_loop, Option.some.injEq] at h
    subst h
    exact ⟨hinv, fun x hx => hx, fun ⟨fd, hfd, _⟩ => by simp at hfd⟩
  | fd :: work, st, st1, hinv, hdate, h => by
    simp only [merge_loop] at h
    split at h
    · simp at h
    · rename_i st2 he
      obtain ⟨h1, h2, h3⟩ := merge_entry_keep hpc hpn hinv (hdate fd (List.mem_cons_self _ _)) he
      obtain ⟨k1, k2, k3⟩ := merge_loop_keep hpc hpn work st2 st1 h1
        (fun x hx => hdate x (List.mem_cons_of_mem _ hx)) h
      refine ⟨k1, fun x hx => h2 x (k2 x hx), ?_⟩
      rintro ⟨x, hx, hxn, hxp⟩
      rcases List.mem_cons.mp hx with rfl | hx
      · intro hm
        obtain ⟨o, ho, hop⟩ := List.mem_map.mp hm
        exact h3 hxn hxp (List.mem_map.mpr ⟨o, k2 o ho, hop⟩)
      · exact k3 ⟨x, hx, hxn, hxp⟩

/-- The loop over the stale rows leaves a row whose `NodeData` is not in `old`. -/
theorem stale_loop_keep {c : Row} : ∀ (old : List NodeData) (g : G) (kids : List Row),
    c ∈ kids → c.nd.ptr ∉ old.map NodeData.ptr → c ∈ (stale_loop old g kids).2
  | [], g, kids, hc, _ => by simpa [stale_loop] using hc
  | cnd :: work, g, kids, hc, hno => by
    simp only [List.map_cons, List.mem_cons, not_or] at hno
    simp only [stale_loop]
    apply stale_loop_keep work _ _ _ hno.2
    split
    · cases hf : (vdtree_find_iter_by_data kids cnd.ptr).2 with
      | none => exact hc
      | some i =>
        simp only
        cases kids with
        | nil => simp at hc
        | cons k ks =>
          simp only [vdtree_find_iter_by_data] at hf
          cases hfi : first_index (fun r => decide (r.nd.ptr = cnd.ptr)) (k :: ks) with
          | none => simp [hfi] at hf
          | some j =>
            simp only [hfi, Option.some.injEq] at hf
            subst hf
            obtain ⟨x, hx, hxp⟩ := first_index_some hfi
            simp only [decide_eq_true_eq] at hxp
            exact mem_eraseIdx_of_ne hc hx (fun hcx => hno.1 (by rw [hcx]; exact hxp))
    · exact hc

/-- A sync that keeps its row keeps every row below it that a fresh entry names
and that is not expanded or has the date of each fresh entry of its name, when the
rows below the synced row have distinct names and distinct addresses. -/
theorem populate_row_keep (fuel : Nat) (env : Env) (vd_path : Option CStr) (g g1 : G)
    (nd : NodeData) (ve : Bool) (kids : List Row) (force : Bool) (target_path : Option CStr)
    (r1 : Row)
    (h : populate_row fuel env vd_path g (Row.mk nd ve kids) force target_path =
      some (g1, some r1))
    (c : Row) (hc : c ∈ kids)
    (hnames : (kids.map (fun r => r.nd.fd.name)).Nodup)
    (hptrs : (kids.map (fun r => r.nd.ptr)).Nodup)
    (hlisted : ∃ fd ∈ fresh_listing env g nd force target_path,
      fd.name = c.nd.fd.name ∧ ¬ (fd.name = ['.'] ∨ fd.name = ['.', '.']))
    (hdate : ∀ fd ∈ fresh_listing env g nd force target_path, fd.name = c.nd.fd.name →
      c.nd.expanded = false ∨ c.nd.fd.date = fd.date) :
    c ∈ r1.kids := by
  cases fuel with
  | zero => simp [populate_row] at h
  | succ fuel =>
    rcases populate_row_cases fuel env vd_path g g1 nd ve kids force target_path _ h with
      ⟨-, -, h3⟩ | ⟨-, -, h3, -⟩ | ⟨-, h3, -⟩ | ⟨-, g4, kids1, hm, -, h3⟩
    · simp only [Option.some.injEq] at h3; subst h3; exact hc
    · simp at h3
    · simp only [Option.some.injEq] at h3; subst h3; exact hc
    · simp only [Option.some.injEq] at h3
      subst h3
      show c ∈ kids1
      unfold merge_rows at hm
      split at hm
      · simp at hm
      · rename_i st hl
        simp only [Option.some.injEq] at hm
        have hinit : KeepInv c (MergeState.mk (read_listing env
            (before_read { g with ticks := g.ticks + 1 } nd force) nd.fd.path target_path).2
            kids (kids.map Row.nd).reverse) :=
          ⟨hc, hnames, by
            rw [List.map_reverse, List.nodup_reverse]
            simpa [List.map_map, Function.comp_def] using hptrs⟩
        obtain ⟨k1, -, k3⟩ := merge_loop_keep
          (populate_row_name fuel env vd_path false target_path)
          (populate_row_name fuel env vd_path false vd_path) _ _ st hinit hdate hl
        have := stale_loop_keep st.old st.g st.kids k1.mem (k3 hlisted)
        rw [hm] at this
        exact this

/-- Replacing the row at an iterator leaves the row at every iterator that
neither leads to it nor passes through it. -/
theorem row_at_replace_at_other (r1 : Row) : ∀ (iter it : List Nat) (rows : List Row),
    (¬ ∃ t, it ++ t = iter) → (¬ ∃ t, iter ++ t = it) →
    row_at (replace_at iter (some r1) rows) it = row_at rows it
  | [], it, rows, _, h2 => absurd ⟨it, rfl⟩ h2
  | i :: rest, [], rows, h1, _ => absurd ⟨i :: rest, rfl⟩ h1
  | [i], [k], rows, h1, _ => by
    have hik : i ≠ k := fun hik => h1 ⟨[], by simp [hik]⟩
    simp only [replace_at, row_at]
    exact List.getElem?_set_ne hik
  | [i], k :: l :: rest2, rows, _, h2 => by
    have hik : i ≠ k := fun hik => h2 ⟨l :: rest2, by simp [hik]⟩
    simp only [replace_at, row_at]
    rw [List.getElem?_set_ne hik]
  | i :: j :: rest, [k], rows, h1, _ => by
    have hik : i ≠ k := fun hik => h1 ⟨j :: rest, by simp [hik]⟩
    simp only [replace_at, row_at]
    cases hi : rows[i]? with
    | none => rfl
    | some ri =>
      obtain ⟨nd, ve, kids⟩ := ri
      simp only
      exact List.getElem?_set_ne hik
  | i :: j :: rest, k :: l :: rest2, rows, h1, h2 => by
    simp only [replace_at]
    cases hi : rows[i]? with
    | none => rfl
    | some ri =>
      obtain ⟨nd, ve, kids⟩ := ri
      simp only
      by_cases hik : i = k
      · subst hik
        have hlt : i < rows.length := (List.getElem?_eq_some_iff.mp hi).1
        simp only [row_at, List.getElem?_set, hlt, if_true, hi, Row.kids]
        apply row_at_replace_at_other r1 (j :: rest) (l :: rest2) kids
        · rintro ⟨t, ht⟩
          exact h1 ⟨t, by simp only [List.cons_append] at ht ⊢; rw [ht]⟩
        · rintro ⟨t, ht⟩
          exact h2 ⟨t, by simp only [List.cons_append] at ht ⊢; rw [ht]⟩
      · simp only [row_at]
        rw [List.getElem?_set_ne hik]

/-- Replacing the row at an iterator leaves the payload and the view's flag of
every row on the way to it. -/
theorem row_at_replace_at_above (r1 : Row) : ∀ (iter it : List Nat) (rows : List Row) (a : Row),
    (∃ t, it ++ t = iter) → it ≠ iter → row_at rows it = some a →
    ∃ a1, row_at (replace_at iter (some r1) rows) it = some a1 ∧ a1.nd = a.nd ∧
      a1.view_expanded = a.view_expanded
  | iter, [], rows, a, _, _, h => by simp [row_at] at h
  | [], k :: it, rows, a, ⟨t, ht⟩, _, _ => by simp at ht
  | [i], [k], rows, a, ⟨t, ht⟩, hne, _ => by
    simp only [List.cons_append, List.nil_append, List.cons.injEq] at ht
    exact absurd (by rw [ht.1]) hne
  | [i], k :: l :: rest2, rows, a, ⟨t, ht⟩, _, _ => by
    simp at ht
  | i :: j :: rest, [k], rows, a, ⟨t, ht⟩, _, h => by
    simp only [List.cons_append, List.nil_append, List.cons.injEq] at ht
    obtain ⟨rfl, -⟩ := ht
    simp only [row_at] at h
    obtain ⟨nd, ve, kids⟩ := a
    have hlt : k < rows.length := (List.getElem?_eq_some_iff.mp h).1
    simp only [replace_at, h, row_at, List.getElem?_set, hlt, if_true]
    exact ⟨_, rfl, rfl, rfl⟩
  | i :: j :: rest, k :: l :: rest2, rows, a, ⟨t, ht⟩, hne, h => by
    simp only [List.cons_append, List.cons.injEq] at ht
    obtain ⟨rfl, ht⟩ := ht
    simp only [row_at] at h
    cases hi : rows[k]? with
    | none => simp [hi] at h
    | some ri =>
      obtain ⟨nd, ve, kids⟩ := ri
      simp only [hi, Row.kids] at h
      have hlt : k < rows.length := (List.getElem?_eq_some_iff.mp hi).1
      simp only [replace_at, hi, row_at, List.getElem?_set, hlt, if_true, Row.kids]
      exact row_at_replace_at_above r1 (j :: rest) (l :: rest2) kids a
        ⟨t, by rw [List.cons_append, ht.1, ht.2]⟩ (fun hh => hne (by rw [hh])) h

/-- C16: a call of `vdtree_populate_path_by_iter` on the row at `iter` writes
neither the current path nor the record of the selection callback, and leaves
the store as it was but for the row at `iter`, which is replaced by the synced
row or taken out.  When the call returns `TRUE`, the row at every iterator that
neither leads to `iter` nor passes through it is the row that was there
(siblings, the rows below them, and every other part of the store); every row on
the way to `iter` has its payload and view flag as before; the synced row has its
`NodeData` address, entry and view flag as before; and every row `c` below it
that a fresh entry other than `.` and `..` names and that is not expanded, or has
the date of every fresh entry of its name, is still below it, unchanged with all
rows below it, provided the rows below the synced row had distinct names and
distinct `NodeData` addresses. -/
theorem sync_frame (fuel : Nat) (env : Env) (vd vd1 : ViewDir) (iter : List Nat) (force : Bool)
    (target_path : Option CStr) (b : Bool) (r : Row)
    (hrow : row_at vd.store iter = some r)
    (h : vdtree_populate_path_by_iter fuel env vd iter force target_path = some (vd1, b)) :
    vd1.path = vd.path ∧ vd1.select_func = vd.select_func ∧ vd1.selected = vd.selected ∧
    (∃ res, vd1.store = replace_at iter res vd.store ∧ res.isSome = b) ∧
    (b = true →
      (∀ it, (¬ ∃ t, it ++ t = iter) → (¬ ∃ t, iter ++ t = it) →
        row_at vd1.store it = row_at vd.store it) ∧
      (∀ it a, (∃ t, it ++ t = iter) → it ≠ iter → row_at vd.store it = some a →
        ∃ a1, row_at vd1.store it = some a1 ∧ a1.nd = a.nd ∧
          a1.view_expanded = a.view_expanded) ∧
      ∃ r1, row_at vd1.store iter = some r1 ∧ r1.nd.ptr = r.nd.ptr ∧ r1.nd.fd = r.nd.fd ∧
        r1.view_expanded = r.view_expanded ∧
        ∀ c ∈ r.kids, (r.kids.map (fun x => x.nd.fd.name)).Nodup →
          (r.kids.map (fun x => x.nd.ptr)).Nodup →
          (∃ fd ∈ fresh_listing env vd.g r.nd force target_path,
            fd.name = c.nd.fd.name ∧ ¬ (fd.name = ['.'] ∨ fd.name = ['.', '.'])) →
          (∀ fd ∈ fresh_listing env vd.g r.nd force target_path, fd.name = c.nd.fd.name →
            c.nd.expanded = false ∨ c.nd.fd.date = fd.date) →
          c ∈ r1.kids) := by
  have hframe := populate_by_iter_frame h
  unfold vdtree_populate_path_by_iter at h
  rw [sync_iter_eq, hrow] at h
  cases hp : populate_row fuel env vd.path vd.g r force target_path with
  | none => simp [hp] at h
  | some out =>
    obtain ⟨g1, res⟩ := out
    simp only [hp, Option.some.injEq, Prod.mk.injEq] at h
    obtain ⟨rfl, rfl⟩ := h
    refine ⟨hframe.1, hframe.2.1, hframe.2.2, ⟨res, rfl, rfl⟩, ?_⟩
    intro hb
    cases res with
    | none => simp at hb
    | some r1 =>
      obtain ⟨nd, ve, kids⟩ := r
      have hsome := populate_row_some fuel env vd.path vd.g g1 nd ve kids force target_path r1 hp
      refine ⟨fun it h1 h2 => row_at_replace_at_other r1 iter it vd.store h1 h2,
        fun it a h1 h2 h3 => row_at_replace_at_above r1 iter it vd.store a h1 h2 h3,
        r1, row_at_replace_at r1 iter vd.store _ hrow, hsome.1, hsome.2.1, hsome.2.2.2, ?_⟩
      intro c hc hnames hptrs hlisted hdate
      exact populate_row_keep fuel env vd.path vd.g g1 nd ve kids force target_path r1 hp c hc
        hnames hptrs hlisted hdate

/-- C16 on the forced sync of the root of `vd_abc` against the listing `b`, `c`,
`d`: the row `c`, which is listed and not expanded, is below the root afterwards
as it was, with its placeholder. -/
theorem sync_frame_witness :
    ∃ r1, row_at [root_bcd] [0] = some r1 ∧
      dir_row 6 "/c" "c" false 100 5 false [empty_row 8] ∈ r1.kids := by
  obtain ⟨-, -, r1, hr1, -, -, -, hk⟩ :=
    (sync_frame 2 env_bcd vd_abc { vd_abc with store := [root_bcd], g := g_bcd } [0] true none
      true (Row.mk root_nd true rows_abc) rfl (by decide!)).2.2.2.2 rfl
  exact ⟨r1, hr1, hk (dir_row 6 "/c" "c" false 100 5 false [empty_row 8]) (by decide)
    (by decide) (by decide) (by decide!) (by decide!)⟩

/-! ### Termination of a sync -/

theorem ht_row_le_of_mem : ∀ (rows : List Row) (r : Row), r ∈ rows → ht_row r ≤ ht_rows rows
  | [], r, h => by simp at h
  | x :: xs, r, h => by
    rw [ht_rows]
    rcases List.mem_cons.mp h with rfl | h1
    · exact Nat.le_max_left _ _
    · exact Nat.le_trans (ht_row_le_of_mem xs r h1) (Nat.le_max_right _ _)

theorem ht_row_le_of_row_at : ∀ (iter : List Nat) (rows : List Row) (r : Row),
    row_at rows iter = some r → ht_row r ≤ ht_rows rows
  | [], rows, r, h => by simp [row_at] at h
  | [i], rows, r, h => by
    simp only [row_at] at h
    exact ht_row_le_of_mem rows r (List.getElem?_mem h)
  | i :: j :: rest, rows, r, h => by
    simp only [row_at] at h
    cases hi : rows[i]? with
    | none => simp [hi] at h
    | some ri =>
      obtain ⟨nd, ve, kids⟩ := ri
      simp only [hi, Row.kids] at h
      have h1 := ht_row_le_of_row_at (j :: rest) kids r h
      have h2 := ht_row_le_of_mem rows _ (List.getElem?_mem hi)
      rw [ht_row] at h2
      omega

/-- The view does not show a row created by a sync expanded. -/
theorem populate_row_new_rows (env : Env) (vd_path : Option CStr) (lo : Nat) : ∀ (fuel : Nat)
    (g : G) (r : Row) (force : Bool) (target_path : Option CStr) (g1 : G) (r1 : Row),
    lo ≤ g.next_ptr →
    populate_row fuel env vd_path g r force target_path = some (g1, some r1) →
    (∀ c ∈ r.kids, lo ≤ c.nd.ptr → c.view_expanded = false) →
    ∀ c ∈ r1.kids, lo ≤ c.nd.ptr → c.view_expanded = false
  | 0, g, r, force, target_path, g1, r1, _, h, _ => by
    obtain ⟨nd, ve, kids⟩ := r
    simp [populate_row] at h
  | fuel + 1, g, r, force, target_path, g1, r1, hlo, h, hk => by
    obtain ⟨nd, ve, kids⟩ := r
    rcases populate_row_cases fuel env vd_path g g1 nd ve kids force target_path _ h with
      ⟨-, -, h3⟩ | ⟨-, -, h3, -⟩ | ⟨-, h3, -⟩ | ⟨-, g4, kids1, hm, -, h3⟩
    · simp only [Option.some.injEq] at h3; subst h3; exact hk
    · simp at h3
    · simp only [Option.some.injEq] at h3; subst h3; exact hk
    · simp only [Option.some.injEq] at h3
      subst h3
      have hkeep : ∀ (t : Option CStr) (g : G) (r : Row) (g1 : G) (r1 : Row), lo ≤ g.next_ptr →
          populate_row fuel env vd_path g r false t = some (g1, some r1) →
          (lo ≤ r.nd.ptr → r.view_expanded = false) →
          (lo ≤ r1.nd.ptr → r1.view_expanded = false) := by
        intro t g r g1 r1 _ hh hq
        obtain ⟨nd0, ve0, kids0⟩ := r
        have hs := populate_row_some fuel env vd_path g g1 nd0 ve0 kids0 false t r1 hh
        rw [hs.1, hs.2.2.2]
        exact hq
      have hg3 : lo ≤ (read_listing env (before_read { g with ticks := g.ticks + 1 } nd force)
          nd.fd.path target_path).2.next_ptr := by
        have h2 := read_listing_next_ptr env
          (before_read { g with ticks := g.ticks + 1 } nd force) nd.fd.path target_path
        rw [before_read_next_ptr] at h2
        simp only at h2
        omega
      exact merge_rows_forall (fun c => lo ≤ c.nd.ptr → c.view_expanded = false) lo
        (fun g r g1 res hh => populate_row_mono env vd_path fuel g r false target_path g1 res hh)
        (fun g r g1 res hh => populate_row_mono env vd_path fuel g r false vd_path g1 res hh)
        (fun g r g1 r1 hl hh hq => hkeep target_path g r g1 r1 hl hh hq)
        (fun g r g1 r1 hl hh hq => hkeep vd_path g r g1 r1 hl hh hq)
        (fun r size date hq => by
          obtain ⟨nd0, ve0, kids0⟩ := r
          exact hq)
        (fun fd _ _ r hr _ => by
          obtain ⟨p, -, t, sz, dt, rfl⟩ := hr
          rfl) hg3 hk hm

/-- C21: for every view, every file system (its listings are lists, hence
finite) and every setting of the options, a call of
`vdtree_populate_path_by_iter` returns as soon as the depth allowed to the
recursion is the height of the store plus two: the depth needed does not depend
on the file system, however deep its directories are and whether or not
`tree_descend_subdirs` is set.  And when the rows below the synced row are at
addresses handed out before the call, every row below the synced row that is at
a later address, that is every row the call created, is not shown expanded by
the view, so that the sync that `vdtree_add_by_data` runs on a new row descends
no further. -/
theorem sync_terminates (fuel : Nat) (env : Env) (vd : ViewDir) (iter : List Nat) (force : Bool)
    (target_path : Option CStr) (hF : ht_rows vd.store + 2 ≤ fuel) :
    ∃ vd1 b, vdtree_populate_path_by_iter fuel env vd iter force target_path = some (vd1, b) ∧
      ∀ r r1, row_at vd.store iter = some r → (∀ c ∈ r.kids, c.nd.ptr < vd.g.next_ptr) →
        b = true → row_at vd1.store iter = some r1 →
        ∀ c ∈ r1.kids, vd.g.next_ptr ≤ c.nd.ptr → c.view_expanded = false := by
  unfold vdtree_populate_path_by_iter
  rw [sync_iter_eq]
  cases hr : row_at vd.store iter with
  | none =>
    refine ⟨_, _, rfl, ?_⟩
    intro r r1 h1
    simp at h1
  | some r =>
    have hsafe : Safe fuel r :=
      safe_of_ht_row r fuel (by
        have := ht_row_le_of_row_at iter vd.store r hr
        omega)
    obtain ⟨g1, res, hp, -⟩ := populate_row_total env vd.path fuel fuel r hsafe (Nat.le_refl _)
      vd.g force target_path
    simp only [hp]
    refine ⟨_, _, rfl, ?_⟩
    intro r0 r1 h0 hk hb hr1 c hc hcp
    simp only [Option.some.injEq] at h0
    subst h0
    cases res with
    | none => simp at hb
    | some r2 =>
      have hr2 : row_at (replace_at iter (some r2) vd.store) iter = some r2 :=
        row_at_replace_at r2 iter vd.store r hr
      have : r1 = r2 := Option.some.inj (hr1.symm.trans hr2)
      subst this
      exact populate_row_new_rows env vd.path vd.g.next_ptr fuel vd.g r force target_path g1 r1
        (Nat.le_refl _) hp (fun c hc hcp => absurd (hk c hc) (by omega)) c hc hcp

/-- C21 on the forced sync of the root of `vd_abc` against the listing `b`, `c`,
`d`: it returns with the depth five, and the row `d`, created by the call at the
address 13, is not shown expanded. -/
theorem sync_terminates_witness :
    mk_row 13 12 "/d" "d" false 202 false [empty_row 14] ∈ root_bcd.kids ∧
      vd_abc.g.next_ptr ≤ (mk_row 13 12 "/d" "d" false 202 false [empty_row 14]).nd.ptr ∧
      (mk_row 13 12 "/d" "d" false 202 false [empty_row 14]).view_expanded = false := by
  obtain ⟨vd1, b, h, hk⟩ := sync_terminates 5 env_bcd vd_abc [0] true none (by decide)
  have he : vdtree_populate_path_by_iter 5 env_bcd vd_abc [0] true none =
      some ({ vd_abc with store := [root_bcd], g := g_bcd }, true) := by decide!
  rw [he] at h
  simp only [Option.some.injEq, Prod.mk.injEq] at h
  obtain ⟨rfl, rfl⟩ := h
  exact ⟨by decide, by decide,
    hk (Row.mk root_nd true rows_abc) root_bcd rfl (by decide) rfl rfl _ (by decide)
      (by decide)⟩

/-! ### Setting the current path -/

theorem env_ok_a_xy_hint :
    EnvOK env_a_xy (some "/a/x".toList) "/a/x".toList ['/'] ["a".toList, "x".toList] := by
  simp [EnvOK, DirOK, listed_entries, hint_entries, hidden_name8, env_a_xy, env_root_a,
    listing_of, join_path]

theorem env_u_a_xy_hint :
    EnvU env_a_xy (some "/a/x".toList) ['/'] ["a".toList, "x".toList] := by
  simp [EnvU, listed_entries, hint_entries, hidden_name8, env_a_xy, env_root_a,
    listing_of, join_path]

/-- C11, counterexample: every directory of the path exists, the path differs
from the current path, and `vdtree_set_path` returns `FALSE` without a call of
the selection callback.  First, the view was built by `vdtree_setup_root` when
the disk had the root only; `/a` has been created since, and `set_path("/a")`
syncs the root without force less than ten after its last update, so that the
listing is not read.  Second, the view was built on the very disk of the call,
which has `/.hidden/b` and does not list hidden files; `set_path("/.hidden/b")`
finds no row for `.hidden`. -/
theorem set_path_counterexample :
    env_root_a.isdir "/".toList = true ∧ env_root_a.isdir "/a".toList = true ∧
    ((vdtree_setup_root 3 env_root_only (vdtree_empty true)).bind
        (fun v => vdtree_set_path 5 env_root_a v (some "/a".toList))).map
        (fun p => (p.2, p.1.selected)) = some (false, []) ∧
    env_hidden.isdir "/.hidden".toList = true ∧ env_hidden.isdir "/.hidden/b".toList = true ∧
    vdtree_setup_root 2 env_hidden (vdtree_empty true) = some vd_setup_a ∧
    (vdtree_set_path 5 env_hidden vd_setup_a (some "/.hidden/b".toList)).map
        (fun p => (p.2, p.1.selected)) = some (false, []) := by
  refine ⟨by decide, by decide, by decide!, by decide, by decide, by decide!, by decide!⟩

/-- C11, amended: let `P` be the canonical path of the components `segs` (no
component contains the separator), different from the current path, and let the
view be in a state reached from `vdtree_setup_root`, with a registered selection
callback, a root row, and rows that are consistent and up to date along `P`.
Let the disk be consistent along `P` under the hint `P`: every directory on the
way is a directory for the stat provider, every entry it lists other than `.`
and `..` is a directory with the path of the listing directory joined with its
name, and it lists the next component.  Then `vdtree_set_path(P)` - with a depth
of recursion that exceeds the height of the tree and the number of components by
four - returns `TRUE`, the current path is `P`, the selection callback has been
invoked exactly once more, with `P`, and the tree has a row with the path `P`,
synced, such that the view shows expanded every row on the way to it and the row
itself. -/
theorem set_path_complete (fuel : Nat) (env : Env) (vd : ViewDir) (segs : List CStr)
    (hreach : Reachable vd) (hsel : vd.select_func = true)
    (hne : vd.path ≠ some (path_from ['/'] segs))
    (hfuel : ht_rows vd.store + segs.length + 4 ≤ fuel)
    (hsegs : ∀ s ∈ segs, '/' ∉ s)
    (hroot : ∃ r ∈ vd.store, r.nd.fd.name = ['/'])
    (hchain : ∀ r ∈ vd.store, r.nd.fd.name = ['/'] → ChainOK segs ['/'] r)
    (henv : EnvOK env (some (path_from ['/'] segs)) (path_from ['/'] segs) ['/'] segs)
    (hU : EnvU env (some (path_from ['/'] segs)) ['/'] segs ∧
      ∀ r ∈ vd.store, r.nd.fd.name = ['/'] → UTD segs r) :
    ∃ vd3 itf Rf,
      vdtree_set_path fuel env vd (some (path_from ['/'] segs)) = some (vd3, true) ∧
      vd3.path = some (path_from ['/'] segs) ∧
      vd3.selected = vd.selected ++ [path_from ['/'] segs] ∧ TreeOK vd3 ∧
      row_at vd3.store itf = some Rf ∧ itf.length = segs.length + 1 ∧
      Rf.nd.fd.path = path_from ['/'] segs ∧ Rf.nd.expanded = true ∧
      path_shown itf vd3.store = true := by
  have hok1 : TreeOK { vd with path := some (path_from ['/'] segs) } :=
    reachable_ok (Reachable.set_path vd _ hreach)
  obtain ⟨vd2, fd, itf, Rf, hpp, hfp, hok2, hsafe2, hpath2, hrow2, hptr2, hlen, hRp, hRn, -,
      hshown⟩ :=
    populate_path_complete fuel env { vd with path := some (path_from ['/'] segs) } segs true
      false hok1 hfuel hsegs hroot hchain henv (Or.inr hU)
  have hfr : vdtree_find_row vd2.store (some fd.ptr) = some itf := by
    rw [← hptr2]
    exact vdtree_find_row_at hok2.2.1 hrow2
  have hp2 : vd2.path = some (path_from ['/'] segs) := hpath2
  obtain ⟨vd3, x1, hby, hok3, -, hpath3, hrow3, -, hchain3, -, -, -, hexp3⟩ :=
    @row_sync_step fuel env (path_from ['/'] segs) false vd2 itf Rf [] (path_from ['/'] segs)
      hok2 hsafe2 (by omega) (env_ok_isdir_last segs ['/'] henv) hrow2 hRn hRp
      (Or.inr ⟨trivial, trivial⟩)
  have hfpp := populate_path_frame hpp
  have hfby := populate_by_iter_frame hby
  have hsel3 : vd3.select_func = true := by rw [hfby.2.1, hfpp.2.1]; exact hsel
  have hsame := same_rows_expand vd3 itf true
  obtain ⟨c1, hc1, hstrip⟩ := same_rows_row_at hsame hrow3
  have hnd : c1.nd = x1.nd := (strip_eq_facts hstrip).1
  refine ⟨{ vdtree_expand_by_iter vd3 itf true with
      selected := (vdtree_expand_by_iter vd3 itf true).selected ++ [fd.path] }, itf, c1, ?_, ?_,
    ?_, same_rows_ok hsame hok3, hc1, hlen, ?_, ?_, ?_⟩
  · have hsel4 : (vdtree_expand_by_iter vd3 itf true).select_func = true := hsel3
    simp only [vdtree_set_path, hne, if_false, hpp, hfr, vdtree_select_row, Option.map_some',
      hp2, hby, hsel4, if_true]
  · show vd3.path = _
    rw [hpath3]; exact hp2
  · show vd3.selected ++ [fd.path] = _
    rw [hfby.2.2, hfpp.2.2, hfp]
  · rw [hnd]; exact hchain3
  · rw [hnd]; exact hexp3
  · exact path_shown_set_view itf itf vd3.store (populate_by_iter_shown hby (hshown rfl))

/-- The amended C11 on the view that `vdtree_setup_root` builds on a disk with the
directory `/a`, after `/a` got the directories `x` and `y`: `set_path("/a/x")`
returns `TRUE` and the callback is invoked once, with `/a/x`. -/
theorem set_path_complete_witness :
    ∃ vd3 itf Rf,
      vdtree_set_path 9 env_a_xy vd_setup_a (some "/a/x".toList) = some (vd3, true) ∧
      vd3.path = some "/a/x".toList ∧
      vd3.selected = vd_setup_a.selected ++ ["/a/x".toList] ∧ TreeOK vd3 ∧
      row_at vd3.store itf = some Rf ∧ itf.length = 2 + 1 ∧
      Rf.nd.fd.path = "/a/x".toList ∧ Rf.nd.expanded = true ∧
      path_shown itf vd3.store = true :=
  set_path_complete 9 env_a_xy vd_setup_a ["a".toList, "x".toList]
    (Reachable.setup_root 2 env_root_a true vd_setup_a (by decide!)) rfl (by decide)
    (by decide) (by decide)
    ⟨_, List.mem_singleton_self _, rfl⟩
    (fun r hr _ => by
      rw [List.mem_singleton.mp hr]
      exact chain_ok_setup_a)
    env_ok_a_xy_hint
    ⟨env_u_a_xy_hint, fun r hr _ => by
      rw [List.mem_singleton.mp hr]
      exact utd_setup_a⟩

end VDTree
